import Mathlib

/-!
# Device-tree overlay application: `fdt_overlay.c`

A shallow embedding of the overlay engine of
`kernel_platform/external/dtc/libfdt/fdt_overlay.c`.

* A blob is a header (magic, versions), the free space left in its buffer, its
  string table and the tree of its structure block.
* A node offset is the list of child indices that leads from the root to the
  node; it stays valid under the mutations the C code performs below it.
* A function that returns `int` and writes a blob returns
  `Except (FdtErr × Fdt) Fdt`: the blob after a return of 0, or the error code
  together with the blob as it stands at the failing statement.
* Bytes are natural numbers; 32-bit arithmetic is written with `% 2 ^ 32`.
-/

namespace FdtOverlay

/-! ## Data model -/

/-- Error codes of libfdt (the positive `FDT_ERR_*` constants; the C code
returns them negated). -/
inductive FdtErr where
  | NOTFOUND
  | EXISTS
  | NOSPACE
  | BADOFFSET
  | BADPATH
  | BADPHANDLE
  | BADSTATE
  | TRUNCATED
  | BADMAGIC
  | BADVERSION
  | BADSTRUCTURE
  | BADLAYOUT
  | INTERNAL
  | BADNCELLS
  | BADVALUE
  | BADOVERLAY
  | NOPHANDLES
  deriving DecidableEq, Repr

/-- A byte string: property values, names and paths. -/
abbrev Bytes := List Nat

/-- The bytes of a string literal (without a terminating NUL). -/
def str (s : String) : Bytes := s.toList.map Char.toNat

/-- The C string held at the start of a byte buffer: the bytes before the
first NUL. -/
def cstr : Bytes → Bytes
  | [] => []
  | b :: bs => if b = 0 then [] else b :: cstr bs

/-- A property of a node: a name and a byte-string value. -/
structure Property where
  name : Bytes
  val : Bytes
  deriving DecidableEq, Repr

/-- A node of the structure block: its name, its properties in order and its
subnodes in order. -/
inductive Node where
  | mk (name : Bytes) (props : List Property) (subnodes : List Node)

/-- Name of a node. -/
def Node.name : Node → Bytes
  | .mk n _ _ => n

/-- Properties of a node. -/
def Node.props : Node → List Property
  | .mk _ ps _ => ps

/-- Subnodes of a node. -/
def Node.subnodes : Node → List Node
  | .mk _ _ ss => ss

/-- A node offset: the child indices leading from the root to the node. -/
abbrev Offset := List Nat

/-- A flattened device tree blob. -/
structure Fdt where
  magic : Nat
  version : Nat
  last_comp_version : Nat
  free : Nat
  strings : List Bytes
  root : Node

/-- Magic number of a valid blob. -/
def FDT_MAGIC : Nat := 0xd00dfeed

/-- Oldest structure version libfdt reads. -/
def FDT_FIRST_SUPPORTED_VERSION : Nat := 0x02

/-- Newest structure version libfdt reads. -/
def FDT_LAST_SUPPORTED_VERSION : Nat := 0x11

/-- The value `(uint32_t)-1`. -/
def UINT32_MAX : Nat := 0xFFFFFFFF

/-- The value `(unsigned long)~0UL` on the 64-bit targets of this kernel. -/
def MAX_ULONG : Nat := 2 ^ 64 - 1

/-- Size of the name buffers of the merge code. -/
def MAX_BUF_SIZE : Nat := 256

/-- Big-endian decoding of a 32-bit cell (`fdt32_to_cpu` of the cell at the
start of the buffer); bytes missing from the buffer read as 0. -/
def fdt32_to_cpu (b : Bytes) : Nat :=
  (b.getD 0 0 % 256) * 2 ^ 24 + (b.getD 1 0 % 256) * 2 ^ 16
    + (b.getD 2 0 % 256) * 2 ^ 8 + b.getD 3 0 % 256

/-- Big-endian encoding of a 32-bit value (`cpu_to_fdt32`). -/
def cpu_to_fdt32 (v : Nat) : Bytes :=
  [v / 2 ^ 24 % 256, v / 2 ^ 16 % 256, v / 2 ^ 8 % 256, v % 256]

/-- The macro `FDT_TAGALIGN`: round up to a multiple of 4. -/
def FDT_TAGALIGN (x : Nat) : Nat := (x + 3) / 4 * 4

/-! ## Tree accessor (libfdt read and write primitives) -/

/-- The node at an offset below a node. -/
def Node.node_at : Node → Offset → Option Node
  | n, [] => some n
  | n, i :: rest =>
    match n.subnodes[i]? with
    | none => none
    | some c => c.node_at rest

/-- Replace the node at an offset by its image under `f`. -/
def Node.update_at : Node → Offset → (Node → Node) → Node
  | n, [], f => f n
  | n, i :: rest, f =>
    match n.subnodes[i]? with
    | none => n
    | some c => .mk n.name n.props (n.subnodes.set i (c.update_at rest f))

/-- Value of the first property with the given name. -/
def prop_find : List Property → Bytes → Option Bytes
  | [], _ => none
  | p :: ps, name => if p.name = name then some p.val else prop_find ps name

/-- Replace the value of the first property with the given name. -/
def prop_set : List Property → Bytes → Bytes → List Property
  | [], _, _ => []
  | p :: ps, name, v =>
    if p.name = name then { p with val := v } :: ps else p :: prop_set ps name v

/-- Index of the first subnode with the given name. -/
def subnode_index : List Node → Bytes → Option Nat
  | [], _ => none
  | c :: cs, name =>
    if c.name = name then some 0 else (subnode_index cs name).map (· + 1)

/-- Overwrite `data` into `buf` from index `idx` on; the buffer keeps its
length (bytes of `data` past its end are dropped). -/
def write_at : Bytes → Nat → Bytes → Bytes
  | [], _, _ => []
  | b :: bs, 0, [] => b :: bs
  | _ :: bs, 0, d :: ds => d :: write_at bs 0 ds
  | b :: bs, i + 1, data => b :: write_at bs i data

/-- Modelled from the spec: header validation (`FDT_RO_PROBE`, magic and
version) of libfdt, which is not among the sources. -/
def fdt_ro_probe (fdt : Fdt) : Except FdtErr Unit :=
  if fdt.magic = FDT_MAGIC then
    if fdt.version < FDT_FIRST_SUPPORTED_VERSION then .error .BADVERSION
    else if fdt.last_comp_version > FDT_LAST_SUPPORTED_VERSION then .error .BADVERSION
    else .ok ()
  else .error .BADMAGIC

/-- Modelled from the spec: `fdt_set_magic` of libfdt, which overwrites the
magic field of the header. -/
def fdt_set_magic (fdt : Fdt) (m : Nat) : Fdt := { fdt with magic := m }

/-- Modelled from the spec: `fdt_get_name` of libfdt, the name of the node at
an offset. -/
def fdt_get_name (fdt : Fdt) (nodeoffset : Offset) : Except FdtErr Bytes :=
  match fdt.root.node_at nodeoffset with
  | none => .error .BADOFFSET
  | some n => .ok n.name

/-- Modelled from the spec: `fdt_getprop` of libfdt, property lookup by name
in the node at an offset, in a blob whose header is valid.  libfdt reads the
names of properties through `fdt_get_string`, which probes the header, and
finds no property in a blob that fails `fdt_ro_probe`; the model does not
represent a lookup in such a blob.  `fdt_overlay_apply` probes both blobs
before its first lookup, and no example of `fdt_overlay_merge` below holds a
property in a blob whose header is not valid. -/
def fdt_getprop (fdt : Fdt) (nodeoffset : Offset) (name : Bytes) : Except FdtErr Bytes :=
  match fdt.root.node_at nodeoffset with
  | none => .error .BADOFFSET
  | some n =>
    match prop_find n.props name with
    | none => .error .NOTFOUND
    | some v => .ok v

/-- Modelled from the spec: `fdt_getprop_by_offset` of libfdt; a property
offset is the offset of its node and the index of the property in it. -/
def fdt_getprop_by_offset (fdt : Fdt) (nodeoffset : Offset) (prop : Nat) :
    Except FdtErr Property :=
  match fdt.root.node_at nodeoffset with
  | none => .error .BADOFFSET
  | some n =>
    match n.props[prop]? with
    | none => .error .NOTFOUND
    | some p => .ok p

/-- Modelled from the spec: `fdt_subnode_offset` of libfdt, the first subnode
with the given name. -/
def fdt_subnode_offset (fdt : Fdt) (parentoffset : Offset) (name : Bytes) :
    Except FdtErr Offset :=
  match fdt.root.node_at parentoffset with
  | none => .error .BADOFFSET
  | some n =>
    match subnode_index n.subnodes name with
    | none => .error .NOTFOUND
    | some i => .ok (parentoffset ++ [i])

/-- Split a byte string at every `/`. -/
def split_slash : Bytes → List Bytes
  | [] => [[]]
  | c :: cs =>
    if c = 47 then [] :: split_slash cs
    else
      match split_slash cs with
      | [] => [[c]]
      | s :: ss => (c :: s) :: ss

/-- Walk down from an offset along a list of path components; empty
components (repeated or trailing `/`) are skipped, as libfdt does. -/
def walk_path (fdt : Fdt) : Offset → List Bytes → Except FdtErr Offset
  | off, [] => .ok off
  | off, seg :: segs =>
    if seg = [] then walk_path fdt off segs
    else
      match fdt_subnode_offset fdt off seg with
      | .error e => .error e
      | .ok o => walk_path fdt o segs

/-- Modelled from the spec: `fdt_path_offset_namelen` of libfdt, node lookup
by absolute path.  A path that does not start with `/` names an alias; alias
tables are outside the spec's data model and such a lookup fails with
`BADPATH`, as libfdt does when the alias is not defined. -/
def fdt_path_offset_namelen (fdt : Fdt) (path : Bytes) : Except FdtErr Offset :=
  match path with
  | [] => .error .BADPATH
  | c :: _ => if c = 47 then walk_path fdt [] (split_slash path) else .error .BADPATH

/-- Modelled from the spec: `fdt_path_offset` of libfdt, which looks up the C
string at `path`. -/
def fdt_path_offset (fdt : Fdt) (path : Bytes) : Except FdtErr Offset :=
  fdt_path_offset_namelen fdt (cstr path)

/-- The phandle held by a list of properties: the `phandle` property, or
failing that `linux,phandle`, when it is 4 bytes long; 0 otherwise. -/
def props_phandle (ps : List Property) : Nat :=
  match prop_find ps (str "phandle") with
  | some v =>
    if v.length = 4 then fdt32_to_cpu v
    else
      match prop_find ps (str "linux,phandle") with
      | some w => if w.length = 4 then fdt32_to_cpu w else 0
      | none => 0
  | none =>
    match prop_find ps (str "linux,phandle") with
    | some w => if w.length = 4 then fdt32_to_cpu w else 0
    | none => 0

/-- The phandle of a node (`fdt_get_phandle` on the node itself). -/
def Node.phandle (n : Node) : Nat := props_phandle n.props

/-- Modelled from the spec: `fdt_get_phandle` of libfdt. -/
def fdt_get_phandle (fdt : Fdt) (nodeoffset : Offset) : Nat :=
  match fdt.root.node_at nodeoffset with
  | none => 0
  | some n => n.phandle

mutual
/-- Largest phandle among a node and its descendants, starting from `acc`. -/
def Node.max_phandle : Node → Nat → Nat
  | .mk _ ps ss, acc => Node.max_phandle_list ss (max acc (props_phandle ps))
/-- Largest phandle among the nodes of a list and their descendants. -/
def Node.max_phandle_list : List Node → Nat → Nat
  | [], acc => acc
  | c :: cs, acc => Node.max_phandle_list cs (c.max_phandle acc)
end

/-- Modelled from the spec: `fdt_find_max_phandle` of libfdt, the largest
phandle value carried by a node of the tree (0 when there is none). -/
def fdt_find_max_phandle (fdt : Fdt) : Except FdtErr Nat :=
  .ok (fdt.root.max_phandle 0)

mutual
/-- Offset, relative to the node, of the first node in depth-first order whose
phandle is `ph`. -/
def Node.find_phandle : Node → Nat → Option Offset
  | .mk _ ps ss, ph =>
    if props_phandle ps = ph then some []
    else Node.find_phandle_list ss ph 0
/-- Search of `Node.find_phandle` through a list of subnodes, the first of
which has index `i`. -/
def Node.find_phandle_list : List Node → Nat → Nat → Option Offset
  | [], _, _ => none
  | c :: cs, ph, i =>
    match c.find_phandle ph with
    | some off => some (i :: off)
    | none => Node.find_phandle_list cs ph (i + 1)
end

/-- Modelled from the spec: `fdt_node_offset_by_phandle` of libfdt: the first
node carrying the phandle; 0 and `UINT32_MAX` are rejected. -/
def fdt_node_offset_by_phandle (fdt : Fdt) (phandle : Nat) : Except FdtErr Offset :=
  if phandle = 0 ∨ phandle = UINT32_MAX then .error .BADPHANDLE
  else
    match fdt.root.find_phandle phandle with
    | none => .error .NOTFOUND
    | some off => .ok off

/-- A property value resized to `len` bytes: the old bytes are kept as far as
they fit; libfdt leaves the bytes added unspecified, the model sets them to 0. -/
def resize_val (old : Bytes) (len : Nat) : Bytes :=
  old.take len ++ List.replicate (len - old.length) 0

/-- The node with the value of its first property `name` replaced. -/
def Node.set_prop_val (n : Node) (name v : Bytes) : Node :=
  .mk n.name (prop_set n.props name v) n.subnodes

/-- The node with a new property placed before its properties, where libfdt
inserts it. -/
def Node.add_prop (n : Node) (name v : Bytes) : Node :=
  .mk n.name ({ name := name, val := v } :: n.props) n.subnodes

/-- The node with a new empty subnode placed before its subnodes, where
libfdt inserts it. -/
def Node.add_subnode (n : Node) (name : Bytes) : Node :=
  .mk n.name n.props (.mk name [] [] :: n.subnodes)

/-- Modelled from the spec: `fdt_setprop_placeholder` of libfdt: resize the
property `name` of the node to `len` bytes, or add it when the node does not
have it.  Growth is paid from the free space of the buffer (12 bytes of
property header, the value rounded up to 4, and the name when the string
table does not hold it yet) and fails with `NOSPACE` when it does not fit. -/
def fdt_setprop_placeholder (fdt : Fdt) (nodeoffset : Offset) (name : Bytes) (len : Nat) :
    Except FdtErr Fdt :=
  match fdt.root.node_at nodeoffset with
  | none => .error .BADOFFSET
  | some n =>
    match prop_find n.props name with
    | some old =>
      if FDT_TAGALIGN len > FDT_TAGALIGN old.length + fdt.free then .error .NOSPACE
      else
        .ok { fdt with
          free := fdt.free + FDT_TAGALIGN old.length - FDT_TAGALIGN len
          root := fdt.root.update_at nodeoffset
            (fun m => m.set_prop_val name (resize_val old len)) }
    | none =>
      if name ∈ fdt.strings then
        if 12 + FDT_TAGALIGN len > fdt.free then .error .NOSPACE
        else
          .ok { fdt with
            free := fdt.free - (12 + FDT_TAGALIGN len)
            root := fdt.root.update_at nodeoffset
              (fun m => m.add_prop name (List.replicate len 0)) }
      else
        if name.length + 1 + 12 + FDT_TAGALIGN len > fdt.free then .error .NOSPACE
        else
          .ok { fdt with
            free := fdt.free - (name.length + 1 + 12 + FDT_TAGALIGN len)
            strings := fdt.strings ++ [name]
            root := fdt.root.update_at nodeoffset
              (fun m => m.add_prop name (List.replicate len 0)) }

/-- Write the bytes of a property obtained from `fdt_setprop_placeholder`:
the `memcpy` through the pointer the placeholder returned. -/
def fdt_write_prop (fdt : Fdt) (nodeoffset : Offset) (name : Bytes) (v : Bytes) : Fdt :=
  { fdt with root := fdt.root.update_at nodeoffset (fun m => m.set_prop_val name v) }

/-- Modelled from the spec: `fdt_setprop` of libfdt: the property `name` of
the node gets exactly the value `val`, replacing any former value. -/
def fdt_setprop (fdt : Fdt) (nodeoffset : Offset) (name : Bytes) (val : Bytes) :
    Except FdtErr Fdt :=
  match fdt_setprop_placeholder fdt nodeoffset name val.length with
  | .error e => .error e
  | .ok fdt1 => .ok (fdt_write_prop fdt1 nodeoffset name val)

/-- Modelled from the spec: `fdt_setprop_u32` of libfdt. -/
def fdt_setprop_u32 (fdt : Fdt) (nodeoffset : Offset) (name : Bytes) (val : Nat) :
    Except FdtErr Fdt :=
  fdt_setprop fdt nodeoffset name (cpu_to_fdt32 val)

/-- Modelled from the spec: `fdt_add_subnode` of libfdt: create an empty
subnode, `EXISTS` when the parent has one of that name, `NOSPACE` when the 8
bytes of tags and the padded name do not fit.  Returns the blob and the offset
of the new node. -/
def fdt_add_subnode (fdt : Fdt) (parentoffset : Offset) (name : Bytes) :
    Except FdtErr (Fdt × Offset) :=
  match fdt.root.node_at parentoffset with
  | none => .error .BADOFFSET
  | some n =>
    match subnode_index n.subnodes name with
    | some _ => .error .EXISTS
    | none =>
      if 8 + FDT_TAGALIGN (name.length + 1) > fdt.free then .error .NOSPACE
      else
        .ok ({ fdt with
            free := fdt.free - (8 + FDT_TAGALIGN (name.length + 1))
            root := fdt.root.update_at parentoffset (fun m => m.add_subnode name) },
          parentoffset ++ [0])

/-- Modelled from the spec: `fdt_setprop_inplace_namelen_partial` of libfdt:
overwrite `val` into the property at byte `idx`, without changing its size;
`NOSPACE` when the bytes do not fit into the property. -/
def fdt_setprop_inplace_namelen_partial (fdt : Fdt) (nodeoffset : Offset) (name : Bytes)
    (idx : Nat) (val : Bytes) : Except FdtErr Fdt :=
  match fdt_getprop fdt nodeoffset name with
  | .error e => .error e
  | .ok propval =>
    if propval.length < val.length + idx then .error .NOSPACE
    else .ok (fdt_write_prop fdt nodeoffset name (write_at propval idx val))

/-- Modelled from the spec: `fdt_setprop_inplace_u32` of libfdt: overwrite a
property that is exactly 4 bytes long, `NOSPACE` when its size differs. -/
def fdt_setprop_inplace_u32 (fdt : Fdt) (nodeoffset : Offset) (name : Bytes) (val : Nat) :
    Except FdtErr Fdt :=
  match fdt_getprop fdt nodeoffset name with
  | .error e => .error e
  | .ok propval =>
    if propval.length ≠ 4 then .error .NOSPACE
    else fdt_setprop_inplace_namelen_partial fdt nodeoffset name 0 (cpu_to_fdt32 val)

/-- Path bytes accumulated by `fdt_get_path` down to `nodeoffset`: every name
on the way, the root's included, followed by `/`. -/
def path_names : Node → Offset → Option Bytes
  | n, [] => some (n.name ++ [47])
  | n, i :: rest =>
    match n.subnodes[i]? with
    | none => none
    | some c =>
      match path_names c rest with
      | none => none
      | some p => some (n.name ++ [47] ++ p)

/-- Modelled from the spec: `fdt_get_path` of libfdt: the absolute path of
the node, `/` for the root, as a string without its NUL; `NOSPACE` when the
path and its NUL do not fit into `buflen` bytes. -/
def fdt_get_path (fdt : Fdt) (nodeoffset : Offset) (buflen : Nat) : Except FdtErr Bytes :=
  if buflen < 2 then .error .NOSPACE
  else
    match path_names fdt.root nodeoffset with
    | none => .error .BADOFFSET
    | some p =>
      if p.length > buflen then .error .NOSPACE
      else if p.length > 1 then .ok p.dropLast
      else .ok p

/-! ## Target lookup -/

/-- The function `overlay_get_target_phandle`: the phandle in the `target`
property of a fragment; 0 when the fragment has none, `(uint32_t)-1` when it
is malformed. -/
def overlay_get_target_phandle (fdto : Fdt) (fragment : Offset) : Nat :=
  match fdt_getprop fdto fragment (str "target") with
  | .error _ => 0
  | .ok val =>
    if val.length ≠ 4 ∨ fdt32_to_cpu val = UINT32_MAX then UINT32_MAX
    else fdt32_to_cpu val

/-- The function `overlay_get_target`: the offset in the base tree of the
target of a fragment, and the value of its `target-path` property when the
lookup went by path (`*pathp`, null after a lookup by phandle). -/
def overlay_get_target (fdt fdto : Fdt) (fragment : Offset) :
    Except FdtErr (Offset × Option Bytes) :=
  let phandle := overlay_get_target_phandle fdto fragment
  if phandle = UINT32_MAX then .error .BADPHANDLE
  else if phandle = 0 then
    match fdt_getprop fdto fragment (str "target-path") with
    | .ok path =>
      match fdt_path_offset fdt path with
      | .error e => .error e
      | .ok ret => .ok (ret, some path)
    | .error e => if e = .NOTFOUND then .error .BADOVERLAY else .error e
  else
    match fdt_node_offset_by_phandle fdt phandle with
    | .error e => .error e
    | .ok ret => .ok (ret, none)

/-! ## Phandle renumbering -/

/-- The function `overlay_phandle_add_offset`: add `delta` to the phandle held
in property `name` of a node.  Every error return precedes the write, so an
error leaves the blob as it was. -/
def overlay_phandle_add_offset (fdt : Fdt) (node : Offset) (name : Bytes) (delta : Nat) :
    Except FdtErr Fdt :=
  match fdt_getprop fdt node name with
  | .error e => .error e
  | .ok val =>
    if val.length ≠ 4 then .error .BADPHANDLE
    else
      let adj_val := fdt32_to_cpu val
      if (adj_val + delta) % 2 ^ 32 < adj_val then .error .NOPHANDLES
      else
        let adj_val := (adj_val + delta) % 2 ^ 32
        if adj_val = UINT32_MAX then .error .NOPHANDLES
        else fdt_setprop_inplace_u32 fdt node name adj_val

/-- The two calls of `overlay_phandle_add_offset` that open
`overlay_adjust_node_phandles`, on `phandle` and on `linux,phandle`; a missing
property is not an error. -/
def overlay_adjust_own_phandles (fdto : Fdt) (node : Offset) (delta : Nat) :
    Except (FdtErr × Fdt) Fdt :=
  match overlay_phandle_add_offset fdto node (str "phandle") delta with
  | .error e =>
    if e ≠ .NOTFOUND then .error (e, fdto)
    else
      match overlay_phandle_add_offset fdto node (str "linux,phandle") delta with
      | .error e2 => if e2 ≠ .NOTFOUND then .error (e2, fdto) else .ok fdto
      | .ok fdto2 => .ok fdto2
  | .ok fdto1 =>
    match overlay_phandle_add_offset fdto1 node (str "linux,phandle") delta with
    | .error e2 => if e2 ≠ .NOTFOUND then .error (e2, fdto1) else .ok fdto1
    | .ok fdto2 => .ok fdto2

mutual
/-- The function `overlay_adjust_node_phandles`: add `delta` to the phandles
of the node at offset `node` and, recursively, of its subnodes.  The last
argument is the subtree at `node`; the in-place writes change neither names
nor shape, and the recursion follows it. -/
def overlay_adjust_node_phandles (fdto : Fdt) (node : Offset) (delta : Nat) :
    Node → Except (FdtErr × Fdt) Fdt
  | .mk _ _ subs =>
    match overlay_adjust_own_phandles fdto node delta with
    | .error e => .error e
    | .ok fdto1 => overlay_adjust_subnodes fdto1 node delta 0 subs
/-- The loop `fdt_for_each_subnode` of `overlay_adjust_node_phandles`, from
the subnode of index `child` on. -/
def overlay_adjust_subnodes (fdto : Fdt) (node : Offset) (delta : Nat) (child : Nat) :
    List Node → Except (FdtErr × Fdt) Fdt
  | [] => .ok fdto
  | c :: cs =>
    match overlay_adjust_node_phandles fdto (node ++ [child]) delta c with
    | .error e => .error e
    | .ok fdto1 => overlay_adjust_subnodes fdto1 node delta (child + 1) cs
end

/-- The function `overlay_adjust_local_phandles`: renumber from the root of
the overlay. -/
def overlay_adjust_local_phandles (fdto : Fdt) (delta : Nat) : Except (FdtErr × Fdt) Fdt :=
  overlay_adjust_node_phandles fdto [] delta fdto.root

/-! ## Local references -/

/-- The bytes seen through a pointer that `fdt_getprop` returned for property
`name` of a node (empty when there is no such property). -/
def peek_prop (fdt : Fdt) (nodeoffset : Offset) (name : Bytes) : Bytes :=
  match fdt_getprop fdt nodeoffset name with
  | .ok v => v
  | .error _ => []

/-- The bytes seen through a pointer that `fdt_getprop_by_offset` returned
for the property of index `prop` of a node. -/
def peek_prop_by_offset (fdt : Fdt) (nodeoffset : Offset) (prop : Nat) : Bytes :=
  match fdt_getprop_by_offset fdt nodeoffset prop with
  | .ok p => p.val
  | .error _ => []

/-- The loop over the cells of one property of `/__local_fixups__` in
`overlay_update_local_node_references`: `n` cells are left, the next has
index `i`.  Both `fixup_val[i]` and `tree_val + poffset` are read from the
blob as it stands, after the writes of the earlier cells. -/
def overlay_update_local_cells (tree_node fixup_node : Offset) (fixup_prop : Nat)
    (name : Bytes) (delta : Nat) : Nat → Nat → Fdt → Except (FdtErr × Fdt) Fdt
  | 0, _, fdto => .ok fdto
  | n + 1, i, fdto =>
    let fixup_val := peek_prop_by_offset fdto fixup_node fixup_prop
    let tree_val := peek_prop fdto tree_node name
    let poffset := fdt32_to_cpu (fixup_val.drop (4 * i))
    let adj_val := cpu_to_fdt32 ((fdt32_to_cpu (tree_val.drop poffset) + delta) % 2 ^ 32)
    match fdt_setprop_inplace_namelen_partial fdto tree_node name poffset adj_val with
    | .error e =>
      if e = .NOSPACE then .error (.BADOVERLAY, fdto) else .error (e, fdto)
    | .ok fdto1 =>
      overlay_update_local_cells tree_node fixup_node fixup_prop name delta n (i + 1) fdto1

/-- The loop `fdt_for_each_property_offset` of
`overlay_update_local_node_references`: `n` properties of the fixup node are
left, the next has index `fixup_prop`. -/
def overlay_update_local_props (tree_node fixup_node : Offset) (delta : Nat) :
    Nat → Nat → Fdt → Except (FdtErr × Fdt) Fdt
  | 0, _, fdto => .ok fdto
  | n + 1, fixup_prop, fdto =>
    match fdt_getprop_by_offset fdto fixup_node fixup_prop with
    | .error e => .error (e, fdto)
    | .ok fixup =>
      if fixup.val.length % 4 ≠ 0 then .error (.BADOVERLAY, fdto)
      else
        match fdt_getprop fdto tree_node fixup.name with
        | .error e =>
          if e = .NOTFOUND then .error (.BADOVERLAY, fdto) else .error (e, fdto)
        | .ok _ =>
          match overlay_update_local_cells tree_node fixup_node fixup_prop fixup.name delta
              (fixup.val.length / 4) 0 fdto with
          | .error e => .error e
          | .ok fdto1 =>
            overlay_update_local_props tree_node fixup_node delta n (fixup_prop + 1) fdto1

mutual
/-- The function `overlay_update_local_node_references`: add `delta` to every
cell of the real node `tree_node` that the fixup node `fixup_node` lists, and
recurse into the subnodes of the fixup node.  The last argument is the subtree
at `fixup_node`, which the recursion follows. -/
def overlay_update_local_node_references (fdto : Fdt) (tree_node fixup_node : Offset)
    (delta : Nat) : Node → Except (FdtErr × Fdt) Fdt
  | .mk _ props subs =>
    match overlay_update_local_props tree_node fixup_node delta props.length 0 fdto with
    | .error e => .error e
    | .ok fdto1 => overlay_update_local_subnodes fdto1 tree_node fixup_node delta 0 subs
/-- The loop `fdt_for_each_subnode` of `overlay_update_local_node_references`,
from the fixup subnode of index `fixup_child` on. -/
def overlay_update_local_subnodes (fdto : Fdt) (tree_node fixup_node : Offset)
    (delta : Nat) (fixup_child : Nat) : List Node → Except (FdtErr × Fdt) Fdt
  | [] => .ok fdto
  | c :: cs =>
    match fdt_subnode_offset fdto tree_node c.name with
    | .error e =>
      if e = .NOTFOUND then .error (.BADOVERLAY, fdto) else .error (e, fdto)
    | .ok tree_child =>
      match overlay_update_local_node_references fdto tree_child
          (fixup_node ++ [fixup_child]) delta c with
      | .error e => .error e
      | .ok fdto1 =>
        overlay_update_local_subnodes fdto1 tree_node fixup_node delta (fixup_child + 1) cs
end

/-- The function `overlay_update_local_references`: apply the overlay's
`/__local_fixups__`, when it has one, from the root. -/
def overlay_update_local_references (fdto : Fdt) (delta : Nat) : Except (FdtErr × Fdt) Fdt :=
  match fdt_path_offset fdto (str "/__local_fixups__") with
  | .error e => if e = .NOTFOUND then .ok fdto else .error (e, fdto)
  | .ok fixups =>
    match fdto.root.node_at fixups with
    | none => .error (.BADOFFSET, fdto)
    | some fixup_tree => overlay_update_local_node_references fdto [] fixups delta fixup_tree

/-! ## C library helpers -/

/-- The function `memchr`: index of the first byte equal to `c` among the
first `n` bytes. -/
def memchr : Bytes → Nat → Nat → Option Nat
  | [], _, _ => none
  | _ :: _, _, 0 => none
  | b :: bs, c, n + 1 => if b = c then some 0 else (memchr bs c n).map (· + 1)

/-- The function `strchr` for a byte other than NUL: index of its first
occurrence before the end of the C string. -/
def strchr : Bytes → Nat → Option Nat
  | [], _ => none
  | b :: bs, c =>
    if b = c then some 0
    else if b = 0 then none
    else (strchr bs c).map (· + 1)

/-- The predicate `isspace` of the C locale. -/
def isspace (c : Nat) : Bool := c = 32 || (9 ≤ c && c ≤ 13)

/-- The predicate `isdigit`. -/
def isdigit (c : Nat) : Bool := 48 ≤ c && c ≤ 57

/-- The digits read by `strtoul` in base 10: the value accumulated and the
number of digits. -/
def strtoul_digits : Bytes → Nat → Nat → Nat × Nat
  | [], acc, n => (acc, n)
  | c :: cs, acc, n =>
    if isdigit c then strtoul_digits cs (acc * 10 + (c - 48)) (n + 1) else (acc, n)

/-- The function `strtoul` of the C library in base 10, for 64-bit
`unsigned long`: leading white space, an optional sign, then digits.  Returns
the value and the number of bytes consumed (`endptr - nptr`, 0 when there is
no digit); the value saturates at `ULONG_MAX` and a minus sign negates it
modulo `2 ^ 64`. -/
def strtoul (s : Bytes) : Nat × Nat :=
  let ws := (s.takeWhile isspace).length
  let s1 := s.drop ws
  let sign := match s1 with
    | 43 :: _ => 1
    | 45 :: _ => 1
    | _ => 0
  let r := strtoul_digits (s1.drop sign) 0 0
  if r.2 = 0 then (0, 0)
  else if r.1 > MAX_ULONG then (MAX_ULONG, ws + sign + r.2)
  else if s1.head? = some 45 then ((2 ^ 64 - r.1) % 2 ^ 64, ws + sign + r.2)
  else (r.1, ws + sign + r.2)

/-- Decimal digits of a number, as `snprintf` prints `%lu`. -/
def decimal (n : Nat) : Bytes := (Nat.toDigits 10 n).map Char.toNat

/-! ## Symbol fixups -/

/-- The function `overlay_fixup_one_phandle`: write the phandle of the base
node that `label` designates into property `name` of the overlay node at
`path`, at byte `poffset`.  `symbols_off` is the result of looking up
`/__symbols__` in the base.  Every error return precedes the write. -/
def overlay_fixup_one_phandle (fdt fdto : Fdt) (symbols_off : Except FdtErr Offset)
    (path name : Bytes) (poffset : Nat) (label : Bytes) : Except FdtErr Fdt :=
  match symbols_off with
  | .error e => .error e
  | .ok symbols_off =>
    match fdt_getprop fdt symbols_off label with
    | .error e => .error e
    | .ok symbol_path =>
      match fdt_path_offset fdt symbol_path with
      | .error e => .error e
      | .ok symbol_off =>
        let phandle := fdt_get_phandle fdt symbol_off
        if phandle = 0 then .error .NOTFOUND
        else
          match fdt_path_offset_namelen fdto path with
          | .error e => if e = .NOTFOUND then .error .BADOVERLAY else .error e
          | .ok fixup_off =>
            fdt_setprop_inplace_namelen_partial fdto fixup_off name poffset
              (cpu_to_fdt32 phandle)

/-- The `do ... while (len > 0)` loop of `overlay_fixup_phandle` over the
fixup strings of one property of `/__fixups__`: `pos` is `value` minus the
start of the property and `len` the bytes left.  The strings are read from
the overlay as it stands.  The first argument bounds the number of rounds; a
round consumes at least one byte, so `len + 1` rounds are never used up. -/
def overlay_fixup_strings (fdt : Fdt) (symbols_off : Except FdtErr Offset)
    (fixups_off : Offset) (property : Nat) (label : Bytes) :
    Nat → Fdt → Nat → Nat → Except (FdtErr × Fdt) Fdt
  | 0, fdto, _, _ => .error (.INTERNAL, fdto)
  | rounds + 1, fdto, pos, len =>
    let value := (peek_prop_by_offset fdto fixups_off property).drop pos
    match memchr value 0 len with
    | none => .error (.BADOVERLAY, fdto)
    | some fixup_len =>
      let fixup_str := value.take fixup_len
      match memchr fixup_str 58 fixup_len with
      | none => .error (.BADOVERLAY, fdto)
      | some path_len =>
        if path_len = fixup_len - 1 then .error (.BADOVERLAY, fdto)
        else
          let name := fixup_str.drop (path_len + 1)
          match memchr name 58 (fixup_len - (path_len + 1)) with
          | none => .error (.BADOVERLAY, fdto)
          | some name_len =>
            if name_len = 0 then .error (.BADOVERLAY, fdto)
            else
              let num := name.drop (name_len + 1)
              let r := strtoul num
              if r.2 ≠ num.length ∨ r.2 = 0 then .error (.BADOVERLAY, fdto)
              else
                match overlay_fixup_one_phandle fdt fdto symbols_off
                    (fixup_str.take path_len) (name.take name_len) (r.1 % 2 ^ 32) label with
                | .error e => .error (e, fdto)
                | .ok fdto1 =>
                  if len - (fixup_len + 1) > 0 then
                    overlay_fixup_strings fdt symbols_off fixups_off property label rounds
                      fdto1 (pos + fixup_len + 1) (len - (fixup_len + 1))
                  else .ok fdto1

/-- The function `overlay_fixup_phandle`: resolve every fixup string of the
property of index `property` of `/__fixups__`. -/
def overlay_fixup_phandle (fdt fdto : Fdt) (symbols_off : Except FdtErr Offset)
    (property : Nat) (fixups_off : Offset) : Except (FdtErr × Fdt) Fdt :=
  match fdt_getprop_by_offset fdto fixups_off property with
  | .error e => if e = .NOTFOUND then .error (.INTERNAL, fdto) else .error (e, fdto)
  | .ok p =>
    overlay_fixup_strings fdt symbols_off fixups_off property p.name (p.val.length + 1)
      fdto 0 p.val.length

/-- The loop `fdt_for_each_property_offset` of `overlay_fixup_phandles`: `n`
properties of `/__fixups__` are left, the next has index `property`, and `ret`
is the value of the variable `ret` (`none` for 0). -/
def overlay_fixup_props (fdt : Fdt) (symbols_off : Except FdtErr Offset)
    (fixups_off : Offset) (merge_olay_max_phdl : Nat) :
    Nat → Nat → Option FdtErr → Fdt → Except (FdtErr × Fdt) Fdt
  | 0, _, ret, fdto =>
    match ret with
    | none => .ok fdto
    | some e => .error (e, fdto)
  | n + 1, property, _, fdto =>
    match overlay_fixup_phandle fdt fdto symbols_off property fixups_off with
    | .error (e, fdto1) =>
      if merge_olay_max_phdl = 0 ∨ e ≠ .NOTFOUND then .error (e, fdto1)
      else
        overlay_fixup_props fdt symbols_off fixups_off merge_olay_max_phdl n (property + 1)
          (some e) fdto1
    | .ok fdto1 =>
      overlay_fixup_props fdt symbols_off fixups_off merge_olay_max_phdl n (property + 1)
        none fdto1

/-- The function `overlay_fixup_phandles`: resolve the overlay's
`/__fixups__` against the symbols of the base.  In merge mode
(`merge_olay_max_phdl` non-zero) a label that is not found does not stop the
loop. -/
def overlay_fixup_phandles (fdt fdto : Fdt) (merge_olay_max_phdl : Nat) :
    Except (FdtErr × Fdt) Fdt :=
  match fdt_path_offset fdto (str "/__fixups__") with
  | .error e => if e = .NOTFOUND then .ok fdto else .error (e, fdto)
  | .ok fixups_off =>
    let symbols_off := fdt_path_offset fdt (str "/__symbols__")
    match symbols_off with
    | .error e =>
      if e ≠ .NOTFOUND then .error (e, fdto)
      else
        match fdto.root.node_at fixups_off with
        | none => .error (.BADOFFSET, fdto)
        | some fixups =>
          overlay_fixup_props fdt symbols_off fixups_off merge_olay_max_phdl
            fixups.props.length 0 none fdto
    | .ok _ =>
      match fdto.root.node_at fixups_off with
      | none => .error (.BADOFFSET, fdto)
      | some fixups =>
        overlay_fixup_props fdt symbols_off fixups_off merge_olay_max_phdl
          fixups.props.length 0 none fdto

/-! ## Merging fragments -/

/-- The loop `fdt_for_each_property_offset` of `overlay_apply_node`: set each
property of the overlay node on the target. -/
def overlay_apply_props (target : Offset) : List Property → Fdt → Except (FdtErr × Fdt) Fdt
  | [], fdt => .ok fdt
  | p :: ps, fdt =>
    match fdt_setprop fdt target p.name p.val with
    | .error e => .error (e, fdt)
    | .ok fdt1 => overlay_apply_props target ps fdt1

mutual
/-- The function `overlay_apply_node`: merge an overlay node into the node
`target` of the base.  The overlay is only read here, so the overlay node is
passed as its subtree. -/
def overlay_apply_node (fdt : Fdt) (target : Offset) : Node → Except (FdtErr × Fdt) Fdt
  | .mk _ props subs =>
    match overlay_apply_props target props fdt with
    | .error e => .error e
    | .ok fdt1 => overlay_apply_subnodes fdt1 target subs
/-- The loop `fdt_for_each_subnode` of `overlay_apply_node`. -/
def overlay_apply_subnodes (fdt : Fdt) (target : Offset) :
    List Node → Except (FdtErr × Fdt) Fdt
  | [] => .ok fdt
  | subnode :: rest =>
    match fdt_add_subnode fdt target subnode.name with
    | .error e =>
      if e = .EXISTS then
        match fdt_subnode_offset fdt target subnode.name with
        | .error e2 =>
          if e2 = .NOTFOUND then .error (.INTERNAL, fdt) else .error (e2, fdt)
        | .ok nnode =>
          match overlay_apply_node fdt nnode subnode with
          | .error e3 => .error e3
          | .ok fdt1 => overlay_apply_subnodes fdt1 target rest
      else .error (e, fdt)
    | .ok (fdt0, nnode) =>
      match overlay_apply_node fdt0 nnode subnode with
      | .error e3 => .error e3
      | .ok fdt1 => overlay_apply_subnodes fdt1 target rest
end

/-- The loop `fdt_for_each_property_offset` of `copy_node`: a property the
destination already has keeps its bytes and the overlay's value is copied
after them. -/
def copy_node_props (parent : Offset) : List Property → Fdt → Except (FdtErr × Fdt) Fdt
  | [], fdt => .ok fdt
  | p :: ps, fdt =>
    match fdt_getprop fdt parent p.name with
    | .ok old =>
      match fdt_setprop_placeholder fdt parent p.name (p.val.length + old.length) with
      | .error e => .error (e, fdt)
      | .ok fdt1 =>
        copy_node_props parent ps
          (fdt_write_prop fdt1 parent p.name
            (write_at (peek_prop fdt1 parent p.name) old.length p.val))
    | .error _ =>
      match fdt_setprop_placeholder fdt parent p.name p.val.length with
      | .error e => .error (e, fdt)
      | .ok fdt1 =>
        copy_node_props parent ps
          (fdt_write_prop fdt1 parent p.name
            (write_at (peek_prop fdt1 parent p.name) 0 p.val))

mutual
/-- The function `copy_node`: copy an overlay node with its properties and
subnodes under the node `fdt_parent` of the base, as the subnode `name` (the
overlay node's own name when `name` is null); with `skip_fdto_child` its
content goes into `fdt_parent` itself. -/
def copy_node (fdt : Fdt) (fdt_parent : Offset) (name : Option Bytes)
    (skip_fdto_child : Bool) : Node → Except (FdtErr × Fdt) Fdt
  | .mk own props subs =>
    if skip_fdto_child then
      match copy_node_props fdt_parent props fdt with
      | .error e => .error e
      | .ok fdt2 => copy_node_subnodes fdt2 fdt_parent subs
    else
      match fdt_subnode_offset fdt fdt_parent (name.getD own) with
      | .ok parent =>
        match copy_node_props parent props fdt with
        | .error e => .error e
        | .ok fdt2 => copy_node_subnodes fdt2 parent subs
      | .error _ =>
        match fdt_add_subnode fdt fdt_parent (name.getD own) with
        | .error e => .error (e, fdt)
        | .ok (fdt1, parent) =>
          match copy_node_props parent props fdt1 with
          | .error e => .error e
          | .ok fdt2 => copy_node_subnodes fdt2 parent subs
/-- The loop `fdt_for_each_subnode` of `copy_node`. -/
def copy_node_subnodes (fdt : Fdt) (parent : Offset) : List Node → Except (FdtErr × Fdt) Fdt
  | [] => .ok fdt
  | child :: rest =>
    match copy_node fdt parent none false child with
    | .error e => .error e
    | .ok fdt1 => copy_node_subnodes fdt1 parent rest
end

/-- The function `get_fragment_name`: the name of a fragment, which must
start with `fragment@` and fit the buffer of `namelen` bytes. -/
def get_fragment_name (fdto : Fdt) (fragment : Offset) (namelen : Nat) : Except FdtErr Bytes :=
  match fdt_get_name fdto fragment with
  | .error e => .error e
  | .ok nname =>
    if nname.length < 9 ∨ nname.length ≥ namelen ∨ nname.take 9 ≠ str "fragment@" then
      .error .BADVALUE
    else .ok nname

/-- The function `get_fragment_index`: the decimal index that follows
`fragment@` in a name. -/
def get_fragment_index (name : Bytes) : Except FdtErr Nat :=
  if name.length < 9 then .error .BADVALUE
  else
    let idx := name.drop 9
    let r := strtoul idx
    if r.2 ≠ idx.length ∨ r.2 = 0 then .error .BADVALUE
    else .ok r.1

/-- The function `set_new_fragment_name`: the name `fragment@<index +
base_fragment_count>`. -/
def set_new_fragment_name (name : Bytes) (namelen : Nat) (base_fragment_count : Nat) :
    Except FdtErr Bytes :=
  match get_fragment_index name with
  | .error e => .error e
  | .ok index =>
    if MAX_ULONG - base_fragment_count < index then .error .INTERNAL
    else
      let out := str "fragment@" ++ decimal (index + base_fragment_count)
      if out.length ≥ namelen then .error .INTERNAL else .ok out

/-- The function `add_phandle`: give the root's subnode `node_name` the
property `phandle`. -/
def add_phandle (fdt : Fdt) (node_name : Bytes) (phandle : Nat) : Except FdtErr Fdt :=
  match fdt_subnode_offset fdt [] node_name with
  | .error e => .error e
  | .ok offset => fdt_setprop_u32 fdt offset (str "phandle") phandle

/-- The variables that `overlay_merge` and `copy_fragment_to_base` write: the
two blobs, the counter behind the pointer `merge_olay_max_phdl` (`none` for a
null pointer) and `base_fragment_count`. -/
structure MergeState where
  fdt : Fdt
  fdto : Fdt
  merge_olay_max_phdl : Option Nat
  base_fragment_count : Nat

/-- The function `copy_fragment_to_base`: copy a fragment whose target is not
resolved into the base under a renumbered name, give the copy the phandle
`*merge_olay_max_phdl` and point the fragment's `target` at it. -/
def copy_fragment_to_base (st : MergeState) (fragment : Offset) :
    Except (FdtErr × MergeState) MergeState :=
  match st.merge_olay_max_phdl with
  | none => .error (.BADPHANDLE, st)
  | some target_phandle =>
    match get_fragment_name st.fdto fragment MAX_BUF_SIZE with
    | .error e => .error (e, st)
    | .ok name0 =>
      match set_new_fragment_name name0 MAX_BUF_SIZE st.base_fragment_count with
      | .error e => .error (e, st)
      | .ok name =>
        match st.fdto.root.node_at fragment with
        | none => .error (.BADOFFSET, st)
        | some frag =>
          match copy_node st.fdt [] (some name) false frag with
          | .error (e, fdt1) => .error (e, { st with fdt := fdt1 })
          | .ok fdt1 =>
            match add_phandle fdt1 name target_phandle with
            | .error e => .error (e, { st with fdt := fdt1 })
            | .ok fdt2 =>
              match fdt_setprop_inplace_u32 st.fdto fragment (str "target") target_phandle with
              | .error e => .error (e, { st with fdt := fdt2 })
              | .ok fdto1 =>
                if (target_phandle + 1) % 2 ^ 32 = UINT32_MAX then
                  .error (.BADOVERLAY,
                    { fdt := fdt2, fdto := fdto1,
                      merge_olay_max_phdl := some ((target_phandle + 1) % 2 ^ 32),
                      base_fragment_count := st.base_fragment_count })
                else if (st.base_fragment_count + 1) % 2 ^ 64 = MAX_ULONG then
                  .error (.BADOVERLAY,
                    { fdt := fdt2, fdto := fdto1,
                      merge_olay_max_phdl := some ((target_phandle + 1) % 2 ^ 32),
                      base_fragment_count := (st.base_fragment_count + 1) % 2 ^ 64 })
                else
                  .ok { fdt := fdt2, fdto := fdto1,
                        merge_olay_max_phdl := some ((target_phandle + 1) % 2 ^ 32),
                        base_fragment_count := (st.base_fragment_count + 1) % 2 ^ 64 }

/-- The loop of `count_fragments` over the subnodes of the root: `found` and
`max` are the variables of that name. -/
def count_fragments_loop : List Node → Bool → Nat → Except FdtErr (Bool × Nat)
  | [], found, max => .ok (found, max)
  | n :: rest, found, max =>
    if n.name.length < 9 ∨ n.name.take 9 ≠ str "fragment@" then
      count_fragments_loop rest found max
    else
      match n.subnodes with
      | [] => .error .NOTFOUND
      | child :: _ =>
        if child.name.length < 11 ∨ child.name.take 11 ≠ str "__overlay__" then
          count_fragments_loop rest found max
        else
          count_fragments_loop rest true
            (if (strtoul (n.name.drop 9)).1 > max then (strtoul (n.name.drop 9)).1 else max)

/-- The function `count_fragments`: the largest index among the root's
`fragment@` subnodes whose first subnode is `__overlay__`. -/
def count_fragments (fdt : Fdt) : Except FdtErr Nat :=
  match count_fragments_loop fdt.root.subnodes false 0 with
  | .error e => .error e
  | .ok r => if r.1 then .ok r.2 else .error .NOTFOUND

/-- The loop `fdt_for_each_subnode(fragment, fdto, 0)` of `overlay_merge`:
`n` subnodes of the overlay root are left, the next has index `k`. -/
def overlay_merge_fragments : Nat → Nat → MergeState → Except (FdtErr × MergeState) MergeState
  | 0, _, st => .ok st
  | n + 1, k, st =>
    match fdt_subnode_offset st.fdto [k] (str "__overlay__") with
    | .error e =>
      if e = .NOTFOUND then overlay_merge_fragments n (k + 1) st else .error (e, st)
    | .ok overlay =>
      match overlay_get_target st.fdt st.fdto [k] with
      | .error e =>
        if st.merge_olay_max_phdl = none ∨ e ≠ .BADPHANDLE then .error (e, st)
        else
          match copy_fragment_to_base st [k] with
          | .error e2 => .error e2
          | .ok st1 => overlay_merge_fragments n (k + 1) st1
      | .ok target =>
        match st.fdto.root.node_at overlay with
        | none => .error (.BADOFFSET, st)
        | some ov =>
          match overlay_apply_node st.fdt target.1 ov with
          | .error (e, fdt1) => .error (e, { st with fdt := fdt1 })
          | .ok fdt1 => overlay_merge_fragments n (k + 1) { st with fdt := fdt1 }

/-- The function `overlay_merge`: merge every fragment that has an
`__overlay__` subnode into its target.  With a non-null `merge_olay_max_phdl`
a fragment whose target lookup fails with `BADPHANDLE` is copied into the
base instead. -/
def overlay_merge (fdt fdto : Fdt) (merge_olay_max_phdl : Option Nat) :
    Except (FdtErr × MergeState) MergeState :=
  match merge_olay_max_phdl with
  | none =>
    overlay_merge_fragments fdto.root.subnodes.length 0
      { fdt := fdt, fdto := fdto, merge_olay_max_phdl := none, base_fragment_count := 0 }
  | some m =>
    match count_fragments fdt with
    | .error e =>
      if e ≠ .NOTFOUND then
        .error (e, { fdt := fdt, fdto := fdto, merge_olay_max_phdl := some m,
                     base_fragment_count := 0 })
      else
        overlay_merge_fragments fdto.root.subnodes.length 0
          { fdt := fdt, fdto := fdto, merge_olay_max_phdl := some m, base_fragment_count := 1 }
    | .ok c =>
      overlay_merge_fragments fdto.root.subnodes.length 0
        { fdt := fdt, fdto := fdto, merge_olay_max_phdl := some m,
          base_fragment_count := (c + 1) % 2 ^ 64 }

/-! ## Symbol table update -/

/-- The loop of `get_path_len`, walking up from a node to the root; the offset
is given in reverse.  A node with an empty name ends the walk. -/
def get_path_len_up (fdt : Fdt) : List Nat → Nat → Except FdtErr Nat
  | [], len =>
    match fdt_get_name fdt [] with
    | .error e => .error e
    | .ok name => if name.length = 0 then .ok len else .error .NOTFOUND
  | i :: up, len =>
    match fdt_get_name fdt (i :: up).reverse with
    | .error e => .error e
    | .ok name =>
      if name.length = 0 then .ok len else get_path_len_up fdt up (len + name.length + 1)

/-- The function `get_path_len`: length of the absolute path of a node, 1 for
the root. -/
def get_path_len (fdt : Fdt) (nodeoffset : Offset) : Except FdtErr Nat :=
  match fdt_ro_probe fdt with
  | .error e => .error e
  | .ok _ =>
    match get_path_len_up fdt nodeoffset.reverse 0 with
    | .error e => .error e
    | .ok len => .ok (if len = 0 then 1 else len)

/-- Modelled from the spec: `fdt_first_property_offset` of libfdt, as the
index of the first property (`none` for a negative return). -/
def fdt_first_property_offset (fdt : Fdt) (nodeoffset : Offset) : Option Nat :=
  match fdt.root.node_at nodeoffset with
  | none => none
  | some n => if n.props.length = 0 then none else some 0

/-- Modelled from the spec: `fdt_next_property_offset` of libfdt, as the
index of the next property (`none` for a negative return). -/
def fdt_next_property_offset (fdt : Fdt) (nodeoffset : Offset) (prop : Nat) : Option Nat :=
  match fdt.root.node_at nodeoffset with
  | none => none
  | some n => if prop + 1 < n.props.length then some (prop + 1) else none

/-- What one round of the `while (prop >= 0)` loop of `overlay_symbol_update`
does: `again` is a `continue` (which leaves `prop` and everything else as
they are), `fail` a `return` of an error, `next` the end of the body, where
`prop = next_prop` is executed. -/
inductive SymStep where
  | again
  | fail (e : FdtErr) (fdt : Fdt)
  | next (fdt : Fdt) (rel_path_olay : Option Bytes)

/-- The last statements of the loop body of `overlay_symbol_update`: put `/`,
the relative path and a NUL into the placeholder after the `len` bytes of the
target path. -/
def overlay_symbol_finish (fdt1 : Fdt) (root_sym : Offset) (name buf : Bytes) (len : Nat)
    (rel_path : Bytes) (rel_path_olay : Option Bytes) : SymStep :=
  .next (fdt_write_prop fdt1 root_sym name
    (write_at (write_at (write_at buf len [47]) (len + 1) rel_path)
      (len + 1 + rel_path.length) [0])) rel_path_olay

/-- The loop body of `overlay_symbol_update` from the lookup of the fragment
on: `name` is the label, `frag_name` the fragment named by the symbol and
`rel_path0` the relative path found in it. -/
def overlay_symbol_write (fdt fdto : Fdt) (root_sym : Offset) (merge_olay_max_phdl : Nat)
    (name frag_name rel_path0 : Bytes) (rel_path_olay : Option Bytes) : SymStep :=
  match fdt_subnode_offset fdto [] frag_name with
  | .error _ => .fail .BADOVERLAY fdt
  | .ok fragment =>
    match fdt_subnode_offset fdto fragment (str "__overlay__") with
    | .error _ => .fail .BADOVERLAY fdt
    | .ok _ =>
      match overlay_get_target fdt fdto fragment with
      | .error e => .fail e fdt
      | .ok tgt =>
        let rel_path := match rel_path_olay with
          | none => rel_path0
          | some olay =>
            if overlay_get_target_phandle fdto fragment < merge_olay_max_phdl then rel_path0
            else olay
        let lenr := match tgt.2 with
          | none => get_path_len fdt tgt.1
          | some target_path => .ok (cstr target_path).length
        match lenr with
        | .error e => .fail e fdt
        | .ok len =>
          match fdt_setprop_placeholder fdt root_sym name
              (len + (if len > 1 then 1 else 0) + rel_path.length + 1) with
          | .error e => .fail e fdt
          | .ok fdt1 =>
            let again := match tgt.2 with
              | none => overlay_get_target fdt1 fdto fragment
              | some _ => .ok tgt
            match again with
            | .error e => .fail e fdt1
            | .ok tgt2 =>
              let buf := peek_prop fdt1 root_sym name
              if len > 1 then
                match tgt2.2 with
                | none =>
                  match fdt_get_path fdt1 tgt2.1 (len + 1) with
                  | .error e => .fail e fdt1
                  | .ok path =>
                    overlay_symbol_finish fdt1 root_sym name (write_at buf 0 (path ++ [0])) len
                      rel_path rel_path_olay
                | some target_path =>
                  overlay_symbol_finish fdt1 root_sym name
                    (write_at buf 0 (target_path.take (len + 1))) len rel_path rel_path_olay
              else
                overlay_symbol_finish fdt1 root_sym name buf (len - 1) rel_path rel_path_olay

/-- One round of the loop of `overlay_symbol_update`, for the property of
index `prop` of the overlay's `__symbols__`. -/
def overlay_symbol_step (fdt fdto : Fdt) (ov_sym root_sym : Offset)
    (merge_olay_max_phdl : Nat) (prop : Nat) (rel_path_olay : Option Bytes) : SymStep :=
  match fdt_getprop_by_offset fdto ov_sym prop with
  | .error e => .fail e fdt
  | .ok sym =>
    let path := sym.val
    if path.length < 1 ∨ memchr path 0 path.length ≠ some (path.length - 1) then
      .fail .BADVALUE fdt
    else if path.head? ≠ some 47 then .fail .BADVALUE fdt
    else
      match strchr (path.drop 1) 47 with
      | none => .again
      | some k =>
        let frag_name := (path.drop 1).take k
        let s := path.drop (1 + k)
        if s.length > 13 ∧ s.take 13 = str "/__overlay__/" then
          overlay_symbol_write fdt fdto root_sym merge_olay_max_phdl sym.name frag_name
            (s.drop 13).dropLast
            (if merge_olay_max_phdl ≠ 0 then some (s.drop 1).dropLast else rel_path_olay)
        else if s.length = 13 ∧ s.take 12 = str "/__overlay__" then
          overlay_symbol_write fdt fdto root_sym merge_olay_max_phdl sym.name frag_name []
            rel_path_olay
        else .again

/-- The loop `while (prop >= 0)` of `overlay_symbol_update`.  The first
argument bounds the number of rounds; `none` is returned when it is used up. -/
def overlay_symbol_loop (fdto : Fdt) (ov_sym root_sym : Offset) (merge_olay_max_phdl : Nat) :
    Nat → Option Nat → Fdt → Option Bytes → Option (Except (FdtErr × Fdt) Fdt)
  | 0, _, _, _ => none
  | _ + 1, none, fdt, _ => some (.ok fdt)
  | rounds + 1, some prop, fdt, rel_path_olay =>
    match overlay_symbol_step fdt fdto ov_sym root_sym merge_olay_max_phdl prop
        rel_path_olay with
    | .again =>
      overlay_symbol_loop fdto ov_sym root_sym merge_olay_max_phdl rounds (some prop) fdt
        rel_path_olay
    | .fail e fdt1 => some (.error (e, fdt1))
    | .next fdt1 olay1 =>
      overlay_symbol_loop fdto ov_sym root_sym merge_olay_max_phdl rounds
        (fdt_next_property_offset fdto ov_sym prop) fdt1 olay1

/-- The function `overlay_symbol_update`: publish the overlay's symbols in the
base's `/__symbols__`.  `rounds` bounds the rounds of its loop. -/
def overlay_symbol_update (rounds : Nat) (fdt fdto : Fdt) (merge_olay_max_phdl : Nat) :
    Option (Except (FdtErr × Fdt) Fdt) :=
  match fdt_subnode_offset fdto [] (str "__symbols__") with
  | .error _ => some (.ok fdt)
  | .ok ov_sym =>
    match fdt_subnode_offset fdt [] (str "__symbols__") with
    | .ok root_sym =>
      overlay_symbol_loop fdto ov_sym root_sym merge_olay_max_phdl rounds
        (fdt_first_property_offset fdto ov_sym) fdt none
    | .error e =>
      if e = .NOTFOUND then
        match fdt_add_subnode fdt [] (str "__symbols__") with
        | .error e2 => some (.error (e2, fdt))
        | .ok r =>
          overlay_symbol_loop fdto ov_sym r.2 merge_olay_max_phdl rounds
            (fdt_first_property_offset fdto ov_sym) r.1 none
      else some (.error (e, fdt))

/-! ## Entry point -/

/-- What `fdt_overlay_apply` leaves behind: its return value (`none` for 0)
and the two blobs. -/
structure Outcome where
  ret : Option FdtErr
  fdt : Fdt
  fdto : Fdt

/-- The label `err` of `fdt_overlay_apply`: erase the magic of both blobs and
return the error. -/
def apply_err (ret : FdtErr) (fdt fdto : Fdt) : Outcome :=
  { ret := some ret, fdt := fdt_set_magic fdt UINT32_MAX, fdto := fdt_set_magic fdto UINT32_MAX }

/-- The function `fdt_overlay_apply`.  `rounds` bounds the rounds of the loop
of `overlay_symbol_update`; the result is `none` when they are used up. -/
def fdt_overlay_apply (rounds : Nat) (fdt fdto : Fdt) : Option Outcome :=
  match fdt_ro_probe fdt with
  | .error e => some { ret := some e, fdt := fdt, fdto := fdto }
  | .ok _ =>
    match fdt_ro_probe fdto with
    | .error e => some { ret := some e, fdt := fdt, fdto := fdto }
    | .ok _ =>
      match fdt_find_max_phandle fdt with
      | .error e => some (apply_err e fdt fdto)
      | .ok delta =>
        match overlay_adjust_local_phandles fdto delta with
        | .error e => some (apply_err e.1 fdt e.2)
        | .ok fdto1 =>
          match overlay_update_local_references fdto1 delta with
          | .error e => some (apply_err e.1 fdt e.2)
          | .ok fdto2 =>
            match overlay_fixup_phandles fdt fdto2 0 with
            | .error e => some (apply_err e.1 fdt e.2)
            | .ok fdto3 =>
              match overlay_merge fdt fdto3 none with
              | .error e => some (apply_err e.1 e.2.fdt e.2.fdto)
              | .ok st =>
                match overlay_symbol_update rounds st.fdt st.fdto 0 with
                | none => none
                | some (.error e) => some (apply_err e.1 e.2 st.fdto)
                | some (.ok fdt5) =>
                  some { ret := none, fdt := fdt5, fdto := fdt_set_magic st.fdto UINT32_MAX }

/-! ## Combining two overlays: `fdt_overlay_merge` -/

/-- Modelled from the spec: `fdt_get_max_phandle` of libfdt: the result of
`fdt_find_max_phandle`, and `(uint32_t)-1` when that fails. -/
def fdt_get_max_phandle (fdt : Fdt) : Nat :=
  match fdt_find_max_phandle fdt with
  | .ok v => v
  | .error _ => UINT32_MAX

/-- Modelled from the spec: `fdt_check_header` of libfdt, the basic header
validation (magic and version). -/
def fdt_check_header (fdt : Fdt) : Except FdtErr Unit := fdt_ro_probe fdt

/-- The function `find_add_subnode` (`fdt_find_add_node` has the same body):
the subnode of that name, added when the lookup fails. -/
def find_add_subnode (fdt : Fdt) (parent_off : Offset) (node_name : Bytes) :
    Except FdtErr (Fdt × Offset) :=
  match fdt_subnode_offset fdt parent_off node_name with
  | .ok offset => .ok (fdt, offset)
  | .error _ => fdt_add_subnode fdt parent_off node_name

/-- The function `prop_exists_in_node`. -/
def prop_exists_in_node (fdt : Fdt) (path prop_name : Bytes) : Bool :=
  match fdt_path_offset fdt path with
  | .error _ => false
  | .ok offset =>
    match fdt_getprop fdt offset prop_name with
    | .ok _ => true
    | .error _ => false

/-- The function `get_next_component` on the bytes at `*p`: the number of
bytes consumed, separator included, which is what `*p` advances and `*len`
shrinks by; `none` for a null return, which leaves both as they were. -/
def get_next_component (p : Bytes) (len : Nat) (sep : Nat) : Option Nat :=
  match memchr p sep len with
  | none => none
  | some k => if len ≤ k + 1 then none else some (k + 1)

/-- The function `next_node` on the bytes at `*path`: the node name, the bytes
at the new `*path` and the new `*path_len`; `none` for a null return. -/
def next_node (path : Bytes) (path_len : Nat) : Option (Bytes × Bytes × Nat) :=
  if path.head? ≠ some 47 ∨ path_len = 0 then none
  else
    let node := path.drop 1
    let node_len := match memchr node 47 (path_len - 1) with
      | some k => k
      | none => path_len - 1
    some (node.take node_len, node.drop node_len, path_len - 1 - node_len)

/-- The loop of `find_node_str`.  A round consumes at least one byte of the
path, so `path_len + 1` rounds are never used up. -/
def find_node_loop (ip_str : Bytes) : Nat → Bytes → Nat → Bool
  | 0, _, _ => false
  | rounds + 1, path, path_len =>
    match next_node path path_len with
    | none => false
    | some r =>
      if r.1.length ≥ ip_str.length ∧ r.1.take ip_str.length = ip_str then true
      else find_node_loop ip_str rounds r.2.1 r.2.2

/-- The function `find_node_str`: some component of the path starts with
`ip_str`.  Both arguments are C strings. -/
def find_node_str (path_str ip_str : Bytes) : Bool :=
  find_node_loop (cstr ip_str) ((cstr path_str).length + 1) (cstr path_str)
    (cstr path_str).length

/-- The function `lookup_target_path`: the path in the base of the target of
the overlay's fragment `fragment`, as the C string left in `buf` (empty when
the target is the root), and the value left in `*root_path`. -/
def lookup_target_path (fdt fdto : Fdt) (fragment : Bytes) (buf_len : Nat) :
    Except FdtErr (Bytes × Bool) :=
  if fragment.length < 9 ∨ fragment.take 9 ≠ str "fragment@" then .error .BADOVERLAY
  else
    match fdt_subnode_offset fdto [] fragment with
    | .error _ => .error .BADOVERLAY
    | .ok offset =>
      match fdt_subnode_offset fdto offset (str "__overlay__") with
      | .error _ => .error .BADOVERLAY
      | .ok _ =>
        match overlay_get_target fdt fdto offset with
        | .error e => .error e
        | .ok tgt =>
          let lenr := match tgt.2 with
            | none => get_path_len fdt tgt.1
            | some target_path => .ok (cstr target_path).length
          match lenr with
          | .error e => .error e
          | .ok len =>
            if len ≥ buf_len then .error .INTERNAL
            else
              let bufr : Except FdtErr Bytes :=
                if len > 1 then
                  match tgt.2 with
                  | none => fdt_get_path fdt tgt.1 (len + 1)
                  | some target_path => .ok (cstr target_path)
                else .ok []
              match bufr with
              | .error e => .error e
              | .ok buf => .ok (buf, !(find_node_str buf (str "fragment@")))

/-- The end of `fixup_snippet_update`, from the computation of `rel_path_len`
on: `rel_off` is `rel_path - snippet_o`, `has_sep` tells whether `sep` is
non-null and `fragment_len` is the variable of that name.  The result is the
C string left in `buf`; the bytes that `memcpy` puts after its NUL are never
read. -/
def fixup_snippet_finish (fdt fdto : Fdt) (snippet : Bytes) (snippet_len buflen : Nat)
    (rel_off : Nat) (has_sep : Bool) (fragment_len : Nat) : Except FdtErr (Option Bytes) :=
  let rel_path_len := snippet_len - rel_off
  if rel_path_len = 0 ∨ fragment_len ≥ buflen then .error .INTERNAL
  else
    match lookup_target_path fdt fdto ((snippet.drop 1).take (fragment_len - 1)) buflen with
    | .error e => .error e
    | .ok r =>
      let buf := r.1
      let rel_path :=
        if find_node_str buf (str "__overlay__") ∧
            find_node_str (snippet.drop rel_off) (str "__overlay__") ∧ has_sep then
          snippet.drop (rel_off + 12)
        else snippet.drop rel_off
      if rel_path_len ≥ buflen - buf.length then .error .INTERNAL
      else .ok (some (cstr (buf ++ rel_path.take rel_path_len)))

/-- The function `fixup_snippet_update`: the fixup string `snippet`
(`snippet_len` bytes, its NUL included) of the overlay, rewritten for the
combined blob.  The result is `none` when `*ignore` is set and else the C
string left in `buf`. -/
def fixup_snippet_update (fdt fdto : Fdt) (snippet : Bytes) (snippet_len buflen : Nat)
    (base_symbol_found : Bool) : Except FdtErr (Option Bytes) :=
  match get_next_component snippet snippet_len 58 with
  | none => .error .BADOVERLAY
  | some c1 =>
    match get_next_component (snippet.drop c1) (snippet_len - c1) 58 with
    | none => .error .BADOVERLAY
    | some c2 =>
      let path_len := c1 - 1
      let prop_len := c2 - 1
      if path_len < 9 ∨ snippet.take 9 ≠ str "/fragment" then .error .BADOVERLAY
      else if base_symbol_found ∧ prop_len = 6 ∧ (snippet.drop c1).take 6 = str "target" then
        .ok none
      else
        match memchr (snippet.drop 1) 47 (path_len - 1) with
        | some k =>
          let fragment_len := k + 1
          if path_len - fragment_len < 12 ∨
              (snippet.drop fragment_len).take 12 ≠ str "/__overlay__" then
            .error .BADOVERLAY
          else
            match fdt_subnode_offset fdto [] ((snippet.drop 1).take (fragment_len - 1)) with
            | .error _ => .error .BADOVERLAY
            | .ok frag_offset =>
              match fdt_subnode_offset fdto frag_offset (str "__overlay__") with
              | .error _ => .error .BADOVERLAY
              | .ok _ =>
                fixup_snippet_finish fdt fdto snippet snippet_len buflen fragment_len true
                  fragment_len
        | none =>
          fixup_snippet_finish fdt fdto snippet snippet_len buflen path_len false path_len

/-- The function `add_to_fixups`: append the C string `v`, with its NUL, to
the property `label` of the base's `/__fixups__`, which is created when the
base has none. -/
def add_to_fixups (fdt : Fdt) (v label : Bytes) : Except (FdtErr × Fdt) Fdt :=
  let root_fixup : Except FdtErr (Fdt × Offset) :=
    match fdt_subnode_offset fdt [] (str "__fixups__") with
    | .ok offset => .ok (fdt, offset)
    | .error e =>
      if e = .NOTFOUND then fdt_add_subnode fdt [] (str "__fixups__") else .error e
  match root_fixup with
  | .error e => .error (e, fdt)
  | .ok r =>
    match fdt_getprop r.1 r.2 label with
    | .ok old =>
      match fdt_setprop_placeholder r.1 r.2 label (v.length + 1 + old.length) with
      | .error e => .error (e, r.1)
      | .ok fdt1 =>
        .ok (fdt_write_prop fdt1 r.2 label
          (write_at (peek_prop fdt1 r.2 label) old.length (v ++ [0])))
    | .error _ =>
      match fdt_setprop_placeholder r.1 r.2 label (v.length + 1) with
      | .error e => .error (e, r.1)
      | .ok fdt1 =>
        .ok (fdt_write_prop fdt1 r.2 label (write_at (peek_prop fdt1 r.2 label) 0 (v ++ [0])))

/-- Modelled from the spec: `fdt_appendprop_u32` of libfdt: the 4 bytes of
`val` are put after the bytes the property holds; the property is created
when the node does not have it. -/
def fdt_appendprop_u32 (fdt : Fdt) (nodeoffset : Offset) (name : Bytes) (val : Nat) :
    Except FdtErr Fdt :=
  match fdt_getprop fdt nodeoffset name with
  | .ok old =>
    match fdt_setprop_placeholder fdt nodeoffset name (old.length + 4) with
    | .error e => .error e
    | .ok fdt1 =>
      .ok (fdt_write_prop fdt1 nodeoffset name
        (write_at (peek_prop fdt1 nodeoffset name) old.length (cpu_to_fdt32 val)))
  | .error _ => fdt_setprop fdt nodeoffset name (cpu_to_fdt32 val)

/-- The loop `while ((node = next_node(...)))` of `add_to_local_fixups`: walk
down from `parent` along the path, adding the nodes that are missing.  A round
consumes at least one byte of the path, so `path_len + 1` rounds are never
used up. -/
def add_local_fixup_nodes : Nat → Fdt → Offset → Bytes → Nat →
    Except (FdtErr × Fdt) (Fdt × Offset)
  | 0, fdt, _, _, _ => .error (.INTERNAL, fdt)
  | rounds + 1, fdt, parent, path, path_len =>
    match next_node path path_len with
    | none => .ok (fdt, parent)
    | some r =>
      match fdt_subnode_offset fdt parent r.1 with
      | .ok offset => add_local_fixup_nodes rounds fdt offset r.2.1 r.2.2
      | .error _ =>
        match fdt_add_subnode fdt parent r.1 with
        | .error e => .error (e, fdt)
        | .ok a => add_local_fixup_nodes rounds a.1 a.2 r.2.1 r.2.2

/-- The function `add_to_local_fixups` on the C string `snippet`, which is
`path:name:offset` or a path alone: create the nodes of the path under the
base's `/__local_fixups__` and, in the first form, append the offset to the
property `name` of the last one.  The second component of the result is the
offset the function returns in the second form, `none` for a return of 0. -/
def add_to_local_fixups (fdt : Fdt) (snippet : Bytes) :
    Except (FdtErr × Fdt) (Fdt × Option Offset) :=
  let snippet_len := snippet.length
  match get_next_component snippet snippet_len 58 with
  | some c1 =>
    match get_next_component (snippet.drop c1) (snippet_len - c1) 58 with
    | none => .error (.BADOVERLAY, fdt)
    | some c2 =>
      let path_len := c1 - 1
      let prop_len := c2 - 1
      let prop_val := snippet.drop (c1 + c2)
      let r := strtoul prop_val
      if r.2 ≠ prop_val.length ∨ r.2 = 0 then .error (.BADOVERLAY, fdt)
      else
        match find_add_subnode fdt [] (str "__local_fixups__") with
        | .error e => .error (e, fdt)
        | .ok a =>
          match add_local_fixup_nodes (path_len + 1) a.1 a.2 snippet path_len with
          | .error e => .error e
          | .ok b =>
            if prop_len ≥ MAX_BUF_SIZE then .error (.INTERNAL, b.1)
            else if 0 ≥ prop_len then .error (.INTERNAL, b.1)
            else
              match fdt_appendprop_u32 b.1 b.2 ((snippet.drop c1).take prop_len)
                  (r.1 % 2 ^ 32) with
              | .error e => .error (e, b.1)
              | .ok fdt1 => .ok (fdt1, none)
  | none =>
    match find_add_subnode fdt [] (str "__local_fixups__") with
    | .error e => .error (e, fdt)
    | .ok a =>
      match add_local_fixup_nodes (snippet_len + 1) a.1 a.2 snippet snippet_len with
      | .error e => .error e
      | .ok b => .ok (b.1, some b.2)

/-- What one round of a loop of `overlay_fixups_update` leaves: the base, and
whether the function goes on (`stop` is a `return` of a value that is not an
error). -/
structure FixupsStep where
  fdt : Fdt
  stop : Bool

/-- The loop `while ((snippet = next_snippet(...)))` of
`overlay_fixups_update` over the fixup strings of one property of the
overlay's `/__fixups__`: `prop_val` are the bytes left and `prop_len` their
number.  A round consumes at least one byte, so `prop_len + 1` rounds are
never used up. -/
def overlay_fixups_snippets (fdto : Fdt) (label : Bytes) (base_symbol_found : Bool) :
    Nat → Bytes → Nat → Fdt → Except (FdtErr × Fdt) FixupsStep
  | 0, _, _, fdt => .error (.INTERNAL, fdt)
  | rounds + 1, prop_val, prop_len, fdt =>
    if prop_len = 0 then .ok { fdt := fdt, stop := false }
    else
      match memchr prop_val 0 prop_len with
      | none => .ok { fdt := fdt, stop := false }
      | some k =>
        match fixup_snippet_update fdt fdto (prop_val.take (k + 1)) (k + 1) MAX_BUF_SIZE
            base_symbol_found with
        | .error e => .error (e, fdt)
        | .ok none =>
          overlay_fixups_snippets fdto label base_symbol_found rounds (prop_val.drop (k + 1))
            (prop_len - (k + 1)) fdt
        | .ok (some new_val) =>
          if base_symbol_found then
            match add_to_local_fixups fdt new_val with
            | .error e => .error e
            | .ok r =>
              match r.2 with
              | some _ => .ok { fdt := r.1, stop := true }
              | none =>
                overlay_fixups_snippets fdto label base_symbol_found rounds
                  (prop_val.drop (k + 1)) (prop_len - (k + 1)) r.1
          else
            match add_to_fixups fdt new_val label with
            | .error e => .error e
            | .ok fdt1 =>
              overlay_fixups_snippets fdto label base_symbol_found rounds
                (prop_val.drop (k + 1)) (prop_len - (k + 1)) fdt1

/-- The loop `fdt_for_each_property_offset` of `overlay_fixups_update`; the
overlay is only read, so the properties of its `/__fixups__` are passed as a
list. -/
def overlay_fixups_props (fdto : Fdt) : List Property → Fdt → Except (FdtErr × Fdt) Fdt
  | [], fdt => .ok fdt
  | p :: ps, fdt =>
    match overlay_fixups_snippets fdto p.name
        (prop_exists_in_node fdt (str "/__symbols__") p.name) (p.val.length + 1) p.val
        p.val.length fdt with
    | .error e => .error e
    | .ok r => if r.stop then .ok r.fdt else overlay_fixups_props fdto ps r.fdt

/-- The function `overlay_fixups_update`: carry the fixup strings of the
overlay over to the base, into `/__fixups__` for a label the base does not
define and into `/__local_fixups__` for a label it defines. -/
def overlay_fixups_update (fdt fdto : Fdt) : Except (FdtErr × Fdt) Fdt :=
  match fdt_subnode_offset fdto [] (str "__fixups__") with
  | .error _ => .ok fdt
  | .ok ov_fixup =>
    match find_add_subnode fdt [] (str "__fixups__") with
    | .error e => .error (e, fdt)
    | .ok a =>
      match fdto.root.node_at ov_fixup with
      | none => .ok a.1
      | some n => overlay_fixups_props fdto n.props a.1

/-- The loop `fdt_for_each_subnode(node, fdto, ov_lfixups)` of
`overlay_local_fixups_update`; the overlay is only read, so the subnodes of
its `/__local_fixups__` are passed as a list. -/
def overlay_local_fixups_nodes (fdto : Fdt) : List Node → Fdt → Except (FdtErr × Fdt) Fdt
  | [], fdt => .ok fdt
  | node :: rest, fdt =>
    match lookup_target_path fdt fdto (cstr node.name) MAX_BUF_SIZE with
    | .error e => .error (e, fdt)
    | .ok r =>
      let skip_fdto_child := r.2 || find_node_str r.1 (str "__overlay__")
      match add_to_local_fixups fdt r.1 with
      | .error e => .error e
      | .ok a =>
        match subnode_index node.subnodes (str "__overlay__") with
        | none => .error (.BADOVERLAY, a.1)
        | some i =>
          match node.subnodes[i]? with
          | none => .error (.BADOVERLAY, a.1)
          | some child =>
            match copy_node a.1 (a.2.getD []) none skip_fdto_child child with
            | .error e => .error e
            | .ok fdt1 => overlay_local_fixups_nodes fdto rest fdt1

/-- The function `overlay_local_fixups_update`: carry the overlay's
`/__local_fixups__` over to the base, under the paths of the targets. -/
def overlay_local_fixups_update (fdt fdto : Fdt) : Except (FdtErr × Fdt) Fdt :=
  match fdt_subnode_offset fdto [] (str "__local_fixups__") with
  | .error e =>
    if e = .NOTFOUND then .ok fdt
    else
      match fdt_subnode_offset fdt [] (str "__local_fixups__") with
      | .ok _ => .ok fdt
      | .error e2 =>
        if e2 = .NOTFOUND then
          match fdt_add_subnode fdt [] (str "__local_fixups__") with
          | .error e3 => .error (e3, fdt)
          | .ok a => .ok a.1
        else .error (e2, fdt)
  | .ok ov_lfixups =>
    let root_lfixups : Except FdtErr (Fdt × Offset) :=
      match fdt_subnode_offset fdt [] (str "__local_fixups__") with
      | .ok offset => .ok (fdt, offset)
      | .error e =>
        if e = .NOTFOUND then fdt_add_subnode fdt [] (str "__local_fixups__") else .error e
    match root_lfixups with
    | .error e => .error (e, fdt)
    | .ok a =>
      match fdto.root.node_at ov_lfixups with
      | none => .ok a.1
      | some n => overlay_local_fixups_nodes fdto n.subnodes a.1

/-- What `fdt_overlay_merge` leaves behind: its return value (`none` for 0),
the two blobs and the value of `*fdto_nospace`. -/
structure MergeOutcome where
  ret : Option FdtErr
  fdt : Fdt
  fdto : Fdt
  fdto_nospace : Nat

/-- The label `err` of `fdt_overlay_merge`: erase the magic of the overlay
and, unless `*fdto_nospace` is set, the magic of the base. -/
def merge_err (ret : FdtErr) (fdt fdto : Fdt) (fdto_nospace : Nat) : MergeOutcome :=
  { ret := some ret,
    fdt := if fdto_nospace = 0 then fdt_set_magic fdt UINT32_MAX else fdt,
    fdto := fdt_set_magic fdto UINT32_MAX,
    fdto_nospace := fdto_nospace }

/-- The passes of `fdt_overlay_merge` from `overlay_merge` on: `max_phandle`
is `delta + delta0 + 1` as the 32-bit variable holds it. -/
def fdt_overlay_merge_tail (rounds : Nat) (fdt fdto : Fdt) (max_phandle : Nat) :
    Option MergeOutcome :=
  match overlay_merge fdt fdto (some max_phandle) with
  | .error e => some (merge_err e.1 e.2.fdt e.2.fdto 0)
  | .ok st =>
    match overlay_symbol_update rounds st.fdt st.fdto max_phandle with
    | none => none
    | some (.error e) => some (merge_err e.1 e.2 st.fdto 0)
    | some (.ok fdt5) =>
      let r6 : Except (FdtErr × Fdt) Fdt :=
        match overlay_fixups_update fdt5 st.fdto with
        | .error e => if e.1 ≠ .NOTFOUND then .error e else .ok e.2
        | .ok fdt6 => .ok fdt6
      match r6 with
      | .error e => some (merge_err e.1 e.2 st.fdto 0)
      | .ok fdt6 =>
        match overlay_local_fixups_update fdt6 st.fdto with
        | .error e =>
          if e.1 ≠ .NOTFOUND then some (merge_err e.1 e.2 st.fdto 0)
          else
            some { ret := none, fdt := e.2, fdto := fdt_set_magic st.fdto UINT32_MAX,
                   fdto_nospace := 0 }
        | .ok fdt7 =>
          some { ret := none, fdt := fdt7, fdto := fdt_set_magic st.fdto UINT32_MAX,
                 fdto_nospace := 0 }

/-- The passes of `fdt_overlay_merge`, after the check of the sum of the two
largest phandles: `delta` is the largest phandle of the base and `max_phandle`
the variable of that name. -/
def fdt_overlay_merge_passes (rounds : Nat) (fdt fdto : Fdt) (delta max_phandle : Nat) :
    Option MergeOutcome :=
  match overlay_adjust_local_phandles fdto delta with
  | .error e => some (merge_err e.1 fdt e.2 (if e.1 = .NOSPACE then 1 else 0))
  | .ok fdto1 =>
    match overlay_update_local_references fdto1 delta with
    | .error e => some (merge_err e.1 fdt e.2 (if e.1 = .NOSPACE then 1 else 0))
    | .ok fdto2 =>
      match overlay_fixup_phandles fdt fdto2 max_phandle with
      | .error e =>
        if e.1 ≠ .NOTFOUND then some (merge_err e.1 fdt e.2 0)
        else fdt_overlay_merge_tail rounds fdt e.2 max_phandle
      | .ok fdto3 => fdt_overlay_merge_tail rounds fdt fdto3 max_phandle

/-- The function `fdt_overlay_merge`.  The results of the two calls of
`fdt_check_header` are not looked at.  `rounds` bounds the rounds of the loop
of `overlay_symbol_update`; the result is `none` when they are used up. -/
def fdt_overlay_merge (rounds : Nat) (fdt fdto : Fdt) : Option MergeOutcome :=
  let delta := fdt_get_max_phandle fdt
  let delta0 := fdt_get_max_phandle fdto
  let _ := fdt_check_header fdt
  let _ := fdt_check_header fdto
  if UINT32_MAX - delta < delta0 then
    some { ret := some .BADOVERLAY, fdt := fdt, fdto := fdto, fdto_nospace := 0 }
  else
    fdt_overlay_merge_passes rounds fdt fdto delta ((delta + delta0 + 1) % 2 ^ 32)

/-! ## Example blobs -/

/-- A node given by its name, its properties and its subnodes, for the
examples below. -/
def nd (name : String) (ps : List (String × Bytes)) (ss : List Node) : Node :=
  .mk (str name) (ps.map fun p => { name := str p.1, val := p.2 }) ss

/-- A NUL-terminated string as a property value. -/
def zstr (s : String) : Bytes := str s ++ [0]

/-- A blob with a valid version-17 header, 1000 free bytes and an empty string
table around a tree. -/
def blob (r : Node) : Fdt :=
  { magic := FDT_MAGIC, version := 17, last_comp_version := 16, free := 1000,
    strings := [], root := r }

/-- A base tree whose root carries the phandle 1. -/
def base_root_phandle : Fdt := blob (nd "" [("phandle", [0, 0, 0, 1])] [])

/-- An empty overlay whose header does not carry the magic. -/
def overlay_bad_magic : Fdt := { blob (nd "" [] []) with magic := 0 }

/-- A base with a labelled node: `/soc/node` has phandle 7 and property `p`,
and `/__symbols__` names it `L`. -/
def base_soc : Fdt := blob (nd "" [] [
  nd "soc" [] [nd "node" [("phandle", [0, 0, 0, 7]), ("p", [1, 2])] []],
  nd "__symbols__" [("L", zstr "/soc/node")] []])

/-- An overlay whose fixup points 4 bytes into the 4-byte `target` of its
fragment. -/
def overlay_fixup_past_end : Fdt := blob (nd "" [] [
  nd "fragment@0" [("target", [0xFF, 0xFF, 0xFF, 0xFF])] [nd "__overlay__" [] []],
  nd "__fixups__" [("L", zstr "/fragment@0:target:4")] []])

/-- An overlay whose only symbol, `foo = "/foo"`, lies outside every
fragment. -/
def overlay_symbol_outside : Fdt := blob (nd "" [] [
  nd "__symbols__" [("foo", zstr "/foo")] []])

/-- An overlay without subnodes whose root carries a 3-byte `phandle`. -/
def overlay_root_short_phandle : Fdt := blob (nd "" [("phandle", [0, 0, 1])] [])

/-- An overlay without subnodes whose root carries the phandle 2. -/
def overlay_root_phandle : Fdt := blob (nd "" [("phandle", [0, 0, 0, 2])] [])

/-- An overlay that adds the node `x`, with phandle 1, under `/soc/node`. -/
def overlay_new_node : Fdt := blob (nd "" [] [
  nd "fragment@0" [("target-path", zstr "/soc/node")] [
    nd "__overlay__" [] [nd "x" [("phandle", [0, 0, 0, 1])] []]]])

/-- The overlay `overlay_new_node` after renumbering by 7. -/
def overlay_new_node_renumbered : Fdt := blob (nd "" [] [
  nd "fragment@0" [("target-path", zstr "/soc/node")] [
    nd "__overlay__" [] [nd "x" [("phandle", [0, 0, 0, 8])] []]]])

/-- An overlay with two fragments that both target `/soc/node` and both set
the property `p`. -/
def overlay_two_fragments : Fdt := blob (nd "" [] [
  nd "fragment@0" [("target-path", zstr "/soc/node")] [nd "__overlay__" [("p", [9])] []],
  nd "fragment@1" [("target-path", zstr "/soc/node")] [nd "__overlay__" [("p", [8])] []]])

/-- An overlay with one fragment that sets `p` on `/soc/node`. -/
def overlay_set_p : Fdt := blob (nd "" [] [
  nd "fragment@0" [("target-path", zstr "/soc/node")] [nd "__overlay__" [("p", [9])] []]])

/-- The base `base_soc` with `p` of `/soc/node` replaced by the byte 9. -/
def base_soc_p9 : Fdt := blob (nd "" [] [
  nd "soc" [] [nd "node" [("phandle", [0, 0, 0, 7]), ("p", [9])] []],
  nd "__symbols__" [("L", zstr "/soc/node")] []])

/-- A base whose node `/tgt` has the subnodes `c1`, with properties `a` and
`b`, and `c0`. -/
def base_children : Fdt := blob (nd "" [] [
  nd "tgt" [] [nd "c1" [("a", [1]), ("b", [2])] [], nd "c0" [] []]])

/-- An overlay whose fragment for `/tgt` holds the subnodes `c1`, with
properties `b` and `c`, and `c2`. -/
def overlay_children : Fdt := blob (nd "" [] [
  nd "fragment@0" [("target-path", zstr "/tgt")] [
    nd "__overlay__" [] [nd "c1" [("b", [3]), ("c", [4])] [], nd "c2" [("d", [5])] []]]])

/-- The base `base_children` after `overlay_children` has been applied. -/
def base_children_merged : Fdt :=
  { blob (nd "" [] [
      nd "tgt" [] [nd "c2" [("d", [5])] [],
        nd "c1" [("c", [4]), ("a", [1]), ("b", [3])] [], nd "c0" [] []]]) with
    free := 952, strings := [str "c", str "d"] }

/-- An overlay that adds the node `x`, with the phandle property 0, under the
root. -/
def overlay_zero_phandle : Fdt := blob (nd "" [] [
  nd "fragment@0" [("target-path", zstr "/")] [
    nd "__overlay__" [] [nd "x" [("phandle", [0, 0, 0, 0])] []]]])

/-- An overlay that adds the node `child` under the root; one fixup string
of label `L` points at byte 4 of its property `reg`. -/
def overlay_fixup_reg : Fdt := blob (nd "" [] [
  nd "fragment@0" [("target-path", zstr "/")] [
    nd "__overlay__" [] [nd "child" [("reg", [1, 1, 1, 1, 2, 2, 2, 2])] []]],
  nd "__fixups__" [("L", zstr "/fragment@0/__overlay__/child:reg:4")] []])

/-- The overlay `overlay_fixup_reg` with a second fixup string of label `L`,
which points at byte 0 of the same property. -/
def overlay_fixup_reg_twice : Fdt := blob (nd "" [] [
  nd "fragment@0" [("target-path", zstr "/")] [
    nd "__overlay__" [] [nd "child" [("reg", [1, 1, 1, 1, 2, 2, 2, 2])] []]],
  nd "__fixups__" [("L", zstr "/fragment@0/__overlay__/child:reg:0" ++
    zstr "/fragment@0/__overlay__/child:reg:4")] []])

/-- The overlay of the symbol example: `foo` names the node `bar` that
`fragment@0` adds under `/soc/node`. -/
def overlay_symbol_bar : Fdt := blob (nd "" [] [
  nd "fragment@0" [("target-path", zstr "/soc/node")] [nd "__overlay__" [] [nd "bar" [] []]],
  nd "__symbols__" [("foo", zstr "/fragment@0/__overlay__/bar")] []])

/-- The overlay `overlay_symbol_bar` with the target path written with a
trailing `/`. -/
def overlay_symbol_bar_slash : Fdt := blob (nd "" [] [
  nd "fragment@0" [("target-path", zstr "/soc/node/")] [nd "__overlay__" [] [nd "bar" [] []]],
  nd "__symbols__" [("foo", zstr "/fragment@0/__overlay__/bar")] []])

/-- The overlay `overlay_symbol_bar` with the fragment targeted through the
label `L` of the base (a `target` phandle resolved by a fixup). -/
def overlay_symbol_bar_phandle : Fdt := blob (nd "" [] [
  nd "fragment@0" [("target", [0xFF, 0xFF, 0xFF, 0xFF])] [nd "__overlay__" [] [nd "bar" [] []]],
  nd "__symbols__" [("foo", zstr "/fragment@0/__overlay__/bar")] [],
  nd "__fixups__" [("L", zstr "/fragment@0:target:0")] []])

/-- The base `base_soc` after `overlay_symbol_bar` has been applied. -/
def base_soc_bar_merged : Fdt :=
  { blob (nd "" [] [
      nd "soc" [] [nd "node" [("phandle", [0, 0, 0, 7]), ("p", [1, 2])] [nd "bar" [] []]],
      nd "__symbols__" [("foo", zstr "/soc/node/bar"), ("L", zstr "/soc/node")] []]) with
    free := 956, strings := [str "foo"] }

/-- The base `base_soc` after `overlay_new_node` has been applied. -/
def base_soc_new_node : Fdt :=
  { blob (nd "" [] [
      nd "soc" [] [nd "node" [("phandle", [0, 0, 0, 7]), ("p", [1, 2])]
        [nd "x" [("phandle", [0, 0, 0, 8])] []]],
      nd "__symbols__" [("L", zstr "/soc/node")] []]) with
    free := 1000 - 12 - 24, strings := [str "phandle"] }

/-- A blob whose tree is a root without properties and subnodes. -/
def blob_empty : Fdt := blob (nd "" [] [])

/-- An overlay whose fragment has both a `target` phandle, 7, and a
`target-path`, the root. -/
def overlay_both_targets : Fdt := blob (nd "" [] [
  nd "fragment@0" [("target", [0, 0, 0, 7]), ("target-path", zstr "/")] [
    nd "__overlay__" [("q", [9])] []]])

/-- An overlay whose only fragment has an `__overlay__` subnode and neither a
`target` nor a `target-path` property. -/
def overlay_no_target : Fdt := blob (nd "" [] [
  nd "fragment@0" [] [nd "__overlay__" [("q", [9])] []]])

/-- An overlay whose first fragment names a path that `base_soc` does not
have and whose second fragment has neither `target` nor `target-path`. -/
def overlay_lost_then_no_target : Fdt := blob (nd "" [] [
  nd "fragment@0" [("target-path", zstr "/nope")] [nd "__overlay__" [("q", [9])] []],
  nd "fragment@1" [] [nd "__overlay__" [("q", [9])] []]])

/-- An overlay whose only fragment has the `target` value `0xFFFFFFFF` that
no fixup resolves. -/
def overlay_bad_target : Fdt := blob (nd "" [] [
  nd "fragment@0" [("target", [0xFF, 0xFF, 0xFF, 0xFF])] [nd "__overlay__" [("q", [9])] []]])

/-- An overlay whose only fragment has a `target` property of three bytes. -/
def overlay_short_target : Fdt := blob (nd "" [] [
  nd "fragment@0" [("target", [0, 0, 7])] [nd "__overlay__" [("q", [9])] []]])

/-- An overlay whose symbol `foo` names the `__overlay__` node of the
fragment itself, which targets `/soc/node`. -/
def overlay_symbol_self : Fdt := blob (nd "" [] [
  nd "fragment@0" [("target-path", zstr "/soc/node")] [nd "__overlay__" [("q", [9])] []],
  nd "__symbols__" [("foo", zstr "/fragment@0/__overlay__")] []])

/-- The base `base_soc` after `overlay_symbol_self` has been applied. -/
def base_soc_symbol_self : Fdt :=
  { blob (nd "" [] [
      nd "soc" [] [nd "node" [("q", [9]), ("phandle", [0, 0, 0, 7]), ("p", [1, 2])] []],
      nd "__symbols__" [("foo", zstr "/soc/node/"), ("L", zstr "/soc/node")] []]) with
    free := 954, strings := [str "q", str "foo"] }

/-- The overlay `overlay_fixup_reg` with the offset of its fixup string
written with a leading blank: `reg: 4`. -/
def overlay_fixup_reg_blank : Fdt := blob (nd "" [] [
  nd "fragment@0" [("target-path", zstr "/")] [
    nd "__overlay__" [] [nd "child" [("reg", [1, 1, 1, 1, 2, 2, 2, 2])] []]],
  nd "__fixups__" [("L", zstr "/fragment@0/__overlay__/child:reg: 4")] []])

/-- The overlay `overlay_fixup_reg` with the offset of its fixup string
followed by a letter: `reg:4x`. -/
def overlay_fixup_reg_letter : Fdt := blob (nd "" [] [
  nd "fragment@0" [("target-path", zstr "/")] [
    nd "__overlay__" [] [nd "child" [("reg", [1, 1, 1, 1, 2, 2, 2, 2])] []]],
  nd "__fixups__" [("L", zstr "/fragment@0/__overlay__/child:reg:4x")] []])

/-- The overlay `overlay_fixup_reg` with a fixup string that names a property
`nope`, which the node `child` does not have. -/
def overlay_fixup_no_prop : Fdt := blob (nd "" [] [
  nd "fragment@0" [("target-path", zstr "/")] [
    nd "__overlay__" [] [nd "child" [("reg", [1, 1, 1, 1, 2, 2, 2, 2])] []]],
  nd "__fixups__" [("L", zstr "/fragment@0/__overlay__/child:nope:0")] []])

/-- The overlay `overlay_fixup_reg` with a fixup string that names a node
`ghost`, which the overlay does not have. -/
def overlay_fixup_no_node : Fdt := blob (nd "" [] [
  nd "fragment@0" [("target-path", zstr "/")] [
    nd "__overlay__" [] [nd "child" [("reg", [1, 1, 1, 1, 2, 2, 2, 2])] []]],
  nd "__fixups__" [("L", zstr "/fragment@0/__overlay__/ghost:reg:0")] []])

/-- The overlay `overlay_fixup_reg` with a first property of `/__fixups__`
whose string has no `:` at all. -/
def overlay_fixup_bad_then_reg : Fdt := blob (nd "" [] [
  nd "fragment@0" [("target-path", zstr "/")] [
    nd "__overlay__" [] [nd "child" [("reg", [1, 1, 1, 1, 2, 2, 2, 2])] []]],
  nd "__fixups__" [("K", zstr "nonsense"),
    ("L", zstr "/fragment@0/__overlay__/child:reg:4")] []])

/-- A base with the node `/soc/node`, which has no phandle, and the label `L`
for it. -/
def base_no_phandle : Fdt := blob (nd "" [] [
  nd "soc" [] [nd "node" [("p", [1, 2])] []],
  nd "__symbols__" [("L", zstr "/soc/node")] []])

/-- An overlay whose `/__local_fixups__` lists a node `b` that the real tree
does not have. -/
def overlay_local_no_node : Fdt := blob (nd "" [] [
  nd "a" [("x", [0, 0, 0, 1])] [],
  nd "__local_fixups__" [] [nd "a" [("x", [0, 0, 0, 0])] [], nd "b" [] []]])

/-- An overlay whose `/__local_fixups__` lists a property `y` that the real
node `a` does not have. -/
def overlay_local_no_prop : Fdt := blob (nd "" [] [
  nd "a" [("x", [0, 0, 0, 1])] [],
  nd "__local_fixups__" [] [nd "a" [("x", [0, 0, 0, 0]), ("y", [0, 0, 0, 0])] []]])

/-- An overlay whose `/__local_fixups__` has a property of 6 bytes. -/
def overlay_local_odd_length : Fdt := blob (nd "" [] [
  nd "a" [("x", [0, 0, 0, 1, 0, 0, 0, 2])] [],
  nd "__local_fixups__" [] [nd "a" [("x", [0, 0, 0, 0, 0, 0])] []]])

/-- An overlay whose `/__local_fixups__` lists the two cells of `x` of the
real node `a`. -/
def overlay_local_two_cells : Fdt := blob (nd "" [] [
  nd "a" [("x", [0, 0, 0, 1, 0, 0, 0, 2])] [],
  nd "__local_fixups__" [] [nd "a" [("x", [0, 0, 0, 0, 0, 0, 0, 4])] []]])

/-- An overlay whose `/__local_fixups__` lists a cell of its own subtree:
the subnode `__local_fixups__` of `/__local_fixups__` stands for
`/__local_fixups__` itself. -/
def overlay_local_self : Fdt := blob (nd "" [] [
  nd "a" [("x", [0, 0, 0, 1, 0, 0, 0, 2])] [],
  nd "__local_fixups__" [] [
    nd "__local_fixups__" [] [nd "a" [("x", [0, 0, 0, 0])] []],
    nd "a" [("x", [0, 0, 0, 0])] []]])

/-- The overlay `overlay_local_two_cells` after its local references have
been shifted by 4. -/
def overlay_local_two_cells_done : Fdt := blob (nd "" [] [
  nd "a" [("x", [0, 0, 0, 5, 0, 0, 0, 6])] [],
  nd "__local_fixups__" [] [nd "a" [("x", [0, 0, 0, 0, 0, 0, 0, 4])] []]])

/-- A base whose node `n` carries the phandle `0xFFFFFFFF`. -/
def base_max_phandle : Fdt := blob (nd "" [] [nd "n" [("phandle", [255, 255, 255, 255])] []])

/-- An overlay with one fragment, `fragment@0`, whose `target` is the
unresolved phandle `0xFFFFFFFF`. -/
def overlay_unresolved : Fdt := blob (nd "" [] [
  nd "fragment@0" [("target", [255, 255, 255, 255])] [nd "__overlay__" [("q", [9])] []]])

/-- A base with an empty root whose header does not carry the magic. -/
def base_bad_magic : Fdt := { blob (nd "" [] []) with magic := 0 }

/-- An overlay whose fragment targets the phandle 5. -/
def overlay_target_five : Fdt := blob (nd "" [] [
  nd "fragment@0" [("target", [0, 0, 0, 5])] [nd "__overlay__" [("q", [9])] []]])

/-- An overlay whose fragment carries a `target-path` naming a node that
`base_soc` does not have. -/
def overlay_target_path_missing : Fdt := blob (nd "" [] [
  nd "fragment@0" [("target-path", zstr "/nowhere")] [nd "__overlay__" [("q", [9])] []]])

/-- A base that is itself an overlay: one fragment, `fragment@0`, with an
unresolved target. -/
def base_fragment_zero : Fdt := blob (nd "" [] [
  nd "fragment@0" [("target", [255, 255, 255, 255])] [nd "__overlay__" [("a", [1])] []]])

/-- An overlay with the fragments `fragment@1` and `fragment@0`, in that
order, both with an unresolved target. -/
def overlay_one_then_zero : Fdt := blob (nd "" [] [
  nd "fragment@1" [("target", [255, 255, 255, 255])] [nd "__overlay__" [("b", [2])] []],
  nd "fragment@0" [("target", [255, 255, 255, 255])] [nd "__overlay__" [("c", [3])] []]])

/-- A base whose fragment `fragment@1` has a subnode before `__overlay__`. -/
def base_fragment_one_late : Fdt := blob (nd "" [] [
  nd "fragment@1" [("target", [255, 255, 255, 255])]
    [nd "extra" [] [], nd "__overlay__" [("a", [1])] []]])

/-- The base `base_fragment_zero` after the first fragment of
`overlay_one_then_zero` has been copied into it. -/
def base_fragment_zero_copied_one : Fdt :=
  { blob (nd "" [] [
      nd "fragment@2" [("phandle", [0, 0, 0, 1]), ("target", [255, 255, 255, 255])]
        [nd "__overlay__" [("b", [2])] []],
      nd "fragment@0" [("target", [255, 255, 255, 255])] [nd "__overlay__" [("a", [1])] []]])
    with free := 895, strings := [str "target", str "b", str "phandle"] }

/-- The overlay `overlay_one_then_zero` after its first fragment has been
copied into the base. -/
def overlay_one_then_zero_copied_one : Fdt := blob (nd "" [] [
  nd "fragment@1" [("target", [0, 0, 0, 1])] [nd "__overlay__" [("b", [2])] []],
  nd "fragment@0" [("target", [255, 255, 255, 255])] [nd "__overlay__" [("c", [3])] []]])

/-- The base `base_fragment_zero` after both fragments of
`overlay_one_then_zero` have been copied into it. -/
def base_fragment_zero_copied_two : Fdt :=
  { blob (nd "" [] [
      nd "fragment@2"
        [("phandle", [0, 0, 0, 2]), ("target", [255, 255, 255, 255, 255, 255, 255, 255])]
        [nd "__overlay__" [("c", [3]), ("b", [2])] []],
      nd "fragment@0" [("target", [255, 255, 255, 255])] [nd "__overlay__" [("a", [1])] []]])
    with free := 873, strings := [str "target", str "b", str "phandle", str "c"] }

/-- The overlay `overlay_one_then_zero` after both its fragments have been
copied into the base. -/
def overlay_one_then_zero_copied_two : Fdt := blob (nd "" [] [
  nd "fragment@1" [("target", [0, 0, 0, 1])] [nd "__overlay__" [("b", [2])] []],
  nd "fragment@0" [("target", [0, 0, 0, 2])] [nd "__overlay__" [("c", [3])] []]])

/-- An overlay node `node` with the property `p` and a subnode `sub`. -/
def node_p8 : Node := nd "node" [("p", [8])] [nd "sub" [("q", [3])] []]

/-- A base whose node `/tgt` carries the phandle 5, with an empty
`/__symbols__`. -/
def base_tgt : Fdt := blob (nd "" [] [
  nd "tgt" [("phandle", [0, 0, 0, 5])] [], nd "__symbols__" [] []])

/-- An overlay whose fragment targets the phandle 5, with the symbol `a` for
the node `x` of the fragment listed before the symbol `b` for the fragment's
`__overlay__` node itself. -/
def overlay_symbols_a_b : Fdt := blob (nd "" [] [
  nd "fragment@0" [("target", [0, 0, 0, 5])] [nd "__overlay__" [] [nd "x" [] []]],
  nd "__symbols__" [("a", zstr "/fragment@0/__overlay__/x"),
    ("b", zstr "/fragment@0/__overlay__")] []])

/-- The overlay `overlay_symbols_a_b` without the symbol `a`. -/
def overlay_symbols_b : Fdt := blob (nd "" [] [
  nd "fragment@0" [("target", [0, 0, 0, 5])] [nd "__overlay__" [] [nd "x" [] []]],
  nd "__symbols__" [("b", zstr "/fragment@0/__overlay__")] []])

/-- A base with the node `/m`, of phandle 3 and labelled `L2`, and the node
`/n`, of phandle 7. -/
def base_m_n : Fdt := blob (nd "" [] [
  nd "m" [("phandle", [0, 0, 0, 3])] [],
  nd "n" [("phandle", [0, 0, 0, 7])] [],
  nd "__symbols__" [("L2", zstr "/m")] []])

/-- An overlay whose `/__fixups__` lists the label `L1`, for the `target` of
its fragment, before the label `L2`, for the property `p` of the fragment's
`__overlay__`. -/
def overlay_fixups_l1_l2 : Fdt := blob (nd "" [] [
  nd "fragment@0" [("target", [255, 255, 255, 255])]
    [nd "__overlay__" [("p", [255, 255, 255, 255])] []],
  nd "__fixups__" [("L1", zstr "/fragment@0:target:0"),
    ("L2", zstr "/fragment@0/__overlay__:p:0")] []])

/-- The first property of the `/__fixups__` of `overlay_fixups_l1_l2`. -/
def fixups_prop_l1 : Property := { name := str "L1", val := zstr "/fragment@0:target:0" }

/-- An overlay that lists the label `L1` in its `/__fixups__`, for the
property `p` of its fragment's `__overlay__`, and defines it in its own
`/__symbols__` as that `__overlay__`. -/
def overlay_fixups_own_l1 : Fdt := blob (nd "" [] [
  nd "fragment@0" [("target", [255, 255, 255, 255])]
    [nd "__overlay__" [("p", [255, 255, 255, 255])] []],
  nd "__fixups__" [("L1", zstr "/fragment@0/__overlay__:p:0")] [],
  nd "__symbols__" [("L1", zstr "/fragment@0/__overlay__")] []])

/-! ## Functional descriptions of the passes

Pure functions on trees that say what a pass leaves behind when it returns 0;
the theorems below relate the embedded code to them. -/

/-- The properties of a node after a successful `overlay_phandle_add_offset`
on property `name`: its first occurrence holds the old value plus `delta`; a
node without the property is left alone. -/
def renumber_prop (ps : List Property) (name : Bytes) (delta : Nat) : List Property :=
  match prop_find ps name with
  | some val => prop_set ps name (cpu_to_fdt32 ((fdt32_to_cpu val + delta) % 2 ^ 32))
  | none => ps

/-- The properties of a node after the renumbering of `phandle` and of
`linux,phandle`. -/
def renumber_props (ps : List Property) (delta : Nat) : List Property :=
  renumber_prop (renumber_prop ps (str "phandle") delta) (str "linux,phandle") delta

mutual
/-- A subtree with `delta` added to the phandle properties of each node. -/
def Node.renumbered (delta : Nat) : Node → Node
  | .mk n ps ss => .mk n (renumber_props ps delta) (Node.renumbered_list delta ss)
/-- The subtrees of a list, renumbered. -/
def Node.renumbered_list (delta : Nat) : List Node → List Node
  | [] => []
  | c :: cs => c.renumbered delta :: Node.renumbered_list delta cs
end

/-- The checks that `overlay_phandle_add_offset` makes on property `name`
before it writes: 4 bytes, no 32-bit overflow, not the invalid phandle. -/
def renumber_accepts (ps : List Property) (name : Bytes) (delta : Nat) : Prop :=
  ∀ val, prop_find ps name = some val →
    val.length = 4 ∧ ¬ (fdt32_to_cpu val + delta) % 2 ^ 32 < fdt32_to_cpu val ∧
      (fdt32_to_cpu val + delta) % 2 ^ 32 ≠ UINT32_MAX

/-- A blob with its tree replaced. -/
def Fdt.with_root (fdt : Fdt) (r : Node) : Fdt := { fdt with root := r }

/-- The properties of a node after `fdt_setprop name v`: the first property
of that name holds `v`, or a new one is placed in front. -/
def set_or_add (tps : List Property) (name v : Bytes) : List Property :=
  match prop_find tps name with
  | some _ => prop_set tps name v
  | none => { name := name, val := v } :: tps

/-- The properties of a target after the properties of an overlay node have
been set on it in order. -/
def merge_props : List Property → List Property → List Property
  | tps, [] => tps
  | tps, p :: ps => merge_props (set_or_add tps p.name p.val) ps

mutual
/-- The target node `t` after an overlay node has been merged into it: its
properties are set or added, its subnodes merged by name. -/
def Node.merged : Node → Node → Node
  | t, .mk _ props subs =>
    .mk t.name (merge_props t.props props) (Node.merged_subnodes t.subnodes subs)
/-- The subnodes of a target after the subnodes of an overlay node have been
merged into them in order: a subnode of the same name is reused, a missing one
is created in front. -/
def Node.merged_subnodes : List Node → List Node → List Node
  | tsubs, [] => tsubs
  | tsubs, c :: cs =>
    match subnode_index tsubs c.name with
    | none => Node.merged_subnodes (Node.merged (.mk c.name [] []) c :: tsubs) cs
    | some j =>
      match tsubs[j]? with
      | none => Node.merged_subnodes tsubs cs
      | some t => Node.merged_subnodes (tsubs.set j (Node.merged t c)) cs
end

/-- Two blobs with the same header fields. -/
def Fdt.same_header (a b : Fdt) : Prop :=
  a.magic = b.magic ∧ a.version = b.version ∧ a.last_comp_version = b.last_comp_version

/-- The properties of a node after `fdt_setprop_placeholder name len`. -/
def placeholder_props (tps : List Property) (name : Bytes) (len : Nat) : List Property :=
  match prop_find tps name with
  | some old => prop_set tps name (resize_val old len)
  | none => { name := name, val := List.replicate len 0 } :: tps

/-- The node reached from `n` by following subnode names, each naming the
first subnode of that name. -/
def Node.lookup : Node → List Bytes → Option Node
  | n, [] => some n
  | n, seg :: segs =>
    match subnode_index n.subnodes seg with
    | none => none
    | some i =>
      match n.subnodes[i]? with
      | none => none
      | some c => c.lookup segs

/-- Nothing of `a` is missing from `b`: every node that a list of names
reaches in `a` is reached by the same names in `b`, has the same name there
and still has each of its property names. -/
def Node.kept (a b : Node) : Prop :=
  ∀ (segs : List Bytes) (n : Node), a.lookup segs = some n →
    ∃ n1, b.lookup segs = some n1 ∧ n1.name = n.name ∧
      ∀ name, prop_find n.props name ≠ none → prop_find n1.props name ≠ none

/-- The content of the overlay node `ov` is present in `t`: every node that a
list of names reaches below `ov` is reached by the same names below `t` and
has each of its property names there. -/
def Node.covers (t ov : Node) : Prop :=
  ∀ (segs : List Bytes) (n : Node), ov.lookup segs = some n →
    ∃ n1, t.lookup segs = some n1 ∧
      ∀ name, prop_find n.props name ≠ none → prop_find n1.props name ≠ none

mutual
/-- The node with every property erased: what is left are the names and the
order of the nodes. -/
def Node.skel : Node → Node
  | .mk nm _ ss => .mk nm [] (Node.skel_list ss)
/-- The function `Node.skel` along a list of subnodes. -/
def Node.skel_list : List Node → List Node
  | [] => []
  | c :: cs => c.skel :: Node.skel_list cs
end

/-- A property with its value blanked: the name and the length are left. -/
def Property.blank (p : Property) : Property :=
  { name := p.name, val := List.replicate p.val.length 0 }

mutual
/-- The node with every property value blanked: what is left are the names
and the order of the nodes and of the properties, and the length of each
property. -/
def Node.layout : Node → Node
  | .mk nm ps ss => .mk nm (ps.map Property.blank) (Node.layout_list ss)
/-- The function `Node.layout` along a list of subnodes. -/
def Node.layout_list : List Node → List Node
  | [] => []
  | c :: cs => c.layout :: Node.layout_list cs
end

/-- The offsets that the pass accepts in a fixup string: what `strtoul` reads
to the end of the string, that is white space, then an optional sign, then at
least one decimal digit. -/
def fixup_offset_wf (num : Bytes) : Prop :=
  ∃ ws sign digits, num = ws ++ sign ++ digits ∧ (∀ b ∈ ws, isspace b = true) ∧
    (sign = [] ∨ sign = [43] ∨ sign = [45]) ∧ digits ≠ [] ∧ ∀ b ∈ digits, isdigit b = true

/-- The fixup strings that the pass accepts: `path:name:offset` with no `:` in
the path and in the name, a name that is not empty and an offset in the syntax
of `fixup_offset_wf`; the string holds no NUL. -/
def fixup_string_wf (s : Bytes) : Prop :=
  ∃ path name num, s = path ++ 58 :: (name ++ 58 :: num) ∧ (∀ b ∈ s, b ≠ 0) ∧
    (∀ b ∈ path, b ≠ 58) ∧ (∀ b ∈ name, b ≠ 58) ∧ name ≠ [] ∧ fixup_offset_wf num

/-- What the spec asks of one property of a node of `/__local_fixups__`,
against the real node `tree` it corresponds to: a length that is a multiple
of 4 and a property of the same name on `tree`. -/
def local_fixup_prop_ok (tree : Node) (p : Property) : Bool :=
  p.val.length % 4 = 0 && (prop_find tree.props p.name).isSome

mutual
/-- What the spec asks of the shape of a fixups tree against the real tree
`tree` it corresponds to: every property is as `local_fixup_prop_ok` has it,
and every subnode has a node of the same name at the corresponding place of
the real tree, which it matches in turn. -/
def Node.local_fixups_match : Node → Node → Bool
  | .mk _ ps ss, tree =>
    ps.all (local_fixup_prop_ok tree) && Node.local_fixups_match_list ss tree
/-- The function `Node.local_fixups_match` along the subnodes of a fixup
node. -/
def Node.local_fixups_match_list : List Node → Node → Bool
  | [], _ => true
  | c :: cs, tree =>
    (match subnode_index tree.subnodes c.name with
      | none => false
      | some i =>
        match tree.subnodes[i]? with
        | none => false
        | some t => Node.local_fixups_match c t) &&
      Node.local_fixups_match_list cs tree
end

/-- One cell that `/__local_fixups__` lists: the offset of the real node, the
name of the property and the byte offset in its value. -/
structure LocalFixup where
  node : Offset
  name : Bytes
  off : Nat
  deriving DecidableEq, Repr

/-- The cells that a fixup property of value `val` lists for the property
`name` of the real node at `node`: one for each of its 32-bit words, `n` of
them from the word of index `i` on. -/
def local_fixup_cells (node : Offset) (name : Bytes) (val : Bytes) :
    Nat → Nat → List LocalFixup
  | 0, _ => []
  | n + 1, i =>
    { node := node, name := name, off := fdt32_to_cpu (val.drop (4 * i)) } ::
      local_fixup_cells node name val n (i + 1)

/-- The cells that the properties of a fixup node list for the real node at
`node`. -/
def local_fixup_props (node : Offset) : List Property → List LocalFixup
  | [] => []
  | p :: ps =>
    local_fixup_cells node p.name p.val (p.val.length / 4) 0 ++ local_fixup_props node ps

mutual
/-- The cells that a fixups tree lists, as the spec has it: for each fixup
property at a relative path with name `N`, and each offset `o` it lists, the
cell `o` of the property `N` of the real node at that path.  The second
argument is the real node, the third its offset. -/
def Node.local_listed : Node → Node → Offset → List LocalFixup
  | .mk _ ps ss, tree, node =>
    local_fixup_props node ps ++ Node.local_listed_list ss tree node
/-- The function `Node.local_listed` along the subnodes of a fixup node. -/
def Node.local_listed_list : List Node → Node → Offset → List LocalFixup
  | [], _, _ => []
  | c :: cs, tree, node =>
    (match subnode_index tree.subnodes c.name with
      | none => []
      | some i =>
        match tree.subnodes[i]? with
        | none => []
        | some t => Node.local_listed c t (node ++ [i])) ++
      Node.local_listed_list cs tree node
end

/-- Index of the first property with the given name. -/
def prop_index : List Property → Bytes → Option Nat
  | [], _ => none
  | p :: ps, name => if p.name = name then some 0 else (prop_index ps name).map (· + 1)

/-- Index, among the properties of the node at `node`, of the property that
`fdt_getprop` returns for `name`. -/
def fdt_prop_index (fdt : Fdt) (node : Offset) (name : Bytes) : Option Nat :=
  (fdt.root.node_at node).bind (fun n => prop_index n.props name)

/-- The byte `j` of the property of index `k` of the node at `q` lies in the
cell of `e`. -/
def LocalFixup.covers (fdto : Fdt) (e : LocalFixup) (q : Offset) (k j : Nat) : Prop :=
  e.node = q ∧ fdt_prop_index fdto q e.name = some k ∧ e.off ≤ j ∧ j < e.off + 4

/-- Two listed cells do not overlap: they lie in different properties, or 4
bytes apart. -/
abbrev LocalFixup.apart (a b : LocalFixup) : Prop :=
  a.node = b.node → a.name = b.name → a.off + 4 ≤ b.off ∨ b.off + 4 ≤ a.off

/-- What the spec asks of one listed cell: the 32-bit value at its place,
plus `delta`, written back in place. -/
def local_cell_update (delta : Nat) (fdto : Fdt) (e : LocalFixup) : Fdt :=
  fdt_write_prop fdto e.node e.name
    (write_at (peek_prop fdto e.node e.name) e.off
      (cpu_to_fdt32 ((fdt32_to_cpu ((peek_prop fdto e.node e.name).drop e.off) + delta)
        % 2 ^ 32)))

/-- Two offsets part ways at some depth: neither node is the other or above
it. -/
def offsets_apart (p q : Offset) : Prop :=
  ∃ (m : Nat) (a b : Nat), p[m]? = some a ∧ q[m]? = some b ∧ a ≠ b

/-- Value of a string of decimal digits read from the left, from `acc` on. -/
def digits_value (ds : Bytes) (acc : Nat) : Nat :=
  ds.foldl (fun a c => a * 10 + (c - 48)) acc

/-- The root children that `count_fragments` counts: the name starts with
`fragment@` and the name of the first subnode starts with `__overlay__`. -/
def Node.is_counted_fragment (c : Node) : Bool :=
  decide (9 ≤ c.name.length) && decide (c.name.take 9 = str "fragment@") &&
    match c.subnodes with
    | [] => false
    | child :: _ =>
      decide (11 ≤ child.name.length) && decide (child.name.take 11 = str "__overlay__")

/-- The target phandle of a fragment node, as `overlay_get_target_phandle`
reads it from the node. -/
def Node.target_phandle (c : Node) : Nat :=
  match prop_find c.props (str "target") with
  | none => 0
  | some val =>
    if val.length ≠ 4 ∨ fdt32_to_cpu val = UINT32_MAX then UINT32_MAX else fdt32_to_cpu val

/-- The fragments that the loop of `overlay_merge` copies into the base in
merge mode: they have an `__overlay__` subnode and their target phandle is
`(uint32_t)-1`. -/
def Node.is_unresolved (c : Node) : Bool :=
  (subnode_index c.subnodes (str "__overlay__")).isSome &&
    decide (c.target_phandle = UINT32_MAX)

/-- The properties of a destination node after `copy_node` copied the
properties of an overlay node onto it in order: a value is written after the
value the destination holds under that name, a property the destination does
not have is placed in front. -/
def copy_props : List Property → List Property → List Property
  | tps, [] => tps
  | tps, p :: ps =>
    copy_props (set_or_add tps p.name ((prop_find tps p.name).getD [] ++ p.val)) ps

mutual
/-- The destination node `t` after `copy_node` copied the content of an overlay
node into it: the properties are copied onto its properties, the subnodes into
its subnodes by name. -/
def Node.copied : Node → Node → Node
  | t, .mk _ props subs =>
    .mk t.name (copy_props t.props props) (Node.copied_subnodes t.subnodes subs)
/-- The subnodes of a destination after the subnodes of an overlay node have
been copied into them in order: a subnode of the same name is reused, a
missing one is created in front. -/
def Node.copied_subnodes : List Node → List Node → List Node
  | tsubs, [] => tsubs
  | tsubs, c :: cs =>
    match subnode_index tsubs c.name with
    | none => Node.copied_subnodes (Node.copied (.mk c.name [] []) c :: tsubs) cs
    | some j =>
      match tsubs[j]? with
      | none => Node.copied_subnodes tsubs cs
      | some t => Node.copied_subnodes (tsubs.set j (Node.copied t c)) cs
end

/-- The first subnode of a given name in a list of subnodes. -/
def find_child (ss : List Node) (name : Bytes) : Option Node :=
  match subnode_index ss name with
  | none => none
  | some i => ss[i]?

/-- The subnode of a given name as a destination of `copy_node`: the first
subnode of that name, or a node without content when there is none. -/
def old_child (ss : List Node) (name : Bytes) : Node :=
  (find_child ss name).getD (.mk name [] [])

mutual
/-- The node `res` holds a copy of the overlay node on top of the node `old`:
each property of the overlay node has in `res` the value that `old` has under
that name (nothing when it has none) followed by the overlay's value, and each
subnode of the overlay node is held by the subnode of `res` of that name, on
top of the subnode of `old` of that name. -/
def Node.holds_copy : Node → Node → Node → Bool
  | old, .mk _ ps ss, res =>
    ps.all (fun p => decide (prop_find res.props p.name
        = some ((prop_find old.props p.name).getD [] ++ p.val))) &&
      Node.holds_copy_list old ss res
/-- The function `Node.holds_copy` along the subnodes of the overlay node. -/
def Node.holds_copy_list : Node → List Node → Node → Bool
  | _, [], _ => true
  | old, c :: cs, res =>
    (match find_child res.subnodes c.name with
      | none => false
      | some r => Node.holds_copy (old_child old.subnodes c.name) c r) &&
      Node.holds_copy_list old cs res
end

mutual
/-- No node of the tree has two properties of the same name or two subnodes of
the same name. -/
def Node.unique_names : Node → Bool
  | .mk _ ps ss =>
    decide ((ps.map Property.name).Nodup) && decide ((ss.map Node.name).Nodup) &&
      Node.unique_names_list ss
/-- The function `Node.unique_names` along a list of nodes. -/
def Node.unique_names_list : List Node → Bool
  | [] => true
  | c :: cs => c.unique_names && Node.unique_names_list cs
end

/-- The round with the variable `rel_path_olay` that it hands to the next
round replaced; a round that did not complete is left as it is. -/
def SymStep.set_olay : SymStep → Option Bytes → SymStep
  | .next fdt _, olay => .next fdt olay
  | s, _ => s

/-! ## Theorems

### Basic facts about the tree accessor -/

@[simp] theorem Node.name_mk (n : Bytes) (ps : List Property) (ss : List Node) :
    (Node.mk n ps ss).name = n := rfl

@[simp] theorem Node.props_mk (n : Bytes) (ps : List Property) (ss : List Node) :
    (Node.mk n ps ss).props = ps := rfl

@[simp] theorem Node.subnodes_mk (n : Bytes) (ps : List Property) (ss : List Node) :
    (Node.mk n ps ss).subnodes = ss := rfl

theorem prop_find_prop_set_same (ps : List Property) (name v : Bytes)
    (h : prop_find ps name ≠ none) : prop_find (prop_set ps name v) name = some v := by
  induction ps with
  | nil => simp [prop_find] at h
  | cons p ps ih =>
    by_cases hp : p.name = name
    · simp [prop_set, prop_find, hp]
    · simp [prop_find, hp] at h
      simp [prop_set, prop_find, hp, ih h]

theorem prop_find_prop_set_other (ps : List Property) (name v other : Bytes)
    (h : other ≠ name) : prop_find (prop_set ps name v) other = prop_find ps other := by
  induction ps with
  | nil => simp [prop_set]
  | cons p ps ih =>
    by_cases hp : p.name = name
    · have hne : ¬ name = other := fun e => h e.symm
      simp [prop_set, prop_find, hp, hne]
    · simp [prop_set, prop_find, hp, ih]

theorem node_at_update_at_same (f : Node → Node) :
    ∀ (p : Offset) (root n : Node), root.node_at p = some n →
      (root.update_at p f).node_at p = some (f n) := by
  intro p
  induction p with
  | nil => intro root n h; simp [Node.node_at] at h; simp [Node.update_at, Node.node_at, h]
  | cons i rest ih =>
    intro root n h
    simp only [Node.node_at] at h
    cases hc : root.subnodes[i]? with
    | none => simp [hc] at h
    | some c =>
      simp only [hc] at h
      have hi : i < root.subnodes.length := by
        by_contra hlt
        have := List.getElem?_eq_none (Nat.le_of_not_lt hlt)
        simp [this] at hc
      simp only [Node.update_at, hc, Node.node_at, Node.subnodes_mk]
      rw [List.getElem?_set_self hi]
      exact ih c n h

theorem fdt32_to_cpu_lt (b : Bytes) : fdt32_to_cpu b < 2 ^ 32 := by
  unfold fdt32_to_cpu
  have h0 := Nat.mod_lt (b.getD 0 0) (by norm_num : 256 > 0)
  have h1 := Nat.mod_lt (b.getD 1 0) (by norm_num : 256 > 0)
  have h2 := Nat.mod_lt (b.getD 2 0) (by norm_num : 256 > 0)
  have h3 := Nat.mod_lt (b.getD 3 0) (by norm_num : 256 > 0)
  norm_num
  omega

theorem fdt32_to_cpu_cpu_to_fdt32 (v : Nat) (h : v < 2 ^ 32) :
    fdt32_to_cpu (cpu_to_fdt32 v) = v := by
  simp [fdt32_to_cpu, cpu_to_fdt32] 
  omega

theorem write_at_zero_full : ∀ (bs ds : Bytes), bs.length = ds.length → write_at bs 0 ds = ds := by
  intro bs
  induction bs with
  | nil => intro ds h; cases ds with
    | nil => rfl
    | cons d ds => simp at h
  | cons b bs ih => intro ds h; cases ds with
    | nil => simp at h
    | cons d ds => simp at h; simp [write_at, ih ds h]

/-! ### Renumbering one phandle -/

theorem fdt_getprop_write_prop_same (fdt : Fdt) (node : Offset) (name val v : Bytes)
    (h : fdt_getprop fdt node name = .ok val) :
    fdt_getprop (fdt_write_prop fdt node name v) node name = .ok v := by
  unfold fdt_getprop at h ⊢
  cases hn : fdt.root.node_at node with
  | none => simp [hn] at h
  | some n =>
    simp only [hn] at h
    cases hp : prop_find n.props name with
    | none => simp [hp] at h
    | some w =>
      have hu := node_at_update_at_same (fun m => m.set_prop_val name v) node fdt.root n hn
      simp only [fdt_write_prop]
      rw [hu]
      simp only [Node.set_prop_val, Node.props_mk]
      rw [prop_find_prop_set_same n.props name v (by simp [hp])]

theorem fdt_setprop_inplace_u32_ok (fdt : Fdt) (node : Offset) (name val : Bytes) (v : Nat)
    (h : fdt_getprop fdt node name = .ok val) (hlen : val.length = 4) :
    fdt_setprop_inplace_u32 fdt node name v
      = .ok (fdt_write_prop fdt node name (cpu_to_fdt32 v)) := by
  have hl : (cpu_to_fdt32 v).length = 4 := rfl
  have hw : write_at val 0 (cpu_to_fdt32 v) = cpu_to_fdt32 v :=
    write_at_zero_full val (cpu_to_fdt32 v) (by rw [hlen, hl])
  unfold fdt_setprop_inplace_u32 fdt_setprop_inplace_namelen_partial
  simp [h, hlen, hl, hw]

/-- C10: on a node whose property `name` (`phandle` or `linux,phandle`) is 4
bytes long with value `v`, `overlay_phandle_add_offset` with a 32-bit `delta`
fails with `NOPHANDLES` exactly when `v + delta >= 0xFFFFFFFF` as natural
numbers, and otherwise succeeds and leaves the property holding exactly
`v + delta`; a property of any other size is rejected with `BADPHANDLE`. -/
theorem overlay_phandle_add_offset_spec (fdt : Fdt) (node : Offset) (name val : Bytes)
    (delta : Nat) (hval : fdt_getprop fdt node name = .ok val) (hd : delta < 2 ^ 32) :
    (val.length ≠ 4 → overlay_phandle_add_offset fdt node name delta = .error .BADPHANDLE) ∧
    (val.length = 4 →
      (overlay_phandle_add_offset fdt node name delta = .error .NOPHANDLES
          ↔ fdt32_to_cpu val + delta ≥ 0xFFFFFFFF) ∧
      (fdt32_to_cpu val + delta < 0xFFFFFFFF →
        ∃ fdt1, overlay_phandle_add_offset fdt node name delta = .ok fdt1 ∧
          fdt_getprop fdt1 node name = .ok (cpu_to_fdt32 (fdt32_to_cpu val + delta)) ∧
          fdt32_to_cpu (cpu_to_fdt32 (fdt32_to_cpu val + delta))
            = fdt32_to_cpu val + delta)) := by
  have hv := fdt32_to_cpu_lt val
  constructor
  · intro hlen
    simp [overlay_phandle_add_offset, hval, hlen]
  · intro hlen
    have hmod : (fdt32_to_cpu val + delta) % 2 ^ 32 < fdt32_to_cpu val
        ↔ 2 ^ 32 ≤ fdt32_to_cpu val + delta := by
      norm_num at hv hd ⊢
      omega
    constructor
    · unfold overlay_phandle_add_offset
      simp only [hval, hlen]
      by_cases hwrap : (fdt32_to_cpu val + delta) % 2 ^ 32 < fdt32_to_cpu val
      · have := hmod.mp hwrap
        simp [hwrap]
        norm_num at this ⊢
        omega
      · have hsmall : fdt32_to_cpu val + delta < 2 ^ 32 := by
          by_contra hc
          exact hwrap (hmod.mpr (Nat.le_of_not_lt hc))
        have hm : (fdt32_to_cpu val + delta) % 2 ^ 32 = fdt32_to_cpu val + delta :=
          Nat.mod_eq_of_lt hsmall
        by_cases hmax : fdt32_to_cpu val + delta = UINT32_MAX
        · simp [hwrap, hm, hmax, UINT32_MAX]
        · simp only [hwrap, hm, hmax, if_false, ne_eq, not_true_eq_false]
          rw [fdt_setprop_inplace_u32_ok fdt node name val _ hval hlen]
          simp [UINT32_MAX] at hmax ⊢
          norm_num at hsmall
          omega
    · intro hlt
      have hsmall : fdt32_to_cpu val + delta < 2 ^ 32 := by norm_num; omega
      have hm : (fdt32_to_cpu val + delta) % 2 ^ 32 = fdt32_to_cpu val + delta :=
        Nat.mod_eq_of_lt hsmall
      have hwrap : ¬ fdt32_to_cpu val + delta < fdt32_to_cpu val := by omega
      have hmax : ¬ fdt32_to_cpu val + delta = UINT32_MAX := by
        simp [UINT32_MAX]; omega
      refine ⟨fdt_write_prop fdt node name (cpu_to_fdt32 (fdt32_to_cpu val + delta)), ?_, ?_, ?_⟩
      · unfold overlay_phandle_add_offset
        simp only [hval, hlen, hm, hwrap, hmax, if_false, ne_eq, not_true_eq_false]
        exact fdt_setprop_inplace_u32_ok fdt node name val _ hval hlen
      · exact fdt_getprop_write_prop_same fdt node name val _ hval
      · exact fdt32_to_cpu_cpu_to_fdt32 _ hsmall

/-- C10, witness: the root phandle 1 of `base_root_phandle` shifted by 5. -/
theorem overlay_phandle_add_offset_spec_witness :
    fdt_getprop base_root_phandle [] (str "phandle") = .ok [0, 0, 0, 1] ∧
    (([0, 0, 0, 1] : Bytes).length ≠ 4 →
      overlay_phandle_add_offset base_root_phandle [] (str "phandle") 5
        = .error .BADPHANDLE) ∧
    (([0, 0, 0, 1] : Bytes).length = 4 →
      (overlay_phandle_add_offset base_root_phandle [] (str "phandle") 5
          = .error .NOPHANDLES ↔ fdt32_to_cpu [0, 0, 0, 1] + 5 ≥ 0xFFFFFFFF) ∧
      (fdt32_to_cpu [0, 0, 0, 1] + 5 < 0xFFFFFFFF →
        ∃ fdt1, overlay_phandle_add_offset base_root_phandle [] (str "phandle") 5
            = .ok fdt1 ∧
          fdt_getprop fdt1 [] (str "phandle")
            = .ok (cpu_to_fdt32 (fdt32_to_cpu [0, 0, 0, 1] + 5)) ∧
          fdt32_to_cpu (cpu_to_fdt32 (fdt32_to_cpu [0, 0, 0, 1] + 5))
            = fdt32_to_cpu [0, 0, 0, 1] + 5)) :=
  ⟨rfl,
    overlay_phandle_add_offset_spec base_root_phandle [] (str "phandle") [0, 0, 0, 1] 5
      rfl (by norm_num)⟩

/-! ### Offsets: lookup and update -/

theorem node_at_append (p q : Offset) :
    ∀ (root : Node), root.node_at (p ++ q) = (root.node_at p).bind (fun n => n.node_at q) := by
  induction p with
  | nil => intro root; simp [Node.node_at]
  | cons i rest ih =>
    intro root
    simp only [List.cons_append, Node.node_at]
    cases hc : root.subnodes[i]? with
    | none => simp
    | some c => simp [ih c]

theorem update_at_append (f : Node → Node) (p q : Offset) :
    ∀ (root : Node), root.update_at (p ++ q) f = root.update_at p (fun n => n.update_at q f) := by
  induction p with
  | nil => intro root; simp [Node.update_at]
  | cons i rest ih =>
    intro root
    simp only [List.cons_append, Node.update_at]
    cases hc : root.subnodes[i]? with
    | none => simp
    | some c => simp [ih c]

theorem update_at_congr (f g : Node → Node) (p : Offset) :
    ∀ (root n : Node), root.node_at p = some n → f n = g n →
      root.update_at p f = root.update_at p g := by
  induction p with
  | nil =>
    intro root n h hfg
    simp only [Node.node_at, Option.some.injEq] at h
    subst h
    simp [Node.update_at, hfg]
  | cons i rest ih =>
    intro root n h hfg
    simp only [Node.node_at] at h
    cases hc : root.subnodes[i]? with
    | none => simp [hc] at h
    | some c =>
      simp only [hc] at h
      simp only [Node.update_at, hc]
      rw [ih c n h hfg]

theorem list_set_self {α : Type} : ∀ (l : List α) (i : Nat) (c : α), l[i]? = some c →
    l.set i c = l := by
  intro l
  induction l with
  | nil => intro i c h; simp at h
  | cons a l ih =>
    intro i c h
    cases i with
    | zero => simp at h; simp [h]
    | succ j => simp at h; simp [ih j c h]

theorem update_at_none (f : Node → Node) (p : Offset) :
    ∀ (root : Node), root.node_at p = none → root.update_at p f = root := by
  induction p with
  | nil => intro root h; simp [Node.node_at] at h
  | cons i rest ih =>
    intro root h
    simp only [Node.node_at] at h
    cases hc : root.subnodes[i]? with
    | none => simp [Node.update_at, hc]
    | some c =>
      simp only [hc] at h
      simp only [Node.update_at, hc, ih c h]
      cases root with
      | mk n ps ss =>
        simp only [Node.name_mk, Node.props_mk, Node.subnodes_mk] at hc ⊢
        congr 1
        exact list_set_self ss i c hc

theorem update_at_update_at_const (f : Node → Node) (x : Node) (p q : Offset) :
    ∀ (root : Node),
      (root.update_at (p ++ q) f).update_at p (fun _ => x) = root.update_at p (fun _ => x) := by
  induction p with
  | nil => intro root; simp [Node.update_at]
  | cons i rest ih =>
    intro root
    simp only [List.cons_append, Node.update_at]
    cases hc : root.subnodes[i]? with
    | none => simp [Node.update_at, hc]
    | some c =>
      have hi : i < root.subnodes.length := by
        by_contra hlt
        have := List.getElem?_eq_none (Nat.le_of_not_lt hlt)
        simp [this] at hc
      simp only [Node.update_at, Node.subnodes_mk, Node.name_mk, Node.props_mk,
        List.getElem?_set_self hi, List.set_set, List.append_eq, ih c]

theorem update_at_id : ∀ (p : Offset) (r : Node), r.update_at p (fun m => m) = r := by
  intro p
  induction p with
  | nil => intro r; rfl
  | cons i rest ih =>
    intro r
    simp only [Node.update_at]
    cases hc : r.subnodes[i]? with
    | none => rfl
    | some c =>
      simp only [ih c]
      cases r with
      | mk a b ss =>
        simp only [Node.name_mk, Node.props_mk, Node.subnodes_mk] at hc ⊢
        rw [list_set_self ss i c hc]

/-! ### Failure of `fdt_overlay_apply` -/

theorem apply_err_magic (e : FdtErr) (a b : Fdt) :
    (apply_err e a b).fdt.magic ≠ FDT_MAGIC ∧ (apply_err e a b).fdto.magic ≠ FDT_MAGIC ∧
      (apply_err e a b).ret = some e := by
  simp [apply_err, fdt_set_magic, UINT32_MAX, FDT_MAGIC]

/-- C1 (as amended): when both blobs pass header validation and
`fdt_overlay_apply` returns an error, whatever the error (`NOSPACE` included),
afterwards neither header carries the valid magic; when the validation of
either blob fails, the error is returned and neither blob is written. -/
theorem fdt_overlay_apply_error_poisons (rounds : Nat) (fdt fdto : Fdt) (out : Outcome)
    (h : fdt_overlay_apply rounds fdt fdto = some out) (herr : out.ret ≠ none) :
    ((fdt_ro_probe fdt = .ok () ∧ fdt_ro_probe fdto = .ok ()) →
      out.fdt.magic ≠ FDT_MAGIC ∧ out.fdto.magic ≠ FDT_MAGIC) ∧
    (¬ (fdt_ro_probe fdt = .ok () ∧ fdt_ro_probe fdto = .ok ()) →
      out.fdt = fdt ∧ out.fdto = fdto) := by
  unfold fdt_overlay_apply at h
  repeat' split at h
  all_goals first
    | (simp only [Option.some.injEq] at h; subst h
       simp_all [apply_err_magic])
    | simp at h
  

/-- C1, counterexample: an overlay with a bad magic makes
`fdt_overlay_apply` return `BADMAGIC` and leaves the base's magic valid; and a
`NOSPACE` failure of a write into the overlay erases the magic of the base as
well. -/
theorem fdt_overlay_apply_error_counter :
    (fdt_overlay_apply 0 base_soc overlay_bad_magic).map (fun r => (r.ret, r.fdt.magic))
      = some (some .BADMAGIC, FDT_MAGIC) ∧
    (fdt_overlay_apply 0 base_soc overlay_fixup_past_end).map
        (fun r => (r.ret, r.fdt.magic, r.fdto.magic))
      = some (some .NOSPACE, UINT32_MAX, UINT32_MAX) := by
  constructor <;> decide

/-- C1, witness: the `NOSPACE` failure of `overlay_fixup_past_end`. -/
theorem fdt_overlay_apply_error_poisons_witness :
    fdt_overlay_apply 0 base_soc overlay_fixup_past_end
      = some (apply_err .NOSPACE base_soc overlay_fixup_past_end) ∧
    (apply_err .NOSPACE base_soc overlay_fixup_past_end).ret ≠ none ∧
    ((fdt_ro_probe base_soc = .ok () ∧ fdt_ro_probe overlay_fixup_past_end = .ok ()) →
      (apply_err .NOSPACE base_soc overlay_fixup_past_end).fdt.magic ≠ FDT_MAGIC ∧
      (apply_err .NOSPACE base_soc overlay_fixup_past_end).fdto.magic ≠ FDT_MAGIC) ∧
    (¬ (fdt_ro_probe base_soc = .ok () ∧ fdt_ro_probe overlay_fixup_past_end = .ok ()) →
      (apply_err .NOSPACE base_soc overlay_fixup_past_end).fdt = base_soc ∧
      (apply_err .NOSPACE base_soc overlay_fixup_past_end).fdto = overlay_fixup_past_end) :=
  ⟨rfl, by simp [apply_err],
    fdt_overlay_apply_error_poisons 0 base_soc overlay_fixup_past_end
      (apply_err .NOSPACE base_soc overlay_fixup_past_end) rfl (by simp [apply_err])⟩

/-! ### Symbols outside every fragment -/

theorem overlay_symbol_loop_outside (rounds : Nat) :
    overlay_symbol_loop overlay_symbol_outside [0] [1] 0 rounds (some 0) base_soc none
      = none := by
  induction rounds with
  | zero => rfl
  | succ n ih =>
    have hstep : overlay_symbol_step base_soc overlay_symbol_outside [0] [1] 0 0 none
        = .again := rfl
    simp only [overlay_symbol_loop, hstep]
    exact ih

/-- C2, at the failing input: for the overlay whose `/__symbols__` holds
`foo = "/foo"`, no number of rounds lets the loop of `overlay_symbol_update`
return, and so `fdt_overlay_apply` does not return either: the `continue`
taken for such a symbol leaves `prop` unchanged. -/
theorem overlay_symbol_update_never_returns (rounds : Nat) :
    overlay_symbol_update rounds base_soc overlay_symbol_outside 0 = none ∧
    fdt_overlay_apply rounds base_soc overlay_symbol_outside = none := by
  have hsym : overlay_symbol_update rounds base_soc overlay_symbol_outside 0 = none := by
    have h1 : fdt_subnode_offset overlay_symbol_outside [] (str "__symbols__") = .ok [0] := rfl
    have h2 : fdt_subnode_offset base_soc [] (str "__symbols__") = .ok [1] := rfl
    have h3 : fdt_first_property_offset overlay_symbol_outside [0] = some 0 := rfl
    simp only [overlay_symbol_update, h1, h2, h3]
    exact overlay_symbol_loop_outside rounds
  refine ⟨hsym, ?_⟩
  have p1 : fdt_ro_probe base_soc = .ok () := rfl
  have p2 : fdt_ro_probe overlay_symbol_outside = .ok () := rfl
  have p3 : fdt_find_max_phandle base_soc = .ok 7 := rfl
  have p4 : overlay_adjust_local_phandles overlay_symbol_outside 7
      = .ok overlay_symbol_outside := rfl
  have p5 : overlay_update_local_references overlay_symbol_outside 7
      = .ok overlay_symbol_outside := rfl
  have p6 : overlay_fixup_phandles base_soc overlay_symbol_outside 0
      = .ok overlay_symbol_outside := rfl
  have p7 : overlay_merge base_soc overlay_symbol_outside none
      = .ok { fdt := base_soc, fdto := overlay_symbol_outside, merge_olay_max_phdl := none,
              base_fragment_count := 0 } := rfl
  simp only [fdt_overlay_apply, p1, p2, p3, p4, p5, p6, p7, hsym]

/-! ### Overlays without subnodes -/

theorem overlay_phandle_add_offset_ok (fdt fdt1 : Fdt) (node : Offset) (name : Bytes)
    (delta : Nat) (h : overlay_phandle_add_offset fdt node name delta = .ok fdt1) :
    ∃ val, fdt_getprop fdt node name = .ok val ∧ val.length = 4 ∧
      ¬ (fdt32_to_cpu val + delta) % 4294967296 < fdt32_to_cpu val ∧
      (fdt32_to_cpu val + delta) % 4294967296 ≠ UINT32_MAX ∧
      fdt1 = fdt_write_prop fdt node name
        (cpu_to_fdt32 ((fdt32_to_cpu val + delta) % 4294967296)) := by
  unfold overlay_phandle_add_offset at h
  cases hv : fdt_getprop fdt node name with
  | error e => simp [hv] at h
  | ok val =>
    simp only [hv] at h
    by_cases hlen : val.length = 4
    · simp only [hlen, ne_eq, not_true_eq_false, if_false] at h
      by_cases hwrap : (fdt32_to_cpu val + delta) % 4294967296 < fdt32_to_cpu val
      · simp [hwrap] at h
      · by_cases hmax : (fdt32_to_cpu val + delta) % 4294967296 = UINT32_MAX
        · simp [hwrap, hmax] at h
        · simp only [hwrap, hmax, if_false, Nat.reducePow] at h
          rw [fdt_setprop_inplace_u32_ok fdt node name val _ hv hlen] at h
          injection h with h
          exact ⟨val, rfl, hlen, hwrap, hmax, h.symm⟩
    · simp [hlen] at h

theorem fdt_write_prop_subnodes_root (fdt : Fdt) (name v : Bytes) :
    (fdt_write_prop fdt [] name v).root.subnodes = fdt.root.subnodes := by
  simp [fdt_write_prop, Node.update_at, Node.set_prop_val]

theorem overlay_adjust_own_phandles_subnodes_root (fdto fdto1 : Fdt) (delta : Nat)
    (h : overlay_adjust_own_phandles fdto [] delta = .ok fdto1) :
    fdto1.root.subnodes = fdto.root.subnodes := by
  unfold overlay_adjust_own_phandles at h
  cases h1 : overlay_phandle_add_offset fdto [] (str "phandle") delta with
  | error e =>
    simp only [h1] at h
    split at h
    · simp at h
    · cases h2 : overlay_phandle_add_offset fdto [] (str "linux,phandle") delta with
      | error e2 =>
        simp only [h2] at h
        split at h
        · simp at h
        · injection h with h; rw [← h]
      | ok f2 =>
        simp only [h2] at h
        injection h with h
        obtain ⟨_, _, _, _, _, hw⟩ := overlay_phandle_add_offset_ok _ _ _ _ _ h2
        rw [← h, hw, fdt_write_prop_subnodes_root]
  | ok f1 =>
    simp only [h1] at h
    obtain ⟨_, _, _, _, _, hw1⟩ := overlay_phandle_add_offset_ok _ _ _ _ _ h1
    have hs1 : f1.root.subnodes = fdto.root.subnodes := by
      rw [hw1, fdt_write_prop_subnodes_root]
    cases h2 : overlay_phandle_add_offset f1 [] (str "linux,phandle") delta with
    | error e2 =>
      simp only [h2] at h
      split at h
      · simp at h
      · injection h with h; rw [← h, hs1]
    | ok f2 =>
      simp only [h2] at h
      injection h with h
      obtain ⟨_, _, _, _, _, hw2⟩ := overlay_phandle_add_offset_ok _ _ _ _ _ h2
      rw [← h, hw2, fdt_write_prop_subnodes_root, hs1]

theorem fdt_subnode_offset_root_no_subnodes (fdt : Fdt) (name : Bytes)
    (h : fdt.root.subnodes = []) : fdt_subnode_offset fdt [] name = .error .NOTFOUND := by
  simp [fdt_subnode_offset, Node.node_at, h, subnode_index]

/-- C8 (as amended): for a base and an overlay that pass header validation,
when the overlay root has no subnodes and the renumbering pass accepts the
root's own phandle properties, `fdt_overlay_apply` returns 0 and the base is
exactly the blob it was before the call. -/
theorem fdt_overlay_apply_no_subnodes (rounds : Nat) (fdt fdto fdto1 : Fdt)
    (hb : fdt_ro_probe fdt = .ok ()) (ho : fdt_ro_probe fdto = .ok ())
    (hsub : fdto.root.subnodes = [])
    (hren : overlay_adjust_local_phandles fdto (fdt.root.max_phandle 0) = .ok fdto1) :
    fdt_overlay_apply rounds fdt fdto
      = some { ret := none, fdt := fdt, fdto := fdt_set_magic fdto1 UINT32_MAX } := by
  have hown : overlay_adjust_own_phandles fdto [] (fdt.root.max_phandle 0) = .ok fdto1 := by
    unfold overlay_adjust_local_phandles at hren
    cases hr : fdto.root with
    | mk n ps ss =>
      rw [hr] at hren hsub
      simp only [Node.subnodes_mk] at hsub
      subst hsub
      simp only [overlay_adjust_node_phandles] at hren
      cases h1 : overlay_adjust_own_phandles fdto [] (fdt.root.max_phandle 0) with
      | error e => simp [h1] at hren
      | ok f1 =>
        simp only [h1, overlay_adjust_subnodes] at hren
        exact hren
  have hsub1 : fdto1.root.subnodes = [] := by
    rw [overlay_adjust_own_phandles_subnodes_root fdto fdto1 _ hown, hsub]
  have hsn (name : Bytes) := fdt_subnode_offset_root_no_subnodes fdto1 name hsub1
  have hlf : overlay_update_local_references fdto1 (fdt.root.max_phandle 0) = .ok fdto1 := by
    have hc : cstr (str "/__local_fixups__") = 47 :: str "__local_fixups__" := by decide
    have hs : split_slash (47 :: str "__local_fixups__") = [[], str "__local_fixups__"] := by
      decide
    have hne : str "__local_fixups__" ≠ [] := by decide
    simp [overlay_update_local_references, fdt_path_offset, fdt_path_offset_namelen, hc, hs,
      walk_path, hne, hsn]
  have hfx : overlay_fixup_phandles fdt fdto1 0 = .ok fdto1 := by
    have hc : cstr (str "/__fixups__") = 47 :: str "__fixups__" := by decide
    have hs : split_slash (47 :: str "__fixups__") = [[], str "__fixups__"] := by decide
    have hne : str "__fixups__" ≠ [] := by decide
    simp [overlay_fixup_phandles, fdt_path_offset, fdt_path_offset_namelen, hc, hs,
      walk_path, hne, hsn]
  have hmg : overlay_merge fdt fdto1 none
      = .ok { fdt := fdt, fdto := fdto1, merge_olay_max_phdl := none,
              base_fragment_count := 0 } := by
    simp [overlay_merge, hsub1, overlay_merge_fragments]
  simp [fdt_overlay_apply, hb, ho, fdt_find_max_phandle, hren, hlf, hfx, hmg,
    overlay_symbol_update, hsn]

/-- C8, witness: an overlay that is just a root with the phandle 2. -/
theorem fdt_overlay_apply_no_subnodes_witness :
    fdt_ro_probe base_soc = .ok () ∧ fdt_ro_probe overlay_root_phandle = .ok () ∧
    overlay_root_phandle.root.subnodes = [] ∧
    overlay_adjust_local_phandles overlay_root_phandle (base_soc.root.max_phandle 0)
      = .ok (blob (nd "" [("phandle", [0, 0, 0, 9])] [])) ∧
    fdt_overlay_apply 0 base_soc overlay_root_phandle
      = some { ret := none, fdt := base_soc,
               fdto := fdt_set_magic (blob (nd "" [("phandle", [0, 0, 0, 9])] []))
                 UINT32_MAX } :=
  ⟨rfl, rfl, rfl, rfl,
    fdt_overlay_apply_no_subnodes 0 base_soc overlay_root_phandle
      (blob (nd "" [("phandle", [0, 0, 0, 9])] [])) rfl rfl rfl rfl⟩

/-- C8, counterexample: an overlay without subnodes whose root has a 3-byte
`phandle` makes `fdt_overlay_apply` fail with `BADPHANDLE`. -/
theorem fdt_overlay_apply_no_subnodes_counter :
    overlay_root_short_phandle.root.subnodes = [] ∧
    (fdt_overlay_apply 0 base_soc overlay_root_short_phandle).map (fun r => r.ret)
      = some (some .BADPHANDLE) := by
  constructor
  · rfl
  · decide

/-! ### Refinement of the renumbering pass -/

@[simp] theorem Fdt.with_root_root (fdt : Fdt) (r : Node) : (fdt.with_root r).root = r := rfl

@[simp] theorem Fdt.with_root_with_root (fdt : Fdt) (r s : Node) :
    (fdt.with_root r).with_root s = fdt.with_root s := rfl

@[simp] theorem Fdt.with_root_self (fdt : Fdt) : fdt.with_root fdt.root = fdt := rfl

theorem fdt_write_prop_eq_const (fdt : Fdt) (node : Offset) (name v : Bytes) (n : Node)
    (hn : fdt.root.node_at node = some n) :
    fdt_write_prop fdt node name v
      = fdt.with_root (fdt.root.update_at node (fun _ => n.set_prop_val name v)) := by
  unfold fdt_write_prop Fdt.with_root
  rw [update_at_congr (fun m => m.set_prop_val name v) (fun _ => n.set_prop_val name v)
    node fdt.root n hn rfl]

theorem fdt_getprop_eq (fdt : Fdt) (node : Offset) (name : Bytes) (n : Node)
    (hn : fdt.root.node_at node = some n) :
    fdt_getprop fdt node name
      = match prop_find n.props name with
        | none => .error .NOTFOUND
        | some v => .ok v := by
  simp [fdt_getprop, hn]

theorem overlay_phandle_add_offset_refines (fdt fdt1 : Fdt) (node : Offset) (name : Bytes)
    (delta : Nat) (n : Node) (hn : fdt.root.node_at node = some n)
    (h : overlay_phandle_add_offset fdt node name delta = .ok fdt1) :
    fdt1 = fdt.with_root (fdt.root.update_at node
        (fun _ => .mk n.name (renumber_prop n.props name delta) n.subnodes)) ∧
      renumber_accepts n.props name delta := by
  obtain ⟨val, hv, hlen, hwrap, hmax, hw⟩ := overlay_phandle_add_offset_ok _ _ _ _ _ h
  rw [fdt_getprop_eq fdt node name n hn] at hv
  cases hp : prop_find n.props name with
  | none => simp [hp] at hv
  | some w =>
    simp only [hp, Except.ok.injEq] at hv
    subst hv
    constructor
    · rw [hw, fdt_write_prop_eq_const fdt node name _ n hn]
      simp [renumber_prop, hp, Node.set_prop_val]
    · intro val hval
      rw [hp] at hval
      injection hval with hval
      subst hval
      exact ⟨hlen, by simpa using hwrap, by simpa using hmax⟩

theorem overlay_phandle_add_offset_notfound (fdt : Fdt) (node : Offset) (name : Bytes)
    (delta : Nat) (n : Node) (hn : fdt.root.node_at node = some n)
    (h : overlay_phandle_add_offset fdt node name delta = .error .NOTFOUND) :
    prop_find n.props name = none := by
  unfold overlay_phandle_add_offset at h
  rw [fdt_getprop_eq fdt node name n hn] at h
  cases hp : prop_find n.props name with
  | none => rfl
  | some w =>
    exfalso
    simp only [hp] at h
    by_cases hlen : w.length = 4
    · have hs := fdt_setprop_inplace_u32_ok fdt node name w
        ((fdt32_to_cpu w + delta) % 2 ^ 32)
        (by rw [fdt_getprop_eq fdt node name n hn, hp]) hlen
      simp only [hlen, ne_eq, not_true_eq_false, if_false, hs] at h
      split at h
      · simp at h
      · split at h <;> simp at h
    · simp [hlen] at h

theorem renumber_prop_none (ps : List Property) (name : Bytes) (delta : Nat)
    (h : prop_find ps name = none) : renumber_prop ps name delta = ps := by
  simp [renumber_prop, h]

theorem renumber_accepts_none (ps : List Property) (name : Bytes) (delta : Nat)
    (h : prop_find ps name = none) : renumber_accepts ps name delta := by
  intro val hval
  rw [h] at hval
  cases hval

theorem prop_find_renumber_prop_other (ps : List Property) (name other : Bytes) (delta : Nat)
    (h : other ≠ name) : prop_find (renumber_prop ps name delta) other = prop_find ps other := by
  unfold renumber_prop
  cases hp : prop_find ps name with
  | none => rfl
  | some val => exact prop_find_prop_set_other ps name _ other h

theorem renumber_accepts_other (ps : List Property) (name other : Bytes) (delta : Nat)
    (h : other ≠ name) (ha : renumber_accepts (renumber_prop ps name delta) other delta) :
    renumber_accepts ps other delta := by
  intro val hval
  apply ha
  rw [prop_find_renumber_prop_other ps name other delta h]
  exact hval

theorem overlay_adjust_own_phandles_refines (fdto fdto1 : Fdt) (node : Offset) (delta : Nat)
    (n : Node) (hn : fdto.root.node_at node = some n)
    (h : overlay_adjust_own_phandles fdto node delta = .ok fdto1) :
    fdto1 = fdto.with_root (fdto.root.update_at node
        (fun _ => .mk n.name (renumber_props n.props delta) n.subnodes)) ∧
      renumber_accepts n.props (str "phandle") delta ∧
      renumber_accepts n.props (str "linux,phandle") delta := by
  have hne : str "linux,phandle" ≠ str "phandle" := by decide
  unfold overlay_adjust_own_phandles at h
  cases h1 : overlay_phandle_add_offset fdto node (str "phandle") delta with
  | error e =>
    simp only [h1] at h
    by_cases he : e = .NOTFOUND
    · subst he
      have hp1 := overlay_phandle_add_offset_notfound fdto node _ delta n hn h1
      simp only [ne_eq, not_true_eq_false, if_false] at h
      cases h2 : overlay_phandle_add_offset fdto node (str "linux,phandle") delta with
      | error e2 =>
        simp only [h2] at h
        by_cases he2 : e2 = .NOTFOUND
        · subst he2
          have hp2 := overlay_phandle_add_offset_notfound fdto node _ delta n hn h2
          simp only [ne_eq, not_true_eq_false, if_false, Except.ok.injEq] at h
          subst h
          refine ⟨?_, renumber_accepts_none _ _ _ hp1, renumber_accepts_none _ _ _ hp2⟩
          simp only [renumber_props, renumber_prop_none _ _ _ hp1, renumber_prop_none _ _ _ hp2]
          have hid : fdto.root.update_at node (fun _ => Node.mk n.name n.props n.subnodes)
              = fdto.root.update_at node (fun m => m) :=
            update_at_congr _ _ node fdto.root n hn (by cases n; rfl)
          rw [hid]
          rw [update_at_id]
          rfl
        · simp [he2] at h
      | ok f2 =>
        simp only [h2, Except.ok.injEq] at h
        subst h
        obtain ⟨hr, ha⟩ := overlay_phandle_add_offset_refines fdto f2 node _ delta n hn h2
        refine ⟨?_, renumber_accepts_none _ _ _ hp1, ha⟩
        rw [hr]
        simp only [renumber_props, renumber_prop_none _ _ _ hp1]
    · simp [he] at h
  | ok f1 =>
    simp only [h1] at h
    obtain ⟨hr1, ha1⟩ := overlay_phandle_add_offset_refines fdto f1 node _ delta n hn h1
    have hn1 : f1.root.node_at node
        = some (.mk n.name (renumber_prop n.props (str "phandle") delta) n.subnodes) := by
      rw [hr1]
      exact node_at_update_at_same _ node fdto.root n hn
    cases h2 : overlay_phandle_add_offset f1 node (str "linux,phandle") delta with
    | error e2 =>
      simp only [h2] at h
      by_cases he2 : e2 = .NOTFOUND
      · subst he2
        have hp2 := overlay_phandle_add_offset_notfound f1 node _ delta _ hn1 h2
        simp only [ne_eq, not_true_eq_false, if_false, Except.ok.injEq] at h
        subst h
        simp only [Node.props_mk] at hp2
        refine ⟨?_, ha1, renumber_accepts_other _ _ _ _ hne (renumber_accepts_none _ _ _ hp2)⟩
        rw [hr1]
        simp only [renumber_props, renumber_prop_none _ _ _ hp2]
      · simp [he2] at h
    | ok f2 =>
      simp only [h2, Except.ok.injEq] at h
      subst h
      obtain ⟨hr2, ha2⟩ := overlay_phandle_add_offset_refines f1 f2 node _ delta _ hn1 h2
      simp only [Node.props_mk, Node.name_mk, Node.subnodes_mk] at hr2 ha2
      refine ⟨?_, ha1, renumber_accepts_other _ _ _ _ hne ha2⟩
      rw [hr2, hr1]
      simp only [Fdt.with_root_root, Fdt.with_root_with_root, renumber_props]
      have := update_at_update_at_const (fun _ => Node.mk n.name
          (renumber_prop n.props (str "phandle") delta) n.subnodes)
        (Node.mk n.name (renumber_prop (renumber_prop n.props (str "phandle") delta)
          (str "linux,phandle") delta) n.subnodes) node [] fdto.root
      simp only [List.append_nil] at this
      rw [this]

theorem list_set_append_length {α : Type} (pre : List α) (c x : α) (cs : List α) :
    (pre ++ c :: cs).set pre.length x = pre ++ x :: cs := by
  induction pre with
  | nil => rfl
  | cons a pre ih => simp [ih]

theorem list_getElem?_append_length {α : Type} (pre : List α) (c : α) (cs : List α) :
    (pre ++ c :: cs)[pre.length]? = some c := by
  induction pre with
  | nil => simp
  | cons a pre ih => simpa using ih

theorem node_at_child (root : Node) (node : Offset) (nm : Bytes) (ps : List Property)
    (pre : List Node) (c : Node) (cs : List Node)
    (hn : root.node_at node = some (.mk nm ps (pre ++ c :: cs))) :
    root.node_at (node ++ [pre.length]) = some c := by
  rw [node_at_append, hn]
  simp only [Node.node_at, Option.some_bind, Node.subnodes_mk, list_getElem?_append_length]

theorem update_at_child (root : Node) (node : Offset) (nm : Bytes) (ps : List Property)
    (pre : List Node) (c x : Node) (cs : List Node)
    (hn : root.node_at node = some (.mk nm ps (pre ++ c :: cs))) :
    (root.update_at (node ++ [pre.length]) (fun _ => x)).node_at node
      = some (.mk nm ps (pre ++ x :: cs)) := by
  rw [update_at_append, node_at_update_at_same _ node root _ hn]
  simp only [Node.update_at, Node.subnodes_mk, Node.name_mk, Node.props_mk,
    list_getElem?_append_length, list_set_append_length]

mutual
theorem overlay_adjust_node_phandles_refines (delta : Nat) :
    ∀ (shape : Node) (fdto fdto1 : Fdt) (node : Offset),
      fdto.root.node_at node = some shape →
      overlay_adjust_node_phandles fdto node delta shape = .ok fdto1 →
      fdto1 = fdto.with_root (fdto.root.update_at node (fun _ => shape.renumbered delta)) ∧
      ∀ (r : Offset) (n : Node), shape.node_at r = some n →
        renumber_accepts n.props (str "phandle") delta ∧
        renumber_accepts n.props (str "linux,phandle") delta
  | .mk nm ps ss, fdto, fdto1, node, hn, h => by
    simp only [overlay_adjust_node_phandles] at h
    cases h1 : overlay_adjust_own_phandles fdto node delta with
    | error e => simp [h1] at h
    | ok f1 =>
      simp only [h1] at h
      obtain ⟨hr1, ha, hb⟩ := overlay_adjust_own_phandles_refines fdto f1 node delta _ hn h1
      simp only [Node.name_mk, Node.props_mk, Node.subnodes_mk] at hr1 ha hb
      have hn1 : f1.root.node_at node = some (.mk nm (renumber_props ps delta) ([] ++ ss)) := by
        rw [hr1]
        exact node_at_update_at_same _ node fdto.root _ hn
      obtain ⟨hr2, hacc⟩ := overlay_adjust_subnodes_refines delta ss f1 fdto1 node nm
        (renumber_props ps delta) [] 0 rfl hn1 h
      constructor
      · rw [hr2, hr1]
        simp only [Fdt.with_root_root, Fdt.with_root_with_root, List.nil_append,
          Node.renumbered]
        have := update_at_update_at_const
          (fun _ => Node.mk nm (renumber_props ps delta) ss)
          (Node.mk nm (renumber_props ps delta) (Node.renumbered_list delta ss))
          node [] fdto.root
        simp only [List.append_nil] at this
        rw [this]
      · intro r n hr
        cases r with
        | nil =>
          simp only [Node.node_at, Option.some.injEq] at hr
          subst hr
          exact ⟨ha, hb⟩
        | cons j r =>
          simp only [Node.node_at, Node.subnodes_mk] at hr
          cases hc : ss[j]? with
          | none => simp [hc] at hr
          | some c =>
            simp only [hc] at hr
            exact hacc j c hc r n hr
theorem overlay_adjust_subnodes_refines (delta : Nat) :
    ∀ (cs : List Node) (fdto fdto1 : Fdt) (node : Offset) (nm : Bytes) (ps : List Property)
      (pre : List Node) (k : Nat), k = pre.length →
      fdto.root.node_at node = some (.mk nm ps (pre ++ cs)) →
      overlay_adjust_subnodes fdto node delta k cs = .ok fdto1 →
      fdto1 = fdto.with_root (fdto.root.update_at node
          (fun _ => .mk nm ps (pre ++ Node.renumbered_list delta cs))) ∧
      ∀ (j : Nat) (c : Node), cs[j]? = some c → ∀ (r : Offset) (n : Node), c.node_at r = some n →
        renumber_accepts n.props (str "phandle") delta ∧
        renumber_accepts n.props (str "linux,phandle") delta
  | [], fdto, fdto1, node, nm, ps, pre, k, hk, hn, h => by
    simp only [overlay_adjust_subnodes, Except.ok.injEq] at h
    subst h
    constructor
    · simp only [Node.renumbered_list]
      have := update_at_congr (fun _ => Node.mk nm ps (pre ++ [])) (fun m => m) node
        fdto.root _ hn rfl
      rw [this]
      rw [update_at_id]
      rfl
    · intro j c hc
      simp at hc
  | c :: cs, fdto, fdto1, node, nm, ps, pre, k, hk, hn, h => by
    subst hk
    simp only [overlay_adjust_subnodes] at h
    have hnc := node_at_child fdto.root node nm ps pre c cs hn
    cases h1 : overlay_adjust_node_phandles fdto (node ++ [pre.length]) delta c with
    | error e => simp [h1] at h
    | ok f1 =>
      simp only [h1] at h
      obtain ⟨hr1, ha1⟩ := overlay_adjust_node_phandles_refines delta c fdto f1
        (node ++ [pre.length]) hnc h1
      have hn1 : f1.root.node_at node
          = some (.mk nm ps ((pre ++ [c.renumbered delta]) ++ cs)) := by
        rw [hr1]
        simp only [Fdt.with_root_root, List.append_assoc, List.singleton_append]
        exact update_at_child fdto.root node nm ps pre c _ cs hn
      obtain ⟨hr2, ha2⟩ := overlay_adjust_subnodes_refines delta cs f1 fdto1 node nm ps
        (pre ++ [c.renumbered delta]) (pre.length + 1) (by simp) hn1 h
      constructor
      · rw [hr2, hr1]
        simp only [Fdt.with_root_root, Fdt.with_root_with_root, Node.renumbered_list,
          List.append_assoc, List.singleton_append]
        rw [update_at_update_at_const]
      · intro j d hd r n hr
        cases j with
        | zero =>
          simp only [List.getElem?_cons_zero, Option.some.injEq] at hd
          subst hd
          exact ha1 r n hr
        | succ j =>
          simp only [List.getElem?_cons_succ] at hd
          exact ha2 j d hd r n hr
end

theorem renumbered_list_getElem? (delta : Nat) :
    ∀ (ss : List Node) (i : Nat),
      (Node.renumbered_list delta ss)[i]? = (ss[i]?).map (Node.renumbered delta) := by
  intro ss
  induction ss with
  | nil => intro i; simp [Node.renumbered_list]
  | cons c cs ih =>
    intro i
    cases i with
    | zero => simp [Node.renumbered_list]
    | succ j => simp [Node.renumbered_list, ih j]

theorem renumbered_subnodes (delta : Nat) (n : Node) :
    (n.renumbered delta).subnodes = Node.renumbered_list delta n.subnodes := by
  cases n; simp [Node.renumbered]

theorem renumbered_props (delta : Nat) (n : Node) :
    (n.renumbered delta).props = renumber_props n.props delta := by
  cases n; simp [Node.renumbered]

theorem node_at_renumbered (delta : Nat) :
    ∀ (off : Offset) (root n : Node), root.node_at off = some n →
      (root.renumbered delta).node_at off = some (n.renumbered delta) := by
  intro off
  induction off with
  | nil =>
    intro root n h
    simp only [Node.node_at, Option.some.injEq] at h ⊢
    rw [h]
  | cons i rest ih =>
    intro root n h
    simp only [Node.node_at] at h ⊢
    rw [renumbered_subnodes, renumbered_list_getElem?]
    cases hc : root.subnodes[i]? with
    | none => simp [hc] at h
    | some c =>
      simp only [hc] at h
      simp only [Option.map_some']
      exact ih c n h

theorem prop_find_renumber_prop_same (ps : List Property) (name val : Bytes) (delta : Nat)
    (h : prop_find ps name = some val) :
    prop_find (renumber_prop ps name delta) name
      = some (cpu_to_fdt32 ((fdt32_to_cpu val + delta) % 2 ^ 32)) := by
  simp only [renumber_prop, h]
  exact prop_find_prop_set_same ps name _ (by simp [h])

theorem prop_find_renumber_props (ps : List Property) (name val : Bytes) (delta : Nat)
    (hname : name = str "phandle" ∨ name = str "linux,phandle")
    (h : prop_find ps name = some val) :
    prop_find (renumber_props ps delta) name
      = some (cpu_to_fdt32 ((fdt32_to_cpu val + delta) % 2 ^ 32)) := by
  have hne : str "phandle" ≠ str "linux,phandle" := by decide
  unfold renumber_props
  rcases hname with rfl | rfl
  · rw [prop_find_renumber_prop_other _ _ _ _ hne]
    exact prop_find_renumber_prop_same ps _ val delta h
  · apply prop_find_renumber_prop_same
    rw [prop_find_renumber_prop_other _ _ _ _ hne.symm]
    exact h

theorem props_phandle_lt (ps : List Property) : props_phandle ps < 2 ^ 32 := by
  unfold props_phandle
  split
  · split
    · exact fdt32_to_cpu_lt _
    · split
      · split
        · exact fdt32_to_cpu_lt _
        · norm_num
      · norm_num
  · split
    · split
      · exact fdt32_to_cpu_lt _
      · norm_num
    · norm_num

mutual
theorem max_phandle_lt : ∀ (n : Node) (acc : Nat), acc < 2 ^ 32 → n.max_phandle acc < 2 ^ 32
  | .mk _ ps ss, acc, h => by
    simp only [Node.max_phandle]
    apply max_phandle_list_lt ss
    exact max_lt h (props_phandle_lt ps)
theorem max_phandle_list_lt :
    ∀ (l : List Node) (acc : Nat), acc < 2 ^ 32 → Node.max_phandle_list l acc < 2 ^ 32
  | [], acc, h => by simpa [Node.max_phandle_list] using h
  | c :: cs, acc, h => by
    simp only [Node.max_phandle_list]
    exact max_phandle_list_lt cs _ (max_phandle_lt c acc h)
end

/-- C9 (as amended): the delta that `fdt_overlay_apply` hands to the
renumbering pass is `max_phandle(base)`, the value `fdt_find_max_phandle`
yields; when the pass succeeds, every node of the overlay that had a 4-byte
`phandle` or `linux,phandle` property of value `v` has it with value
`v + max_phandle(base)`, without wrap-around. -/
theorem overlay_adjust_local_phandles_adds_max (fdt fdto fdto1 : Fdt)
    (h : overlay_adjust_local_phandles fdto (fdt.root.max_phandle 0) = .ok fdto1) :
    fdt_find_max_phandle fdt = .ok (fdt.root.max_phandle 0) ∧
    ∀ (off : Offset) (n : Node) (name val : Bytes),
      fdto.root.node_at off = some n →
      (name = str "phandle" ∨ name = str "linux,phandle") →
      prop_find n.props name = some val → val.length = 4 →
        fdt_getprop fdto1 off name
          = .ok (cpu_to_fdt32 (fdt32_to_cpu val + fdt.root.max_phandle 0)) ∧
        fdt32_to_cpu (cpu_to_fdt32 (fdt32_to_cpu val + fdt.root.max_phandle 0))
          = fdt32_to_cpu val + fdt.root.max_phandle 0 := by
  refine ⟨rfl, ?_⟩
  intro off n name val hn hname hval hlen
  obtain ⟨hr, hacc⟩ := overlay_adjust_node_phandles_refines (fdt.root.max_phandle 0)
    fdto.root fdto fdto1 [] rfl h
  have hroot : fdto1.root = fdto.root.renumbered (fdt.root.max_phandle 0) := by
    rw [hr]; rfl
  have hd : fdt.root.max_phandle 0 < 2 ^ 32 := max_phandle_lt fdt.root 0 (by norm_num)
  have hv := fdt32_to_cpu_lt val
  obtain ⟨ha, hb⟩ := hacc off n hn
  have hok : ¬ (fdt32_to_cpu val + fdt.root.max_phandle 0) % 2 ^ 32 < fdt32_to_cpu val := by
    rcases hname with rfl | rfl
    · exact (ha val hval).2.1
    · exact (hb val hval).2.1
  have hsmall : fdt32_to_cpu val + fdt.root.max_phandle 0 < 2 ^ 32 := by
    by_contra hc
    apply hok
    have := Nat.mod_lt (fdt32_to_cpu val + fdt.root.max_phandle 0) (by norm_num : 2 ^ 32 > 0)
    norm_num at hd hv hc this ⊢
    omega
  have hm := Nat.mod_eq_of_lt hsmall
  constructor
  · have hn1 := node_at_renumbered (fdt.root.max_phandle 0) off fdto.root n hn
    rw [← hroot] at hn1
    rw [fdt_getprop_eq fdto1 off name _ hn1, renumbered_props,
      prop_find_renumber_props n.props name val _ hname hval, hm]
  · exact fdt32_to_cpu_cpu_to_fdt32 _ hsmall

/-- C9, witness: the node `x` of `overlay_new_node`, phandle 1, over the base
`base_soc`, whose largest phandle is 7. -/
theorem overlay_adjust_local_phandles_adds_max_witness :
    overlay_adjust_local_phandles overlay_new_node (base_soc.root.max_phandle 0)
      = .ok overlay_new_node_renumbered ∧
    fdt_getprop overlay_new_node_renumbered [0, 0, 0] (str "phandle")
      = .ok (cpu_to_fdt32 (fdt32_to_cpu [0, 0, 0, 1] + base_soc.root.max_phandle 0)) ∧
    fdt32_to_cpu (cpu_to_fdt32 (fdt32_to_cpu [0, 0, 0, 1] + base_soc.root.max_phandle 0))
      = fdt32_to_cpu [0, 0, 0, 1] + base_soc.root.max_phandle 0 :=
  ⟨rfl,
    (overlay_adjust_local_phandles_adds_max base_soc overlay_new_node
      overlay_new_node_renumbered rfl).2 [0, 0, 0] (nd "x" [("phandle", [0, 0, 0, 1])] [])
      (str "phandle") [0, 0, 0, 1] rfl (Or.inl rfl) rfl rfl⟩

/-- C9, counterexample: the largest phandle of `base_soc` is 7 and the node `x`
of `overlay_new_node` has phandle 1; after a successful `fdt_overlay_apply`
it has phandle 8, in the overlay and in the base, not `1 + 7 + 1`. -/
theorem overlay_adjust_local_phandles_counter :
    base_soc.root.max_phandle 0 = 7 ∧
    fdt32_to_cpu (peek_prop overlay_new_node [0, 0, 0] (str "phandle")) = 1 ∧
    (fdt_overlay_apply 1 base_soc overlay_new_node).map (fun r =>
        (r.ret, fdt32_to_cpu (peek_prop r.fdto [0, 0, 0] (str "phandle")),
          fdt32_to_cpu (peek_prop r.fdt [0, 0, 0] (str "phandle"))))
      = some (none, 8, 8) ∧
    (8 : Nat) ≠ 1 + 7 + 1 := by
  refine ⟨by decide, by decide, by decide, by decide⟩

/-! ### Refinement of the merge of a node -/

theorem node_at_child_idx (root : Node) (node : Offset) (nm : Bytes) (ps : List Property)
    (subs : List Node) (j : Nat) (c : Node)
    (hn : root.node_at node = some (.mk nm ps subs)) (hc : subs[j]? = some c) :
    root.node_at (node ++ [j]) = some c := by
  rw [node_at_append, hn]
  simp only [Node.node_at, Option.some_bind, Node.subnodes_mk, hc]

theorem update_at_child_idx (root : Node) (node : Offset) (nm : Bytes) (ps : List Property)
    (subs : List Node) (j : Nat) (c x : Node)
    (hn : root.node_at node = some (.mk nm ps subs)) (hc : subs[j]? = some c) :
    (root.update_at (node ++ [j]) (fun _ => x)).node_at node
      = some (.mk nm ps (subs.set j x)) := by
  rw [update_at_append, node_at_update_at_same _ node root _ hn]
  simp only [Node.update_at, Node.subnodes_mk, Node.name_mk, Node.props_mk, hc]

theorem update_at_update_at_same_const (x y : Node) (p : Offset) (root : Node) :
    (root.update_at p (fun _ => x)).update_at p (fun _ => y) = root.update_at p (fun _ => y) := by
  have := update_at_update_at_const (fun _ => x) y p [] root
  simpa using this

theorem prop_set_prop_set (ps : List Property) (name v w : Bytes) :
    prop_set (prop_set ps name v) name w = prop_set ps name w := by
  induction ps with
  | nil => rfl
  | cons p ps ih =>
    by_cases hp : p.name = name
    · simp [prop_set, hp]
    · simp [prop_set, hp, ih]

theorem node_mk_eta (n : Node) : Node.mk n.name n.props n.subnodes = n := by
  cases n; rfl

theorem fdt_setprop_placeholder_refines (fdt fdt1 : Fdt) (target : Offset) (name : Bytes)
    (len : Nat) (t : Node) (hn : fdt.root.node_at target = some t)
    (h : fdt_setprop_placeholder fdt target name len = .ok fdt1) :
    fdt1.root = fdt.root.update_at target
        (fun _ => .mk t.name (placeholder_props t.props name len) t.subnodes) ∧
      fdt.same_header fdt1 := by
  unfold fdt_setprop_placeholder at h
  simp only [hn] at h
  cases hp : prop_find t.props name with
  | some old =>
    simp only [hp] at h
    split at h
    · simp at h
    · simp only [Except.ok.injEq] at h
      subst h
      refine ⟨?_, rfl, rfl, rfl⟩
      show fdt.root.update_at target _ = _
      rw [update_at_congr (fun m => m.set_prop_val name (resize_val old len))
        (fun _ => t.set_prop_val name (resize_val old len)) target fdt.root t hn rfl]
      simp [Node.set_prop_val, placeholder_props, hp]
  | none =>
    simp only [hp] at h
    have key : fdt.root.update_at target (fun m => m.add_prop name (List.replicate len 0))
        = fdt.root.update_at target
          (fun _ => .mk t.name (placeholder_props t.props name len) t.subnodes) := by
      rw [update_at_congr (fun m => m.add_prop name (List.replicate len 0))
        (fun _ => t.add_prop name (List.replicate len 0)) target fdt.root t hn rfl]
      simp [Node.add_prop, placeholder_props, hp]
    split at h
    · split at h
      · simp at h
      · simp only [Except.ok.injEq] at h
        subst h
        exact ⟨key, rfl, rfl, rfl⟩
    · split at h
      · simp at h
      · simp only [Except.ok.injEq] at h
        subst h
        exact ⟨key, rfl, rfl, rfl⟩

theorem fdt_write_prop_refines (fdt : Fdt) (target : Offset) (name v : Bytes) (t : Node)
    (hn : fdt.root.node_at target = some t) :
    (fdt_write_prop fdt target name v).root = fdt.root.update_at target
        (fun _ => .mk t.name (prop_set t.props name v) t.subnodes) ∧
      fdt.same_header (fdt_write_prop fdt target name v) := by
  refine ⟨?_, rfl, rfl, rfl⟩
  show fdt.root.update_at target _ = _
  rw [update_at_congr (fun m => m.set_prop_val name v) (fun _ => t.set_prop_val name v)
    target fdt.root t hn rfl]
  rfl

theorem prop_set_placeholder_props (tps : List Property) (name v : Bytes) (len : Nat) :
    prop_set (placeholder_props tps name len) name v = set_or_add tps name v := by
  unfold placeholder_props set_or_add
  cases hp : prop_find tps name with
  | some old => simp [prop_set_prop_set]
  | none => simp [prop_set]

theorem fdt_setprop_refines (fdt fdt1 : Fdt) (target : Offset) (name v : Bytes) (t : Node)
    (hn : fdt.root.node_at target = some t)
    (h : fdt_setprop fdt target name v = .ok fdt1) :
    fdt1.root = fdt.root.update_at target
        (fun _ => .mk t.name (set_or_add t.props name v) t.subnodes) ∧
      fdt.same_header fdt1 := by
  unfold fdt_setprop at h
  cases h1 : fdt_setprop_placeholder fdt target name v.length with
  | error e => simp [h1] at h
  | ok f1 =>
    simp only [h1, Except.ok.injEq] at h
    subst h
    obtain ⟨hr1, hh1⟩ := fdt_setprop_placeholder_refines fdt f1 target name _ t hn h1
    have hn1 : f1.root.node_at target
        = some (.mk t.name (placeholder_props t.props name v.length) t.subnodes) := by
      rw [hr1]; exact node_at_update_at_same _ target fdt.root _ hn
    obtain ⟨hr2, hh2⟩ := fdt_write_prop_refines f1 target name v _ hn1
    refine ⟨?_, ⟨hh1.1.trans hh2.1, hh1.2.1.trans hh2.2.1, hh1.2.2.trans hh2.2.2⟩⟩
    rw [hr2, hr1, update_at_update_at_same_const]
    simp only [Node.name_mk, Node.props_mk, Node.subnodes_mk, prop_set_placeholder_props]

theorem same_header_refl (a : Fdt) : a.same_header a := ⟨rfl, rfl, rfl⟩

theorem same_header_trans {a b c : Fdt} (h1 : a.same_header b) (h2 : b.same_header c) :
    a.same_header c :=
  ⟨h1.1.trans h2.1, h1.2.1.trans h2.2.1, h1.2.2.trans h2.2.2⟩

theorem overlay_apply_props_refines :
    ∀ (ps : List Property) (fdt fdt1 : Fdt) (target : Offset) (nm : Bytes)
      (tps : List Property) (tsubs : List Node),
      fdt.root.node_at target = some (.mk nm tps tsubs) →
      overlay_apply_props target ps fdt = .ok fdt1 →
      fdt1.root = fdt.root.update_at target (fun _ => .mk nm (merge_props tps ps) tsubs) ∧
        fdt.same_header fdt1 := by
  intro ps
  induction ps with
  | nil =>
    intro fdt fdt1 target nm tps tsubs hn h
    simp only [overlay_apply_props, Except.ok.injEq] at h
    subst h
    refine ⟨?_, same_header_refl _⟩
    simp only [merge_props]
    rw [update_at_congr (fun _ => Node.mk nm tps tsubs) (fun m => m) target fdt.root _ hn rfl,
      update_at_id]
  | cons p ps ih =>
    intro fdt fdt1 target nm tps tsubs hn h
    simp only [overlay_apply_props] at h
    cases h1 : fdt_setprop fdt target p.name p.val with
    | error e => simp [h1] at h
    | ok f1 =>
      simp only [h1] at h
      obtain ⟨hr1, hh1⟩ := fdt_setprop_refines fdt f1 target p.name p.val _ hn h1
      simp only [Node.name_mk, Node.props_mk, Node.subnodes_mk] at hr1
      have hn1 : f1.root.node_at target
          = some (.mk nm (set_or_add tps p.name p.val) tsubs) := by
        rw [hr1]; exact node_at_update_at_same _ target fdt.root _ hn
      obtain ⟨hr2, hh2⟩ := ih f1 fdt1 target nm _ tsubs hn1 h
      refine ⟨?_, same_header_trans hh1 hh2⟩
      rw [hr2, hr1, update_at_update_at_same_const]
      simp only [merge_props]

theorem subnode_index_some : ∀ (ss : List Node) (name : Bytes) (j : Nat),
    subnode_index ss name = some j → ∃ c, ss[j]? = some c ∧ c.name = name := by
  intro ss
  induction ss with
  | nil => intro name j h; simp [subnode_index] at h
  | cons c cs ih =>
    intro name j h
    simp only [subnode_index] at h
    by_cases hc : c.name = name
    · simp only [hc, if_true, Option.some.injEq] at h
      subst h
      exact ⟨c, by simp, hc⟩
    · simp only [hc, if_false, Option.map_eq_some'] at h
      obtain ⟨i, hi, hj⟩ := h
      subst hj
      obtain ⟨d, hd, hname⟩ := ih name i hi
      exact ⟨d, by simpa using hd, hname⟩

theorem fdt_add_subnode_refines (fdt f1 : Fdt) (target nnode : Offset) (name nm : Bytes)
    (ps : List Property) (subs : List Node)
    (hn : fdt.root.node_at target = some (.mk nm ps subs))
    (h : fdt_add_subnode fdt target name = .ok (f1, nnode)) :
    subnode_index subs name = none ∧ nnode = target ++ [0] ∧
      f1.root = fdt.root.update_at target (fun _ => .mk nm ps (.mk name [] [] :: subs)) ∧
      fdt.same_header f1 := by
  unfold fdt_add_subnode at h
  simp only [hn, Node.subnodes_mk] at h
  cases hs : subnode_index subs name with
  | some j => simp [hs] at h
  | none =>
    simp only [hs] at h
    split at h
    · simp at h
    · simp only [Except.ok.injEq, Prod.mk.injEq] at h
      obtain ⟨h1, h2⟩ := h
      subst h1 h2
      refine ⟨rfl, rfl, ?_, rfl, rfl, rfl⟩
      show fdt.root.update_at target _ = _
      rw [update_at_congr (fun m => m.add_subnode name)
        (fun _ => (Node.mk nm ps subs).add_subnode name) target fdt.root _ hn rfl]
      rfl

theorem fdt_add_subnode_exists (fdt : Fdt) (target : Offset) (name nm : Bytes)
    (ps : List Property) (subs : List Node)
    (hn : fdt.root.node_at target = some (.mk nm ps subs))
    (h : fdt_add_subnode fdt target name = .error .EXISTS) :
    ∃ j, subnode_index subs name = some j := by
  unfold fdt_add_subnode at h
  simp only [hn, Node.subnodes_mk] at h
  cases hs : subnode_index subs name with
  | some j => exact ⟨j, rfl⟩
  | none =>
    simp only [hs] at h
    split at h <;> simp at h

theorem fdt_subnode_offset_eq (fdt : Fdt) (target : Offset) (name : Bytes) (n : Node)
    (hn : fdt.root.node_at target = some n) :
    fdt_subnode_offset fdt target name
      = match subnode_index n.subnodes name with
        | none => .error .NOTFOUND
        | some i => .ok (target ++ [i]) := by
  simp [fdt_subnode_offset, hn]

mutual
theorem overlay_apply_node_refines :
    ∀ (ov : Node) (fdt fdt1 : Fdt) (target : Offset) (t : Node),
      fdt.root.node_at target = some t →
      overlay_apply_node fdt target ov = .ok fdt1 →
      fdt1.root = fdt.root.update_at target (fun _ => t.merged ov) ∧ fdt.same_header fdt1
  | .mk onm props subs, fdt, fdt1, target, t, hn, h => by
    simp only [overlay_apply_node] at h
    cases h1 : overlay_apply_props target props fdt with
    | error e => simp [h1] at h
    | ok f1 =>
      simp only [h1] at h
      have hn0 : fdt.root.node_at target = some (.mk t.name t.props t.subnodes) := by
        rw [node_mk_eta]; exact hn
      obtain ⟨hr1, hh1⟩ := overlay_apply_props_refines props fdt f1 target _ _ _ hn0 h1
      have hn1 : f1.root.node_at target
          = some (.mk t.name (merge_props t.props props) t.subnodes) := by
        rw [hr1]; exact node_at_update_at_same _ target fdt.root _ hn
      obtain ⟨hr2, hh2⟩ := overlay_apply_subnodes_refines subs f1 fdt1 target _ _ _ hn1 h
      refine ⟨?_, same_header_trans hh1 hh2⟩
      rw [hr2, hr1, update_at_update_at_same_const]
      simp only [Node.merged]
theorem overlay_apply_subnodes_refines :
    ∀ (cs : List Node) (fdt fdt1 : Fdt) (target : Offset) (nm : Bytes) (ps : List Property)
      (tsubs : List Node),
      fdt.root.node_at target = some (.mk nm ps tsubs) →
      overlay_apply_subnodes fdt target cs = .ok fdt1 →
      fdt1.root = fdt.root.update_at target
          (fun _ => .mk nm ps (Node.merged_subnodes tsubs cs)) ∧
        fdt.same_header fdt1
  | [], fdt, fdt1, target, nm, ps, tsubs, hn, h => by
    simp only [overlay_apply_subnodes, Except.ok.injEq] at h
    subst h
    refine ⟨?_, same_header_refl _⟩
    simp only [Node.merged_subnodes]
    rw [update_at_congr (fun _ => Node.mk nm ps tsubs) (fun m => m) target fdt.root _ hn rfl,
      update_at_id]
  | c :: cs, fdt, fdt1, target, nm, ps, tsubs, hn, h => by
    simp only [overlay_apply_subnodes] at h
    cases ha : fdt_add_subnode fdt target c.name with
    | ok r =>
      obtain ⟨f0, nnode⟩ := r
      simp only [ha] at h
      obtain ⟨hidx, hnn, hr0, hh0⟩ := fdt_add_subnode_refines fdt f0 target nnode c.name nm ps
        tsubs hn ha
      subst hnn
      have hn0 : f0.root.node_at target = some (.mk nm ps (.mk c.name [] [] :: tsubs)) := by
        rw [hr0]; exact node_at_update_at_same _ target fdt.root _ hn
      have hnc : f0.root.node_at (target ++ [0]) = some (.mk c.name [] []) :=
        node_at_child_idx f0.root target nm ps _ 0 _ hn0 (by simp)
      cases h1 : overlay_apply_node f0 (target ++ [0]) c with
      | error e => simp [h1] at h
      | ok f1 =>
        simp only [h1] at h
        obtain ⟨hr1, hh1⟩ := overlay_apply_node_refines c f0 f1 (target ++ [0]) _ hnc h1
        have hn1 : f1.root.node_at target
            = some (.mk nm ps ((Node.mk c.name [] []).merged c :: tsubs)) := by
          rw [hr1]
          have := update_at_child_idx f0.root target nm ps _ 0 (Node.mk c.name [] [])
            ((Node.mk c.name [] []).merged c) hn0 (by simp)
          simpa using this
        obtain ⟨hr2, hh2⟩ := overlay_apply_subnodes_refines cs f1 fdt1 target nm ps _ hn1 h
        refine ⟨?_, same_header_trans hh0 (same_header_trans hh1 hh2)⟩
        rw [hr2, hr1, update_at_update_at_const, hr0, update_at_update_at_same_const]
        simp only [Node.merged_subnodes, hidx]
    | error e =>
      simp only [ha] at h
      by_cases he : e = .EXISTS
      · subst he
        simp only [if_true] at h
        obtain ⟨j, hj⟩ := fdt_add_subnode_exists fdt target c.name nm ps tsubs hn ha
        obtain ⟨tc, htc, _⟩ := subnode_index_some tsubs c.name j hj
        rw [fdt_subnode_offset_eq fdt target c.name _ hn] at h
        simp only [Node.subnodes_mk, hj] at h
        have hnc : fdt.root.node_at (target ++ [j]) = some tc :=
          node_at_child_idx fdt.root target nm ps tsubs j tc hn htc
        cases h1 : overlay_apply_node fdt (target ++ [j]) c with
        | error e => simp [h1] at h
        | ok f1 =>
          simp only [h1] at h
          obtain ⟨hr1, hh1⟩ := overlay_apply_node_refines c fdt f1 (target ++ [j]) _ hnc h1
          have hn1 : f1.root.node_at target = some (.mk nm ps (tsubs.set j (tc.merged c))) := by
            rw [hr1]
            exact update_at_child_idx fdt.root target nm ps tsubs j tc _ hn htc
          obtain ⟨hr2, hh2⟩ := overlay_apply_subnodes_refines cs f1 fdt1 target nm ps _ hn1 h
          refine ⟨?_, same_header_trans hh1 hh2⟩
          rw [hr2, hr1, update_at_update_at_const]
          simp only [Node.merged_subnodes, hj, htc]
      · simp [he] at h
end

/-! ### Nothing is deleted -/

theorem prop_find_append (ps qs : List Property) (name : Bytes) :
    prop_find (ps ++ qs) name
      = match prop_find ps name with
        | some v => some v
        | none => prop_find qs name := by
  induction ps with
  | nil => simp [prop_find]
  | cons p ps ih =>
    by_cases hp : p.name = name
    · simp [prop_find, hp]
    · simp [prop_find, hp, ih]

theorem prop_find_set_or_add (tps : List Property) (pn pv name : Bytes) :
    prop_find (set_or_add tps pn pv) name
      = if pn = name then some pv else prop_find tps name := by
  unfold set_or_add
  cases hp : prop_find tps pn with
  | some old =>
    by_cases hn : pn = name
    · subst hn
      simp [prop_find_prop_set_same tps pn pv (by simp [hp])]
    · simp only [hn, if_false]
      exact prop_find_prop_set_other tps pn pv name (fun e => hn e.symm)
  | none =>
    by_cases hn : pn = name
    · simp [prop_find, hn]
    · simp [prop_find, hn]

theorem prop_find_merge_props :
    ∀ (ps tps : List Property) (name : Bytes),
      prop_find (merge_props tps ps) name
        = match prop_find ps.reverse name with
          | some v => some v
          | none => prop_find tps name := by
  intro ps
  induction ps with
  | nil => intro tps name; simp [merge_props, prop_find]
  | cons p ps ih =>
    intro tps name
    simp only [merge_props, ih, List.reverse_cons, prop_find_append, prop_find_set_or_add]
    cases hr : prop_find ps.reverse name with
    | some v => simp
    | none =>
      by_cases hn : p.name = name
      · simp [prop_find, hn]
      · simp [prop_find, hn]

theorem prop_find_reverse_ne_none (ps : List Property) (name : Bytes) :
    prop_find ps.reverse name ≠ none ↔ prop_find ps name ≠ none := by
  induction ps with
  | nil => simp
  | cons p ps ih =>
    simp only [List.reverse_cons, prop_find_append]
    by_cases hn : p.name = name
    · cases hr : prop_find ps.reverse name <;> simp [prop_find, hn]
    · cases hr : prop_find ps.reverse name with
      | none =>
        have := ih.not
        simp only [hr, ne_eq, not_true_eq_false, not_false_eq_true, not_not, true_iff] at this
        simp [prop_find, hn, this]
      | some v =>
        have := ih
        simp only [hr, ne_eq, not_false_eq_true, true_iff, reduceCtorEq] at this
        simp [prop_find, hn, this]

theorem kept_refl (a : Node) : a.kept a :=
  fun _ n h => ⟨n, h, rfl, fun _ hp => hp⟩

theorem kept_trans {a b c : Node} (h1 : a.kept b) (h2 : b.kept c) : a.kept c := by
  intro segs n h
  obtain ⟨n1, hl1, hn1, hp1⟩ := h1 segs n h
  obtain ⟨n2, hl2, hn2, hp2⟩ := h2 segs n1 hl1
  exact ⟨n2, hl2, hn2.trans hn1, fun name hp => hp2 name (hp1 name hp)⟩

theorem covers_of_kept {t t1 ov : Node} (h1 : t.covers ov) (h2 : t.kept t1) : t1.covers ov := by
  intro segs n h
  obtain ⟨n1, hl1, hp1⟩ := h1 segs n h
  obtain ⟨n2, hl2, _, hp2⟩ := h2 segs n1 hl1
  exact ⟨n2, hl2, fun name hp => hp2 name (hp1 name hp)⟩

theorem subnode_index_set (ss : List Node) (i : Nat) (c c1 : Node) (name : Bytes)
    (hc : ss[i]? = some c) (hname : c1.name = c.name) :
    subnode_index (ss.set i c1) name = subnode_index ss name := by
  induction ss generalizing i with
  | nil => simp at hc
  | cons d ds ih =>
    cases i with
    | zero =>
      simp only [List.getElem?_cons_zero, Option.some.injEq] at hc
      subst hc
      simp [subnode_index, hname]
    | succ j =>
      simp only [List.getElem?_cons_succ] at hc
      simp [subnode_index, ih j hc]

theorem kept_props (nm : Bytes) (ps qs : List Property) (ss : List Node)
    (h : ∀ name, prop_find ps name ≠ none → prop_find qs name ≠ none) :
    (Node.mk nm ps ss).kept (Node.mk nm qs ss) := by
  intro segs n hl
  cases segs with
  | nil =>
    simp only [Node.lookup, Option.some.injEq] at hl
    subst hl
    exact ⟨_, rfl, rfl, h⟩
  | cons seg segs =>
    simp only [Node.lookup, Node.subnodes_mk] at hl ⊢
    exact ⟨n, hl, rfl, fun _ hp => hp⟩

theorem kept_set_child (nm : Bytes) (ps : List Property) (ss : List Node) (i : Nat)
    (c c1 : Node) (hc : ss[i]? = some c) (hk : c.kept c1) :
    (Node.mk nm ps ss).kept (Node.mk nm ps (ss.set i c1)) := by
  have hname : c1.name = c.name := by
    obtain ⟨n1, hl, hn, _⟩ := hk [] c rfl
    simp only [Node.lookup, Option.some.injEq] at hl
    subst hl
    exact hn
  have hi : i < ss.length := by
    by_contra hlt
    have := List.getElem?_eq_none (Nat.le_of_not_lt hlt)
    simp [this] at hc
  intro segs n hl
  cases segs with
  | nil =>
    simp only [Node.lookup, Option.some.injEq] at hl
    subst hl
    exact ⟨_, rfl, rfl, fun _ hp => hp⟩
  | cons seg segs =>
    simp only [Node.lookup, Node.subnodes_mk] at hl ⊢
    rw [subnode_index_set ss i c c1 seg hc hname]
    cases hs : subnode_index ss seg with
    | none => simp [hs] at hl
    | some j =>
      simp only [hs] at hl ⊢
      by_cases hij : j = i
      · subst hij
        simp only [hc] at hl
        simp only [List.getElem?_set_self hi]
        exact hk segs n hl
      · rw [List.getElem?_set_ne (fun e => hij e.symm)]
        cases hd : ss[j]? with
        | none => simp [hd] at hl
        | some d =>
          simp only [hd] at hl ⊢
          exact ⟨n, hl, rfl, fun _ hp => hp⟩

theorem kept_add_child (nm : Bytes) (ps : List Property) (ss : List Node) (c : Node)
    (hnew : subnode_index ss c.name = none) :
    (Node.mk nm ps ss).kept (Node.mk nm ps (c :: ss)) := by
  intro segs n hl
  cases segs with
  | nil =>
    simp only [Node.lookup, Option.some.injEq] at hl
    subst hl
    exact ⟨_, rfl, rfl, fun _ hp => hp⟩
  | cons seg segs =>
    simp only [Node.lookup, Node.subnodes_mk] at hl ⊢
    cases hs : subnode_index ss seg with
    | none => simp [hs] at hl
    | some j =>
      have hne : ¬ c.name = seg := by
        intro e
        rw [e] at hnew
        rw [hnew] at hs
        cases hs
      simp only [hs] at hl
      simp only [subnode_index, hne, if_false, hs, Option.map_some', List.getElem?_cons_succ]
      cases hd : ss[j]? with
      | none => simp [hd] at hl
      | some d =>
        simp only [hd] at hl ⊢
        exact ⟨n, hl, rfl, fun _ hp => hp⟩

theorem kept_update_at (f : Node → Node) :
    ∀ (p : Offset) (root n : Node), root.node_at p = some n → n.kept (f n) →
      root.kept (root.update_at p f) := by
  intro p
  induction p with
  | nil =>
    intro root n hn hk
    simp only [Node.node_at, Option.some.injEq] at hn
    subst hn
    exact hk
  | cons i rest ih =>
    intro root n hn hk
    simp only [Node.node_at] at hn
    cases hc : root.subnodes[i]? with
    | none => simp [hc] at hn
    | some c =>
      simp only [hc] at hn
      simp only [Node.update_at, hc]
      have := kept_set_child root.name root.props root.subnodes i c _ hc (ih c n hn hk)
      rw [node_mk_eta] at this
      exact this

theorem kept_merge_props (nm : Bytes) (tps ps : List Property) (ss : List Node) :
    (Node.mk nm tps ss).kept (Node.mk nm (merge_props tps ps) ss) := by
  apply kept_props
  intro name hp
  rw [prop_find_merge_props]
  cases hr : prop_find ps.reverse name with
  | some v => simp
  | none => simpa using hp

mutual
theorem kept_merged : ∀ (ov t : Node), t.kept (t.merged ov)
  | .mk _ props subs, t => by
    simp only [Node.merged]
    have h1 := kept_merge_props t.name t.props props t.subnodes
    rw [node_mk_eta] at h1
    exact kept_trans h1 (kept_merged_subnodes subs t.subnodes t.name _)
theorem kept_merged_subnodes : ∀ (cs tsubs : List Node) (nm : Bytes) (ps : List Property),
    (Node.mk nm ps tsubs).kept (Node.mk nm ps (Node.merged_subnodes tsubs cs))
  | [], tsubs, nm, ps => by
    simp only [Node.merged_subnodes]
    exact kept_refl _
  | c :: cs, tsubs, nm, ps => by
    simp only [Node.merged_subnodes]
    cases hs : subnode_index tsubs c.name with
    | none =>
      simp only
      have h1 := kept_add_child nm ps tsubs ((Node.mk c.name [] []).merged c)
        (by
          have hk := kept_merged c (Node.mk c.name [] [])
          obtain ⟨n1, hl, hn, _⟩ := hk [] _ rfl
          simp only [Node.lookup, Option.some.injEq] at hl
          subst hl
          rw [hn]
          exact hs)
      exact kept_trans h1 (kept_merged_subnodes cs _ nm ps)
    | some j =>
      simp only
      cases ht : tsubs[j]? with
      | none => exact kept_merged_subnodes cs tsubs nm ps
      | some t =>
        simp only
        have h1 := kept_set_child nm ps tsubs j t (t.merged c) ht (kept_merged c t)
        exact kept_trans h1 (kept_merged_subnodes cs _ nm ps)
end

theorem merged_name (ov t : Node) : (t.merged ov).name = t.name := by
  cases ov; simp [Node.merged]

theorem merged_props (ov t : Node) : (t.merged ov).props = merge_props t.props ov.props := by
  cases ov; simp [Node.merged]

theorem merged_subnodes (ov t : Node) :
    (t.merged ov).subnodes = Node.merged_subnodes t.subnodes ov.subnodes := by
  cases ov; simp [Node.merged]

theorem lookup_cons (n : Node) (seg : Bytes) (segs : List Bytes) :
    n.lookup (seg :: segs)
      = match subnode_index n.subnodes seg with
        | none => none
        | some i =>
          match n.subnodes[i]? with
          | none => none
          | some c => c.lookup segs := rfl

mutual
theorem covers_merged : ∀ (ov t : Node), (t.merged ov).covers ov
  | .mk onm props subs, t => by
    intro segs n hl
    cases segs with
    | nil =>
      simp only [Node.lookup, Option.some.injEq] at hl
      subst hl
      refine ⟨_, rfl, ?_⟩
      intro name hp
      simp only [Node.merged, Node.props_mk] at hp ⊢
      rw [prop_find_merge_props]
      have := (prop_find_reverse_ne_none props name).mpr hp
      cases hr : prop_find props.reverse name with
      | some v => simp
      | none => exact absurd hr this
    | cons seg segs =>
      have := covers_merged_subnodes subs t.subnodes onm props t.name
        (merge_props t.props props) seg segs n hl
      simpa only [Node.merged] using this
theorem covers_merged_subnodes :
    ∀ (cs tsubs : List Node) (onm : Bytes) (ops : List Property) (nm : Bytes)
      (ps : List Property) (seg : Bytes) (segs : List Bytes) (n : Node),
      (Node.mk onm ops cs).lookup (seg :: segs) = some n →
      ∃ n1, (Node.mk nm ps (Node.merged_subnodes tsubs cs)).lookup (seg :: segs) = some n1 ∧
        ∀ name, prop_find n.props name ≠ none → prop_find n1.props name ≠ none
  | [], tsubs, onm, ops, nm, ps, seg, segs, n, hl => by
    simp [lookup_cons, subnode_index] at hl
  | c :: cs, tsubs, onm, ops, nm, ps, seg, segs, n, hl => by
    simp only [Node.merged_subnodes]
    by_cases hc : c.name = seg
    · -- the symbol names the overlay child `c` itself
      have hlc : c.lookup segs = some n := by
        simpa [lookup_cons, subnode_index, hc] using hl
      cases hs : subnode_index tsubs c.name with
      | none =>
        simp only
        obtain ⟨n1, hl1, hp1⟩ := covers_merged c (Node.mk c.name [] []) segs n hlc
        have hstart : (Node.mk nm ps ((Node.mk c.name [] []).merged c :: tsubs)).lookup
            (seg :: segs) = some n1 := by
          simp only [lookup_cons, Node.subnodes_mk, subnode_index, merged_name, Node.name_mk, hc,
            if_true, List.getElem?_cons_zero]
          rw [← hc]
          exact hl1
        obtain ⟨n2, hl2, _, hp2⟩ := kept_merged_subnodes cs _ nm ps (seg :: segs) n1 hstart
        exact ⟨n2, hl2, fun name hp => hp2 name (hp1 name hp)⟩
      | some j =>
        simp only
        obtain ⟨t, ht, _⟩ := subnode_index_some tsubs c.name j hs
        simp only [ht]
        have hj : j < tsubs.length := by
          by_contra hlt
          have := List.getElem?_eq_none (Nat.le_of_not_lt hlt)
          simp [this] at ht
        obtain ⟨n1, hl1, hp1⟩ := covers_merged c t segs n hlc
        have hstart : (Node.mk nm ps (tsubs.set j (t.merged c))).lookup (seg :: segs)
            = some n1 := by
          simp only [lookup_cons, Node.subnodes_mk]
          rw [subnode_index_set tsubs j t _ seg ht (merged_name c t), ← hc, hs]
          simp only [List.getElem?_set_self hj]
          exact hl1
        obtain ⟨n2, hl2, _, hp2⟩ := kept_merged_subnodes cs _ nm ps (seg :: segs) n1 hstart
        exact ⟨n2, hl2, fun name hp => hp2 name (hp1 name hp)⟩
    · -- the symbol names a later overlay child
      have hl2 : (Node.mk onm ops cs).lookup (seg :: segs) = some n := by
        simp only [lookup_cons, Node.subnodes_mk, subnode_index, hc, if_false] at hl ⊢
        cases hs : subnode_index cs seg with
        | none => simp [hs] at hl
        | some i => simpa [hs] using hl
      cases hs : subnode_index tsubs c.name with
      | none => exact covers_merged_subnodes cs _ onm ops nm ps seg segs n hl2
      | some j =>
        simp only
        cases ht : tsubs[j]? with
        | none => exact covers_merged_subnodes cs _ onm ops nm ps seg segs n hl2
        | some t => exact covers_merged_subnodes cs _ onm ops nm ps seg segs n hl2
end

theorem kept_prop_set (nm : Bytes) (ps : List Property) (ss : List Node) (name v : Bytes) :
    (Node.mk nm ps ss).kept (Node.mk nm (prop_set ps name v) ss) := by
  apply kept_props
  intro other hp
  by_cases h : other = name
  · subst h
    rw [prop_find_prop_set_same ps other v hp]
    simp
  · rw [prop_find_prop_set_other ps name v other h]
    exact hp

theorem kept_placeholder_props (nm : Bytes) (ps : List Property) (ss : List Node)
    (name : Bytes) (len : Nat) :
    (Node.mk nm ps ss).kept (Node.mk nm (placeholder_props ps name len) ss) := by
  unfold placeholder_props
  cases hp : prop_find ps name with
  | some old => exact kept_prop_set nm ps ss name _
  | none =>
    apply kept_props
    intro other hq
    by_cases h : name = other
    · simp [prop_find, h]
    · simpa [prop_find, h] using hq

theorem kept_fdt_write_prop (fdt : Fdt) (off : Offset) (name v : Bytes) :
    fdt.root.kept (fdt_write_prop fdt off name v).root ∧
      fdt.same_header (fdt_write_prop fdt off name v) := by
  refine ⟨?_, rfl, rfl, rfl⟩
  cases hn : fdt.root.node_at off with
  | none =>
    show fdt.root.kept (fdt.root.update_at off _)
    rw [update_at_none _ off fdt.root hn]
    exact kept_refl _
  | some t =>
    rw [(fdt_write_prop_refines fdt off name v t hn).1]
    apply kept_update_at _ off fdt.root t hn
    have := kept_prop_set t.name t.props t.subnodes name v
    rw [node_mk_eta] at this
    exact this

theorem kept_fdt_setprop_placeholder (fdt f1 : Fdt) (off : Offset) (name : Bytes) (len : Nat)
    (h : fdt_setprop_placeholder fdt off name len = .ok f1) :
    fdt.root.kept f1.root ∧ fdt.same_header f1 := by
  cases hn : fdt.root.node_at off with
  | none => simp [fdt_setprop_placeholder, hn] at h
  | some t =>
    obtain ⟨hr, hh⟩ := fdt_setprop_placeholder_refines fdt f1 off name len t hn h
    refine ⟨?_, hh⟩
    rw [hr]
    apply kept_update_at _ off fdt.root t hn
    have := kept_placeholder_props t.name t.props t.subnodes name len
    rw [node_mk_eta] at this
    exact this

theorem kept_fdt_add_subnode (fdt f1 : Fdt) (off o : Offset) (name : Bytes)
    (h : fdt_add_subnode fdt off name = .ok (f1, o)) :
    fdt.root.kept f1.root ∧ fdt.same_header f1 := by
  cases hn : fdt.root.node_at off with
  | none => simp [fdt_add_subnode, hn] at h
  | some t =>
    have hn0 : fdt.root.node_at off = some (.mk t.name t.props t.subnodes) := by
      rw [node_mk_eta]; exact hn
    obtain ⟨hidx, _, hr, hh⟩ := fdt_add_subnode_refines fdt f1 off o name _ _ _ hn0 h
    refine ⟨?_, hh⟩
    rw [hr]
    apply kept_update_at _ off fdt.root t hn
    have := kept_add_child t.name t.props t.subnodes (Node.mk name [] []) hidx
    rw [node_mk_eta] at this
    exact this

theorem overlay_apply_node_invalid (fdt fdt1 : Fdt) (target : Offset) (ov : Node)
    (hn : fdt.root.node_at target = none)
    (h : overlay_apply_node fdt target ov = .ok fdt1) : fdt1 = fdt := by
  cases ov with
  | mk onm props subs =>
    simp only [overlay_apply_node] at h
    cases props with
    | cons p ps =>
      simp [overlay_apply_props, fdt_setprop, fdt_setprop_placeholder, hn] at h
    | nil =>
      simp only [overlay_apply_props] at h
      cases subs with
      | nil =>
        simp only [overlay_apply_subnodes, Except.ok.injEq] at h
        exact h.symm
      | cons c cs =>
        simp [overlay_apply_subnodes, fdt_add_subnode, hn] at h

theorem kept_overlay_apply_node (fdt fdt1 : Fdt) (target : Offset) (ov : Node)
    (h : overlay_apply_node fdt target ov = .ok fdt1) :
    fdt.root.kept fdt1.root ∧ fdt.same_header fdt1 := by
  cases hn : fdt.root.node_at target with
  | none =>
    rw [overlay_apply_node_invalid fdt fdt1 target ov hn h]
    exact ⟨kept_refl _, same_header_refl _⟩
  | some t =>
    obtain ⟨hr, hh⟩ := overlay_apply_node_refines ov fdt fdt1 target t hn h
    refine ⟨?_, hh⟩
    rw [hr]
    exact kept_update_at _ target fdt.root t hn (kept_merged ov t)

theorem kept_overlay_merge_fragments :
    ∀ (n k : Nat) (st st1 : MergeState), st.merge_olay_max_phdl = none →
      overlay_merge_fragments n k st = .ok st1 →
      st.fdt.root.kept st1.fdt.root ∧ st.fdt.same_header st1.fdt ∧ st1.fdto = st.fdto := by
  intro n
  induction n with
  | zero =>
    intro k st st1 _ h
    simp only [overlay_merge_fragments, Except.ok.injEq] at h
    subst h
    exact ⟨kept_refl _, same_header_refl _, rfl⟩
  | succ n ih =>
    intro k st st1 hm h
    simp only [overlay_merge_fragments] at h
    cases ho : fdt_subnode_offset st.fdto [k] (str "__overlay__") with
    | error e =>
      simp only [ho] at h
      split at h
      · exact ih (k + 1) st st1 hm h
      · simp at h
    | ok overlay =>
      simp only [ho] at h
      cases ht : overlay_get_target st.fdt st.fdto [k] with
      | error e => simp [ht, hm] at h
      | ok target =>
        simp only [ht] at h
        cases hov : st.fdto.root.node_at overlay with
        | none => simp [hov] at h
        | some ov =>
          simp only [hov] at h
          cases ha : overlay_apply_node st.fdt target.1 ov with
          | error e => simp [ha] at h
          | ok fdt1 =>
            simp only [ha] at h
            obtain ⟨hk1, hh1⟩ := kept_overlay_apply_node st.fdt fdt1 target.1 ov ha
            obtain ⟨hk2, hh2, hf2⟩ := ih (k + 1) { st with fdt := fdt1 } st1 hm h
            exact ⟨kept_trans hk1 hk2, same_header_trans hh1 hh2, hf2⟩

theorem kept_overlay_merge (fdt fdto : Fdt) (st : MergeState)
    (h : overlay_merge fdt fdto none = .ok st) :
    fdt.root.kept st.fdt.root ∧ fdt.same_header st.fdt ∧ st.fdto = fdto := by
  simp only [overlay_merge] at h
  exact kept_overlay_merge_fragments _ 0 _ st rfl h

theorem overlay_symbol_write_next (fdt fdto fdt1 : Fdt) (root_sym : Offset) (m : Nat)
    (name frag_name rel_path0 : Bytes) (olay olay1 : Option Bytes)
    (h : overlay_symbol_write fdt fdto root_sym m name frag_name rel_path0 olay
      = .next fdt1 olay1) :
    ∃ f1 len buf, fdt_setprop_placeholder fdt root_sym name len = .ok f1 ∧
      fdt1 = fdt_write_prop f1 root_sym name buf := by
  unfold overlay_symbol_write at h
  dsimp only at h
  repeat' split at h
  all_goals first
    | (simp only [overlay_symbol_finish, SymStep.next.injEq] at h
       obtain ⟨h1, _⟩ := h
       exact ⟨_, _, _, by assumption, h1.symm⟩)
    | cases h

theorem kept_overlay_symbol_step (fdt fdto fdt1 : Fdt) (ov_sym root_sym : Offset) (m prop : Nat)
    (olay olay1 : Option Bytes)
    (h : overlay_symbol_step fdt fdto ov_sym root_sym m prop olay = .next fdt1 olay1) :
    fdt.root.kept fdt1.root ∧ fdt.same_header fdt1 := by
  have key : ∀ name frag_name rel_path0 o,
      overlay_symbol_write fdt fdto root_sym m name frag_name rel_path0 o = .next fdt1 olay1 →
      fdt.root.kept fdt1.root ∧ fdt.same_header fdt1 := by
    intro name frag_name rel_path0 o hw
    obtain ⟨f1, len, buf, hp, hf⟩ := overlay_symbol_write_next _ _ _ _ _ _ _ _ _ _ hw
    obtain ⟨hk1, hh1⟩ := kept_fdt_setprop_placeholder fdt f1 root_sym name len hp
    obtain ⟨hk2, hh2⟩ := kept_fdt_write_prop f1 root_sym name buf
    rw [hf]
    exact ⟨kept_trans hk1 hk2, same_header_trans hh1 hh2⟩
  unfold overlay_symbol_step at h
  dsimp only at h
  repeat' split at h
  all_goals first
    | exact key _ _ _ _ h
    | cases h

theorem kept_overlay_symbol_loop (fdto : Fdt) (ov_sym root_sym : Offset) (m : Nat) :
    ∀ (rounds : Nat) (prop : Option Nat) (fdt fdt1 : Fdt) (olay : Option Bytes),
      overlay_symbol_loop fdto ov_sym root_sym m rounds prop fdt olay = some (.ok fdt1) →
      fdt.root.kept fdt1.root ∧ fdt.same_header fdt1 := by
  intro rounds
  induction rounds with
  | zero => intro prop fdt fdt1 olay h; simp [overlay_symbol_loop] at h
  | succ n ih =>
    intro prop fdt fdt1 olay h
    cases prop with
    | none =>
      simp only [overlay_symbol_loop, Option.some.injEq, Except.ok.injEq] at h
      subst h
      exact ⟨kept_refl _, same_header_refl _⟩
    | some p =>
      simp only [overlay_symbol_loop] at h
      cases hs : overlay_symbol_step fdt fdto ov_sym root_sym m p olay with
      | again =>
        simp only [hs] at h
        exact ih _ _ _ _ h
      | fail e f => simp [hs] at h
      | next f o =>
        simp only [hs] at h
        obtain ⟨hk1, hh1⟩ := kept_overlay_symbol_step _ _ _ _ _ _ _ _ _ hs
        obtain ⟨hk2, hh2⟩ := ih _ _ _ _ h
        exact ⟨kept_trans hk1 hk2, same_header_trans hh1 hh2⟩

theorem kept_overlay_symbol_update (rounds : Nat) (fdt fdto fdt1 : Fdt) (m : Nat)
    (h : overlay_symbol_update rounds fdt fdto m = some (.ok fdt1)) :
    fdt.root.kept fdt1.root ∧ fdt.same_header fdt1 := by
  unfold overlay_symbol_update at h
  split at h
  · simp only [Option.some.injEq, Except.ok.injEq] at h
    subst h
    exact ⟨kept_refl _, same_header_refl _⟩
  · split at h
    · exact kept_overlay_symbol_loop _ _ _ _ _ _ _ _ _ h
    · split at h
      · split at h
        · simp at h
        · rename_i r hr
          obtain ⟨hk1, hh1⟩ := kept_fdt_add_subnode fdt r.1 [] r.2 _ hr
          obtain ⟨hk2, hh2⟩ := kept_overlay_symbol_loop _ _ _ _ _ _ _ _ _ h
          exact ⟨kept_trans hk1 hk2, same_header_trans hh1 hh2⟩
      · simp at h

theorem fdt_overlay_apply_ok (rounds : Nat) (fdt fdto : Fdt) (out : Outcome)
    (h : fdt_overlay_apply rounds fdt fdto = some out) (hok : out.ret = none) :
    ∃ fdto1 fdto2 fdto3 st,
      fdt_ro_probe fdt = .ok () ∧ fdt_ro_probe fdto = .ok () ∧
      overlay_adjust_local_phandles fdto (fdt.root.max_phandle 0) = .ok fdto1 ∧
      overlay_update_local_references fdto1 (fdt.root.max_phandle 0) = .ok fdto2 ∧
      overlay_fixup_phandles fdt fdto2 0 = .ok fdto3 ∧
      overlay_merge fdt fdto3 none = .ok st ∧
      overlay_symbol_update rounds st.fdt st.fdto 0 = some (.ok out.fdt) ∧
      out.fdto = fdt_set_magic st.fdto UINT32_MAX := by
  unfold fdt_overlay_apply at h
  repeat' split at h
  all_goals first
    | (cases h <;> (simp [apply_err] at hok; done))
    | (cases h
       simp only [fdt_find_max_phandle, Except.ok.injEq] at *
       subst_vars
       exact ⟨_, _, _, _, by assumption, by assumption, by assumption, by assumption,
         by assumption, by assumption, by assumption, rfl⟩)

theorem walk_path_lookup (fdt : Fdt) :
    ∀ (segs : List Bytes) (off off1 : Offset) (n : Node),
      fdt.root.node_at off = some n → walk_path fdt off segs = .ok off1 →
      ∃ n1, fdt.root.node_at off1 = some n1 ∧
        n.lookup (segs.filter (fun s => decide (s ≠ []))) = some n1 := by
  intro segs
  induction segs with
  | nil =>
    intro off off1 n hn h
    simp only [walk_path, Except.ok.injEq] at h
    subst h
    exact ⟨n, hn, rfl⟩
  | cons seg segs ih =>
    intro off off1 n hn h
    simp only [walk_path] at h
    by_cases hs : seg = []
    · simp only [hs, if_true] at h
      obtain ⟨n1, h1, h2⟩ := ih off off1 n hn h
      exact ⟨n1, h1, by simpa [hs] using h2⟩
    · simp only [hs, if_false] at h
      rw [fdt_subnode_offset_eq fdt off seg n hn] at h
      cases hi : subnode_index n.subnodes seg with
      | none => simp [hi] at h
      | some i =>
        simp only [hi] at h
        obtain ⟨c, hc, _⟩ := subnode_index_some n.subnodes seg i hi
        have hnc : fdt.root.node_at (off ++ [i]) = some c := by
          have hn0 : fdt.root.node_at off = some (.mk n.name n.props n.subnodes) := by
            rw [node_mk_eta]; exact hn
          exact node_at_child_idx fdt.root off _ _ _ i c hn0 hc
        obtain ⟨n1, h1, h2⟩ := ih (off ++ [i]) off1 c hnc h
        refine ⟨n1, h1, ?_⟩
        simp only [List.filter_cons, hs, ne_eq, not_false_eq_true, decide_True, if_true,
          lookup_cons, hi, hc]
        exact h2

theorem lookup_walk_path (fdt : Fdt) :
    ∀ (segs : List Bytes) (off : Offset) (n n1 : Node),
      fdt.root.node_at off = some n →
      n.lookup (segs.filter (fun s => decide (s ≠ []))) = some n1 →
      ∃ off1, walk_path fdt off segs = .ok off1 ∧ fdt.root.node_at off1 = some n1 := by
  intro segs
  induction segs with
  | nil =>
    intro off n n1 hn h
    simp only [List.filter_nil, Node.lookup, Option.some.injEq] at h
    subst h
    exact ⟨off, rfl, hn⟩
  | cons seg segs ih =>
    intro off n n1 hn h
    by_cases hs : seg = []
    · simp only [walk_path, hs, if_true]
      apply ih off n n1 hn
      simpa [hs] using h
    · simp only [List.filter_cons, hs, ne_eq, not_false_eq_true, decide_True, if_true,
        lookup_cons] at h
      simp only [walk_path, hs, if_false]
      rw [fdt_subnode_offset_eq fdt off seg n hn]
      cases hi : subnode_index n.subnodes seg with
      | none => simp [hi] at h
      | some i =>
        simp only [hi] at h ⊢
        cases hc : n.subnodes[i]? with
        | none => simp [hc] at h
        | some c =>
          simp only [hc] at h
          have hn0 : fdt.root.node_at off = some (.mk n.name n.props n.subnodes) := by
            rw [node_mk_eta]; exact hn
          exact ih (off ++ [i]) c n1 (node_at_child_idx fdt.root off _ _ _ i c hn0 hc) h

theorem kept_path_offset (a b : Fdt) (hk : a.root.kept b.root) (path : Bytes) (off : Offset)
    (n : Node) (hp : fdt_path_offset_namelen a path = .ok off)
    (hn : a.root.node_at off = some n) :
    ∃ off1 n1, fdt_path_offset_namelen b path = .ok off1 ∧ b.root.node_at off1 = some n1 ∧
      n1.name = n.name ∧ ∀ name, prop_find n.props name ≠ none → prop_find n1.props name ≠ none := by
  unfold fdt_path_offset_namelen at hp ⊢
  cases path with
  | nil => simp at hp
  | cons c rest =>
    simp only at hp ⊢
    by_cases hc : c = 47
    · simp only [hc, if_true] at hp ⊢
      obtain ⟨n0, hn0, hl⟩ := walk_path_lookup a _ [] off a.root rfl hp
      rw [hn] at hn0
      injection hn0 with hn0
      subst hn0
      obtain ⟨n1, hl1, hname, hprops⟩ := hk _ n hl
      obtain ⟨off1, hw, hn1⟩ := lookup_walk_path b _ [] b.root n1 rfl hl1
      exact ⟨off1, n1, hw, hn1, hname, hprops⟩
    · simp [hc] at hp

theorem kept_fdt_overlay_apply (rounds : Nat) (fdt fdto : Fdt) (out : Outcome)
    (h : fdt_overlay_apply rounds fdt fdto = some out) (hok : out.ret = none) :
    fdt.root.kept out.fdt.root ∧ fdt.same_header out.fdt := by
  obtain ⟨fdto1, fdto2, fdto3, st, _, _, _, _, _, hm, hs, _⟩ :=
    fdt_overlay_apply_ok rounds fdt fdto out h hok
  obtain ⟨hk1, hh1, _⟩ := kept_overlay_merge fdt fdto3 st hm
  obtain ⟨hk2, hh2⟩ := kept_overlay_symbol_update rounds st.fdt st.fdto out.fdt 0 hs
  exact ⟨kept_trans hk1 hk2, same_header_trans hh1 hh2⟩

/-! ### Replacement of property values -/

/-- C5 (as amended): when `overlay_apply_node` merges an overlay node whose
(last) property `p` has value `B` into a base node that has property `p` with
value `A`, and succeeds, the base node's property `p` has value exactly `B`:
the whole value is replaced. -/
theorem overlay_apply_node_replaces (fdt fdt1 : Fdt) (target : Offset) (t ov : Node)
    (p A B : Bytes) (hn : fdt.root.node_at target = some t)
    (_hA : prop_find t.props p = some A) (hB : prop_find ov.props.reverse p = some B)
    (h : overlay_apply_node fdt target ov = .ok fdt1) :
    fdt_getprop fdt1 target p = .ok B := by
  obtain ⟨hr, _⟩ := overlay_apply_node_refines ov fdt fdt1 target t hn h
  have hn1 : fdt1.root.node_at target = some (t.merged ov) := by
    rw [hr]; exact node_at_update_at_same _ target fdt.root t hn
  rw [fdt_getprop_eq fdt1 target p _ hn1, merged_props, prop_find_merge_props, hB]

/-- C5, witness: the fragment of `overlay_set_p` merged into `/soc/node` of
`base_soc`, whose `p` is `[1, 2]`; the whole `fdt_overlay_apply` gives the
same value. -/
theorem overlay_apply_node_replaces_witness :
    base_soc.root.node_at [0, 0]
      = some (nd "node" [("phandle", [0, 0, 0, 7]), ("p", [1, 2])] []) ∧
    prop_find (nd "node" [("phandle", [0, 0, 0, 7]), ("p", [1, 2])] []).props (str "p")
      = some [1, 2] ∧
    prop_find (nd "__overlay__" [("p", [9])] []).props.reverse (str "p") = some [9] ∧
    overlay_apply_node base_soc [0, 0] (nd "__overlay__" [("p", [9])] []) = .ok base_soc_p9 ∧
    fdt_getprop base_soc_p9 [0, 0] (str "p") = .ok [9] ∧
    (fdt_overlay_apply 1 base_soc overlay_set_p).map
        (fun r => (r.ret, peek_prop r.fdt [0, 0] (str "p"))) = some (none, [9]) :=
  ⟨rfl, rfl, rfl, rfl,
    overlay_apply_node_replaces base_soc base_soc_p9 [0, 0]
      (nd "node" [("phandle", [0, 0, 0, 7]), ("p", [1, 2])] [])
      (nd "__overlay__" [("p", [9])] []) (str "p") [1, 2] [9] rfl rfl rfl rfl,
    by decide⟩

/-- C5, counterexample: in `overlay_two_fragments` the fragment `fragment@0`
targets `/soc/node`, whose `p` is `[1, 2]`, and its `__overlay__` has
`p = [9]`; after a successful `fdt_overlay_apply` the node's `p` is `[8]`, the
value of the later fragment. -/
theorem overlay_apply_node_replaces_counter :
    peek_prop base_soc [0, 0] (str "p") = [1, 2] ∧
    (fdt_path_offset base_soc (peek_prop overlay_two_fragments [0] (str "target-path"))).toOption
      = some [0, 0] ∧
    peek_prop overlay_two_fragments [0, 0] (str "p") = [9] ∧
    (fdt_overlay_apply 1 base_soc overlay_two_fragments).map
        (fun r => (r.ret, peek_prop r.fdt [0, 0] (str "p"))) = some (none, [8]) := by
  refine ⟨by decide, by decide, by decide, by decide⟩

/-! ### Nothing is deleted by a successful call -/

/-- C6: a successful `fdt_overlay_apply` deletes nothing.  Every node of the
base that a path reached before the call is reached by the same path
afterwards, has the same name and still has each of its property names.  And
each merge of an overlay node into a target (`overlay_apply_node`, run for a
fragment's `__overlay__` and recursively for its subnodes) leaves a target that
keeps all it had, holds every node and property name of the overlay node (a
subnode of the same name is reused and gains the overlay's properties, a
missing one is created), and keeps the value of every property the overlay
node does not name. -/
theorem fdt_overlay_apply_deletes_nothing (rounds : Nat) (fdt fdto : Fdt) (out : Outcome)
    (h : fdt_overlay_apply rounds fdt fdto = some out) (hok : out.ret = none) :
    (∀ (path : Bytes) (off : Offset) (n : Node),
      fdt_path_offset_namelen fdt path = .ok off → fdt.root.node_at off = some n →
      ∃ off1 n1, fdt_path_offset_namelen out.fdt path = .ok off1 ∧
        out.fdt.root.node_at off1 = some n1 ∧ n1.name = n.name ∧
        ∀ name, prop_find n.props name ≠ none → prop_find n1.props name ≠ none) ∧
    (∀ (b b1 : Fdt) (target : Offset) (t ov : Node),
      b.root.node_at target = some t → overlay_apply_node b target ov = .ok b1 →
      ∃ t1, b1.root.node_at target = some t1 ∧ t.kept t1 ∧ t1.covers ov ∧
        ∀ name, prop_find ov.props name = none →
          prop_find t1.props name = prop_find t.props name) := by
  constructor
  · intro path off n hp hn
    exact kept_path_offset fdt out.fdt (kept_fdt_overlay_apply rounds fdt fdto out h hok).1
      path off n hp hn
  · intro b b1 target t ov hn ha
    obtain ⟨hr, _⟩ := overlay_apply_node_refines ov b b1 target t hn ha
    refine ⟨t.merged ov, ?_, kept_merged ov t, covers_merged ov t, ?_⟩
    · rw [hr]; exact node_at_update_at_same _ target b.root t hn
    · intro name hnone
      rw [merged_props, prop_find_merge_props]
      have : prop_find ov.props.reverse name = none := by
        by_contra hc
        exact (prop_find_reverse_ne_none ov.props name).mp hc hnone
      rw [this]

/-- C6, witness: `overlay_children` applied to `base_children`; the node
`/tgt/c1` is still found and still has its properties. -/
theorem fdt_overlay_apply_deletes_nothing_witness :
    fdt_overlay_apply 1 base_children overlay_children
      = some { ret := none, fdt := base_children_merged,
               fdto := fdt_set_magic overlay_children UINT32_MAX } ∧
    (∃ off1 n1, fdt_path_offset_namelen base_children_merged (str "/tgt/c1") = .ok off1 ∧
      base_children_merged.root.node_at off1 = some n1 ∧
      n1.name = (nd "c1" [("a", [1]), ("b", [2])] []).name ∧
      ∀ name, prop_find (nd "c1" [("a", [1]), ("b", [2])] []).props name ≠ none →
        prop_find n1.props name ≠ none) ∧
    peek_prop base_children_merged [0, 1] (str "a") = [1] ∧
    peek_prop base_children_merged [0, 1] (str "b") = [3] ∧
    peek_prop base_children_merged [0, 0] (str "d") = [5] :=
  ⟨rfl,
    (fdt_overlay_apply_deletes_nothing 1 base_children overlay_children
      { ret := none, fdt := base_children_merged,
        fdto := fdt_set_magic overlay_children UINT32_MAX } rfl rfl).1
      (str "/tgt/c1") [0, 0] (nd "c1" [("a", [1]), ("b", [2])] []) rfl rfl,
    by decide, by decide, by decide⟩

/-! ### Renumbered phandles and the phandles of the base -/

mutual
theorem max_phandle_ge : ∀ (n : Node) (acc : Nat), acc ≤ n.max_phandle acc
  | .mk _ ps ss, acc => by
    simp only [Node.max_phandle]
    exact le_trans (le_max_left _ _) (max_phandle_list_ge ss _)
theorem max_phandle_list_ge : ∀ (l : List Node) (acc : Nat), acc ≤ Node.max_phandle_list l acc
  | [], acc => by simp [Node.max_phandle_list]
  | c :: cs, acc => by
    simp only [Node.max_phandle_list]
    exact le_trans (max_phandle_ge c acc) (max_phandle_list_ge cs _)
end

mutual
theorem phandle_le_max_phandle :
    ∀ (n : Node) (acc : Nat) (off : Offset) (m : Node), n.node_at off = some m →
      m.phandle ≤ n.max_phandle acc
  | .mk nm ps ss, acc, off, m, h => by
    simp only [Node.max_phandle]
    cases off with
    | nil =>
      simp only [Node.node_at, Option.some.injEq] at h
      subst h
      exact le_trans (le_max_right _ _) (max_phandle_list_ge ss _)
    | cons i rest =>
      simp only [Node.node_at, Node.subnodes_mk] at h
      cases hc : ss[i]? with
      | none => simp [hc] at h
      | some c =>
        simp only [hc] at h
        exact phandle_le_max_phandle_list ss _ i c rest m hc h
theorem phandle_le_max_phandle_list :
    ∀ (l : List Node) (acc : Nat) (i : Nat) (c : Node) (off : Offset) (m : Node),
      l[i]? = some c → c.node_at off = some m → m.phandle ≤ Node.max_phandle_list l acc
  | [], acc, i, c, off, m, hc, h => by simp at hc
  | d :: ds, acc, i, c, off, m, hc, h => by
    simp only [Node.max_phandle_list]
    cases i with
    | zero =>
      simp only [List.getElem?_cons_zero, Option.some.injEq] at hc
      subst hc
      exact le_trans (phandle_le_max_phandle d acc off m h) (max_phandle_list_ge ds _)
    | succ j =>
      simp only [List.getElem?_cons_succ] at hc
      exact phandle_le_max_phandle_list ds _ j c off m hc h
end

theorem fdt_get_phandle_le_max (fdt : Fdt) (q : Offset) :
    fdt_get_phandle fdt q ≤ fdt.root.max_phandle 0 := by
  unfold fdt_get_phandle
  cases hn : fdt.root.node_at q with
  | none => simp
  | some m => exact phandle_le_max_phandle fdt.root 0 q m hn

/-- C7 (as amended): when the renumbering pass of `fdt_overlay_apply`, run
with the largest phandle of the base, succeeds, every `phandle` or
`linux,phandle` property of the overlay that is four bytes long and holds a
value other than 0 then holds that value plus the largest base phandle; the
new value is at least `max_phandle(base) + 1`, no node of the base has it as
its phandle, and two such properties that held different values hold
different values afterwards. -/
theorem overlay_adjust_local_phandles_above_base (fdt fdto fdto1 : Fdt)
    (h : overlay_adjust_local_phandles fdto (fdt.root.max_phandle 0) = .ok fdto1)
    (off : Offset) (n : Node) (name val : Bytes)
    (hn : fdto.root.node_at off = some n)
    (hname : name = str "phandle" ∨ name = str "linux,phandle")
    (hval : prop_find n.props name = some val) (hlen : val.length = 4)
    (hpos : 0 < fdt32_to_cpu val) :
    ∃ new, fdt_getprop fdto1 off name = .ok new ∧
      fdt32_to_cpu new = fdt32_to_cpu val + fdt.root.max_phandle 0 ∧
      fdt32_to_cpu new ≥ fdt.root.max_phandle 0 + 1 ∧
      (∀ q, fdt_get_phandle fdt q ≠ fdt32_to_cpu new) ∧
      ∀ (off2 : Offset) (n2 : Node) (name2 val2 new2 : Bytes),
        fdto.root.node_at off2 = some n2 →
        (name2 = str "phandle" ∨ name2 = str "linux,phandle") →
        prop_find n2.props name2 = some val2 → val2.length = 4 →
        fdt_getprop fdto1 off2 name2 = .ok new2 →
        fdt32_to_cpu val2 ≠ fdt32_to_cpu val → fdt32_to_cpu new2 ≠ fdt32_to_cpu new := by
  obtain ⟨_, hall⟩ := overlay_adjust_local_phandles_adds_max fdt fdto fdto1 h
  obtain ⟨hget, hrt⟩ := hall off n name val hn hname hval hlen
  refine ⟨_, hget, hrt, ?_, ?_, ?_⟩
  · rw [hrt]; omega
  · intro q
    have := fdt_get_phandle_le_max fdt q
    rw [hrt]; omega
  · intro off2 n2 name2 val2 new2 hn2 hname2 hval2 hlen2 hget2 hne
    obtain ⟨hg, hr⟩ := hall off2 n2 name2 val2 hn2 hname2 hval2 hlen2
    rw [hg] at hget2
    have hget3 := Except.ok.inj hget2
    rw [← hget3, hr, hrt]
    omega

/-- C7, witness: the node `x` of `overlay_new_node`, phandle 1, over
`base_soc`; after the whole `fdt_overlay_apply` the merged node carries the
renumbered phandle 8. -/
theorem overlay_adjust_local_phandles_above_base_witness :
    overlay_adjust_local_phandles overlay_new_node (base_soc.root.max_phandle 0)
      = .ok overlay_new_node_renumbered ∧
    0 < fdt32_to_cpu [0, 0, 0, 1] ∧
    (∃ new, fdt_getprop overlay_new_node_renumbered [0, 0, 0] (str "phandle") = .ok new ∧
      fdt32_to_cpu new = fdt32_to_cpu [0, 0, 0, 1] + base_soc.root.max_phandle 0 ∧
      fdt32_to_cpu new ≥ base_soc.root.max_phandle 0 + 1 ∧
      (∀ q, fdt_get_phandle base_soc q ≠ fdt32_to_cpu new) ∧
      ∀ (off2 : Offset) (n2 : Node) (name2 val2 new2 : Bytes),
        overlay_new_node.root.node_at off2 = some n2 →
        (name2 = str "phandle" ∨ name2 = str "linux,phandle") →
        prop_find n2.props name2 = some val2 → val2.length = 4 →
        fdt_getprop overlay_new_node_renumbered off2 name2 = .ok new2 →
        fdt32_to_cpu val2 ≠ fdt32_to_cpu [0, 0, 0, 1] →
        fdt32_to_cpu new2 ≠ fdt32_to_cpu new) ∧
    (fdt_overlay_apply 1 base_soc overlay_new_node).map
        (fun r => (r.ret, fdt_get_phandle r.fdt [0, 0, 0])) = some (none, 8) :=
  ⟨rfl, by decide,
    overlay_adjust_local_phandles_above_base base_soc overlay_new_node
      overlay_new_node_renumbered rfl [0, 0, 0] (nd "x" [("phandle", [0, 0, 0, 1])] [])
      (str "phandle") [0, 0, 0, 1] rfl (Or.inl rfl) rfl rfl (by decide),
    by decide⟩

/-- C7, counterexample: `overlay_zero_phandle` gives its node `x` the phandle
property 0; after a successful `fdt_overlay_apply` over `base_soc`, whose
largest phandle is 7, the new node `/x` has phandle 7, which is below
`7 + 1`, and `/soc/node` has phandle 7 as well. -/
theorem overlay_adjust_local_phandles_above_base_counter :
    base_soc.root.max_phandle 0 = 7 ∧
    (fdt_overlay_apply 1 base_soc overlay_zero_phandle).map (fun r =>
        (r.ret, (fdt_get_name r.fdt [0]).toOption, fdt_get_phandle r.fdt [0],
          (fdt_get_name r.fdt [1, 0]).toOption, fdt_get_phandle r.fdt [1, 0]))
      = some (none, some (str "x"), 7, some (str "node"), 7) := by
  refine ⟨by decide, by decide⟩

/-! ### One fixup string patches four bytes -/

theorem write_at_length : ∀ (b : Bytes) (i : Nat) (d : Bytes), (write_at b i d).length = b.length
  | [], _, _ => by simp [write_at]
  | _ :: _, 0, [] => by simp [write_at]
  | _ :: bs, 0, _ :: ds => by simp [write_at, write_at_length bs 0 ds]
  | _ :: bs, i + 1, d => by simp [write_at, write_at_length bs i d]

theorem write_at_getElem?_lt : ∀ (b : Bytes) (i : Nat) (d : Bytes) (j : Nat), j < i →
    (write_at b i d)[j]? = b[j]?
  | [], _, _, _, _ => by simp [write_at]
  | _ :: _, 0, _, _, h => by omega
  | x :: bs, i + 1, d, j, h => by
    cases j with
    | zero => simp [write_at]
    | succ k =>
      simp only [write_at, List.getElem?_cons_succ]
      exact write_at_getElem?_lt bs i d k (by omega)

theorem write_at_getElem?_ge : ∀ (b : Bytes) (i : Nat) (d : Bytes) (j : Nat),
    i + d.length ≤ j → (write_at b i d)[j]? = b[j]?
  | [], _, _, _, _ => by simp [write_at]
  | _ :: _, 0, [], _, _ => by simp [write_at]
  | x :: bs, 0, y :: ds, j, h => by
    cases j with
    | zero => simp at h
    | succ k =>
      simp only [write_at, List.getElem?_cons_succ]
      exact write_at_getElem?_ge bs 0 ds k (by simp at h ⊢; omega)
  | x :: bs, i + 1, d, j, h => by
    cases j with
    | zero => omega
    | succ k =>
      simp only [write_at, List.getElem?_cons_succ]
      exact write_at_getElem?_ge bs i d k (by omega)

theorem write_at_getElem?_mid : ∀ (b : Bytes) (i : Nat) (d : Bytes) (j : Nat),
    j < d.length → i + j < b.length → (write_at b i d)[i + j]? = d[j]?
  | [], _, _, _, _, h => by simp at h
  | _ :: _, 0, [], _, h, _ => by simp at h
  | x :: bs, 0, y :: ds, j, h, hb => by
    cases j with
    | zero => simp [write_at]
    | succ k =>
      simp only [write_at, Nat.zero_add, List.getElem?_cons_succ]
      have := write_at_getElem?_mid bs 0 ds k (by simpa using h) (by simp at hb ⊢; omega)
      simpa using this
  | x :: bs, i + 1, d, j, h, hb => by
    have e : i + 1 + j = (i + j) + 1 := by omega
    rw [e]
    simp only [write_at, List.getElem?_cons_succ]
    exact write_at_getElem?_mid bs i d j h (by simp at hb; omega)

theorem cpu_to_fdt32_length (v : Nat) : (cpu_to_fdt32 v).length = 4 := by
  simp [cpu_to_fdt32]

/-- C4 (as amended): for a label of the base's `/__symbols__` whose path
resolves to a base node with non-zero phandle `h`, and a fixup `path:name:poffset`
where the overlay node at `path` has a property `name` of length at least
`poffset + 4`, `overlay_fixup_one_phandle` succeeds, and afterwards that
property has its length unchanged, bytes `[poffset, poffset + 4)` equal to the
big-endian encoding of `h`, and every other byte as it was before this fixup
string was handled. -/
theorem overlay_fixup_one_phandle_patches (fdt fdto : Fdt) (symbols_off : Offset)
    (path name : Bytes) (poffset : Nat) (label symbol_path : Bytes)
    (symbol_off fixup_off : Offset) (old : Bytes)
    (hsym : fdt_getprop fdt symbols_off label = .ok symbol_path)
    (hnode : fdt_path_offset fdt symbol_path = .ok symbol_off)
    (hph : fdt_get_phandle fdt symbol_off ≠ 0)
    (hfix : fdt_path_offset_namelen fdto path = .ok fixup_off)
    (hold : fdt_getprop fdto fixup_off name = .ok old)
    (hlen : poffset + 4 ≤ old.length) :
    ∃ fdto1 new,
      overlay_fixup_one_phandle fdt fdto (.ok symbols_off) path name poffset label
        = .ok fdto1 ∧
      fdt_getprop fdto1 fixup_off name = .ok new ∧
      new.length = old.length ∧
      (∀ i, i < 4 → new[poffset + i]? = (cpu_to_fdt32 (fdt_get_phandle fdt symbol_off))[i]?) ∧
      ∀ i, i < poffset ∨ poffset + 4 ≤ i → new[i]? = old[i]? := by
  refine ⟨fdt_write_prop fdto fixup_off name
      (write_at old poffset (cpu_to_fdt32 (fdt_get_phandle fdt symbol_off))),
    write_at old poffset (cpu_to_fdt32 (fdt_get_phandle fdt symbol_off)), ?_, ?_, ?_, ?_, ?_⟩
  · have hl : ¬ old.length < 4 + poffset := by omega
    simp [overlay_fixup_one_phandle, hsym, hnode, hph, hfix,
      fdt_setprop_inplace_namelen_partial, hold, cpu_to_fdt32_length, hl]
  · exact fdt_getprop_write_prop_same fdto fixup_off name old _ hold
  · exact write_at_length _ _ _
  · intro i hi
    exact write_at_getElem?_mid old poffset _ i (by rw [cpu_to_fdt32_length]; exact hi)
      (by omega)
  · intro i hi
    rcases hi with hi | hi
    · exact write_at_getElem?_lt old poffset _ i hi
    · exact write_at_getElem?_ge old poffset _ i (by rw [cpu_to_fdt32_length]; exact hi)

/-- C4, witness: the fixup `/fragment@0/__overlay__/child:reg:4` of
`overlay_fixup_reg` against the label `L` of `base_soc`, phandle 7; after the
whole `fdt_overlay_apply` bytes `[4, 8)` of `reg` of the merged `child` are
`00 00 00 07` and the bytes before them are the overlay's. -/
theorem overlay_fixup_one_phandle_patches_witness :
    fdt_getprop base_soc [1] (str "L") = .ok (zstr "/soc/node") ∧
    fdt_path_offset base_soc (zstr "/soc/node") = .ok [0, 0] ∧
    fdt_get_phandle base_soc [0, 0] ≠ 0 ∧
    fdt_path_offset_namelen overlay_fixup_reg (str "/fragment@0/__overlay__/child")
      = .ok [0, 0, 0] ∧
    fdt_getprop overlay_fixup_reg [0, 0, 0] (str "reg") = .ok [1, 1, 1, 1, 2, 2, 2, 2] ∧
    4 + 4 ≤ [1, 1, 1, 1, 2, 2, 2, 2].length ∧
    (∃ fdto1 new,
      overlay_fixup_one_phandle base_soc overlay_fixup_reg (.ok [1])
        (str "/fragment@0/__overlay__/child") (str "reg") 4 (str "L") = .ok fdto1 ∧
      fdt_getprop fdto1 [0, 0, 0] (str "reg") = .ok new ∧
      new.length = [1, 1, 1, 1, 2, 2, 2, 2].length ∧
      (∀ i, i < 4 → new[4 + i]? = (cpu_to_fdt32 (fdt_get_phandle base_soc [0, 0]))[i]?) ∧
      ∀ i, i < 4 ∨ 4 + 4 ≤ i → new[i]? = [1, 1, 1, 1, 2, 2, 2, 2][i]?) ∧
    cpu_to_fdt32 (fdt_get_phandle base_soc [0, 0]) = [0, 0, 0, 7] ∧
    (fdt_overlay_apply 1 base_soc overlay_fixup_reg).map
        (fun r => (r.ret, (fdt_get_name r.fdt [0]).toOption, peek_prop r.fdt [0] (str "reg")))
      = some (none, some (str "child"), [1, 1, 1, 1, 0, 0, 0, 7]) :=
  ⟨rfl, rfl, by decide, rfl, rfl, by decide,
    overlay_fixup_one_phandle_patches base_soc overlay_fixup_reg [1]
      (str "/fragment@0/__overlay__/child") (str "reg") 4 (str "L") (zstr "/soc/node")
      [0, 0] [0, 0, 0] [1, 1, 1, 1, 2, 2, 2, 2] rfl rfl (by decide) rfl rfl (by decide),
    by decide, by decide⟩

/-- C4, counterexample: `overlay_fixup_reg_twice` lists two fixup strings
for `reg` of `child`, at bytes 0 and 4.  After a successful
`fdt_overlay_apply` the bytes `[0, 4)` of `reg` of the merged `child`, which
lie outside the range `[4, 8)` of the second fixup string, are `00 00 00 07`
and not the overlay's original `01 01 01 01`. -/
theorem overlay_fixup_one_phandle_patches_counter :
    fdt_getprop overlay_fixup_reg_twice [0, 0, 0] (str "reg") = .ok [1, 1, 1, 1, 2, 2, 2, 2] ∧
    (fdt_overlay_apply 1 base_soc overlay_fixup_reg_twice).map
        (fun r => (r.ret, (fdt_get_name r.fdt [0]).toOption, peek_prop r.fdt [0] (str "reg")))
      = some (none, some (str "child"), [0, 0, 0, 7, 0, 0, 0, 7]) :=
  ⟨rfl, by decide⟩

/-! ### The value written for a symbol -/

theorem write_at_nil (b : Bytes) (i : Nat) : write_at b i [] = b := by
  induction b generalizing i with
  | nil => simp [write_at]
  | cons x xs ih =>
    cases i with
    | zero => simp [write_at]
    | succ k => simp [write_at, ih k]

theorem write_at_zero_append : ∀ (d b : Bytes), d.length ≤ b.length →
    write_at b 0 d = d ++ b.drop d.length
  | [], b, _ => by simp [write_at_nil]
  | y :: ds, [], h => by simp at h
  | y :: ds, x :: bs, h => by
    simp only [write_at, List.length_cons, List.drop_succ_cons, List.cons_append,
      List.cons.injEq, true_and]
    exact write_at_zero_append ds bs (by simpa using h)

theorem write_at_append_right : ∀ (a b : Bytes) (i : Nat) (d : Bytes),
    write_at (a ++ b) (a.length + i) d = a ++ write_at b i d
  | [], b, i, d => by simp
  | x :: xs, b, i, d => by
    have e : (x :: xs).length + i = (xs.length + i) + 1 := by simp; omega
    rw [e]
    simp only [List.cons_append, write_at, List.cons.injEq, true_and]
    exact write_at_append_right xs b i d

/-- The buffer after the last three writes of the loop body, when its first
`P.length` bytes are `P`. -/
theorem symbol_value (P rel rest : Bytes) (hlen : rest.length = 1 + rel.length + 1) :
    write_at (write_at (write_at (P ++ rest) P.length [47]) (P.length + 1) rel)
      (P.length + 1 + rel.length) [0] = P ++ [47] ++ rel ++ [0] := by
  match rest, hlen with
  | x :: r1, hlen =>
    have h1 : write_at (P ++ x :: r1) P.length [47] = P ++ 47 :: r1 := by
      have := write_at_append_right P (x :: r1) 0 [47]
      simpa [write_at, write_at_nil] using this
    have hr1 : rel.length ≤ r1.length := by simp at hlen; omega
    have h2 : write_at (P ++ 47 :: r1) (P.length + 1) rel
        = P ++ 47 :: (rel ++ r1.drop rel.length) := by
      have := write_at_append_right (P ++ [47]) r1 0 rel
      simp only [List.length_append, List.length_singleton, Nat.add_zero, List.append_assoc,
        List.singleton_append] at this
      rw [this, write_at_zero_append rel r1 hr1]
    have h3 : ∃ z, r1.drop rel.length = [z] := by
      have hl : (r1.drop rel.length).length = 1 := by simp at hlen ⊢; omega
      match r1.drop rel.length, hl with
      | [z], _ => exact ⟨z, rfl⟩
    obtain ⟨z, hz⟩ := h3
    rw [h1, h2, hz]
    have := write_at_append_right (P ++ 47 :: rel) [z] 0 [0]
    simp only [List.length_append, List.length_cons, Nat.add_zero] at this
    have e : P.length + 1 + rel.length = P.length + (rel.length + 1) := by omega
    rw [e]
    simpa [write_at] using this

theorem resize_val_length (old : Bytes) (len : Nat) : (resize_val old len).length = len := by
  simp [resize_val]; omega

theorem fdt_setprop_placeholder_getprop (fdt fdt1 : Fdt) (node : Offset) (name : Bytes)
    (len : Nat) (h : fdt_setprop_placeholder fdt node name len = .ok fdt1) :
    ∃ b, fdt_getprop fdt1 node name = .ok b ∧ b.length = len := by
  cases hn : fdt.root.node_at node with
  | none => simp [fdt_setprop_placeholder, hn] at h
  | some t =>
    obtain ⟨hr, _⟩ := fdt_setprop_placeholder_refines fdt fdt1 node name len t hn h
    have hu := node_at_update_at_same
      (fun _ => Node.mk t.name (placeholder_props t.props name len) t.subnodes) node fdt.root t hn
    unfold fdt_getprop
    rw [hr, hu]
    simp only [Node.props_mk, placeholder_props]
    cases hp : prop_find t.props name with
    | some old =>
      simp only [prop_find_prop_set_same t.props name (resize_val old len) (by simp [hp])]
      exact ⟨_, rfl, resize_val_length old len⟩
    | none =>
      simp [prop_find]

theorem cstr_take : ∀ (tp : Bytes), ∃ x, tp.take ((cstr tp).length + 1) = cstr tp ++ x
  | [] => ⟨[], by simp [cstr]⟩
  | b :: bs => by
    by_cases hb : b = 0
    · exact ⟨[b], by simp [cstr, hb]⟩
    · obtain ⟨x, hx⟩ := cstr_take bs
      exact ⟨x, by simp [cstr, hb, hx]⟩

theorem strchr_append (a rest : Bytes) (c : Nat) (h : ∀ b ∈ a, b ≠ c ∧ b ≠ 0) :
    strchr (a ++ c :: rest) c = some a.length := by
  induction a with
  | nil => simp [strchr]
  | cons x xs ih =>
    have hx := h x (by simp)
    simp [strchr, hx.1, hx.2, ih (fun b hb => h b (by simp [hb]))]

theorem prop_find_placeholder_props_other (ps : List Property) (name : Bytes) (len : Nat)
    (other : Bytes) (h : other ≠ name) :
    prop_find (placeholder_props ps name len) other = prop_find ps other := by
  unfold placeholder_props
  cases hp : prop_find ps name with
  | some old => simp [prop_find_prop_set_other _ _ _ _ h]
  | none => simp [prop_find, Ne.symm h]

theorem props_phandle_placeholder_props (ps : List Property) (name : Bytes) (len : Nat)
    (h1 : name ≠ str "phandle") (h2 : name ≠ str "linux,phandle") :
    props_phandle (placeholder_props ps name len) = props_phandle ps := by
  unfold props_phandle
  rw [prop_find_placeholder_props_other _ _ _ _ (Ne.symm h1),
    prop_find_placeholder_props_other _ _ _ _ (Ne.symm h2)]

theorem find_phandle_list_set (ph : Nat) (c c' : Node)
    (hc : c'.find_phandle ph = c.find_phandle ph) :
    ∀ (ss : List Node) (i k : Nat), ss[i]? = some c →
      Node.find_phandle_list (ss.set i c') ph k = Node.find_phandle_list ss ph k
  | [], i, k, h => by simp at h
  | d :: ds, 0, k, h => by
    simp only [List.getElem?_cons_zero, Option.some.injEq] at h
    subst h
    simp [Node.find_phandle_list, hc]
  | d :: ds, i + 1, k, h => by
    simp only [List.getElem?_cons_succ] at h
    simp [Node.find_phandle_list, find_phandle_list_set ph c c' hc ds i (k + 1) h]

theorem find_phandle_update_at (ph : Nat) (t : Node) (ps : List Property)
    (hp : props_phandle ps = props_phandle t.props) :
    ∀ (off : Offset) (root : Node), root.node_at off = some t →
      (root.update_at off (fun _ => .mk t.name ps t.subnodes)).find_phandle ph
        = root.find_phandle ph
  | [], root, h => by
    simp only [Node.node_at, Option.some.injEq] at h
    subst h
    cases root with
    | mk nm ps0 ss =>
      simp only [Node.update_at, Node.find_phandle, Node.name_mk, Node.subnodes_mk,
        Node.props_mk] at hp ⊢
      rw [hp]
  | i :: rest, root, h => by
    cases root with
    | mk nm ps0 ss =>
      simp only [Node.node_at, Node.subnodes_mk] at h
      cases hc : ss[i]? with
      | none => simp [hc] at h
      | some c =>
        simp only [hc] at h
        simp only [Node.update_at, Node.subnodes_mk, hc, Node.name_mk, Node.props_mk,
          Node.find_phandle]
        rw [find_phandle_list_set ph c _ (find_phandle_update_at ph t ps hp rest c h) ss i 0 hc]

theorem name_update_at (t : Node) (ps : List Property) :
    ∀ (off : Offset) (root : Node), root.node_at off = some t →
      (root.update_at off (fun _ => .mk t.name ps t.subnodes)).name = root.name
  | [], root, h => by
    simp only [Node.node_at, Option.some.injEq] at h
    subst h
    simp [Node.update_at]
  | i :: rest, root, h => by
    simp only [Node.update_at]
    split <;> simp

theorem path_names_update_at (t : Node) (ps : List Property) :
    ∀ (q off : Offset) (root : Node), root.node_at off = some t →
      path_names (root.update_at off (fun _ => .mk t.name ps t.subnodes)) q
        = path_names root q
  | [], off, root, h => by
    simp only [path_names, name_update_at t ps off root h]
  | j :: qs, [], root, h => by
    simp only [Node.node_at, Option.some.injEq] at h
    subst h
    simp [Node.update_at, path_names]
  | j :: qs, i :: rest, root, h => by
    simp only [Node.node_at] at h
    cases hc : root.subnodes[i]? with
    | none => simp [hc] at h
    | some c =>
      simp only [hc] at h
      simp only [Node.update_at, hc, path_names, Node.name_mk, Node.subnodes_mk]
      by_cases hij : i = j
      · subst hij
        have hlt : i < root.subnodes.length := by
          rcases Nat.lt_or_ge i root.subnodes.length with hl | hl
          · exact hl
          · rw [List.getElem?_eq_none hl] at hc; cases hc
        simp only [List.getElem?_set_self hlt, hc, path_names_update_at t ps qs rest c h]
      · simp only [List.getElem?_set_ne hij]

theorem get_path_len_up_ge (fdt : Fdt) : ∀ (up : List Nat) (acc L : Nat),
    get_path_len_up fdt up acc = .ok L → acc ≤ L
  | [], acc, L, h => by
    unfold get_path_len_up at h
    split at h
    · cases h
    · split at h
      · cases h; exact le_refl _
      · cases h
  | i :: up, acc, L, h => by
    unfold get_path_len_up at h
    split at h
    · cases h
    · split at h
      · cases h; exact le_refl _
      · have := get_path_len_up_ge fdt up _ L h
        omega

theorem path_names_snoc : ∀ (init : Offset) (i : Nat) (root : Node) (p : Bytes),
    path_names root (init ++ [i]) = some p →
    ∃ p0 c, path_names root init = some p0 ∧ root.node_at (init ++ [i]) = some c ∧
      p = p0 ++ (c.name ++ [47])
  | [], i, root, p, h => by
    simp only [List.nil_append, path_names] at h
    cases hc : root.subnodes[i]? with
    | none => simp [hc] at h
    | some c =>
      simp only [hc, Option.some.injEq] at h
      exact ⟨_, c, rfl, by simp [Node.node_at, hc], by rw [← h]⟩
  | j :: init, i, root, p, h => by
    simp only [List.cons_append, path_names] at h
    cases hc : root.subnodes[j]? with
    | none => simp [hc] at h
    | some d =>
      simp only [hc] at h
      cases hq : path_names d (init ++ [i]) with
      | none => simp [hq] at h
      | some q =>
        simp only [List.append_eq, hq, Option.some.injEq] at h
        obtain ⟨p0, c, h0, hn, he⟩ := path_names_snoc init i d q hq
        refine ⟨root.name ++ [47] ++ p0, c, ?_, ?_, ?_⟩
        · simp [path_names, hc, h0]
        · simp [Node.node_at, hc, hn]
        · rw [← h, he]; simp

theorem path_names_length_pos : ∀ (off : Offset) (root : Node) (p : Bytes),
    path_names root off = some p → 0 < p.length
  | [], root, p, h => by
    simp only [path_names, Option.some.injEq] at h
    rw [← h]; simp
  | i :: rest, root, p, h => by
    simp only [path_names] at h
    split at h
    · cases h
    · split at h
      · cases h
      · simp only [Option.some.injEq] at h
        rw [← h]; simp

/-- The length `get_path_len` computes never exceeds the length of the path
that `fdt_get_path` assembles. -/
theorem get_path_len_up_le (fdt : Fdt) (off : Offset) :
    ∀ (p : Bytes), path_names fdt.root off = some p →
      ∀ (acc L : Nat), get_path_len_up fdt off.reverse acc = .ok L → L + 1 ≤ acc + p.length := by
  induction off using List.reverseRecOn with
  | nil =>
    intro p hp acc L h
    have := path_names_length_pos [] fdt.root p hp
    simp only [List.reverse_nil, get_path_len_up] at h
    split at h
    · cases h
    · split at h
      · cases h; omega
      · cases h
  | append_singleton init i ih =>
    intro p hp acc L h
    obtain ⟨p0, c, h0, hn, he⟩ := path_names_snoc init i fdt.root p hp
    have hpos := path_names_length_pos init fdt.root p0 h0
    simp only [List.reverse_append, List.reverse_cons, List.reverse_nil, List.nil_append,
      List.singleton_append, get_path_len_up, List.reverse_reverse, fdt_get_name, hn] at h
    split at h
    · subst he
      cases h
      simp only [List.length_append]
      omega
    · have := ih p0 h0 _ L h
      subst he
      simp only [List.length_append, List.length_singleton]
      omega

/-- The walk of `get_path_len` from a node with a name covers at least that
name and a `/`. -/
theorem get_path_len_up_named (fdt : Fdt) (off : Offset) (nm : Bytes) (L : Nat)
    (hnm : fdt_get_name fdt off = .ok nm)
    (h : get_path_len_up fdt off.reverse 0 = .ok L) :
    (nm = [] → L = 0) ∧ (nm ≠ [] → nm.length + 1 ≤ L) := by
  induction off using List.reverseRecOn with
  | nil =>
    simp only [List.reverse_nil, get_path_len_up, hnm] at h
    split at h
    · cases h
      rename_i hz
      exact ⟨fun _ => rfl, fun hne => absurd (List.length_eq_zero.mp hz) hne⟩
    · cases h
  | append_singleton init i _ih =>
    simp only [List.reverse_append, List.reverse_cons, List.reverse_nil, List.nil_append,
      List.singleton_append, get_path_len_up, List.reverse_reverse, hnm] at h
    split at h
    · cases h
      rename_i hz
      exact ⟨fun _ => rfl, fun hne => absurd (List.length_eq_zero.mp hz) hne⟩
    · rename_i hz
      have := get_path_len_up_ge fdt _ _ L h
      refine ⟨fun he => ?_, fun _ => by omega⟩
      rw [he] at hz
      simp at hz

theorem overlay_symbol_finish_value (f1 fdt1 : Fdt) (root_sym : Offset) (name b P rest rel : Bytes)
    (olay olay1 : Option Bytes)
    (hb : fdt_getprop f1 root_sym name = .ok b)
    (hlen : rest.length = 1 + rel.length + 1)
    (h : overlay_symbol_finish f1 root_sym name (P ++ rest) P.length rel olay
      = .next fdt1 olay1) :
    fdt_getprop fdt1 root_sym name = .ok (P ++ [47] ++ rel ++ [0]) := by
  simp only [overlay_symbol_finish, SymStep.next.injEq] at h
  rw [← h.1, symbol_value P rel rest hlen]
  exact fdt_getprop_write_prop_same f1 root_sym name b _ hb

theorem peek_prop_of_getprop (fdt : Fdt) (node : Offset) (name b : Bytes)
    (h : fdt_getprop fdt node name = .ok b) : peek_prop fdt node name = b := by
  simp [peek_prop, h]

theorem fdt_path_offset_length (fdt : Fdt) (path : Bytes) (off : Offset)
    (h : fdt_path_offset fdt path = .ok off) : 1 ≤ (cstr path).length := by
  unfold fdt_path_offset fdt_path_offset_namelen at h
  cases hc : cstr path with
  | nil => simp [hc] at h
  | cons c cs => simp

theorem fdt_node_offset_by_phandle_eq (fdt f1 : Fdt) (ph : Nat)
    (h : f1.root.find_phandle ph = fdt.root.find_phandle ph) :
    fdt_node_offset_by_phandle f1 ph = fdt_node_offset_by_phandle fdt ph := by
  unfold fdt_node_offset_by_phandle
  rw [h]

theorem fdt_get_path_eq (fdt f1 : Fdt) (off : Offset) (n : Nat)
    (h : path_names f1.root off = path_names fdt.root off) :
    fdt_get_path f1 off n = fdt_get_path fdt off n := by
  unfold fdt_get_path
  rw [h]

theorem overlay_get_target_path (fdt fdto : Fdt) (fragment target : Offset) (tp : Bytes)
    (h : overlay_get_target fdt fdto fragment = .ok (target, some tp)) :
    fdt_path_offset fdt tp = .ok target := by
  unfold overlay_get_target at h
  dsimp only at h
  repeat' split at h
  all_goals first
    | (cases h; done)
    | (cases h; assumption)

theorem overlay_get_target_phandle_stable (fdt f1 fdto : Fdt) (fragment target : Offset)
    (hfind : ∀ ph, f1.root.find_phandle ph = fdt.root.find_phandle ph)
    (h : overlay_get_target fdt fdto fragment = .ok (target, none)) :
    overlay_get_target f1 fdto fragment = .ok (target, none) := by
  unfold overlay_get_target at h ⊢
  dsimp only at h ⊢
  split
  · rename_i hc; simp [hc] at h
  · rename_i hc
    simp only [hc, if_false] at h
    split
    · rename_i hz
      simp only [hz, if_true] at h
      repeat' split at h
      all_goals cases h
    · rename_i hz
      simp only [hz, if_false] at h
      rw [fdt_node_offset_by_phandle_eq fdt f1 _ (hfind _)]
      exact h

theorem get_path_len_up_name (fdt : Fdt) (off : Offset) (acc L : Nat)
    (h : get_path_len_up fdt off.reverse acc = .ok L) :
    ∃ nm, fdt_get_name fdt off = .ok nm := by
  cases hr : off.reverse with
  | nil =>
    have : off = [] := by simpa using hr
    subst this
    simp only [List.reverse_nil, get_path_len_up] at h
    split at h
    · cases h
    · rename_i nm hn; exact ⟨nm, hn⟩
  | cons i up =>
    have e : off = (i :: up).reverse := by rw [← hr, List.reverse_reverse]
    rw [hr] at h
    simp only [get_path_len_up] at h
    split at h
    · cases h
    · rename_i nm hn; exact ⟨nm, e ▸ hn⟩

theorem fdt_setprop_placeholder_stable (fdt f1 : Fdt) (node : Offset) (name : Bytes) (len : Nat)
    (h : fdt_setprop_placeholder fdt node name len = .ok f1) :
    (∀ q, path_names f1.root q = path_names fdt.root q) ∧
    (name ≠ str "phandle" → name ≠ str "linux,phandle" →
      ∀ ph, f1.root.find_phandle ph = fdt.root.find_phandle ph) := by
  cases hn : fdt.root.node_at node with
  | none => simp [fdt_setprop_placeholder, hn] at h
  | some t =>
    obtain ⟨hr, _⟩ := fdt_setprop_placeholder_refines fdt f1 node name len t hn h
    rw [hr]
    refine ⟨fun q => path_names_update_at t _ q node fdt.root hn, fun h1 h2 ph => ?_⟩
    exact find_phandle_update_at ph t _ (props_phandle_placeholder_props t.props name len h1 h2)
      node fdt.root hn

theorem get_path_len_ok (fdt : Fdt) (off : Offset) (len : Nat)
    (h : get_path_len fdt off = .ok len) :
    ∃ L0, get_path_len_up fdt off.reverse 0 = .ok L0 ∧ len = if L0 = 0 then 1 else L0 := by
  unfold get_path_len at h
  split at h
  · cases h
  · split at h
    · cases h
    · rename_i L0 hL
      cases h
      exact ⟨L0, hL, rfl⟩

theorem fdt_get_path_ok (fdt : Fdt) (off : Offset) (n : Nat) (path : Bytes)
    (h : fdt_get_path fdt off n = .ok path) :
    ∃ p, path_names fdt.root off = some p ∧ p.length ≤ n ∧
      path = if p.length > 1 then p.dropLast else p := by
  unfold fdt_get_path at h
  split at h
  · cases h
  · split at h
    · cases h
    · rename_i p hp
      split at h
      · cases h
      · rename_i hle
        refine ⟨p, hp, by omega, ?_⟩
        split at h <;> rename_i hlt <;> cases h <;> simp [hlt]

/-- What `overlay_symbol_write` leaves in the label when it completes, in the
mode of `fdt_overlay_apply`. -/
theorem overlay_symbol_write_value (fdt fdto fdt1 : Fdt) (root_sym : Offset)
    (name frag rel : Bytes) (olay1 : Option Bytes)
    (h1 : name ≠ str "phandle") (h2 : name ≠ str "linux,phandle")
    (h : overlay_symbol_write fdt fdto root_sym 0 name frag rel none = .next fdt1 olay1) :
    ∃ fragment tgt P,
      fdt_subnode_offset fdto [] frag = .ok fragment ∧
      overlay_get_target fdt fdto fragment = .ok tgt ∧
      fdt_getprop fdt1 root_sym name = .ok (P ++ [47] ++ rel ++ [0]) ∧
      (∀ tp, tgt.2 = some tp → P = if (cstr tp).length > 1 then cstr tp else []) ∧
      (tgt.2 = none → ∃ nm, fdt_get_name fdt tgt.1 = .ok nm ∧
        if nm = [] then P = [] else fdt_get_path fdt tgt.1 (P.length + 1) = .ok P) := by
  unfold overlay_symbol_write at h
  cases hf : fdt_subnode_offset fdto [] frag with
  | error e => simp [hf] at h
  | ok fragment =>
  simp only [hf] at h
  cases ho : fdt_subnode_offset fdto fragment (str "__overlay__") with
  | error e => simp [ho] at h
  | ok o =>
  simp only [ho] at h
  cases ht : overlay_get_target fdt fdto fragment with
  | error e => simp [ht] at h
  | ok tgt =>
  simp only [ht] at h
  obtain ⟨target, tpo⟩ := tgt
  cases tpo with
  | some tp =>
    dsimp only at h
    have hl := fdt_path_offset_length fdt tp target (overlay_get_target_path _ _ _ _ _ ht)
    cases hp : fdt_setprop_placeholder fdt root_sym name
        ((cstr tp).length + (if (cstr tp).length > 1 then 1 else 0) + rel.length + 1) with
    | error e => simp [hp] at h
    | ok f1 =>
      simp only [hp] at h
      obtain ⟨b, hb, hblen⟩ := fdt_setprop_placeholder_getprop _ _ _ _ _ hp
      rw [peek_prop_of_getprop _ _ _ _ hb] at h
      by_cases hgt : (cstr tp).length > 1
      · simp only [hgt, if_true] at h hblen
        obtain ⟨x, hx⟩ := cstr_take tp
        have hxl : (tp.take ((cstr tp).length + 1)).length ≤ (cstr tp).length + 1 := by
          simp only [List.length_take]; omega
        have hxl2 : (cstr tp ++ x).length ≤ b.length := by
          rw [← hx]; omega
        rw [hx, write_at_zero_append _ b hxl2, List.append_assoc] at h
        refine ⟨fragment, (target, some tp), cstr tp, rfl, ht, ?_, ?_, ?_⟩
        · refine overlay_symbol_finish_value f1 fdt1 root_sym name b (cstr tp) _ rel _ _ hb ?_ h
          rw [hx] at hxl
          simp only [List.length_append, List.length_drop] at hxl hxl2 ⊢
          omega
        · intro tp2 he
          cases he
          simp [hgt]
        · intro he; cases he
      · simp only [hgt, if_false] at h hblen
        have hone : (cstr tp).length = 1 := by omega
        rw [hone] at h hblen
        refine ⟨fragment, (target, some tp), [], rfl, ht, ?_, ?_, ?_⟩
        · exact overlay_symbol_finish_value f1 fdt1 root_sym name b [] b rel _ _ hb
            (by omega) h
        · intro tp2 he
          cases he
          simp [hgt]
        · intro he; cases he
  | none =>
    dsimp only at h
    cases hl : get_path_len fdt target with
    | error e => simp [hl] at h
    | ok len =>
    simp only [hl] at h
    cases hp : fdt_setprop_placeholder fdt root_sym name
        (len + (if len > 1 then 1 else 0) + rel.length + 1) with
    | error e => simp [hp] at h
    | ok f1 =>
    simp only [hp] at h
    obtain ⟨b, hb, hblen⟩ := fdt_setprop_placeholder_getprop _ _ _ _ _ hp
    obtain ⟨hpath, hfind⟩ := fdt_setprop_placeholder_stable _ _ _ _ _ hp
    rw [overlay_get_target_phandle_stable fdt f1 fdto fragment target (hfind h1 h2) ht,
      peek_prop_of_getprop _ _ _ _ hb] at h
    dsimp only at h
    obtain ⟨L0, hL0, hlen⟩ := get_path_len_ok fdt target len hl
    obtain ⟨nm, hnm⟩ := get_path_len_up_name fdt target 0 L0 hL0
    obtain ⟨hnil, hnamed⟩ := get_path_len_up_named fdt target nm L0 hnm hL0
    by_cases hgt : len > 1
    · simp only [hgt, if_true] at h hblen
      have hLlen : L0 = len := by
        by_cases hz : L0 = 0
        · simp [hz] at hlen; omega
        · simp [hz] at hlen; exact hlen.symm
      cases hg : fdt_get_path f1 target (len + 1) with
      | error e => simp [hg] at h
      | ok path =>
        simp only [hg] at h
        rw [fdt_get_path_eq fdt f1 target _ (hpath target)] at hg
        obtain ⟨p, hpn, hple, hpe⟩ := fdt_get_path_ok fdt target _ path hg
        have hge := get_path_len_up_le fdt target p hpn 0 L0 hL0
        have hplen : p.length = len + 1 := by omega
        have hpathlen : path.length = len := by
          rw [hpe]
          simp only [hplen, show len + 1 > 1 from by omega, if_true, List.length_dropLast]
          omega
        have hxl2 : (path ++ [0]).length ≤ b.length := by
          simp only [List.length_append, List.length_singleton]; omega
        rw [write_at_zero_append _ b hxl2, List.append_assoc, ← hpathlen] at h
        refine ⟨fragment, (target, none), path, rfl, ht, ?_, ?_, ?_⟩
        · refine overlay_symbol_finish_value f1 fdt1 root_sym name b path _ rel _ _ hb ?_ h
          simp only [List.length_append, List.length_drop, List.length_singleton]
          omega
        · intro tp2 he; cases he
        · intro _
          refine ⟨nm, hnm, ?_⟩
          have hne : nm ≠ [] := by
            intro he
            have := hnil he
            omega
          simp only [hne, if_false, hpathlen]
          exact hg
    · simp only [hgt, if_false] at h hblen
      have hnme : nm = [] := by
        by_contra hne
        have := hnamed hne
        have hnl : 0 < nm.length := List.length_pos.mpr hne
        by_cases hz : L0 = 0
        · omega
        · simp [hz] at hlen; omega
      have hone : len = 1 := by
        have := hnil hnme
        simp [this] at hlen
        exact hlen
      rw [hone] at h hblen
      refine ⟨fragment, (target, none), [], rfl, ht, ?_, ?_, ?_⟩
      · exact overlay_symbol_finish_value f1 fdt1 root_sym name b [] b rel _ _ hb
          (by omega) h
      · intro tp2 he; cases he
      · intro _
        exact ⟨nm, hnm, by simp [hnme]⟩

theorem overlay_symbol_step_write (fdt fdto : Fdt) (ov_sym root_sym : Offset) (prop : Nat)
    (sym : Property) (frag rel : Bytes) (fdt1 : Fdt) (olay1 : Option Bytes)
    (hsym : fdt_getprop_by_offset fdto ov_sym prop = .ok sym)
    (hval : sym.val = [47] ++ frag ++ str "/__overlay__/" ++ rel ++ [0])
    (hfrag : ∀ b ∈ frag, b ≠ 47 ∧ b ≠ 0)
    (hstep : overlay_symbol_step fdt fdto ov_sym root_sym 0 prop none = .next fdt1 olay1) :
    overlay_symbol_write fdt fdto root_sym 0 sym.name frag rel none = .next fdt1 olay1 := by
  have hov : str "/__overlay__/" = 47 :: str "__overlay__/" := by decide
  have hovl : (str "/__overlay__/").length = 13 := by decide
  have e1 : sym.val.drop 1 = frag ++ 47 :: (str "__overlay__/" ++ rel ++ [0]) := by
    rw [hval, hov]; simp
  have hk : strchr (sym.val.drop 1) 47 = some frag.length := by
    rw [e1]; exact strchr_append frag _ 47 hfrag
  have e2 : sym.val.drop (1 + frag.length) = str "/__overlay__/" ++ (rel ++ [0]) := by
    rw [hval]
    have : [47] ++ frag ++ str "/__overlay__/" ++ rel ++ [0]
        = ([47] ++ frag) ++ (str "/__overlay__/" ++ (rel ++ [0])) := by simp
    rw [this]
    have hl : 1 + frag.length = ([47] ++ frag).length := by simp; omega
    rw [hl, List.drop_left]
  have e3 : (sym.val.drop 1).take frag.length = frag := by
    rw [e1, List.take_left]
  have c1 : (sym.val.drop (1 + frag.length)).length > 13 ∧
      (sym.val.drop (1 + frag.length)).take 13 = str "/__overlay__/" := by
    rw [e2]
    refine ⟨by simp [hovl], ?_⟩
    rw [← hovl, List.take_left]
  have e4 : ((sym.val.drop (1 + frag.length)).drop 13).dropLast = rel := by
    rw [e2, ← hovl, List.drop_left]
    simp
  unfold overlay_symbol_step at hstep
  simp only [hsym] at hstep
  split at hstep
  · cases hstep
  · split at hstep
    · cases hstep
    · simp only [hk, e3, c1, e4, and_self, if_true, ne_eq, not_true_eq_false, if_false] at hstep
      exact hstep

/-! ### What the symbol rounds leave alone -/

theorem skel_list_eq_map : ∀ (ss : List Node), Node.skel_list ss = ss.map Node.skel
  | [] => by simp [Node.skel_list]
  | c :: cs => by simp [Node.skel_list, skel_list_eq_map cs]

theorem skel_name (n : Node) : n.skel.name = n.name := by
  cases n; simp [Node.skel]

theorem skel_subnodes (n : Node) : n.skel.subnodes = n.subnodes.map Node.skel := by
  cases n; simp [Node.skel, skel_list_eq_map]

theorem skel_eq (n : Node) : n.skel = .mk n.name [] (n.subnodes.map Node.skel) := by
  cases n; simp [Node.skel, skel_list_eq_map]

theorem skel_update_at (t : Node) (ps : List Property) :
    ∀ (off : Offset) (root : Node), root.node_at off = some t →
      (root.update_at off (fun _ => .mk t.name ps t.subnodes)).skel = root.skel
  | [], root, h => by
    simp only [Node.node_at, Option.some.injEq] at h
    subst h
    simp [Node.update_at, skel_eq]
  | i :: rest, root, h => by
    simp only [Node.node_at] at h
    cases hc : root.subnodes[i]? with
    | none => simp [hc] at h
    | some c =>
      simp only [hc] at h
      have ih := skel_update_at t ps rest c h
      simp only [Node.update_at, hc]
      rw [skel_eq, skel_eq root]
      simp only [Node.name_mk, Node.subnodes_mk, List.map_set, ih, Node.mk.injEq, true_and]
      apply List.ext_getElem?
      intro j
      by_cases hij : i = j
      · subst hij
        have hlt : i < root.subnodes.length := by
          rcases Nat.lt_or_ge i root.subnodes.length with hl | hl
          · exact hl
          · rw [List.getElem?_eq_none hl] at hc; cases hc
        have hget : root.subnodes[i] = c := by
          have := List.getElem?_eq_getElem hlt
          rw [hc] at this
          exact (Option.some.inj this).symm
        simp [List.getElem?_set_self, hlt, hget]
      · simp [List.getElem?_set_ne hij]

theorem node_at_skel : ∀ (q : Offset) (root : Node),
    root.skel.node_at q = (root.node_at q).map Node.skel
  | [], root => by simp [Node.node_at]
  | i :: rest, root => by
    simp only [Node.node_at, skel_subnodes, List.getElem?_map]
    cases hc : root.subnodes[i]? with
    | none => simp
    | some c => simp [node_at_skel rest c]

theorem path_names_skel : ∀ (q : Offset) (root : Node),
    path_names root.skel q = path_names root q
  | [], root => by simp [path_names, skel_name]
  | i :: rest, root => by
    simp only [path_names, skel_subnodes, List.getElem?_map, skel_name]
    cases hc : root.subnodes[i]? with
    | none => simp
    | some c => simp [path_names_skel rest c]

theorem subnode_index_skel : ∀ (ss : List Node) (name : Bytes),
    subnode_index (ss.map Node.skel) name = subnode_index ss name
  | [], _ => by simp [subnode_index]
  | c :: cs, name => by
    simp [subnode_index, skel_name, subnode_index_skel cs name]

theorem fdt_get_name_skel (a b : Fdt) (h : a.root.skel = b.root.skel) (q : Offset) :
    fdt_get_name b q = fdt_get_name a q := by
  have ha := node_at_skel q a.root
  have hb := node_at_skel q b.root
  rw [h] at ha
  rw [ha] at hb
  unfold fdt_get_name
  cases h1 : a.root.node_at q with
  | none =>
    cases h2 : b.root.node_at q with
    | none => rfl
    | some m => simp [h1, h2] at hb
  | some n =>
    cases h2 : b.root.node_at q with
    | none => simp [h1, h2] at hb
    | some m =>
      simp only [h1, h2, Option.map_some', Option.some.injEq] at hb
      have := congrArg Node.name hb
      simp only [skel_name] at this
      simp [this]

theorem fdt_subnode_offset_skel (a b : Fdt) (h : a.root.skel = b.root.skel) (q : Offset)
    (name : Bytes) : fdt_subnode_offset b q name = fdt_subnode_offset a q name := by
  have ha := node_at_skel q a.root
  have hb := node_at_skel q b.root
  rw [h] at ha
  rw [ha] at hb
  unfold fdt_subnode_offset
  cases h1 : a.root.node_at q with
  | none =>
    cases h2 : b.root.node_at q with
    | none => rfl
    | some m => simp [h1, h2] at hb
  | some n =>
    cases h2 : b.root.node_at q with
    | none => simp [h1, h2] at hb
    | some m =>
      simp only [h1, h2, Option.map_some', Option.some.injEq] at hb
      have := congrArg Node.subnodes hb
      simp only [skel_subnodes] at this
      have e : subnode_index m.subnodes name = subnode_index n.subnodes name := by
        rw [← subnode_index_skel m.subnodes, ← subnode_index_skel n.subnodes, this]
      simp [e]

theorem walk_path_skel (a b : Fdt) (h : a.root.skel = b.root.skel) :
    ∀ (segs : List Bytes) (off : Offset), walk_path b off segs = walk_path a off segs
  | [], off => by simp [walk_path]
  | seg :: segs, off => by
    simp only [walk_path, fdt_subnode_offset_skel a b h]
    split
    · exact walk_path_skel a b h segs off
    · split
      · rfl
      · exact walk_path_skel a b h segs _

theorem fdt_path_offset_skel (a b : Fdt) (h : a.root.skel = b.root.skel) (path : Bytes) :
    fdt_path_offset b path = fdt_path_offset a path := by
  unfold fdt_path_offset fdt_path_offset_namelen
  split
  · rfl
  · simp only [walk_path_skel a b h]

theorem fdt_get_path_skel (a b : Fdt) (h : a.root.skel = b.root.skel) (q : Offset) (n : Nat) :
    fdt_get_path b q n = fdt_get_path a q n := by
  apply fdt_get_path_eq
  rw [← path_names_skel q b.root, ← path_names_skel q a.root, h]

theorem props_phandle_prop_set (ps : List Property) (name v : Bytes)
    (h1 : name ≠ str "phandle") (h2 : name ≠ str "linux,phandle") :
    props_phandle (prop_set ps name v) = props_phandle ps := by
  unfold props_phandle
  rw [prop_find_prop_set_other _ _ _ _ (Ne.symm h1),
    prop_find_prop_set_other _ _ _ _ (Ne.symm h2)]

theorem fdt_setprop_placeholder_skel (fdt f1 : Fdt) (node : Offset) (name : Bytes) (len : Nat)
    (h : fdt_setprop_placeholder fdt node name len = .ok f1) :
    f1.root.skel = fdt.root.skel := by
  cases hn : fdt.root.node_at node with
  | none => simp [fdt_setprop_placeholder, hn] at h
  | some t =>
    obtain ⟨hr, _⟩ := fdt_setprop_placeholder_refines fdt f1 node name len t hn h
    rw [hr]
    exact skel_update_at t _ node fdt.root hn

theorem fdt_write_prop_skel (fdt : Fdt) (node : Offset) (name v : Bytes) :
    (fdt_write_prop fdt node name v).root.skel = fdt.root.skel := by
  cases hn : fdt.root.node_at node with
  | none =>
    show (fdt.root.update_at node _).skel = _
    rw [update_at_none _ node fdt.root hn]
  | some t =>
    rw [(fdt_write_prop_refines fdt node name v t hn).1]
    exact skel_update_at t _ node fdt.root hn

theorem fdt_write_prop_find_phandle (fdt : Fdt) (node : Offset) (name v : Bytes)
    (h1 : name ≠ str "phandle") (h2 : name ≠ str "linux,phandle") (ph : Nat) :
    (fdt_write_prop fdt node name v).root.find_phandle ph = fdt.root.find_phandle ph := by
  cases hn : fdt.root.node_at node with
  | none =>
    show (fdt.root.update_at node _).find_phandle ph = _
    rw [update_at_none _ node fdt.root hn]
  | some t =>
    rw [(fdt_write_prop_refines fdt node name v t hn).1]
    exact find_phandle_update_at ph t _ (props_phandle_prop_set t.props name v h1 h2)
      node fdt.root hn

theorem fdt_setprop_placeholder_getprop_other (fdt f1 : Fdt) (node : Offset) (name : Bytes)
    (len : Nat) (other : Bytes) (hne : other ≠ name)
    (h : fdt_setprop_placeholder fdt node name len = .ok f1) :
    fdt_getprop f1 node other = fdt_getprop fdt node other := by
  cases hn : fdt.root.node_at node with
  | none => simp [fdt_setprop_placeholder, hn] at h
  | some t =>
    obtain ⟨hr, _⟩ := fdt_setprop_placeholder_refines fdt f1 node name len t hn h
    have hu := node_at_update_at_same
      (fun _ => Node.mk t.name (placeholder_props t.props name len) t.subnodes) node fdt.root t hn
    unfold fdt_getprop
    rw [hr, hu, hn]
    simp only [Node.props_mk, prop_find_placeholder_props_other _ _ _ _ hne]

theorem fdt_write_prop_getprop_other (fdt : Fdt) (node : Offset) (name v other : Bytes)
    (hne : other ≠ name) :
    fdt_getprop (fdt_write_prop fdt node name v) node other = fdt_getprop fdt node other := by
  cases hn : fdt.root.node_at node with
  | none =>
    unfold fdt_getprop
    show (match (fdt.root.update_at node _).node_at node with
      | none => _ | some n => _) = _
    rw [update_at_none _ node fdt.root hn]
  | some t =>
    have hu := node_at_update_at_same
      (fun _ => Node.mk t.name (prop_set t.props name v) t.subnodes) node fdt.root t hn
    unfold fdt_getprop
    rw [(fdt_write_prop_refines fdt node name v t hn).1, hu, hn]
    simp only [Node.props_mk, prop_find_prop_set_other _ _ _ _ hne]

theorem overlay_symbol_write_olay (fdt fdto fdt1 : Fdt) (root_sym : Offset) (m : Nat)
    (name frag_name rel_path0 : Bytes) (olay olay1 : Option Bytes)
    (h : overlay_symbol_write fdt fdto root_sym m name frag_name rel_path0 olay
      = .next fdt1 olay1) : olay1 = olay := by
  unfold overlay_symbol_write at h
  dsimp only at h
  repeat' split at h
  all_goals first
    | (simp only [overlay_symbol_finish, SymStep.next.injEq] at h
       exact h.2.symm)
    | cases h

/-- A round of the symbol loop that completes has written one property of the
base's `__symbols__`, named after the overlay symbol it handled. -/
theorem overlay_symbol_step_next (fdt fdto fdt1 : Fdt) (ov_sym root_sym : Offset) (prop : Nat)
    (olay1 : Option Bytes)
    (h : overlay_symbol_step fdt fdto ov_sym root_sym 0 prop none = .next fdt1 olay1) :
    olay1 = none ∧
    ∃ sym f1 len buf, fdt_getprop_by_offset fdto ov_sym prop = .ok sym ∧
      fdt_setprop_placeholder fdt root_sym sym.name len = .ok f1 ∧
      fdt1 = fdt_write_prop f1 root_sym sym.name buf := by
  have key : ∀ name frag_name rel_path0,
      overlay_symbol_write fdt fdto root_sym 0 name frag_name rel_path0 none
        = .next fdt1 olay1 →
      olay1 = none ∧ ∃ f1 len buf, fdt_setprop_placeholder fdt root_sym name len = .ok f1 ∧
        fdt1 = fdt_write_prop f1 root_sym name buf := by
    intro name frag_name rel_path0 hw
    exact ⟨overlay_symbol_write_olay _ _ _ _ _ _ _ _ _ _ hw,
      overlay_symbol_write_next _ _ _ _ _ _ _ _ _ _ hw⟩
  unfold overlay_symbol_step at h
  cases hs : fdt_getprop_by_offset fdto ov_sym prop with
  | error e => simp [hs] at h
  | ok sym =>
    simp only [hs, ne_eq, not_true_eq_false, if_false] at h
    repeat' split at h
    all_goals first
      | cases h
      | (obtain ⟨ho, f1, len, buf, hp, hf⟩ := key _ _ _ h
         exact ⟨ho, sym, f1, len, buf, rfl, hp, hf⟩)

theorem overlay_symbol_step_stable (fdt fdto fdt1 : Fdt) (ov_sym root_sym : Offset) (prop : Nat)
    (olay1 : Option Bytes)
    (h : overlay_symbol_step fdt fdto ov_sym root_sym 0 prop none = .next fdt1 olay1) :
    olay1 = none ∧ fdt1.root.skel = fdt.root.skel ∧
    ∃ sym, fdt_getprop_by_offset fdto ov_sym prop = .ok sym ∧
      (sym.name ≠ str "phandle" → sym.name ≠ str "linux,phandle" →
        ∀ ph, fdt1.root.find_phandle ph = fdt.root.find_phandle ph) ∧
      ∀ other, other ≠ sym.name →
        fdt_getprop fdt1 root_sym other = fdt_getprop fdt root_sym other := by
  obtain ⟨ho, sym, f1, len, buf, hs, hp, hf⟩ := overlay_symbol_step_next _ _ _ _ _ _ _ h
  subst hf
  refine ⟨ho, ?_, sym, hs, ?_, ?_⟩
  · rw [fdt_write_prop_skel, fdt_setprop_placeholder_skel _ _ _ _ _ hp]
  · intro h1 h2 ph
    rw [fdt_write_prop_find_phandle _ _ _ _ h1 h2,
      (fdt_setprop_placeholder_stable _ _ _ _ _ hp).2 h1 h2]
  · intro other hne
    rw [fdt_write_prop_getprop_other _ _ _ _ _ hne,
      fdt_setprop_placeholder_getprop_other _ _ _ _ _ _ hne hp]

theorem fdt_next_property_offset_eq (fdto : Fdt) (ov_sym : Offset) (j k : Nat)
    (h : fdt_next_property_offset fdto ov_sym j = some k) : k = j + 1 := by
  unfold fdt_next_property_offset at h
  split at h
  · cases h
  · split at h
    · cases h; rfl
    · cases h

theorem fdt_next_property_offset_lt (fdto : Fdt) (ov_sym : Offset) (j prop : Nat)
    (sym : Property) (hsym : fdt_getprop_by_offset fdto ov_sym prop = .ok sym) (hlt : j < prop) :
    fdt_next_property_offset fdto ov_sym j = some (j + 1) := by
  unfold fdt_getprop_by_offset at hsym
  unfold fdt_next_property_offset
  cases hn : fdto.root.node_at ov_sym with
  | none => simp [hn] at hsym
  | some n =>
    simp only [hn] at hsym ⊢
    cases hp : n.props[prop]? with
    | none => simp [hp] at hsym
    | some s =>
      have hl : prop < n.props.length := by
        rcases Nat.lt_or_ge prop n.props.length with hl | hl
        · exact hl
        · rw [List.getElem?_eq_none hl] at hp; cases hp
      have : j + 1 < n.props.length := by omega
      simp [this]

/-- The rounds of the symbol loop from a property on keep the shape of the
base, its phandles when no symbol is named after a phandle property, and every
property of `__symbols__` whose name none of them carries. -/
theorem overlay_symbol_loop_rest (fdto : Fdt) (ov_sym root_sym : Offset) (name : Bytes) :
    ∀ (rounds : Nat) (p : Option Nat) (fdt out : Fdt),
      overlay_symbol_loop fdto ov_sym root_sym 0 rounds p fdt none = some (.ok out) →
      out.root.skel = fdt.root.skel ∧
      ((∀ j s, fdt_getprop_by_offset fdto ov_sym j = .ok s →
          s.name ≠ str "phandle" ∧ s.name ≠ str "linux,phandle") →
        ∀ ph, out.root.find_phandle ph = fdt.root.find_phandle ph) ∧
      ((∀ start, p = some start → ∀ j s, start ≤ j →
          fdt_getprop_by_offset fdto ov_sym j = .ok s → s.name ≠ name) →
        fdt_getprop out root_sym name = fdt_getprop fdt root_sym name) := by
  intro rounds
  induction rounds with
  | zero => intro p fdt out h; simp [overlay_symbol_loop] at h
  | succ n ih =>
    intro p fdt out h
    cases p with
    | none =>
      simp only [overlay_symbol_loop, Option.some.injEq, Except.ok.injEq] at h
      subst h
      exact ⟨rfl, fun _ _ => rfl, fun _ => rfl⟩
    | some start =>
      simp only [overlay_symbol_loop] at h
      cases hs : overlay_symbol_step fdt fdto ov_sym root_sym 0 start none with
      | again =>
        simp only [hs] at h
        exact ih _ _ _ h
      | fail e f => simp [hs] at h
      | next f o =>
        simp only [hs] at h
        obtain ⟨ho, hsk, sym, hsym, hph, hother⟩ := overlay_symbol_step_stable _ _ _ _ _ _ _ hs
        subst ho
        obtain ⟨i1, i2, i3⟩ := ih _ _ _ h
        refine ⟨by rw [i1, hsk], ?_, ?_⟩
        · intro hl ph
          obtain ⟨h1, h2⟩ := hl start sym hsym
          rw [i2 hl, hph h1 h2]
        · intro hu
          have hne : name ≠ sym.name := fun e => hu start rfl start sym (le_refl _) hsym e.symm
          rw [← hother name hne]
          apply i3
          intro k hk j s hj hjs
          have := fdt_next_property_offset_eq _ _ _ _ hk
          exact hu start rfl j s (by omega) hjs

theorem overlay_get_target_stable (a b fdto : Fdt) (fragment : Offset)
    (hsk : b.root.skel = a.root.skel)
    (hfind : ∀ ph, b.root.find_phandle ph = a.root.find_phandle ph) :
    overlay_get_target b fdto fragment = overlay_get_target a fdto fragment := by
  unfold overlay_get_target
  simp only [fdt_path_offset_skel a b hsk.symm, fdt_node_offset_by_phandle_eq a b _ (hfind _)]

/-- A run of the symbol loop that completes has gone through the round of
every property from its start on. -/
theorem overlay_symbol_loop_round (fdto : Fdt) (ov_sym root_sym : Offset) (prop : Nat)
    (sym : Property) (hsym : fdt_getprop_by_offset fdto ov_sym prop = .ok sym)
    (huniq : ∀ j s, prop < j → fdt_getprop_by_offset fdto ov_sym j = .ok s →
      s.name ≠ sym.name) :
    ∀ (rounds start : Nat) (fdt out : Fdt), start ≤ prop →
      overlay_symbol_loop fdto ov_sym root_sym 0 rounds (some start) fdt none
        = some (.ok out) →
      ∃ fdt_i fdt_j,
        overlay_symbol_step fdt_i fdto ov_sym root_sym 0 prop none = .next fdt_j none ∧
        fdt_getprop out root_sym sym.name = fdt_getprop fdt_j root_sym sym.name ∧
        out.root.skel = fdt_i.root.skel ∧
        ((∀ j s, fdt_getprop_by_offset fdto ov_sym j = .ok s →
            s.name ≠ str "phandle" ∧ s.name ≠ str "linux,phandle") →
          ∀ ph, out.root.find_phandle ph = fdt_i.root.find_phandle ph) := by
  intro rounds
  induction rounds with
  | zero => intro start fdt out _ h; simp [overlay_symbol_loop] at h
  | succ n ih =>
    intro start fdt out hle h
    simp only [overlay_symbol_loop] at h
    cases hs : overlay_symbol_step fdt fdto ov_sym root_sym 0 start none with
    | again =>
      simp only [hs] at h
      exact ih _ _ _ hle h
    | fail e f => simp [hs] at h
    | next f o =>
      simp only [hs] at h
      obtain ⟨ho, hsk, sym1, hsym1, hph, _⟩ := overlay_symbol_step_stable _ _ _ _ _ _ _ hs
      subst ho
      by_cases he : start = prop
      · subst he
        obtain ⟨i1, i2, i3⟩ := overlay_symbol_loop_rest fdto ov_sym root_sym sym.name _ _ _ _ h
        refine ⟨fdt, f, hs, ?_, by rw [i1, hsk], ?_⟩
        · apply i3
          intro k hk j s hj hjs
          have := fdt_next_property_offset_eq _ _ _ _ hk
          exact huniq j s (by omega) hjs
        · intro hl ph
          obtain ⟨h1, h2⟩ := hl start sym1 hsym1
          rw [i2 hl, hph h1 h2]
      · rw [fdt_next_property_offset_lt fdto ov_sym start prop sym hsym (by omega)] at h
        exact ih _ _ _ (by omega) h

theorem fdt_first_property_offset_zero (fdto : Fdt) (ov_sym : Offset) (prop : Nat)
    (sym : Property) (hsym : fdt_getprop_by_offset fdto ov_sym prop = .ok sym) :
    fdt_first_property_offset fdto ov_sym = some 0 := by
  unfold fdt_getprop_by_offset at hsym
  unfold fdt_first_property_offset
  cases hn : fdto.root.node_at ov_sym with
  | none => simp [hn] at hsym
  | some n =>
    simp only [hn] at hsym ⊢
    cases hp : n.props[prop]? with
    | none => simp [hp] at hsym
    | some s =>
      have hl : prop < n.props.length := by
        rcases Nat.lt_or_ge prop n.props.length with hl | hl
        · exact hl
        · rw [List.getElem?_eq_none hl] at hp; cases hp
      have : ¬ n.props.length = 0 := by omega
      simp [this]

theorem fdt_add_subnode_offset (fdt f1 : Fdt) (nnode : Offset) (name : Bytes)
    (h : fdt_add_subnode fdt [] name = .ok (f1, nnode)) :
    fdt_subnode_offset f1 [] name = .ok nnode := by
  cases hr : fdt.root with
  | mk nm ps subs =>
    obtain ⟨_, hn, hroot, _⟩ := fdt_add_subnode_refines fdt f1 [] nnode name nm ps subs
      (by simp [Node.node_at, hr]) h
    subst hn
    unfold fdt_subnode_offset
    rw [hroot]
    simp [Node.update_at, Node.node_at, subnode_index]

/-- What `overlay_symbol_update`, in the mode of `fdt_overlay_apply`, leaves
in the base for a symbol of the overlay that lies in a fragment. -/
theorem overlay_symbol_update_value (rounds : Nat) (fdt fdto out : Fdt) (ov_sym : Offset)
    (prop : Nat) (sym : Property) (frag rel : Bytes)
    (h : overlay_symbol_update rounds fdt fdto 0 = some (.ok out))
    (hov : fdt_subnode_offset fdto [] (str "__symbols__") = .ok ov_sym)
    (hsym : fdt_getprop_by_offset fdto ov_sym prop = .ok sym)
    (hval : sym.val = [47] ++ frag ++ str "/__overlay__/" ++ rel ++ [0])
    (hfrag : ∀ b ∈ frag, b ≠ 47 ∧ b ≠ 0)
    (hlabels : ∀ j s, fdt_getprop_by_offset fdto ov_sym j = .ok s →
      s.name ≠ str "phandle" ∧ s.name ≠ str "linux,phandle")
    (huniq : ∀ j s, prop < j → fdt_getprop_by_offset fdto ov_sym j = .ok s →
      s.name ≠ sym.name) :
    ∃ root_sym fragment tgt P,
      fdt_subnode_offset out [] (str "__symbols__") = .ok root_sym ∧
      fdt_subnode_offset fdto [] frag = .ok fragment ∧
      overlay_get_target out fdto fragment = .ok tgt ∧
      fdt_getprop out root_sym sym.name = .ok (P ++ [47] ++ rel ++ [0]) ∧
      (∀ tp, tgt.2 = some tp → P = if (cstr tp).length > 1 then cstr tp else []) ∧
      (tgt.2 = none → ∃ nm, fdt_get_name out tgt.1 = .ok nm ∧
        if nm = [] then P = [] else fdt_get_path out tgt.1 (P.length + 1) = .ok P) := by
  have key : ∀ (root_sym : Offset) (f0 : Fdt),
      overlay_symbol_loop fdto ov_sym root_sym 0 rounds (fdt_first_property_offset fdto ov_sym)
        f0 none = some (.ok out) →
      fdt_subnode_offset f0 [] (str "__symbols__") = .ok root_sym →
      ∃ root_sym fragment tgt P,
        fdt_subnode_offset out [] (str "__symbols__") = .ok root_sym ∧
        fdt_subnode_offset fdto [] frag = .ok fragment ∧
        overlay_get_target out fdto fragment = .ok tgt ∧
        fdt_getprop out root_sym sym.name = .ok (P ++ [47] ++ rel ++ [0]) ∧
        (∀ tp, tgt.2 = some tp → P = if (cstr tp).length > 1 then cstr tp else []) ∧
        (tgt.2 = none → ∃ nm, fdt_get_name out tgt.1 = .ok nm ∧
          if nm = [] then P = [] else fdt_get_path out tgt.1 (P.length + 1) = .ok P) := by
    intro root_sym f0 hloop hroot
    obtain ⟨hsk0, _, _⟩ := overlay_symbol_loop_rest fdto ov_sym root_sym sym.name _ _ _ _ hloop
    rw [fdt_first_property_offset_zero fdto ov_sym prop sym hsym] at hloop
    obtain ⟨fdt_i, fdt_j, hstep, hget, hsk, hfind⟩ :=
      overlay_symbol_loop_round fdto ov_sym root_sym prop sym hsym huniq _ _ _ _
        (Nat.zero_le _) hloop
    obtain ⟨hl1, hl2⟩ := hlabels prop sym hsym
    have hw := overlay_symbol_step_write fdt_i fdto ov_sym root_sym prop sym frag rel fdt_j none
      hsym hval hfrag hstep
    obtain ⟨fragment, tgt, P, hf, ht, hv, hP1, hP2⟩ :=
      overlay_symbol_write_value fdt_i fdto fdt_j root_sym sym.name frag rel none hl1 hl2 hw
    refine ⟨root_sym, fragment, tgt, P, ?_, hf, ?_, ?_, hP1, ?_⟩
    · rw [fdt_subnode_offset_skel f0 out hsk0.symm]; exact hroot
    · rw [overlay_get_target_stable fdt_i out fdto fragment hsk (hfind hlabels)]; exact ht
    · rw [hget]; exact hv
    · intro hn
      obtain ⟨nm, hnm, hif⟩ := hP2 hn
      refine ⟨nm, ?_, ?_⟩
      · rw [fdt_get_name_skel fdt_i out hsk.symm]; exact hnm
      · rw [fdt_get_path_skel fdt_i out hsk.symm]; exact hif
  unfold overlay_symbol_update at h
  simp only [hov] at h
  cases hr : fdt_subnode_offset fdt [] (str "__symbols__") with
  | ok root_sym =>
    simp only [hr] at h
    exact key root_sym fdt h hr
  | error e =>
    simp only [hr] at h
    split at h
    · cases ha : fdt_add_subnode fdt [] (str "__symbols__") with
      | error e2 => simp [ha] at h
      | ok r =>
        simp only [ha] at h
        exact key r.2 r.1 h (fdt_add_subnode_offset fdt r.1 r.2 _ ha)
    · simp at h

/-! ### Symbol path translation -/

/-- C3 (as amended): after a successful `fdt_overlay_apply`, for every symbol
of the overlay (as the call leaves it, fixups resolved) whose value is
`/<frag>/__overlay__/<rel>`, when no symbol of the overlay is labelled
`phandle` or `linux,phandle` and no later symbol carries the same label, the
base's `/__symbols__` has the label with the NUL-terminated value
`P ++ "/" ++ rel`.  For a fragment targeted by `target-path`, `P` is that
string as it is written in the overlay, and nothing when it is one byte long;
for a fragment targeted by phandle, `P` is the absolute path of the target
node as `fdt_get_path` gives it, and nothing when the node's name is empty
(the root). -/
theorem fdt_overlay_apply_symbol (rounds : Nat) (fdt fdto : Fdt) (out : Outcome)
    (ov_sym : Offset) (prop : Nat) (sym : Property) (frag rel : Bytes)
    (h : fdt_overlay_apply rounds fdt fdto = some out) (hok : out.ret = none)
    (hov : fdt_subnode_offset out.fdto [] (str "__symbols__") = .ok ov_sym)
    (hsym : fdt_getprop_by_offset out.fdto ov_sym prop = .ok sym)
    (hval : sym.val = [47] ++ frag ++ str "/__overlay__/" ++ rel ++ [0])
    (hfrag : ∀ b ∈ frag, b ≠ 47 ∧ b ≠ 0)
    (hlabels : ∀ j s, fdt_getprop_by_offset out.fdto ov_sym j = .ok s →
      s.name ≠ str "phandle" ∧ s.name ≠ str "linux,phandle")
    (huniq : ∀ j s, prop < j → fdt_getprop_by_offset out.fdto ov_sym j = .ok s →
      s.name ≠ sym.name) :
    ∃ root_sym fragment tgt P,
      fdt_subnode_offset out.fdt [] (str "__symbols__") = .ok root_sym ∧
      fdt_subnode_offset out.fdto [] frag = .ok fragment ∧
      overlay_get_target out.fdt out.fdto fragment = .ok tgt ∧
      fdt_getprop out.fdt root_sym sym.name = .ok (P ++ [47] ++ rel ++ [0]) ∧
      (∀ tp, tgt.2 = some tp → P = if (cstr tp).length > 1 then cstr tp else []) ∧
      (tgt.2 = none → ∃ nm, fdt_get_name out.fdt tgt.1 = .ok nm ∧
        if nm = [] then P = [] else fdt_get_path out.fdt tgt.1 (P.length + 1) = .ok P) := by
  obtain ⟨_, _, _, st, _, _, _, _, _, _, hupd, hout⟩ := fdt_overlay_apply_ok rounds fdt fdto out h hok
  rw [hout] at hov hsym hlabels huniq ⊢
  exact overlay_symbol_update_value rounds st.fdt st.fdto out.fdt ov_sym prop sym frag rel hupd
    hov hsym hval hfrag hlabels huniq

/-- C3, witness: `overlay_symbol_bar` applied to `base_soc`: the symbol
`foo = "/fragment@0/__overlay__/bar"`, whose fragment targets `/soc/node` by
path, becomes `foo = "/soc/node/bar"`; so it does with the fragment targeted
by phandle (`overlay_symbol_bar_phandle`). -/
theorem fdt_overlay_apply_symbol_witness :
    fdt_overlay_apply 2 base_soc overlay_symbol_bar
      = some { ret := none, fdt := base_soc_bar_merged,
               fdto := fdt_set_magic overlay_symbol_bar UINT32_MAX } ∧
    (∃ root_sym fragment tgt P,
      fdt_subnode_offset base_soc_bar_merged [] (str "__symbols__") = .ok root_sym ∧
      fdt_subnode_offset (fdt_set_magic overlay_symbol_bar UINT32_MAX) [] (str "fragment@0")
        = .ok fragment ∧
      overlay_get_target base_soc_bar_merged (fdt_set_magic overlay_symbol_bar UINT32_MAX)
        fragment = .ok tgt ∧
      fdt_getprop base_soc_bar_merged root_sym (str "foo")
        = .ok (P ++ [47] ++ str "bar" ++ [0]) ∧
      (∀ tp, tgt.2 = some tp → P = if (cstr tp).length > 1 then cstr tp else []) ∧
      (tgt.2 = none → ∃ nm, fdt_get_name base_soc_bar_merged tgt.1 = .ok nm ∧
        if nm = [] then P = []
        else fdt_get_path base_soc_bar_merged tgt.1 (P.length + 1) = .ok P)) ∧
    peek_prop base_soc_bar_merged [1] (str "foo") = zstr "/soc/node/bar" ∧
    (fdt_overlay_apply 2 base_soc overlay_symbol_bar_phandle).map
        (fun r => (r.ret, peek_prop r.fdt [1] (str "foo")))
      = some (none, zstr "/soc/node/bar") :=
  ⟨rfl,
    fdt_overlay_apply_symbol 2 base_soc overlay_symbol_bar
      { ret := none, fdt := base_soc_bar_merged,
        fdto := fdt_set_magic overlay_symbol_bar UINT32_MAX }
      [1] 0 { name := str "foo", val := zstr "/fragment@0/__overlay__/bar" }
      (str "fragment@0") (str "bar") rfl rfl rfl rfl (by decide) (by decide)
      (by
        intro j s hs
        cases j with
        | zero => cases hs; decide
        | succ k => cases hs)
      (by
        intro j s hj hs
        cases j with
        | zero => omega
        | succ k => cases hs),
    by decide, by decide⟩

/-- C3, counterexample: in `overlay_symbol_bar_slash` the fragment names its
target `/soc/node/`, which resolves to the base node with absolute path
`/soc/node`.  After a successful `fdt_overlay_apply` the label `foo` of the
base's `/__symbols__` is `/soc/node//bar`, not `/soc/node/bar`. -/
theorem fdt_overlay_apply_symbol_counter :
    overlay_get_target base_soc overlay_symbol_bar_slash [0]
      = .ok ([0, 0], some (zstr "/soc/node/")) ∧
    fdt_get_path base_soc [0, 0] 64 = .ok (str "/soc/node") ∧
    (fdt_overlay_apply 2 base_soc overlay_symbol_bar_slash).map
        (fun r => (r.ret, peek_prop r.fdt [1] (str "foo")))
      = some (none, zstr "/soc/node//bar") ∧
    zstr "/soc/node//bar" ≠ zstr "/soc/node/bar" :=
  ⟨rfl, rfl, by decide, by decide⟩

/-! ### The overlay is consumed by a successful call -/

/-- C20: after a successful `fdt_overlay_apply` the magic of the overlay
buffer is `0xFFFFFFFF`, not the valid magic, while the magic of the base is
what it was, the valid one.  A further `fdt_overlay_apply` given that overlay
buffer, whatever the base, stops at header validation: it returns an error
(`BADMAGIC` when the base itself is valid) and leaves both buffers as they
are, so nothing is merged again. -/
theorem fdt_overlay_apply_consumes_overlay (rounds : Nat) (fdt fdto : Fdt) (out : Outcome)
    (h : fdt_overlay_apply rounds fdt fdto = some out) (hok : out.ret = none) :
    out.fdto.magic = UINT32_MAX ∧ out.fdto.magic ≠ FDT_MAGIC ∧
    out.fdt.magic = fdt.magic ∧ out.fdt.magic = FDT_MAGIC ∧
    ∀ (rounds2 : Nat) (base2 : Fdt),
      ∃ e, fdt_overlay_apply rounds2 base2 out.fdto
          = some { ret := some e, fdt := base2, fdto := out.fdto } ∧
        (fdt_ro_probe base2 = .ok () → e = .BADMAGIC) := by
  obtain ⟨_, _, _, st, hp, _, _, _, _, _, _, hout⟩ := fdt_overlay_apply_ok rounds fdt fdto out h hok
  obtain ⟨_, hh, _⟩ := kept_fdt_overlay_apply rounds fdt fdto out h hok
  have hm : out.fdto.magic = UINT32_MAX := by rw [hout]; rfl
  have hne : out.fdto.magic ≠ FDT_MAGIC := by rw [hm]; decide
  have hbase : fdt.magic = FDT_MAGIC := by
    unfold fdt_ro_probe at hp
    split at hp
    · assumption
    · cases hp
  refine ⟨hm, hne, hh.symm, by rw [← hh]; exact hbase, ?_⟩
  intro rounds2 base2
  have hprobe : fdt_ro_probe out.fdto = .error .BADMAGIC := by
    simp [fdt_ro_probe, hne]
  unfold fdt_overlay_apply
  cases hb : fdt_ro_probe base2 with
  | error e => exact ⟨e, rfl, fun hc => by cases hc⟩
  | ok u => exact ⟨.BADMAGIC, by simp [hprobe], fun _ => rfl⟩

/-- C20, witness: `overlay_new_node` applied to `base_soc`, and the same
overlay buffer applied a second time to the result. -/
theorem fdt_overlay_apply_consumes_overlay_witness :
    fdt_overlay_apply 1 base_soc overlay_new_node
      = some { ret := none, fdt := base_soc_new_node,
               fdto := fdt_set_magic overlay_new_node_renumbered UINT32_MAX } ∧
    ((fdt_set_magic overlay_new_node_renumbered UINT32_MAX).magic = UINT32_MAX ∧
    (fdt_set_magic overlay_new_node_renumbered UINT32_MAX).magic ≠ FDT_MAGIC ∧
    base_soc_new_node.magic = base_soc.magic ∧ base_soc_new_node.magic = FDT_MAGIC ∧
    ∀ (rounds2 : Nat) (base2 : Fdt),
      ∃ e, fdt_overlay_apply rounds2 base2 (fdt_set_magic overlay_new_node_renumbered UINT32_MAX)
          = some { ret := some e, fdt := base2,
                   fdto := fdt_set_magic overlay_new_node_renumbered UINT32_MAX } ∧
        (fdt_ro_probe base2 = .ok () → e = .BADMAGIC)) ∧
    fdt_overlay_apply 1 base_soc_new_node (fdt_set_magic overlay_new_node_renumbered UINT32_MAX)
      = some { ret := some .BADMAGIC, fdt := base_soc_new_node,
               fdto := fdt_set_magic overlay_new_node_renumbered UINT32_MAX } :=
  ⟨rfl,
    fdt_overlay_apply_consumes_overlay 1 base_soc overlay_new_node
      { ret := none, fdt := base_soc_new_node,
        fdto := fdt_set_magic overlay_new_node_renumbered UINT32_MAX } rfl rfl,
    rfl⟩

/-! ### Target lookup -/

mutual
theorem find_phandle_sound : ∀ (n : Node) (ph : Nat) (off : Offset),
    n.find_phandle ph = some off → ∃ m, n.node_at off = some m ∧ m.phandle = ph
  | .mk nm ps ss, ph, off, h => by
    simp only [Node.find_phandle] at h
    split at h
    · rename_i hp
      cases h
      exact ⟨_, rfl, hp⟩
    · obtain ⟨i, rest, c, he, hc, m, hm, hph⟩ := find_phandle_list_sound ss ph 0 off h
      subst he
      exact ⟨m, by simp [Node.node_at, hc, hm], hph⟩
theorem find_phandle_list_sound : ∀ (l : List Node) (ph k : Nat) (off : Offset),
    Node.find_phandle_list l ph k = some off →
    ∃ i rest c, off = (k + i) :: rest ∧ l[i]? = some c ∧
      ∃ m, c.node_at rest = some m ∧ m.phandle = ph
  | [], ph, k, off, h => by simp [Node.find_phandle_list] at h
  | c :: cs, ph, k, off, h => by
    simp only [Node.find_phandle_list] at h
    cases hc : c.find_phandle ph with
    | some o =>
      simp only [hc, Option.some.injEq] at h
      obtain ⟨m, hm, hph⟩ := find_phandle_sound c ph o hc
      exact ⟨0, o, c, by rw [← h]; rfl, by simp, m, hm, hph⟩
    | none =>
      simp only [hc] at h
      obtain ⟨i, rest, d, he, hd, m, hm, hph⟩ := find_phandle_list_sound cs ph (k + 1) off h
      exact ⟨i + 1, rest, d, by rw [he]; congr 1; omega, by simpa using hd, m, hm, hph⟩
end

theorem fdt_node_offset_by_phandle_sound (fdt : Fdt) (ph : Nat) (off : Offset)
    (h : fdt_node_offset_by_phandle fdt ph = .ok off) : fdt_get_phandle fdt off = ph := by
  unfold fdt_node_offset_by_phandle at h
  split at h
  · cases h
  · split at h
    · cases h
    · rename_i o ho
      cases h
      obtain ⟨m, hm, hph⟩ := find_phandle_sound fdt.root ph _ ho
      simp [fdt_get_phandle, hm, hph]

theorem overlay_get_target_phandle_eq (fdto : Fdt) (fragment : Offset) (val : Bytes)
    (ht : fdt_getprop fdto fragment (str "target") = .ok val) (hl : val.length = 4)
    (hm : fdt32_to_cpu val ≠ UINT32_MAX) :
    overlay_get_target_phandle fdto fragment = fdt32_to_cpu val := by
  simp [overlay_get_target_phandle, ht, hl, hm]

/-- C15: for a fragment whose `target` property is four bytes long and holds a
phandle other than 0 and `0xFFFFFFFF`, `overlay_get_target` is the lookup of
that phandle in the base and nothing else, whatever `target-path` property the
fragment has besides: an error of the lookup is returned as it is, and on
success the result is a base node that carries the phandle, with a null path. -/
theorem overlay_get_target_prefers_phandle (fdt fdto : Fdt) (fragment : Offset) (val : Bytes)
    (ht : fdt_getprop fdto fragment (str "target") = .ok val) (hl : val.length = 4)
    (h0 : fdt32_to_cpu val ≠ 0) (hm : fdt32_to_cpu val ≠ UINT32_MAX) :
    overlay_get_target fdt fdto fragment
      = (match fdt_node_offset_by_phandle fdt (fdt32_to_cpu val) with
        | .error e => .error e
        | .ok off => .ok (off, none)) ∧
    ∀ tgt, overlay_get_target fdt fdto fragment = .ok tgt →
      tgt.2 = none ∧ fdt_get_phandle fdt tgt.1 = fdt32_to_cpu val := by
  have hp := overlay_get_target_phandle_eq fdto fragment val ht hl hm
  have he : overlay_get_target fdt fdto fragment
      = (match fdt_node_offset_by_phandle fdt (fdt32_to_cpu val) with
        | .error e => .error e
        | .ok off => .ok (off, none)) := by
    unfold overlay_get_target
    simp only [hp, hm, h0, if_false]
  refine ⟨he, ?_⟩
  intro tgt htgt
  rw [he] at htgt
  cases hn : fdt_node_offset_by_phandle fdt (fdt32_to_cpu val) with
  | error e => simp [hn] at htgt
  | ok off =>
    simp only [hn, Except.ok.injEq] at htgt
    subst htgt
    exact ⟨rfl, fdt_node_offset_by_phandle_sound fdt _ off hn⟩

/-- C15, witness: the fragment of `overlay_both_targets` has `target = <7>`
and `target-path = "/"`; its target in `base_soc` is `/soc/node`, the node
with phandle 7, and not the root. -/
theorem overlay_get_target_prefers_phandle_witness :
    fdt_getprop overlay_both_targets [0] (str "target") = .ok [0, 0, 0, 7] ∧
    fdt_getprop overlay_both_targets [0] (str "target-path") = .ok (zstr "/") ∧
    [0, 0, 0, 7].length = 4 ∧ fdt32_to_cpu [0, 0, 0, 7] ≠ 0 ∧
    fdt32_to_cpu [0, 0, 0, 7] ≠ UINT32_MAX ∧
    (overlay_get_target base_soc overlay_both_targets [0]
      = (match fdt_node_offset_by_phandle base_soc (fdt32_to_cpu [0, 0, 0, 7]) with
        | .error e => .error e
        | .ok off => .ok (off, none)) ∧
    ∀ tgt, overlay_get_target base_soc overlay_both_targets [0] = .ok tgt →
      tgt.2 = none ∧ fdt_get_phandle base_soc tgt.1 = fdt32_to_cpu [0, 0, 0, 7]) ∧
    overlay_get_target base_soc overlay_both_targets [0] = .ok ([0, 0], none) ∧
    overlay_get_target blob_empty overlay_both_targets [0] = .error .NOTFOUND :=
  ⟨rfl, rfl, rfl, by decide, by decide,
    overlay_get_target_prefers_phandle base_soc overlay_both_targets [0] [0, 0, 0, 7] rfl rfl
      (by decide) (by decide),
    rfl, rfl⟩

/-! ### In-place writes keep the layout -/

theorem layout_list_eq_map : ∀ (ss : List Node), Node.layout_list ss = ss.map Node.layout
  | [] => by simp [Node.layout_list]
  | c :: cs => by simp [Node.layout_list, layout_list_eq_map cs]

theorem layout_eq (n : Node) :
    n.layout = .mk n.name (n.props.map Property.blank) (n.subnodes.map Node.layout) := by
  cases n; simp [Node.layout, layout_list_eq_map]

theorem layout_name (n : Node) : n.layout.name = n.name := by
  rw [layout_eq]; rfl

theorem layout_props (n : Node) : n.layout.props = n.props.map Property.blank := by
  rw [layout_eq]; rfl

theorem layout_subnodes (n : Node) : n.layout.subnodes = n.subnodes.map Node.layout := by
  rw [layout_eq]; rfl

theorem layout_update_at (t t1 : Node) (ht : t1.layout = t.layout) :
    ∀ (off : Offset) (root : Node), root.node_at off = some t →
      (root.update_at off (fun _ => t1)).layout = root.layout
  | [], root, h => by
    simp only [Node.node_at, Option.some.injEq] at h
    subst h
    simpa [Node.update_at] using ht
  | i :: rest, root, h => by
    simp only [Node.node_at] at h
    cases hc : root.subnodes[i]? with
    | none => simp [hc] at h
    | some c =>
      simp only [hc] at h
      have ih := layout_update_at t t1 ht rest c h
      simp only [Node.update_at, hc]
      rw [layout_eq, layout_eq root]
      simp only [Node.name_mk, Node.subnodes_mk, Node.props_mk, List.map_set, ih, Node.mk.injEq,
        true_and]
      apply List.ext_getElem?
      intro j
      by_cases hij : i = j
      · subst hij
        have hlt : i < root.subnodes.length := by
          rcases Nat.lt_or_ge i root.subnodes.length with hl | hl
          · exact hl
          · rw [List.getElem?_eq_none hl] at hc; cases hc
        have hget : root.subnodes[i] = c := by
          have := List.getElem?_eq_getElem hlt
          rw [hc] at this
          exact (Option.some.inj this).symm
        simp [List.getElem?_set_self, hlt, hget]
      · simp [List.getElem?_set_ne hij]

theorem node_at_layout : ∀ (q : Offset) (root : Node),
    root.layout.node_at q = (root.node_at q).map Node.layout
  | [], root => by simp [Node.node_at]
  | i :: rest, root => by
    simp only [Node.node_at, layout_subnodes, List.getElem?_map]
    cases hc : root.subnodes[i]? with
    | none => simp
    | some c => simp [node_at_layout rest c]

theorem prop_find_blank : ∀ (ps : List Property) (name : Bytes),
    prop_find (ps.map Property.blank) name
      = (prop_find ps name).map (fun v => List.replicate v.length 0)
  | [], _ => by simp [prop_find]
  | p :: ps, name => by
    simp only [List.map_cons, prop_find, Property.blank]
    split
    · simp
    · exact prop_find_blank ps name

theorem blank_prop_set (ps : List Property) (name v old : Bytes)
    (ho : prop_find ps name = some old) (hl : v.length = old.length) :
    (prop_set ps name v).map Property.blank = ps.map Property.blank := by
  induction ps with
  | nil => simp [prop_set]
  | cons p ps ih =>
    simp only [prop_find] at ho
    simp only [prop_set]
    split
    · rename_i hp
      simp only [hp, if_true, Option.some.injEq] at ho
      subst ho
      simp [Property.blank, hl]
    · rename_i hp
      simp only [hp, if_false] at ho
      simp [ih ho]

mutual
theorem skel_layout : ∀ (n : Node), n.layout.skel = n.skel
  | .mk nm ps ss => by
    simp only [Node.layout, Node.skel, Node.mk.injEq, true_and]
    exact skel_list_layout ss
theorem skel_list_layout : ∀ (l : List Node),
    Node.skel_list (Node.layout_list l) = Node.skel_list l
  | [] => by simp [Node.layout_list]
  | c :: cs => by
    simp only [Node.layout_list, Node.skel_list, skel_layout c, skel_list_layout cs]
end

theorem skel_of_layout (a b : Node) (h : a.layout = b.layout) : a.skel = b.skel := by
  rw [← skel_layout a, ← skel_layout b, h]

/-- Two blobs with the same layout have the same properties, with the same
lengths, on every node. -/
theorem fdt_getprop_layout (a b : Fdt) (h : a.root.layout = b.root.layout) (q : Offset)
    (name : Bytes) :
    (∀ e, fdt_getprop a q name = .error e → fdt_getprop b q name = .error e) ∧
    (∀ v, fdt_getprop a q name = .ok v →
      ∃ w, fdt_getprop b q name = .ok w ∧ w.length = v.length) := by
  have ha := node_at_layout q a.root
  have hb := node_at_layout q b.root
  rw [h] at ha
  rw [ha] at hb
  unfold fdt_getprop
  cases h1 : a.root.node_at q with
  | none =>
    cases h2 : b.root.node_at q with
    | none => simp
    | some m => simp [h1, h2] at hb
  | some n =>
    cases h2 : b.root.node_at q with
    | none => simp [h1, h2] at hb
    | some m =>
      simp only [h1, h2, Option.map_some', Option.some.injEq] at hb
      have hp := congrArg Node.props hb
      simp only [layout_props] at hp
      have hf := congrArg (fun l => prop_find l name) hp
      simp only [prop_find_blank] at hf
      cases h3 : prop_find n.props name with
      | none =>
        cases h4 : prop_find m.props name with
        | none => simp [h3, h4]
        | some w => simp [h3, h4] at hf
      | some v =>
        cases h4 : prop_find m.props name with
        | none => simp [h3, h4] at hf
        | some w =>
          simp only [h3, h4, Option.map_some', Option.some.injEq] at hf
          have hl := congrArg List.length hf
          simp only [List.length_replicate] at hl
          simp [h3, h4, hl]

theorem fdt_subnode_offset_layout (a b : Fdt) (h : a.root.layout = b.root.layout) (q : Offset)
    (name : Bytes) : fdt_subnode_offset b q name = fdt_subnode_offset a q name :=
  fdt_subnode_offset_skel a b (skel_of_layout _ _ h) q name

theorem fdt_setprop_inplace_namelen_partial_layout (fdt f1 : Fdt) (node : Offset)
    (name : Bytes) (idx : Nat) (val : Bytes)
    (h : fdt_setprop_inplace_namelen_partial fdt node name idx val = .ok f1) :
    f1.root.layout = fdt.root.layout ∧ fdt.same_header f1 := by
  unfold fdt_setprop_inplace_namelen_partial at h
  cases hg : fdt_getprop fdt node name with
  | error e => simp [hg] at h
  | ok old =>
    simp only [hg] at h
    split at h
    · cases h
    · simp only [Except.ok.injEq] at h
      subst h
      cases hn : fdt.root.node_at node with
      | none => simp [fdt_getprop, hn] at hg
      | some t =>
        have hp : prop_find t.props name = some old := by
          rw [fdt_getprop_eq fdt node name t hn] at hg
          cases hq : prop_find t.props name with
          | none => simp [hq] at hg
          | some v => simp only [hq, Except.ok.injEq] at hg; rw [hg]
        obtain ⟨hr, hh⟩ := fdt_write_prop_refines fdt node name (write_at old idx val) t hn
        refine ⟨?_, hh⟩
        rw [hr]
        apply layout_update_at t _ _ node fdt.root hn
        rw [layout_eq, layout_eq t]
        simp only [Node.name_mk, Node.props_mk, Node.subnodes_mk,
          blank_prop_set t.props name _ old hp (write_at_length old idx val)]

theorem fdt_setprop_inplace_u32_layout (fdt f1 : Fdt) (node : Offset) (name : Bytes) (val : Nat)
    (h : fdt_setprop_inplace_u32 fdt node name val = .ok f1) :
    f1.root.layout = fdt.root.layout := by
  unfold fdt_setprop_inplace_u32 at h
  split at h
  · cases h
  · split at h
    · cases h
    · exact (fdt_setprop_inplace_namelen_partial_layout _ _ _ _ _ _ h).1

theorem overlay_phandle_add_offset_layout (fdt f1 : Fdt) (node : Offset) (name : Bytes)
    (delta : Nat) (h : overlay_phandle_add_offset fdt node name delta = .ok f1) :
    f1.root.layout = fdt.root.layout := by
  unfold overlay_phandle_add_offset at h
  dsimp only at h
  repeat' split at h
  all_goals first
    | cases h
    | exact fdt_setprop_inplace_u32_layout _ _ _ _ _ h

theorem overlay_adjust_own_phandles_layout (fdto f1 : Fdt) (node : Offset) (delta : Nat)
    (h : overlay_adjust_own_phandles fdto node delta = .ok f1) :
    f1.root.layout = fdto.root.layout := by
  unfold overlay_adjust_own_phandles at h
  cases h1 : overlay_phandle_add_offset fdto node (str "phandle") delta with
  | error e =>
    simp only [h1] at h
    split at h
    · cases h
    · cases h2 : overlay_phandle_add_offset fdto node (str "linux,phandle") delta with
      | error e2 =>
        simp only [h2] at h
        split at h
        · cases h
        · cases h; rfl
      | ok f2 =>
        simp only [h2, Except.ok.injEq] at h
        subst h
        exact overlay_phandle_add_offset_layout _ _ _ _ _ h2
  | ok fa =>
    simp only [h1] at h
    have ha := overlay_phandle_add_offset_layout _ _ _ _ _ h1
    cases h2 : overlay_phandle_add_offset fa node (str "linux,phandle") delta with
    | error e2 =>
      simp only [h2] at h
      split at h
      · cases h
      · cases h; exact ha
    | ok f2 =>
      simp only [h2, Except.ok.injEq] at h
      subst h
      rw [overlay_phandle_add_offset_layout _ _ _ _ _ h2, ha]

mutual
theorem overlay_adjust_node_phandles_layout : ∀ (shape : Node) (fdto f1 : Fdt) (node : Offset)
    (delta : Nat), overlay_adjust_node_phandles fdto node delta shape = .ok f1 →
    f1.root.layout = fdto.root.layout
  | .mk _ _ subs, fdto, f1, node, delta, h => by
    simp only [overlay_adjust_node_phandles] at h
    cases h1 : overlay_adjust_own_phandles fdto node delta with
    | error e => simp [h1] at h
    | ok fa =>
      simp only [h1] at h
      rw [overlay_adjust_subnodes_layout subs fa f1 node delta 0 h,
        overlay_adjust_own_phandles_layout _ _ _ _ h1]
theorem overlay_adjust_subnodes_layout : ∀ (subs : List Node) (fdto f1 : Fdt) (node : Offset)
    (delta child : Nat), overlay_adjust_subnodes fdto node delta child subs = .ok f1 →
    f1.root.layout = fdto.root.layout
  | [], fdto, f1, node, delta, child, h => by
    simp only [overlay_adjust_subnodes, Except.ok.injEq] at h
    rw [h]
  | c :: cs, fdto, f1, node, delta, child, h => by
    simp only [overlay_adjust_subnodes] at h
    cases h1 : overlay_adjust_node_phandles fdto (node ++ [child]) delta c with
    | error e => simp [h1] at h
    | ok fa =>
      simp only [h1] at h
      rw [overlay_adjust_subnodes_layout cs fa f1 node delta (child + 1) h,
        overlay_adjust_node_phandles_layout c fdto fa _ delta h1]
end

theorem overlay_adjust_local_phandles_layout (fdto f1 : Fdt) (delta : Nat)
    (h : overlay_adjust_local_phandles fdto delta = .ok f1) :
    f1.root.layout = fdto.root.layout :=
  overlay_adjust_node_phandles_layout fdto.root fdto f1 [] delta h

theorem overlay_update_local_cells_layout (tree_node fixup_node : Offset) (fixup_prop : Nat)
    (name : Bytes) (delta : Nat) :
    ∀ (n i : Nat) (fdto f1 : Fdt),
      overlay_update_local_cells tree_node fixup_node fixup_prop name delta n i fdto = .ok f1 →
      f1.root.layout = fdto.root.layout
  | 0, i, fdto, f1, h => by
    simp only [overlay_update_local_cells, Except.ok.injEq] at h
    rw [h]
  | n + 1, i, fdto, f1, h => by
    simp only [overlay_update_local_cells] at h
    split at h
    · split at h <;> cases h
    · rename_i fa ha
      rw [overlay_update_local_cells_layout tree_node fixup_node fixup_prop name delta n (i + 1)
        fa f1 h, (fdt_setprop_inplace_namelen_partial_layout _ _ _ _ _ _ ha).1]

theorem overlay_update_local_props_layout (tree_node fixup_node : Offset) (delta : Nat) :
    ∀ (n fixup_prop : Nat) (fdto f1 : Fdt),
      overlay_update_local_props tree_node fixup_node delta n fixup_prop fdto = .ok f1 →
      f1.root.layout = fdto.root.layout
  | 0, _, fdto, f1, h => by
    simp only [overlay_update_local_props, Except.ok.injEq] at h
    rw [h]
  | n + 1, fixup_prop, fdto, f1, h => by
    simp only [overlay_update_local_props] at h
    split at h
    · cases h
    · split at h
      · cases h
      · split at h
        · split at h <;> cases h
        · split at h
          · cases h
          · rename_i fa ha
            rw [overlay_update_local_props_layout tree_node fixup_node delta n (fixup_prop + 1)
              fa f1 h, overlay_update_local_cells_layout _ _ _ _ _ _ _ _ _ ha]

mutual
theorem overlay_update_local_node_references_layout : ∀ (shape : Node) (fdto f1 : Fdt)
    (tree_node fixup_node : Offset) (delta : Nat),
    overlay_update_local_node_references fdto tree_node fixup_node delta shape = .ok f1 →
    f1.root.layout = fdto.root.layout
  | .mk _ props subs, fdto, f1, tree_node, fixup_node, delta, h => by
    simp only [overlay_update_local_node_references] at h
    split at h
    · cases h
    · rename_i fa ha
      rw [overlay_update_local_subnodes_layout subs fa f1 tree_node fixup_node delta 0 h,
        overlay_update_local_props_layout _ _ _ _ _ _ _ ha]
theorem overlay_update_local_subnodes_layout : ∀ (subs : List Node) (fdto f1 : Fdt)
    (tree_node fixup_node : Offset) (delta fixup_child : Nat),
    overlay_update_local_subnodes fdto tree_node fixup_node delta fixup_child subs = .ok f1 →
    f1.root.layout = fdto.root.layout
  | [], fdto, f1, _, _, _, _, h => by
    simp only [overlay_update_local_subnodes, Except.ok.injEq] at h
    rw [h]
  | c :: cs, fdto, f1, tree_node, fixup_node, delta, fixup_child, h => by
    simp only [overlay_update_local_subnodes] at h
    split at h
    · split at h <;> cases h
    · split at h
      · cases h
      · rename_i fa ha
        rw [overlay_update_local_subnodes_layout cs fa f1 tree_node fixup_node delta
          (fixup_child + 1) h,
          overlay_update_local_node_references_layout c fdto fa _ _ delta ha]
end

theorem overlay_update_local_references_layout (fdto f1 : Fdt) (delta : Nat)
    (h : overlay_update_local_references fdto delta = .ok f1) :
    f1.root.layout = fdto.root.layout := by
  unfold overlay_update_local_references at h
  split at h
  · split at h
    · cases h; rfl
    · cases h
  · split at h
    · cases h
    · exact overlay_update_local_node_references_layout _ _ _ _ _ _ h

theorem overlay_fixup_one_phandle_layout (fdt fdto f1 : Fdt) (symbols_off : Except FdtErr Offset)
    (path name : Bytes) (poffset : Nat) (label : Bytes)
    (h : overlay_fixup_one_phandle fdt fdto symbols_off path name poffset label = .ok f1) :
    f1.root.layout = fdto.root.layout := by
  unfold overlay_fixup_one_phandle at h
  dsimp only at h
  repeat' split at h
  all_goals first
    | cases h
    | exact (fdt_setprop_inplace_namelen_partial_layout _ _ _ _ _ _ h).1

theorem overlay_fixup_strings_layout (fdt : Fdt) (symbols_off : Except FdtErr Offset)
    (fixups_off : Offset) (property : Nat) (label : Bytes) :
    ∀ (rounds : Nat) (fdto f1 : Fdt) (pos len : Nat),
      overlay_fixup_strings fdt symbols_off fixups_off property label rounds fdto pos len
        = .ok f1 → f1.root.layout = fdto.root.layout
  | 0, fdto, f1, pos, len, h => by simp [overlay_fixup_strings] at h
  | rounds + 1, fdto, f1, pos, len, h => by
    simp only [overlay_fixup_strings] at h
    repeat' split at h
    all_goals first
      | (rename_i fa ha _
         rw [overlay_fixup_strings_layout fdt symbols_off fixups_off property label rounds
           fa f1 _ _ h, overlay_fixup_one_phandle_layout _ _ _ _ _ _ _ _ ha])
      | (cases h
         exact overlay_fixup_one_phandle_layout _ _ _ _ _ _ _ _ (by assumption))
      | cases h

theorem overlay_fixup_phandle_layout (fdt fdto f1 : Fdt) (symbols_off : Except FdtErr Offset)
    (property : Nat) (fixups_off : Offset)
    (h : overlay_fixup_phandle fdt fdto symbols_off property fixups_off = .ok f1) :
    f1.root.layout = fdto.root.layout := by
  unfold overlay_fixup_phandle at h
  split at h
  · split at h <;> cases h
  · exact overlay_fixup_strings_layout _ _ _ _ _ _ _ _ _ _ h

theorem overlay_fixup_props_layout (fdt : Fdt) (symbols_off : Except FdtErr Offset)
    (fixups_off : Offset) :
    ∀ (n property : Nat) (ret : Option FdtErr) (fdto f1 : Fdt),
      overlay_fixup_props fdt symbols_off fixups_off 0 n property ret fdto = .ok f1 →
      f1.root.layout = fdto.root.layout
  | 0, _, ret, fdto, f1, h => by
    simp only [overlay_fixup_props] at h
    split at h
    · cases h; rfl
    · cases h
  | n + 1, property, ret, fdto, f1, h => by
    simp only [overlay_fixup_props] at h
    split at h
    · simp at h
    · rename_i fa ha
      rw [overlay_fixup_props_layout fdt symbols_off fixups_off n (property + 1) none fa f1 h,
        overlay_fixup_phandle_layout _ _ _ _ _ _ ha]

theorem overlay_fixup_phandles_layout (fdt fdto f1 : Fdt)
    (h : overlay_fixup_phandles fdt fdto 0 = .ok f1) :
    f1.root.layout = fdto.root.layout := by
  unfold overlay_fixup_phandles at h
  dsimp only at h
  repeat' split at h
  all_goals first
    | exact overlay_fixup_props_layout _ _ _ _ _ _ _ _ h
    | (cases h; rfl)
    | cases h

/-- The three in-place passes of `fdt_overlay_apply` leave the layout of the
overlay as it is. -/
theorem inplace_passes_layout (fdt fdto fdto1 fdto2 fdto3 : Fdt) (delta : Nat)
    (h1 : overlay_adjust_local_phandles fdto delta = .ok fdto1)
    (h2 : overlay_update_local_references fdto1 delta = .ok fdto2)
    (h3 : overlay_fixup_phandles fdt fdto2 0 = .ok fdto3) :
    fdto3.root.layout = fdto.root.layout := by
  rw [overlay_fixup_phandles_layout _ _ _ h3, overlay_update_local_references_layout _ _ _ h2,
    overlay_adjust_local_phandles_layout _ _ _ h1]

/-- How `fdt_overlay_apply` ends: at a header probe, in one of the three
in-place passes, in the merge, or with the result of the symbol update. -/
theorem fdt_overlay_apply_cases (rounds : Nat) (fdt fdto : Fdt) :
    (∃ e, (fdt_ro_probe fdt = .error e ∨ fdt_ro_probe fdto = .error e) ∧
      fdt_overlay_apply rounds fdt fdto = some { ret := some e, fdt := fdt, fdto := fdto }) ∨
    (∃ e f, fdt_overlay_apply rounds fdt fdto = some (apply_err e fdt f)) ∨
    (∃ fdto1 fdto2 fdto3,
      overlay_adjust_local_phandles fdto (fdt.root.max_phandle 0) = .ok fdto1 ∧
      overlay_update_local_references fdto1 (fdt.root.max_phandle 0) = .ok fdto2 ∧
      overlay_fixup_phandles fdt fdto2 0 = .ok fdto3 ∧
      ((∃ e st, overlay_merge fdt fdto3 none = .error (e, st) ∧
          fdt_overlay_apply rounds fdt fdto = some (apply_err e st.fdt st.fdto)) ∨
        (∃ st, overlay_merge fdt fdto3 none = .ok st ∧
          fdt_overlay_apply rounds fdt fdto
            = match overlay_symbol_update rounds st.fdt st.fdto 0 with
              | none => none
              | some (.error e) => some (apply_err e.1 e.2 st.fdto)
              | some (.ok fdt5) =>
                some { ret := none, fdt := fdt5, fdto := fdt_set_magic st.fdto UINT32_MAX }))) := by
  cases hp : fdt_ro_probe fdt with
  | error e => exact Or.inl ⟨e, Or.inl rfl, by simp [fdt_overlay_apply, hp]⟩
  | ok u =>
    cases hq : fdt_ro_probe fdto with
    | error e => exact Or.inl ⟨e, Or.inr rfl, by simp [fdt_overlay_apply, hp, hq]⟩
    | ok u2 =>
      cases h1 : overlay_adjust_local_phandles fdto (fdt.root.max_phandle 0) with
      | error e =>
        exact Or.inr (Or.inl ⟨e.1, e.2,
          by simp [fdt_overlay_apply, hp, hq, fdt_find_max_phandle, h1]⟩)
      | ok fdto1 =>
        cases h2 : overlay_update_local_references fdto1 (fdt.root.max_phandle 0) with
        | error e =>
          exact Or.inr (Or.inl ⟨e.1, e.2,
            by simp [fdt_overlay_apply, hp, hq, fdt_find_max_phandle, h1, h2]⟩)
        | ok fdto2 =>
          cases h3 : overlay_fixup_phandles fdt fdto2 0 with
          | error e =>
            exact Or.inr (Or.inl ⟨e.1, e.2,
              by simp [fdt_overlay_apply, hp, hq, fdt_find_max_phandle, h1, h2, h3]⟩)
          | ok fdto3 =>
            refine Or.inr (Or.inr ⟨fdto1, fdto2, fdto3, rfl, h2, h3, ?_⟩)
            cases hm : overlay_merge fdt fdto3 none with
            | error e =>
              exact Or.inl ⟨e.1, e.2, rfl,
                by simp [fdt_overlay_apply, hp, hq, fdt_find_max_phandle, h1, h2, h3, hm]⟩
            | ok st =>
              exact Or.inr ⟨st, rfl,
                by simp [fdt_overlay_apply, hp, hq, fdt_find_max_phandle, h1, h2, h3, hm]⟩

/-! ### Fragments whose target cannot be found -/

/-- In the mode of `fdt_overlay_apply`, the merge loop stops with the error of
the target lookup at the first fragment that has an `__overlay__` subnode. -/
theorem overlay_merge_fragments_first (e : FdtErr) (k : Nat) (ov : Offset) :
    ∀ (n k0 : Nat) (st : MergeState), st.merge_olay_max_phdl = none →
      k0 ≤ k → k < k0 + n →
      (∀ j, k0 ≤ j → j < k →
        fdt_subnode_offset st.fdto [j] (str "__overlay__") = .error .NOTFOUND) →
      fdt_subnode_offset st.fdto [k] (str "__overlay__") = .ok ov →
      overlay_get_target st.fdt st.fdto [k] = .error e →
      overlay_merge_fragments n k0 st = .error (e, st)
  | 0, k0, st, _, h1, h2, _, _, _ => by omega
  | n + 1, k0, st, hm, h1, h2, hbefore, hov, ht => by
    simp only [overlay_merge_fragments]
    by_cases hk : k0 = k
    · subst hk
      simp [hov, ht, hm]
    · rw [hbefore k0 (le_refl _) (by omega)]
      simp only [if_true]
      exact overlay_merge_fragments_first e k ov n (k0 + 1) st hm (by omega) (by omega)
        (fun j hj1 hj2 => hbefore j (by omega) hj2) hov ht

/-- In the mode of `fdt_overlay_apply`, the merge loop fails when a fragment
with an `__overlay__` subnode has a target lookup that fails in every base. -/
theorem overlay_merge_fragments_any (fdto : Fdt) (e : FdtErr) (k : Nat) (ov : Offset)
    (hov : fdt_subnode_offset fdto [k] (str "__overlay__") = .ok ov)
    (ht : ∀ f, overlay_get_target f fdto [k] = .error e) :
    ∀ (n k0 : Nat) (st : MergeState), st.merge_olay_max_phdl = none → st.fdto = fdto →
      k0 ≤ k → k < k0 + n →
      ∃ e1 st1, overlay_merge_fragments n k0 st = .error (e1, st1)
  | 0, k0, st, _, _, h1, h2 => by omega
  | n + 1, k0, st, hm, hf, h1, h2 => by
    simp only [overlay_merge_fragments]
    by_cases hk : k0 = k
    · subst hk
      rw [hf, hov, ht]
      simp [hm]
    · cases ho : fdt_subnode_offset st.fdto [k0] (str "__overlay__") with
      | error e0 =>
        simp only
        split
        · exact overlay_merge_fragments_any fdto e k ov hov ht n (k0 + 1) st hm hf (by omega)
            (by omega)
        · exact ⟨_, _, rfl⟩
      | ok overlay =>
        simp only
        cases hg : overlay_get_target st.fdt st.fdto [k0] with
        | error e0 => simp [hm]
        | ok target =>
          simp only
          cases hn : st.fdto.root.node_at overlay with
          | none => exact ⟨_, _, rfl⟩
          | some o =>
            simp only
            cases ha : overlay_apply_node st.fdt target.1 o with
            | error e0 => exact ⟨_, _, rfl⟩
            | ok fdt1 =>
              simp only
              exact overlay_merge_fragments_any fdto e k ov hov ht n (k0 + 1)
                { st with fdt := fdt1 } hm hf (by omega) (by omega)

theorem fdt_subnode_offset_root_lt (fdto : Fdt) (k : Nat) (ov : Offset) (name : Bytes)
    (hov : fdt_subnode_offset fdto [k] name = .ok ov) : k < fdto.root.subnodes.length := by
  unfold fdt_subnode_offset at hov
  cases hn : fdto.root.node_at [k] with
  | none => simp [hn] at hov
  | some n =>
    simp only [Node.node_at] at hn
    rcases Nat.lt_or_ge k fdto.root.subnodes.length with hl | hl
    · exact hl
    · rw [List.getElem?_eq_none hl] at hn; cases hn

theorem overlay_merge_first (fdt fdto : Fdt) (e : FdtErr) (k : Nat) (ov : Offset)
    (hbefore : ∀ j, j < k → fdt_subnode_offset fdto [j] (str "__overlay__") = .error .NOTFOUND)
    (hov : fdt_subnode_offset fdto [k] (str "__overlay__") = .ok ov)
    (ht : overlay_get_target fdt fdto [k] = .error e) :
    overlay_merge fdt fdto none
      = .error (e, { fdt := fdt, fdto := fdto, merge_olay_max_phdl := none,
                     base_fragment_count := 0 }) := by
  simp only [overlay_merge]
  exact overlay_merge_fragments_first e k ov _ 0 _ rfl (Nat.zero_le _)
    (by simpa using fdt_subnode_offset_root_lt fdto k ov _ hov)
    (fun j _ hj => hbefore j hj) hov ht

theorem overlay_merge_any (fdt fdto : Fdt) (e : FdtErr) (k : Nat) (ov : Offset)
    (hov : fdt_subnode_offset fdto [k] (str "__overlay__") = .ok ov)
    (ht : ∀ f, overlay_get_target f fdto [k] = .error e) :
    ∃ e1 st1, overlay_merge fdt fdto none = .error (e1, st1) := by
  simp only [overlay_merge]
  exact overlay_merge_fragments_any fdto e k ov hov ht _ 0 _ rfl rfl (Nat.zero_le _)
    (by simpa using fdt_subnode_offset_root_lt fdto k ov _ hov)

/-- When the merge cannot succeed, `fdt_overlay_apply` returns an error. -/
theorem fdt_overlay_apply_fails_of_merge (rounds : Nat) (fdt fdto : Fdt)
    (hm : ∀ fdto1 fdto2 fdto3,
      overlay_adjust_local_phandles fdto (fdt.root.max_phandle 0) = .ok fdto1 →
      overlay_update_local_references fdto1 (fdt.root.max_phandle 0) = .ok fdto2 →
      overlay_fixup_phandles fdt fdto2 0 = .ok fdto3 →
      ∃ e st, overlay_merge fdt fdto3 none = .error (e, st)) :
    ∃ out e, fdt_overlay_apply rounds fdt fdto = some out ∧ out.ret = some e := by
  rcases fdt_overlay_apply_cases rounds fdt fdto with
    ⟨e, _, h⟩ | ⟨e, f, h⟩ | ⟨fdto1, fdto2, fdto3, h1, h2, h3, h⟩
  · exact ⟨_, e, h, rfl⟩
  · exact ⟨_, e, h, rfl⟩
  · rcases h with ⟨e, st, _, h⟩ | ⟨st, hst, _⟩
    · exact ⟨_, e, h, rfl⟩
    · obtain ⟨e, st1, he⟩ := hm fdto1 fdto2 fdto3 h1 h2 h3
      rw [hst] at he
      cases he

/-- When the in-place passes succeed and the merge fails, `fdt_overlay_apply`
returns the error of the merge. -/
theorem fdt_overlay_apply_of_merge_error (rounds : Nat) (fdt fdto fdto1 fdto2 fdto3 : Fdt)
    (e : FdtErr) (st : MergeState)
    (hp : fdt_ro_probe fdt = .ok ()) (hq : fdt_ro_probe fdto = .ok ())
    (h1 : overlay_adjust_local_phandles fdto (fdt.root.max_phandle 0) = .ok fdto1)
    (h2 : overlay_update_local_references fdto1 (fdt.root.max_phandle 0) = .ok fdto2)
    (h3 : overlay_fixup_phandles fdt fdto2 0 = .ok fdto3)
    (hm : overlay_merge fdt fdto3 none = .error (e, st)) :
    fdt_overlay_apply rounds fdt fdto = some (apply_err e st.fdt st.fdto) := by
  simp [fdt_overlay_apply, hp, hq, fdt_find_max_phandle, h1, h2, h3, hm]

/-- C13 (as amended): for a fragment that has an `__overlay__` subnode and
neither a `target` nor a `target-path` property, `overlay_get_target` returns
`BADOVERLAY` whatever the base; `fdt_overlay_apply` on an overlay with such a
fragment always returns an error; and the error is `BADOVERLAY`, with the base
left as it was but for its magic, when both headers are valid, the three
in-place passes succeed and no fragment before this one has an `__overlay__`
subnode. -/
theorem overlay_get_target_no_target (fdt fdto : Fdt) (k : Nat) (ov : Offset)
    (hov : fdt_subnode_offset fdto [k] (str "__overlay__") = .ok ov)
    (ht : fdt_getprop fdto [k] (str "target") = .error .NOTFOUND)
    (htp : fdt_getprop fdto [k] (str "target-path") = .error .NOTFOUND) :
    overlay_get_target fdt fdto [k] = .error .BADOVERLAY ∧
    (∀ rounds, ∃ out e, fdt_overlay_apply rounds fdt fdto = some out ∧ out.ret = some e) ∧
    ∀ rounds fdto1 fdto2 fdto3,
      fdt_ro_probe fdt = .ok () → fdt_ro_probe fdto = .ok () →
      overlay_adjust_local_phandles fdto (fdt.root.max_phandle 0) = .ok fdto1 →
      overlay_update_local_references fdto1 (fdt.root.max_phandle 0) = .ok fdto2 →
      overlay_fixup_phandles fdt fdto2 0 = .ok fdto3 →
      (∀ j, j < k → fdt_subnode_offset fdto [j] (str "__overlay__") = .error .NOTFOUND) →
      fdt_overlay_apply rounds fdt fdto = some (apply_err .BADOVERLAY fdt fdto3) := by
  have key : ∀ (f g : Fdt), fdt_getprop g [k] (str "target") = .error .NOTFOUND →
      fdt_getprop g [k] (str "target-path") = .error .NOTFOUND →
      overlay_get_target f g [k] = .error .BADOVERLAY := by
    intro f g h1 h2
    simp [overlay_get_target, overlay_get_target_phandle, h1, h2, UINT32_MAX]
  have later : ∀ fdto1 fdto2 fdto3,
      overlay_adjust_local_phandles fdto (fdt.root.max_phandle 0) = .ok fdto1 →
      overlay_update_local_references fdto1 (fdt.root.max_phandle 0) = .ok fdto2 →
      overlay_fixup_phandles fdt fdto2 0 = .ok fdto3 →
      fdto.root.layout = fdto3.root.layout ∧
      ∀ f, overlay_get_target f fdto3 [k] = .error .BADOVERLAY := by
    intro fdto1 fdto2 fdto3 h1 h2 h3
    have hl := (inplace_passes_layout fdt fdto fdto1 fdto2 fdto3 _ h1 h2 h3).symm
    exact ⟨hl, fun f => key f fdto3 ((fdt_getprop_layout fdto fdto3 hl _ _).1 _ ht)
      ((fdt_getprop_layout fdto fdto3 hl _ _).1 _ htp)⟩
  refine ⟨key fdt fdto ht htp, ?_, ?_⟩
  · intro rounds
    apply fdt_overlay_apply_fails_of_merge
    intro fdto1 fdto2 fdto3 h1 h2 h3
    obtain ⟨hl, hg⟩ := later fdto1 fdto2 fdto3 h1 h2 h3
    exact overlay_merge_any fdt fdto3 .BADOVERLAY k ov
      (by rw [fdt_subnode_offset_layout fdto fdto3 hl]; exact hov) hg
  · intro rounds fdto1 fdto2 fdto3 hp hq h1 h2 h3 hbefore
    obtain ⟨hl, hg⟩ := later fdto1 fdto2 fdto3 h1 h2 h3
    have hm := overlay_merge_first fdt fdto3 .BADOVERLAY k ov
      (fun j hj => by rw [fdt_subnode_offset_layout fdto fdto3 hl]; exact hbefore j hj)
      (by rw [fdt_subnode_offset_layout fdto fdto3 hl]; exact hov) (hg fdt)
    exact fdt_overlay_apply_of_merge_error rounds fdt fdto fdto1 fdto2 fdto3 _ _ hp hq h1 h2 h3 hm

/-- C13, witness: the fragment of `overlay_no_target`, applied to `base_soc`. -/
theorem overlay_get_target_no_target_witness :
    fdt_subnode_offset overlay_no_target [0] (str "__overlay__") = .ok [0, 0] ∧
    fdt_getprop overlay_no_target [0] (str "target") = .error .NOTFOUND ∧
    fdt_getprop overlay_no_target [0] (str "target-path") = .error .NOTFOUND ∧
    (overlay_get_target base_soc overlay_no_target [0] = .error .BADOVERLAY ∧
    (∀ rounds, ∃ out e, fdt_overlay_apply rounds base_soc overlay_no_target = some out ∧
      out.ret = some e) ∧
    ∀ rounds fdto1 fdto2 fdto3,
      fdt_ro_probe base_soc = .ok () → fdt_ro_probe overlay_no_target = .ok () →
      overlay_adjust_local_phandles overlay_no_target (base_soc.root.max_phandle 0)
        = .ok fdto1 →
      overlay_update_local_references fdto1 (base_soc.root.max_phandle 0) = .ok fdto2 →
      overlay_fixup_phandles base_soc fdto2 0 = .ok fdto3 →
      (∀ j, j < 0 →
        fdt_subnode_offset overlay_no_target [j] (str "__overlay__") = .error .NOTFOUND) →
      fdt_overlay_apply rounds base_soc overlay_no_target
        = some (apply_err .BADOVERLAY base_soc fdto3)) ∧
    fdt_overlay_apply 1 base_soc overlay_no_target
      = some (apply_err .BADOVERLAY base_soc overlay_no_target) :=
  ⟨rfl, rfl, rfl,
    overlay_get_target_no_target base_soc overlay_no_target 0 [0, 0] rfl rfl rfl, rfl⟩

/-- C13, counterexample: in `overlay_lost_then_no_target` the second fragment
has an `__overlay__` subnode and neither `target` nor `target-path`, but the
first fragment names a path that `base_soc` does not have: `fdt_overlay_apply`
fails with `NOTFOUND`, not with `BADOVERLAY`. -/
theorem overlay_get_target_no_target_counter :
    fdt_subnode_offset overlay_lost_then_no_target [1] (str "__overlay__") = .ok [1, 0] ∧
    fdt_getprop overlay_lost_then_no_target [1] (str "target") = .error .NOTFOUND ∧
    fdt_getprop overlay_lost_then_no_target [1] (str "target-path") = .error .NOTFOUND ∧
    (fdt_overlay_apply 1 base_soc overlay_lost_then_no_target).map (fun r => r.ret)
      = some (some .NOTFOUND) :=
  ⟨rfl, rfl, rfl, by decide⟩

/-- C14 (as amended): for a fragment with an `__overlay__` subnode whose
`target` property is malformed (not four bytes long, or holding `0xFFFFFFFF`,
as the merge pass finds it), `overlay_get_target` returns `BADPHANDLE`, not
`BADOVERLAY`, whatever the base.  `fdt_overlay_apply` returns `BADPHANDLE`
when both headers are valid, the three in-place passes succeed and leave the
fragment so, and no fragment before it has an `__overlay__` subnode; and an
overlay whose fragment has a `target` that is not four bytes long is never
applied with success. -/
theorem overlay_get_target_malformed (fdt fdto : Fdt) (k : Nat) (ov : Offset) (val : Bytes)
    (hov : fdt_subnode_offset fdto [k] (str "__overlay__") = .ok ov)
    (ht : fdt_getprop fdto [k] (str "target") = .ok val)
    (hbad : val.length ≠ 4 ∨ fdt32_to_cpu val = UINT32_MAX) :
    overlay_get_target fdt fdto [k] = .error .BADPHANDLE ∧
    (∀ rounds fdto0 fdto1 fdto2,
      fdt_ro_probe fdt = .ok () → fdt_ro_probe fdto0 = .ok () →
      overlay_adjust_local_phandles fdto0 (fdt.root.max_phandle 0) = .ok fdto1 →
      overlay_update_local_references fdto1 (fdt.root.max_phandle 0) = .ok fdto2 →
      overlay_fixup_phandles fdt fdto2 0 = .ok fdto →
      (∀ j, j < k → fdt_subnode_offset fdto [j] (str "__overlay__") = .error .NOTFOUND) →
      fdt_overlay_apply rounds fdt fdto0 = some (apply_err .BADPHANDLE fdt fdto)) ∧
    (val.length ≠ 4 →
      ∀ rounds, ∃ out e, fdt_overlay_apply rounds fdt fdto = some out ∧ out.ret = some e) := by
  have key : ∀ (f g : Fdt) (v : Bytes), fdt_getprop g [k] (str "target") = .ok v →
      v.length ≠ 4 ∨ fdt32_to_cpu v = UINT32_MAX →
      overlay_get_target f g [k] = .error .BADPHANDLE := by
    intro f g v h1 h2
    simp [overlay_get_target, overlay_get_target_phandle, h1, h2]
  refine ⟨key fdt fdto val ht hbad, ?_, ?_⟩
  · intro rounds fdto0 fdto1 fdto2 hp hq h1 h2 h3 hbefore
    have hm := overlay_merge_first fdt fdto .BADPHANDLE k ov hbefore hov (key fdt fdto val ht hbad)
    exact fdt_overlay_apply_of_merge_error rounds fdt fdto0 fdto1 fdto2 fdto _ _ hp hq h1 h2 h3 hm
  · intro hlen rounds
    apply fdt_overlay_apply_fails_of_merge
    intro fdto1 fdto2 fdto3 h1 h2 h3
    have hl := (inplace_passes_layout fdt fdto fdto1 fdto2 fdto3 _ h1 h2 h3).symm
    obtain ⟨w, hw, hwl⟩ := (fdt_getprop_layout fdto fdto3 hl _ _).2 _ ht
    exact overlay_merge_any fdt fdto3 .BADPHANDLE k ov
      (by rw [fdt_subnode_offset_layout fdto fdto3 hl]; exact hov)
      (fun f => key f fdto3 w hw (Or.inl (by rw [hwl]; exact hlen)))

/-- C14, witness: the fragment of `overlay_bad_target`, whose `target` holds
`0xFFFFFFFF`, applied to `base_soc`. -/
theorem overlay_get_target_malformed_witness :
    fdt_subnode_offset overlay_bad_target [0] (str "__overlay__") = .ok [0, 0] ∧
    fdt_getprop overlay_bad_target [0] (str "target") = .ok [0xFF, 0xFF, 0xFF, 0xFF] ∧
    ([0xFF, 0xFF, 0xFF, 0xFF].length ≠ 4 ∨ fdt32_to_cpu [0xFF, 0xFF, 0xFF, 0xFF] = UINT32_MAX) ∧
    (overlay_get_target base_soc overlay_bad_target [0] = .error .BADPHANDLE ∧
    (∀ rounds fdto0 fdto1 fdto2,
      fdt_ro_probe base_soc = .ok () → fdt_ro_probe fdto0 = .ok () →
      overlay_adjust_local_phandles fdto0 (base_soc.root.max_phandle 0) = .ok fdto1 →
      overlay_update_local_references fdto1 (base_soc.root.max_phandle 0) = .ok fdto2 →
      overlay_fixup_phandles base_soc fdto2 0 = .ok overlay_bad_target →
      (∀ j, j < 0 →
        fdt_subnode_offset overlay_bad_target [j] (str "__overlay__") = .error .NOTFOUND) →
      fdt_overlay_apply rounds base_soc fdto0
        = some (apply_err .BADPHANDLE base_soc overlay_bad_target)) ∧
    ([0xFF, 0xFF, 0xFF, 0xFF].length ≠ 4 →
      ∀ rounds, ∃ out e, fdt_overlay_apply rounds base_soc overlay_bad_target = some out ∧
        out.ret = some e)) ∧
    fdt_overlay_apply 1 base_soc overlay_short_target
      = some (apply_err .BADPHANDLE base_soc overlay_short_target) :=
  ⟨rfl, rfl, Or.inr (by decide),
    overlay_get_target_malformed base_soc overlay_bad_target 0 [0, 0] [0xFF, 0xFF, 0xFF, 0xFF]
      rfl rfl (Or.inr (by decide)),
    rfl⟩

/-- C14, counterexample: the fragment of `overlay_bad_target` has an
`__overlay__` subnode and the `target` value `0xFFFFFFFF`; its target lookup
and `fdt_overlay_apply` fail with `BADPHANDLE`, not with `BADOVERLAY`. -/
theorem overlay_get_target_malformed_counter :
    fdt_subnode_offset overlay_bad_target [0] (str "__overlay__") = .ok [0, 0] ∧
    fdt_getprop overlay_bad_target [0] (str "target") = .ok [0xFF, 0xFF, 0xFF, 0xFF] ∧
    overlay_get_target base_soc overlay_bad_target [0] = .error .BADPHANDLE ∧
    (fdt_overlay_apply 1 base_soc overlay_bad_target).map (fun r => r.ret)
      = some (some .BADPHANDLE) ∧
    FdtErr.BADPHANDLE ≠ FdtErr.BADOVERLAY :=
  ⟨rfl, rfl, rfl, by decide, by decide⟩

/-! ### Symbols with an empty relative path -/

/-- What `overlay_symbol_update`, in the mode of `fdt_overlay_apply`, leaves
in the base for a symbol of the overlay whose round comes to the writing of
the label with the fragment name `frag` and the relative path `rel`. -/
theorem overlay_symbol_update_value_of (rounds : Nat) (fdt fdto out : Fdt) (ov_sym : Offset)
    (prop : Nat) (sym : Property) (frag rel : Bytes)
    (h : overlay_symbol_update rounds fdt fdto 0 = some (.ok out))
    (hov : fdt_subnode_offset fdto [] (str "__symbols__") = .ok ov_sym)
    (hsym : fdt_getprop_by_offset fdto ov_sym prop = .ok sym)
    (hwrite : ∀ root_sym fdt_i fdt_j,
      overlay_symbol_step fdt_i fdto ov_sym root_sym 0 prop none = .next fdt_j none →
      overlay_symbol_write fdt_i fdto root_sym 0 sym.name frag rel none = .next fdt_j none)
    (hlabels : ∀ j s, fdt_getprop_by_offset fdto ov_sym j = .ok s →
      s.name ≠ str "phandle" ∧ s.name ≠ str "linux,phandle")
    (huniq : ∀ j s, prop < j → fdt_getprop_by_offset fdto ov_sym j = .ok s →
      s.name ≠ sym.name) :
    ∃ root_sym fragment tgt P,
      fdt_subnode_offset out [] (str "__symbols__") = .ok root_sym ∧
      fdt_subnode_offset fdto [] frag = .ok fragment ∧
      overlay_get_target out fdto fragment = .ok tgt ∧
      fdt_getprop out root_sym sym.name = .ok (P ++ [47] ++ rel ++ [0]) ∧
      (∀ tp, tgt.2 = some tp → P = if (cstr tp).length > 1 then cstr tp else []) ∧
      (tgt.2 = none → ∃ nm, fdt_get_name out tgt.1 = .ok nm ∧
        if nm = [] then P = [] else fdt_get_path out tgt.1 (P.length + 1) = .ok P) := by
  have key : ∀ (root_sym : Offset) (f0 : Fdt),
      overlay_symbol_loop fdto ov_sym root_sym 0 rounds (fdt_first_property_offset fdto ov_sym)
        f0 none = some (.ok out) →
      fdt_subnode_offset f0 [] (str "__symbols__") = .ok root_sym →
      ∃ root_sym fragment tgt P,
        fdt_subnode_offset out [] (str "__symbols__") = .ok root_sym ∧
        fdt_subnode_offset fdto [] frag = .ok fragment ∧
        overlay_get_target out fdto fragment = .ok tgt ∧
        fdt_getprop out root_sym sym.name = .ok (P ++ [47] ++ rel ++ [0]) ∧
        (∀ tp, tgt.2 = some tp → P = if (cstr tp).length > 1 then cstr tp else []) ∧
        (tgt.2 = none → ∃ nm, fdt_get_name out tgt.1 = .ok nm ∧
          if nm = [] then P = [] else fdt_get_path out tgt.1 (P.length + 1) = .ok P) := by
    intro root_sym f0 hloop hroot
    obtain ⟨hsk0, _, _⟩ := overlay_symbol_loop_rest fdto ov_sym root_sym sym.name _ _ _ _ hloop
    rw [fdt_first_property_offset_zero fdto ov_sym prop sym hsym] at hloop
    obtain ⟨fdt_i, fdt_j, hstep, hget, hsk, hfind⟩ :=
      overlay_symbol_loop_round fdto ov_sym root_sym prop sym hsym huniq _ _ _ _
        (Nat.zero_le _) hloop
    obtain ⟨hl1, hl2⟩ := hlabels prop sym hsym
    have hw := hwrite root_sym fdt_i fdt_j hstep
    obtain ⟨fragment, tgt, P, hf, ht, hv, hP1, hP2⟩ :=
      overlay_symbol_write_value fdt_i fdto fdt_j root_sym sym.name frag rel none hl1 hl2 hw
    refine ⟨root_sym, fragment, tgt, P, ?_, hf, ?_, ?_, hP1, ?_⟩
    · rw [fdt_subnode_offset_skel f0 out hsk0.symm]; exact hroot
    · rw [overlay_get_target_stable fdt_i out fdto fragment hsk (hfind hlabels)]; exact ht
    · rw [hget]; exact hv
    · intro hn
      obtain ⟨nm, hnm, hif⟩ := hP2 hn
      refine ⟨nm, ?_, ?_⟩
      · rw [fdt_get_name_skel fdt_i out hsk.symm]; exact hnm
      · rw [fdt_get_path_skel fdt_i out hsk.symm]; exact hif
  unfold overlay_symbol_update at h
  simp only [hov] at h
  cases hr : fdt_subnode_offset fdt [] (str "__symbols__") with
  | ok root_sym =>
    simp only [hr] at h
    exact key root_sym fdt h hr
  | error e =>
    simp only [hr] at h
    split at h
    · cases ha : fdt_add_subnode fdt [] (str "__symbols__") with
      | error e2 => simp [ha] at h
      | ok r =>
        simp only [ha] at h
        exact key r.2 r.1 h (fdt_add_subnode_offset fdt r.1 r.2 _ ha)
    · simp at h

theorem overlay_symbol_step_write_empty (fdt fdto : Fdt) (ov_sym root_sym : Offset) (prop : Nat)
    (sym : Property) (frag : Bytes) (fdt1 : Fdt) (olay1 : Option Bytes)
    (hsym : fdt_getprop_by_offset fdto ov_sym prop = .ok sym)
    (hval : sym.val = [47] ++ frag ++ str "/__overlay__" ++ [0])
    (hfrag : ∀ b ∈ frag, b ≠ 47 ∧ b ≠ 0)
    (hstep : overlay_symbol_step fdt fdto ov_sym root_sym 0 prop none = .next fdt1 olay1) :
    overlay_symbol_write fdt fdto root_sym 0 sym.name frag [] none = .next fdt1 olay1 := by
  have hov : str "/__overlay__" = 47 :: str "__overlay__" := by decide
  have hovl : (str "/__overlay__").length = 12 := by decide
  have e1 : sym.val.drop 1 = frag ++ 47 :: (str "__overlay__" ++ [0]) := by
    rw [hval, hov]; simp
  have hk : strchr (sym.val.drop 1) 47 = some frag.length := by
    rw [e1]; exact strchr_append frag _ 47 hfrag
  have e2 : sym.val.drop (1 + frag.length) = str "/__overlay__" ++ [0] := by
    rw [hval]
    have : [47] ++ frag ++ str "/__overlay__" ++ [0]
        = ([47] ++ frag) ++ (str "/__overlay__" ++ [0]) := by simp
    rw [this]
    have hl : 1 + frag.length = ([47] ++ frag).length := by simp; omega
    rw [hl, List.drop_left]
  have e3 : (sym.val.drop 1).take frag.length = frag := by
    rw [e1, List.take_left]
  have c1 : ¬ ((sym.val.drop (1 + frag.length)).length > 13 ∧
      (sym.val.drop (1 + frag.length)).take 13 = str "/__overlay__/") := by
    rw [e2]
    simp [hovl]
  have c2 : (sym.val.drop (1 + frag.length)).length = 13 ∧
      (sym.val.drop (1 + frag.length)).take 12 = str "/__overlay__" := by
    rw [e2]
    refine ⟨by simp [hovl], ?_⟩
    rw [← hovl, List.take_left]
  unfold overlay_symbol_step at hstep
  simp only [hsym] at hstep
  split at hstep
  · cases hstep
  · split at hstep
    · cases hstep
    · simp only [hk, e3, c1, c2, and_self, if_true, if_false] at hstep
      exact hstep

/-- C19 (as amended): after a successful `fdt_overlay_apply`, for every symbol
of the overlay (as the call leaves it) whose value is exactly
`/<frag>/__overlay__`, when no symbol of the overlay is labelled `phandle` or
`linux,phandle` and no later symbol carries the same label, the base's
`/__symbols__` has the label with the NUL-terminated value `P ++ "/"`: the
path `P` of the target (the `target-path` string as written, or the absolute
path of the node targeted by phandle; nothing for the root) followed by a
`/`, which the code writes also when the relative path is empty. -/
theorem fdt_overlay_apply_symbol_empty_rel (rounds : Nat) (fdt fdto : Fdt) (out : Outcome)
    (ov_sym : Offset) (prop : Nat) (sym : Property) (frag : Bytes)
    (h : fdt_overlay_apply rounds fdt fdto = some out) (hok : out.ret = none)
    (hov : fdt_subnode_offset out.fdto [] (str "__symbols__") = .ok ov_sym)
    (hsym : fdt_getprop_by_offset out.fdto ov_sym prop = .ok sym)
    (hval : sym.val = [47] ++ frag ++ str "/__overlay__" ++ [0])
    (hfrag : ∀ b ∈ frag, b ≠ 47 ∧ b ≠ 0)
    (hlabels : ∀ j s, fdt_getprop_by_offset out.fdto ov_sym j = .ok s →
      s.name ≠ str "phandle" ∧ s.name ≠ str "linux,phandle")
    (huniq : ∀ j s, prop < j → fdt_getprop_by_offset out.fdto ov_sym j = .ok s →
      s.name ≠ sym.name) :
    ∃ root_sym fragment tgt P,
      fdt_subnode_offset out.fdt [] (str "__symbols__") = .ok root_sym ∧
      fdt_subnode_offset out.fdto [] frag = .ok fragment ∧
      overlay_get_target out.fdt out.fdto fragment = .ok tgt ∧
      fdt_getprop out.fdt root_sym sym.name = .ok (P ++ [47] ++ [0]) ∧
      (∀ tp, tgt.2 = some tp → P = if (cstr tp).length > 1 then cstr tp else []) ∧
      (tgt.2 = none → ∃ nm, fdt_get_name out.fdt tgt.1 = .ok nm ∧
        if nm = [] then P = [] else fdt_get_path out.fdt tgt.1 (P.length + 1) = .ok P) := by
  obtain ⟨_, _, _, st, _, _, _, _, _, _, hupd, hout⟩ := fdt_overlay_apply_ok rounds fdt fdto out h hok
  rw [hout] at hov hsym hlabels huniq ⊢
  have key := overlay_symbol_update_value_of rounds st.fdt st.fdto out.fdt ov_sym prop sym frag []
    hupd hov hsym
    (fun root_sym fdt_i fdt_j hstep =>
      overlay_symbol_step_write_empty fdt_i st.fdto ov_sym root_sym prop sym frag fdt_j none
        hsym hval hfrag hstep)
    hlabels huniq
  simpa using key

/-- C19, witness: `overlay_symbol_self` applied to `base_soc`: the symbol
`foo = "/fragment@0/__overlay__"` becomes `foo = "/soc/node/"`. -/
theorem fdt_overlay_apply_symbol_empty_rel_witness :
    fdt_overlay_apply 2 base_soc overlay_symbol_self
      = some { ret := none, fdt := base_soc_symbol_self,
               fdto := fdt_set_magic overlay_symbol_self UINT32_MAX } ∧
    (∃ root_sym fragment tgt P,
      fdt_subnode_offset base_soc_symbol_self [] (str "__symbols__") = .ok root_sym ∧
      fdt_subnode_offset (fdt_set_magic overlay_symbol_self UINT32_MAX) [] (str "fragment@0")
        = .ok fragment ∧
      overlay_get_target base_soc_symbol_self (fdt_set_magic overlay_symbol_self UINT32_MAX)
        fragment = .ok tgt ∧
      fdt_getprop base_soc_symbol_self root_sym (str "foo") = .ok (P ++ [47] ++ [0]) ∧
      (∀ tp, tgt.2 = some tp → P = if (cstr tp).length > 1 then cstr tp else []) ∧
      (tgt.2 = none → ∃ nm, fdt_get_name base_soc_symbol_self tgt.1 = .ok nm ∧
        if nm = [] then P = []
        else fdt_get_path base_soc_symbol_self tgt.1 (P.length + 1) = .ok P)) ∧
    peek_prop base_soc_symbol_self [1] (str "foo") = zstr "/soc/node/" :=
  ⟨rfl,
    fdt_overlay_apply_symbol_empty_rel 2 base_soc overlay_symbol_self
      { ret := none, fdt := base_soc_symbol_self,
        fdto := fdt_set_magic overlay_symbol_self UINT32_MAX }
      [1] 0 { name := str "foo", val := zstr "/fragment@0/__overlay__" }
      (str "fragment@0") rfl rfl rfl rfl (by decide) (by decide)
      (by
        intro j s hs
        cases j with
        | zero => cases hs; decide
        | succ k => cases hs)
      (by
        intro j s hj hs
        cases j with
        | zero => omega
        | succ k => cases hs),
    by decide⟩

/-- C19, counterexample: the symbol `foo = "/fragment@0/__overlay__"` of
`overlay_symbol_self`, whose fragment targets `/soc/node`: after the
successful `fdt_overlay_apply` the base has `foo = "/soc/node/"`, with a
trailing `/`, and not `foo = "/soc/node"`. -/
theorem fdt_overlay_apply_symbol_empty_rel_counter :
    (fdt_overlay_apply 2 base_soc overlay_symbol_self).map
        (fun r => (r.ret, peek_prop r.fdt [1] (str "foo")))
      = some (none, zstr "/soc/node/") ∧
    zstr "/soc/node/" ≠ zstr "/soc/node" :=
  ⟨by decide, by decide⟩

/-! ### Syntax of the fixup strings -/

theorem memchr_append (a b : Bytes) (c : Nat) (h : ∀ x ∈ a, x ≠ c) :
    ∀ (n : Nat), a.length < n → memchr (a ++ c :: b) c n = some a.length := by
  induction a with
  | nil =>
    intro n hn
    cases n with
    | zero => omega
    | succ m => simp [memchr]
  | cons x xs ih =>
    intro n hn
    cases n with
    | zero => omega
    | succ m =>
      have hx : x ≠ c := h x (by simp)
      simp only [List.cons_append, memchr, hx, if_false, List.length_cons, List.append_eq]
      rw [ih (fun y hy => h y (by simp [hy])) m (by simpa using hn)]
      rfl

theorem memchr_some : ∀ (l : Bytes) (c n k : Nat), memchr l c n = some k →
    k < n ∧ ∃ b, l = l.take k ++ c :: b ∧ (l.take k).length = k ∧ ∀ x ∈ l.take k, x ≠ c
  | [], c, n, k, h => by simp [memchr] at h
  | x :: xs, c, 0, k, h => by simp [memchr] at h
  | x :: xs, c, n + 1, k, h => by
    simp only [memchr] at h
    split at h
    · rename_i hx
      cases h
      exact ⟨by omega, xs, by simp [hx], rfl, by simp⟩
    · rename_i hx
      cases hm : memchr xs c n with
      | none => simp [hm] at h
      | some j =>
        simp only [hm, Option.map_some', Option.some.injEq] at h
        subst h
        obtain ⟨hj, b, hb, hl, hall⟩ := memchr_some xs c n j hm
        refine ⟨by omega, b, ?_, by simp [hl], ?_⟩
        · simp only [List.take_succ_cons, List.cons_append, List.cons.injEq, true_and]
          exact hb
        · intro y hy
          simp only [List.take_succ_cons, List.mem_cons] at hy
          rcases hy with hy | hy
          · rw [hy]; exact hx
          · exact hall y hy

theorem strtoul_digits_snd : ∀ (l : Bytes) (acc n : Nat),
    (strtoul_digits l acc n).2 = n + (l.takeWhile isdigit).length
  | [], acc, n => by simp [strtoul_digits]
  | c :: cs, acc, n => by
    simp only [strtoul_digits]
    split
    · rename_i hc
      rw [strtoul_digits_snd cs _ (n + 1)]
      simp [List.takeWhile, hc]
      omega
    · rename_i hc
      simp [List.takeWhile, hc]

theorem takeWhile_append_stop (p : Nat → Bool) (a b : Bytes) (ha : ∀ x ∈ a, p x = true)
    (hb : ∀ x, b.head? = some x → p x = false) : (a ++ b).takeWhile p = a := by
  induction a with
  | nil =>
    cases b with
    | nil => rfl
    | cons y ys => simp [List.takeWhile, hb y rfl]
  | cons x xs ih =>
    simp only [List.cons_append, List.takeWhile, ha x (by simp), List.append_eq]
    rw [ih (fun y hy => ha y (by simp [hy]))]

theorem takeWhile_all (p : Nat → Bool) (a : Bytes) (ha : ∀ x ∈ a, p x = true) :
    a.takeWhile p = a := by
  have := takeWhile_append_stop p a [] ha (by simp)
  simpa using this

theorem strtoul_snd (s : Bytes) :
    (strtoul s).2
      = if ((s.drop (s.takeWhile isspace).length).drop
              (match s.drop (s.takeWhile isspace).length with
                | 43 :: _ => 1
                | 45 :: _ => 1
                | _ => 0)).takeWhile isdigit = [] then 0
        else (s.takeWhile isspace).length
          + (match s.drop (s.takeWhile isspace).length with
              | 43 :: _ => 1
              | 45 :: _ => 1
              | _ => 0)
          + (((s.drop (s.takeWhile isspace).length).drop
              (match s.drop (s.takeWhile isspace).length with
                | 43 :: _ => 1
                | 45 :: _ => 1
                | _ => 0)).takeWhile isdigit).length := by
  unfold strtoul
  simp only [strtoul_digits_snd, Nat.zero_add, List.length_eq_zero]
  split
  · rfl
  · split
    · rfl
    · split <;> rfl

theorem take_length_takeWhile (p : Nat → Bool) : ∀ (l : Bytes),
    l.take (l.takeWhile p).length = l.takeWhile p
  | [] => by simp
  | x :: xs => by
    by_cases hx : p x = true
    · simp [List.takeWhile, hx, take_length_takeWhile p xs]
    · simp [List.takeWhile, hx]

theorem takeWhile_append_drop (p : Nat → Bool) (l : Bytes) :
    l = l.takeWhile p ++ l.drop (l.takeWhile p).length := by
  conv_lhs => rw [← List.take_append_drop (l.takeWhile p).length l]
  rw [take_length_takeWhile]

theorem mem_takeWhile (p : Nat → Bool) : ∀ (l : Bytes) (x : Nat),
    x ∈ l.takeWhile p → p x = true
  | [], x, h => by simp at h
  | y :: ys, x, h => by
    by_cases hy : p y = true
    · simp only [List.takeWhile, hy, List.mem_cons] at h
      rcases h with h | h
      · rw [h]; exact hy
      · exact mem_takeWhile p ys x h
    · simp [List.takeWhile, hy] at h

theorem isdigit_not_isspace (x : Nat) (h : isdigit x = true) : isspace x = false := by
  simp only [isdigit, Bool.and_eq_true, decide_eq_true_eq] at h
  simp only [isspace, Bool.or_eq_false_iff, decide_eq_false_iff_not, Bool.and_eq_false_imp,
    decide_eq_true_eq]
  omega

theorem strtoul_snd_sign (s : Bytes) :
    ∃ sg : Nat,
      (strtoul s).2
        = (if ((s.drop (s.takeWhile isspace).length).drop sg).takeWhile isdigit = [] then 0
          else (s.takeWhile isspace).length + sg
            + (((s.drop (s.takeWhile isspace).length).drop sg).takeWhile isdigit).length) ∧
      ((sg = 0 ∧ ∀ x xs, s.drop (s.takeWhile isspace).length = x :: xs → x ≠ 43 ∧ x ≠ 45) ∨
        (sg = 1 ∧ ∃ x xs, s.drop (s.takeWhile isspace).length = x :: xs ∧ (x = 43 ∨ x = 45))) := by
  rw [strtoul_snd]
  generalize s.drop (s.takeWhile isspace).length = s1
  generalize hm : (match s1 with
    | 43 :: _ => 1
    | 45 :: _ => 1
    | _ => 0) = m
  refine ⟨m, rfl, ?_⟩
  split at hm
  · exact Or.inr ⟨hm.symm, 43, _, rfl, Or.inl rfl⟩
  · exact Or.inr ⟨hm.symm, 45, _, rfl, Or.inr rfl⟩
  · rename_i h43 h45
    exact Or.inl ⟨hm.symm, fun x xs h =>
      ⟨fun hx => h43 xs (by rw [h, hx]), fun hx => h45 xs (by rw [h, hx])⟩⟩

/-- What `strtoul` reads to its end, not being empty, is an offset in the
syntax `fixup_offset_wf`, and conversely. -/
theorem strtoul_whole_iff (num : Bytes) :
    ((strtoul num).2 = num.length ∧ (strtoul num).2 ≠ 0) ↔ fixup_offset_wf num := by
  obtain ⟨sg, hsnd, hsgc⟩ := strtoul_snd_sign num
  rw [hsnd]
  constructor
  · rintro ⟨h1, h2⟩
    have hnum := takeWhile_append_drop isspace num
    generalize hs1 : num.drop (num.takeWhile isspace).length = s1 at h1 h2 hnum hsgc
    have hd := takeWhile_append_drop isdigit (s1.drop sg)
    generalize hdg : (s1.drop sg).takeWhile isdigit = dg at h1 h2 hd
    have hne : dg ≠ [] := by
      intro he
      simp [he] at h2
    rw [if_neg hne] at h1
    have hs1' : s1 = s1.take sg ++ s1.drop sg := (List.take_append_drop sg s1).symm
    have hsgl : (s1.take sg).length = sg ∧
        (s1.take sg = [] ∨ s1.take sg = [43] ∨ s1.take sg = [45]) := by
      rcases hsgc with ⟨h0, _⟩ | ⟨h1', x, xs, hx, hx2⟩
      · subst h0; simp
      · subst h1'
        rw [hx]
        rcases hx2 with hx2 | hx2 <;> subst hx2 <;> simp
    have hlen : num.length = (num.takeWhile isspace).length + (s1.take sg).length
        + dg.length + ((s1.drop sg).drop dg.length).length := by
      conv_lhs => rw [hnum, hs1', hd]
      simp only [List.length_append]
      omega
    have hrest : (s1.drop sg).drop dg.length = [] := by
      apply List.eq_nil_of_length_eq_zero
      omega
    refine ⟨num.takeWhile isspace, s1.take sg, dg, ?_, ?_, hsgl.2, hne, ?_⟩
    · conv_lhs => rw [hnum, hs1', hd, hrest]
      simp
    · exact fun b hb => mem_takeWhile isspace num b hb
    · rw [← hdg]
      exact fun b hb => mem_takeWhile isdigit _ b hb
  · rintro ⟨ws, sign, digits, hnum, hws, hsign, hne, hdig⟩
    obtain ⟨d, ds, hd⟩ := List.exists_cons_of_ne_nil hne
    have hd0 : isdigit d = true := hdig d (by rw [hd]; simp)
    have hdr : 48 ≤ d := by
      simp only [isdigit, Bool.and_eq_true, decide_eq_true_eq] at hd0
      exact hd0.1
    have htw : num.takeWhile isspace = ws := by
      rw [hnum, List.append_assoc]
      apply takeWhile_append_stop isspace ws _ hws
      intro x hx
      rcases hsign with hs | hs | hs
      · rw [hs, hd] at hx
        simp only [List.nil_append, List.head?_cons, Option.some.injEq] at hx
        rw [← hx]; exact isdigit_not_isspace d hd0
      · rw [hs] at hx
        simp only [List.singleton_append, List.head?_cons, Option.some.injEq] at hx
        rw [← hx]; decide
      · rw [hs] at hx
        simp only [List.singleton_append, List.head?_cons, Option.some.injEq] at hx
        rw [← hx]; decide
    have hs1 : num.drop (num.takeWhile isspace).length = sign ++ digits := by
      rw [htw, hnum, List.append_assoc, List.drop_left]
    rw [hs1] at hsgc ⊢
    have hsg : sg = sign.length := by
      rcases hsign with hs | hs | hs
      · subst hs
        rcases hsgc with ⟨h0, _⟩ | ⟨_, x, xs, hx, hx2⟩
        · exact h0
        · rw [hd] at hx
          simp only [List.nil_append, List.cons.injEq] at hx
          omega
      · subst hs
        rcases hsgc with ⟨_, h0⟩ | ⟨h1, _⟩
        · exact absurd rfl (h0 43 digits rfl).1
        · exact h1
      · subst hs
        rcases hsgc with ⟨_, h0⟩ | ⟨h1, _⟩
        · exact absurd rfl (h0 45 digits rfl).2
        · exact h1
    have hdg : ((sign ++ digits).drop sg).takeWhile isdigit = digits := by
      rw [hsg, List.drop_left]
      exact takeWhile_all isdigit digits hdig
    rw [hdg, htw, if_neg hne]
    have : 0 < digits.length := List.length_pos.mpr hne
    refine ⟨by rw [hnum, hsg]; simp only [List.length_append], by omega⟩

/-- A round of the loop of `overlay_fixup_phandle` on bytes that do not start
with a fixup string in the accepted syntax, NUL included, within the `len`
bytes left, returns `BADOVERLAY` and leaves the overlay as it is. -/
theorem overlay_fixup_strings_syntax_error (fdt : Fdt) (symbols_off : Except FdtErr Offset)
    (fixups_off : Offset) (property : Nat) (label : Bytes) (rounds : Nat) (fdto : Fdt)
    (pos len : Nat)
    (h : ¬ ∃ s rest, (peek_prop_by_offset fdto fixups_off property).drop pos = s ++ 0 :: rest ∧
      s.length < len ∧ fixup_string_wf s) :
    overlay_fixup_strings fdt symbols_off fixups_off property label (rounds + 1) fdto pos len
      = .error (.BADOVERLAY, fdto) := by
  simp only [overlay_fixup_strings]
  generalize (peek_prop_by_offset fdto fixups_off property).drop pos = value at h ⊢
  cases hm0 : memchr value 0 len with
  | none => rfl
  | some fl =>
    simp only
    obtain ⟨hfl, b1, hb1, hl1, hno0⟩ := memchr_some value 0 len fl hm0
    generalize hs : value.take fl = s at hb1 hl1 hno0 ⊢
    cases hm1 : memchr s 58 fl with
    | none => rfl
    | some pl =>
      simp only
      obtain ⟨hpl, b2, hb2, hl2, hnoP⟩ := memchr_some s 58 fl pl hm1
      split
      · rfl
      · have hname : s.drop (pl + 1) = b2 := by
          conv_lhs => rw [hb2]
          rw [show pl + 1 = (s.take pl ++ [58]).length by simp [hl2]]
          rw [show s.take pl ++ 58 :: b2 = (s.take pl ++ [58]) ++ b2 by simp, List.drop_left]
        rw [hname]
        cases hm2 : memchr b2 58 (fl - (pl + 1)) with
        | none => rfl
        | some nl =>
          simp only
          obtain ⟨hnl, b3, hb3, hl3, hnoN⟩ := memchr_some b2 58 _ nl hm2
          split
          · rfl
          · rename_i hnl0
            have hnum : b2.drop (nl + 1) = b3 := by
              conv_lhs => rw [hb3]
              rw [show nl + 1 = (b2.take nl ++ [58]).length by simp [hl3]]
              rw [show b2.take nl ++ 58 :: b3 = (b2.take nl ++ [58]) ++ b3 by simp,
                List.drop_left]
            rw [hnum]
            split
            · rfl
            · rename_i hst
              exfalso
              apply h
              refine ⟨s, b1, hb1, by omega, s.take pl, b2.take nl, b3, ?_, hno0, hnoP, hnoN, ?_, ?_⟩
              · conv_lhs => rw [hb2, hb3]
              · intro he
                rw [he] at hl3
                simp at hl3
                exact hnl0 hl3.symm
              · apply (strtoul_whole_iff b3).mp
                constructor
                · by_contra hc
                  exact hst (Or.inl hc)
                · intro hc
                  exact hst (Or.inr hc)

/-- A round of the loop of `overlay_fixup_phandle` on a fixup string in the
accepted syntax hands its path, its name and its offset to
`overlay_fixup_one_phandle`. -/
theorem overlay_fixup_strings_round (fdt : Fdt) (symbols_off : Except FdtErr Offset)
    (fixups_off : Offset) (property : Nat) (label : Bytes) (rounds : Nat) (fdto : Fdt)
    (pos len : Nat) (P N D rest : Bytes)
    (hv : (peek_prop_by_offset fdto fixups_off property).drop pos
      = (P ++ 58 :: (N ++ 58 :: D)) ++ 0 :: rest)
    (hlen : (P ++ 58 :: (N ++ 58 :: D)).length < len)
    (h0 : ∀ b ∈ P ++ 58 :: (N ++ 58 :: D), b ≠ 0)
    (hP : ∀ b ∈ P, b ≠ 58) (hN : ∀ b ∈ N, b ≠ 58) (hNe : N ≠ [])
    (hD : fixup_offset_wf D) :
    overlay_fixup_strings fdt symbols_off fixups_off property label (rounds + 1) fdto pos len
      = match overlay_fixup_one_phandle fdt fdto symbols_off P N ((strtoul D).1 % 2 ^ 32)
          label with
        | .error e => .error (e, fdto)
        | .ok fdto1 =>
          if len - ((P ++ 58 :: (N ++ 58 :: D)).length + 1) > 0 then
            overlay_fixup_strings fdt symbols_off fixups_off property label rounds fdto1
              (pos + (P ++ 58 :: (N ++ 58 :: D)).length + 1)
              (len - ((P ++ 58 :: (N ++ 58 :: D)).length + 1))
          else .ok fdto1 := by
  simp only [overlay_fixup_strings]
  rw [hv]
  generalize hs : P ++ 58 :: (N ++ 58 :: D) = s at hlen h0 ⊢
  have hNl : 0 < N.length := List.length_pos.mpr hNe
  have hsl : s.length = P.length + 1 + N.length + 1 + D.length := by
    rw [← hs]; simp; omega
  have hm0 : memchr (s ++ 0 :: rest) 0 len = some s.length := memchr_append s rest 0 h0 len hlen
  have htake : (s ++ 0 :: rest).take s.length = s := List.take_left _ _
  have hm1 : memchr s 58 s.length = some P.length := by
    rw [← hs]
    exact memchr_append P _ 58 hP _ (by rw [hs, hsl]; omega)
  have hname : s.drop (P.length + 1) = N ++ 58 :: D := by
    rw [← hs, show P ++ 58 :: (N ++ 58 :: D) = (P ++ [58]) ++ (N ++ 58 :: D) by simp,
      show P.length + 1 = (P ++ [58]).length by simp, List.drop_left]
  have hm2 : memchr (N ++ 58 :: D) 58 (s.length - (P.length + 1)) = some N.length :=
    memchr_append N D 58 hN _ (by omega)
  have hnum : (N ++ 58 :: D).drop (N.length + 1) = D := by
    rw [show N ++ 58 :: D = (N ++ [58]) ++ D by simp,
      show N.length + 1 = (N ++ [58]).length by simp, List.drop_left]
  have hpath : s.take P.length = P := by rw [← hs]; exact List.take_left _ _
  have hnm : (N ++ 58 :: D).take N.length = N := List.take_left _ _
  obtain ⟨hw1, hw2⟩ := (strtoul_whole_iff D).mpr hD
  have hc1 : ¬ P.length = s.length - 1 := by omega
  have hc2 : ¬ N.length = 0 := by omega
  have hc3 : ¬ ((strtoul D).2 ≠ D.length ∨ (strtoul D).2 = 0) := by
    intro hc
    rcases hc with hc | hc
    · exact hc hw1
    · exact hw2 hc
  simp only [hm0, htake, hm1, hc1, if_false, hname, hm2, hc2, hnum, hc3, hpath, hnm]

theorem peek_prop_by_offset_of (fdto : Fdt) (node : Offset) (k : Nat) (p : Property)
    (h : fdt_getprop_by_offset fdto node k = .ok p) : peek_prop_by_offset fdto node k = p.val := by
  simp [peek_prop_by_offset, h]

/-- The pass `overlay_fixup_phandles`, in the mode of `fdt_overlay_apply`,
stops with the error of the first property of `/__fixups__`. -/
theorem overlay_fixup_phandles_first_error (fdt fdto f : Fdt) (fixups_off : Offset)
    (p : Property) (e : FdtErr)
    (hfix : fdt_path_offset fdto (str "/__fixups__") = .ok fixups_off)
    (hso : ∀ e1, fdt_path_offset fdt (str "/__symbols__") = .error e1 → e1 = .NOTFOUND)
    (hprop : fdt_getprop_by_offset fdto fixups_off 0 = .ok p)
    (hround : overlay_fixup_phandle fdt fdto (fdt_path_offset fdt (str "/__symbols__")) 0
      fixups_off = .error (e, f)) :
    overlay_fixup_phandles fdt fdto 0 = .error (e, f) := by
  have hnode : ∃ n, fdto.root.node_at fixups_off = some n ∧ n.props.length = (n.props.length - 1) + 1 := by
    unfold fdt_getprop_by_offset at hprop
    cases hn : fdto.root.node_at fixups_off with
    | none => simp [hn] at hprop
    | some n =>
      refine ⟨n, rfl, ?_⟩
      simp only [hn] at hprop
      cases hp : n.props with
      | nil => simp [hp] at hprop
      | cons x xs => simp
  obtain ⟨n, hn, hl⟩ := hnode
  unfold overlay_fixup_phandles
  simp only [hfix, hn]
  cases hs : fdt_path_offset fdt (str "/__symbols__") with
  | error e1 =>
    have := hso e1 hs
    subst this
    rw [hs] at hround
    simp only [ne_eq, not_true_eq_false, if_false]
    rw [hl]
    simp [overlay_fixup_props, hround]
  | ok so =>
    rw [hs] at hround
    simp only
    rw [hl]
    simp [overlay_fixup_props, hround]

/-- When the first two passes succeed and the fixup pass fails,
`fdt_overlay_apply` returns the error of the fixup pass and leaves the base
unmerged. -/
theorem fdt_overlay_apply_of_fixups_error (rounds : Nat) (fdt fdto fdto1 fdto2 f : Fdt)
    (e : FdtErr)
    (hp : fdt_ro_probe fdt = .ok ()) (hq : fdt_ro_probe fdto = .ok ())
    (h1 : overlay_adjust_local_phandles fdto (fdt.root.max_phandle 0) = .ok fdto1)
    (h2 : overlay_update_local_references fdto1 (fdt.root.max_phandle 0) = .ok fdto2)
    (h3 : overlay_fixup_phandles fdt fdto2 0 = .error (e, f)) :
    fdt_overlay_apply rounds fdt fdto = some (apply_err e fdt f) := by
  simp [fdt_overlay_apply, hp, hq, fdt_find_max_phandle, h1, h2, h3]

/-- The first fixup string of the first property of `/__fixups__` decides the
result of `fdt_overlay_apply` when `overlay_fixup_one_phandle` fails on it. -/
theorem fdt_overlay_apply_first_fixup (rounds : Nat) (fdt fdto0 fdto1 fdto : Fdt)
    (fixups_off : Offset) (p : Property) (P N D rest : Bytes) (e : FdtErr)
    (hp : fdt_ro_probe fdt = .ok ()) (hq : fdt_ro_probe fdto0 = .ok ())
    (h1 : overlay_adjust_local_phandles fdto0 (fdt.root.max_phandle 0) = .ok fdto1)
    (h2 : overlay_update_local_references fdto1 (fdt.root.max_phandle 0) = .ok fdto)
    (hfix : fdt_path_offset fdto (str "/__fixups__") = .ok fixups_off)
    (hso : ∀ e1, fdt_path_offset fdt (str "/__symbols__") = .error e1 → e1 = .NOTFOUND)
    (hprop : fdt_getprop_by_offset fdto fixups_off 0 = .ok p)
    (hval : p.val = (P ++ 58 :: (N ++ 58 :: D)) ++ 0 :: rest)
    (h0 : ∀ b ∈ P ++ 58 :: (N ++ 58 :: D), b ≠ 0)
    (hP : ∀ b ∈ P, b ≠ 58) (hN : ∀ b ∈ N, b ≠ 58) (hNe : N ≠ [])
    (hD : fixup_offset_wf D)
    (hone : overlay_fixup_one_phandle fdt fdto (fdt_path_offset fdt (str "/__symbols__")) P N
      ((strtoul D).1 % 2 ^ 32) p.name = .error e) :
    fdt_overlay_apply rounds fdt fdto0 = some (apply_err e fdt fdto) := by
  apply fdt_overlay_apply_of_fixups_error rounds fdt fdto0 fdto1 fdto fdto e hp hq h1 h2
  apply overlay_fixup_phandles_first_error fdt fdto fdto fixups_off p e hfix hso hprop
  unfold overlay_fixup_phandle
  simp only [hprop]
  rw [overlay_fixup_strings_round fdt _ fixups_off 0 p.name p.val.length fdto 0 p.val.length
    P N D rest (by rw [peek_prop_by_offset_of _ _ _ _ hprop]; simpa using hval)
    (by rw [hval]; simp) h0 hP hN hNe hD, hone]

/-! ### Fixup strings: syntax errors and unresolved references -/

/-- C16 (as amended): a round of the loop of `overlay_fixup_phandle` returns
`BADOVERLAY`, leaving the overlay as it is, whenever the bytes it is at do not
start, within the length left, with a NUL-terminated string `path:name:offset`
that has no `:` in the path and the name, a name that is not empty and an
offset that `strtoul` reads to its end (white space, an optional sign, at
least one decimal digit); a string of that form, the offsets ` 4`, `+4` and
`-4` included, passes the syntax checks and is handed to
`overlay_fixup_one_phandle`.  So the pass `overlay_fixup_phandles` returns
`BADOVERLAY` when the first property of `/__fixups__` does not start with
such a string. -/
theorem overlay_fixup_strings_checks (fdt : Fdt) (symbols_off : Except FdtErr Offset)
    (fixups_off : Offset) (property : Nat) (label : Bytes) (rounds : Nat) (fdto : Fdt)
    (pos len : Nat) :
    ((¬ ∃ s rest, (peek_prop_by_offset fdto fixups_off property).drop pos = s ++ 0 :: rest ∧
        s.length < len ∧ fixup_string_wf s) →
      overlay_fixup_strings fdt symbols_off fixups_off property label (rounds + 1) fdto pos len
        = .error (.BADOVERLAY, fdto)) ∧
    (∀ P N D rest,
      (peek_prop_by_offset fdto fixups_off property).drop pos
        = (P ++ 58 :: (N ++ 58 :: D)) ++ 0 :: rest →
      (P ++ 58 :: (N ++ 58 :: D)).length < len →
      (∀ b ∈ P ++ 58 :: (N ++ 58 :: D), b ≠ 0) →
      (∀ b ∈ P, b ≠ 58) → (∀ b ∈ N, b ≠ 58) → N ≠ [] → fixup_offset_wf D →
      overlay_fixup_strings fdt symbols_off fixups_off property label (rounds + 1) fdto pos len
        = match overlay_fixup_one_phandle fdt fdto symbols_off P N ((strtoul D).1 % 2 ^ 32)
            label with
          | .error e => .error (e, fdto)
          | .ok fdto1 =>
            if len - ((P ++ 58 :: (N ++ 58 :: D)).length + 1) > 0 then
              overlay_fixup_strings fdt symbols_off fixups_off property label rounds fdto1
                (pos + (P ++ 58 :: (N ++ 58 :: D)).length + 1)
                (len - ((P ++ 58 :: (N ++ 58 :: D)).length + 1))
            else .ok fdto1) ∧
    (∀ fo p, fdt_path_offset fdto (str "/__fixups__") = .ok fo →
      (∀ e1, fdt_path_offset fdt (str "/__symbols__") = .error e1 → e1 = .NOTFOUND) →
      fdt_getprop_by_offset fdto fo 0 = .ok p →
      (¬ ∃ s rest, p.val = s ++ 0 :: rest ∧ fixup_string_wf s) →
      overlay_fixup_phandles fdt fdto 0 = .error (.BADOVERLAY, fdto)) := by
  refine ⟨overlay_fixup_strings_syntax_error fdt symbols_off fixups_off property label rounds
      fdto pos len,
    fun P N D rest hv hl h0 hP hN hNe hD =>
      overlay_fixup_strings_round fdt symbols_off fixups_off property label rounds fdto pos len
        P N D rest hv hl h0 hP hN hNe hD, ?_⟩
  intro fo p hfix hso hprop hbad
  apply overlay_fixup_phandles_first_error fdt fdto fdto fo p .BADOVERLAY hfix hso hprop
  unfold overlay_fixup_phandle
  simp only [hprop]
  apply overlay_fixup_strings_syntax_error
  rintro ⟨s, rest, hs, _, hsyn⟩
  apply hbad
  refine ⟨s, rest, ?_, hsyn⟩
  rw [peek_prop_by_offset_of _ _ _ _ hprop] at hs
  simpa using hs

/-- C16, witness: the rounds on the fixup strings of `overlay_fixup_reg_letter`
(`reg:4x`) and of `overlay_fixup_reg_blank` (`reg: 4`); the first overlay is
refused with `BADOVERLAY`. -/
theorem overlay_fixup_strings_checks_witness :
    (((¬ ∃ s rest, (peek_prop_by_offset overlay_fixup_reg_letter [1] 0).drop 0 = s ++ 0 :: rest ∧
        s.length < 37 ∧ fixup_string_wf s) →
      overlay_fixup_strings base_soc (.ok [1]) [1] 0 (str "L") (37 + 1)
        overlay_fixup_reg_letter 0 37 = .error (.BADOVERLAY, overlay_fixup_reg_letter)) ∧
    (∀ P N D rest,
      (peek_prop_by_offset overlay_fixup_reg_letter [1] 0).drop 0
        = (P ++ 58 :: (N ++ 58 :: D)) ++ 0 :: rest →
      (P ++ 58 :: (N ++ 58 :: D)).length < 37 →
      (∀ b ∈ P ++ 58 :: (N ++ 58 :: D), b ≠ 0) →
      (∀ b ∈ P, b ≠ 58) → (∀ b ∈ N, b ≠ 58) → N ≠ [] → fixup_offset_wf D →
      overlay_fixup_strings base_soc (.ok [1]) [1] 0 (str "L") (37 + 1)
          overlay_fixup_reg_letter 0 37
        = match overlay_fixup_one_phandle base_soc overlay_fixup_reg_letter (.ok [1]) P N
            ((strtoul D).1 % 2 ^ 32) (str "L") with
          | .error e => .error (e, overlay_fixup_reg_letter)
          | .ok fdto1 =>
            if 37 - ((P ++ 58 :: (N ++ 58 :: D)).length + 1) > 0 then
              overlay_fixup_strings base_soc (.ok [1]) [1] 0 (str "L") 37 fdto1
                (0 + (P ++ 58 :: (N ++ 58 :: D)).length + 1)
                (37 - ((P ++ 58 :: (N ++ 58 :: D)).length + 1))
            else .ok fdto1) ∧
    (∀ fo p, fdt_path_offset overlay_fixup_reg_letter (str "/__fixups__") = .ok fo →
      (∀ e1, fdt_path_offset base_soc (str "/__symbols__") = .error e1 → e1 = .NOTFOUND) →
      fdt_getprop_by_offset overlay_fixup_reg_letter fo 0 = .ok p →
      (¬ ∃ s rest, p.val = s ++ 0 :: rest ∧ fixup_string_wf s) →
      overlay_fixup_phandles base_soc overlay_fixup_reg_letter 0
        = .error (.BADOVERLAY, overlay_fixup_reg_letter))) ∧
    overlay_fixup_phandles base_soc overlay_fixup_reg_letter 0
      = .error (.BADOVERLAY, overlay_fixup_reg_letter) ∧
    (fdt_overlay_apply 1 base_soc overlay_fixup_reg_letter).map (fun r => r.ret)
      = some (some .BADOVERLAY) :=
  ⟨overlay_fixup_strings_checks base_soc (.ok [1]) [1] 0 (str "L") 37 overlay_fixup_reg_letter
      0 37,
    rfl, by decide⟩

/-- C16, counterexample: the fixup string of `overlay_fixup_reg_blank` has the
offset ` 4`, a blank before the digit.  The pass accepts it as the offset 4:
`fdt_overlay_apply` on `base_soc` succeeds and bytes `[4, 8)` of `reg` of the
merged `child` hold the phandle 7. -/
theorem overlay_fixup_strings_checks_counter :
    fdt_getprop overlay_fixup_reg_blank [1] (str "L")
      = .ok (zstr "/fragment@0/__overlay__/child:reg: 4") ∧
    (fdt_overlay_apply 1 base_soc overlay_fixup_reg_blank).map
        (fun r => (r.ret, (fdt_get_name r.fdt [0]).toOption, peek_prop r.fdt [0] (str "reg")))
      = some (none, some (str "child"), [1, 1, 1, 1, 0, 0, 0, 7]) :=
  ⟨rfl, by decide⟩

/-- C17 (as amended): when the label of a fixup string `path:name:offset`
resolves in the base to a node with a phandle, `overlay_fixup_one_phandle`
returns `BADOVERLAY` if the overlay has no node at `path` and `NOTFOUND`, not
`BADOVERLAY`, if the node at `path` has no property `name`; and when the
string is the first one of the first property of `/__fixups__`, that error is
what `fdt_overlay_apply` returns, with both blobs invalidated. -/
theorem overlay_fixup_one_phandle_missing (fdt fdto : Fdt) (symbols_off symbol_off : Offset)
    (path name label symbol_path : Bytes) (poffset : Nat)
    (hso : fdt_path_offset fdt (str "/__symbols__") = .ok symbols_off)
    (hsym : fdt_getprop fdt symbols_off label = .ok symbol_path)
    (hnode : fdt_path_offset fdt symbol_path = .ok symbol_off)
    (hph : fdt_get_phandle fdt symbol_off ≠ 0) :
    (fdt_path_offset_namelen fdto path = .error .NOTFOUND →
      overlay_fixup_one_phandle fdt fdto (fdt_path_offset fdt (str "/__symbols__")) path name
        poffset label = .error .BADOVERLAY) ∧
    (∀ off, fdt_path_offset_namelen fdto path = .ok off →
      fdt_getprop fdto off name = .error .NOTFOUND →
      overlay_fixup_one_phandle fdt fdto (fdt_path_offset fdt (str "/__symbols__")) path name
        poffset label = .error .NOTFOUND) ∧
    (∀ rounds fdto0 fdto1 fixups_off p D rest,
      fdt_ro_probe fdt = .ok () → fdt_ro_probe fdto0 = .ok () →
      overlay_adjust_local_phandles fdto0 (fdt.root.max_phandle 0) = .ok fdto1 →
      overlay_update_local_references fdto1 (fdt.root.max_phandle 0) = .ok fdto →
      fdt_path_offset fdto (str "/__fixups__") = .ok fixups_off →
      fdt_getprop_by_offset fdto fixups_off 0 = .ok p → p.name = label →
      p.val = (path ++ 58 :: (name ++ 58 :: D)) ++ 0 :: rest →
      (∀ b ∈ path ++ 58 :: (name ++ 58 :: D), b ≠ 0) →
      (∀ b ∈ path, b ≠ 58) → (∀ b ∈ name, b ≠ 58) → name ≠ [] → fixup_offset_wf D →
      (fdt_path_offset_namelen fdto path = .error .NOTFOUND →
        fdt_overlay_apply rounds fdt fdto0 = some (apply_err .BADOVERLAY fdt fdto)) ∧
      (∀ off, fdt_path_offset_namelen fdto path = .ok off →
        fdt_getprop fdto off name = .error .NOTFOUND →
        fdt_overlay_apply rounds fdt fdto0 = some (apply_err .NOTFOUND fdt fdto))) := by
  have hA : ∀ po, fdt_path_offset_namelen fdto path = .error .NOTFOUND →
      overlay_fixup_one_phandle fdt fdto (fdt_path_offset fdt (str "/__symbols__")) path name
        po label = .error .BADOVERLAY := by
    intro po h
    simp [overlay_fixup_one_phandle, hso, hsym, hnode, hph, h]
  have hB : ∀ po off, fdt_path_offset_namelen fdto path = .ok off →
      fdt_getprop fdto off name = .error .NOTFOUND →
      overlay_fixup_one_phandle fdt fdto (fdt_path_offset fdt (str "/__symbols__")) path name
        po label = .error .NOTFOUND := by
    intro po off h hg
    simp [overlay_fixup_one_phandle, hso, hsym, hnode, hph, h,
      fdt_setprop_inplace_namelen_partial, hg]
  refine ⟨hA poffset, hB poffset, ?_⟩
  intro rounds fdto0 fdto1 fixups_off p D rest hp hq h1 h2 hfix hprop hname hval h0 hP hN hNe hD
  have hso1 : ∀ e1, fdt_path_offset fdt (str "/__symbols__") = .error e1 → e1 = .NOTFOUND := by
    intro e1 h
    rw [hso] at h
    cases h
  refine ⟨fun h => ?_, fun off h hg => ?_⟩
  · exact fdt_overlay_apply_first_fixup rounds fdt fdto0 fdto1 fdto fixups_off p path name D rest
      .BADOVERLAY hp hq h1 h2 hfix hso1 hprop hval h0 hP hN hNe hD (hname ▸ hA _ h)
  · exact fdt_overlay_apply_first_fixup rounds fdt fdto0 fdto1 fdto fixups_off p path name D rest
      .NOTFOUND hp hq h1 h2 hfix hso1 hprop hval h0 hP hN hNe hD (hname ▸ hB _ off h hg)

/-- C17, witness: the label `L` of `base_soc` resolves to `/soc/node`, which
has the phandle 7; the overlay `overlay_fixup_no_node` names a node `ghost`
that it does not have and is refused with `BADOVERLAY`. -/
theorem overlay_fixup_one_phandle_missing_witness :
    fdt_path_offset base_soc (str "/__symbols__") = .ok [1] ∧
    fdt_getprop base_soc [1] (str "L") = .ok (zstr "/soc/node") ∧
    fdt_path_offset base_soc (zstr "/soc/node") = .ok [0, 0] ∧
    fdt_get_phandle base_soc [0, 0] ≠ 0 ∧
    fdt_path_offset_namelen overlay_fixup_no_node (str "/fragment@0/__overlay__/ghost")
      = .error .NOTFOUND ∧
    overlay_fixup_one_phandle base_soc overlay_fixup_no_node
      (fdt_path_offset base_soc (str "/__symbols__")) (str "/fragment@0/__overlay__/ghost")
      (str "reg") 0 (str "L") = .error .BADOVERLAY ∧
    (fdt_overlay_apply 1 base_soc overlay_fixup_no_node).map (fun r => r.ret)
      = some (some .BADOVERLAY) :=
  ⟨rfl, rfl, rfl, by decide, rfl,
    (overlay_fixup_one_phandle_missing base_soc overlay_fixup_no_node [1] [0, 0]
      (str "/fragment@0/__overlay__/ghost") (str "reg") (str "L") (zstr "/soc/node") 0
      rfl rfl rfl (by decide)).1 rfl,
    by decide⟩

/-- C17, counterexample: the fixup string of `overlay_fixup_no_prop` is
`/fragment@0/__overlay__/child:nope:0`; its label `L` resolves in `base_soc`,
the overlay has the node `child` and that node has no property `nope`.
`fdt_overlay_apply` fails with `NOTFOUND`, not with `BADOVERLAY`. -/
theorem overlay_fixup_one_phandle_missing_counter :
    fdt_getprop overlay_fixup_no_prop [1] (str "L")
      = .ok (zstr "/fragment@0/__overlay__/child:nope:0") ∧
    fdt_getprop base_soc [1] (str "L") = .ok (zstr "/soc/node") ∧
    fdt_get_phandle base_soc [0, 0] = 7 ∧
    fdt_path_offset_namelen overlay_fixup_no_prop (str "/fragment@0/__overlay__/child")
      = .ok [0, 0, 0] ∧
    fdt_getprop overlay_fixup_no_prop [0, 0, 0] (str "nope") = .error .NOTFOUND ∧
    (fdt_overlay_apply 1 base_soc overlay_fixup_no_prop).map (fun r => r.ret)
      = some (some .NOTFOUND) :=
  ⟨rfl, rfl, by decide, rfl, rfl, by decide⟩

/-- C18 (as amended): when the base has no `/__symbols__` node, or its
`/__symbols__` has no property `label`, or the node that `label` designates
has no phandle, `overlay_fixup_one_phandle` returns `NOTFOUND`; and when the
fixup string is the first one of the first property of `/__fixups__`, after
the two passes on the phandles of the overlay have succeeded,
`fdt_overlay_apply` returns `NOTFOUND` with both blobs invalidated and the
tree of the base as it was. -/
theorem overlay_fixup_one_phandle_unresolved (fdt fdto : Fdt) (path name label : Bytes)
    (poffset : Nat)
    (hcase : fdt_path_offset fdt (str "/__symbols__") = .error .NOTFOUND ∨
      (∃ so, fdt_path_offset fdt (str "/__symbols__") = .ok so ∧
        fdt_getprop fdt so label = .error .NOTFOUND) ∨
      (∃ so sp off, fdt_path_offset fdt (str "/__symbols__") = .ok so ∧
        fdt_getprop fdt so label = .ok sp ∧ fdt_path_offset fdt sp = .ok off ∧
        fdt_get_phandle fdt off = 0)) :
    overlay_fixup_one_phandle fdt fdto (fdt_path_offset fdt (str "/__symbols__")) path name
      poffset label = .error .NOTFOUND ∧
    (∀ rounds fdto0 fdto1 fixups_off p D rest,
      fdt_ro_probe fdt = .ok () → fdt_ro_probe fdto0 = .ok () →
      overlay_adjust_local_phandles fdto0 (fdt.root.max_phandle 0) = .ok fdto1 →
      overlay_update_local_references fdto1 (fdt.root.max_phandle 0) = .ok fdto →
      fdt_path_offset fdto (str "/__fixups__") = .ok fixups_off →
      fdt_getprop_by_offset fdto fixups_off 0 = .ok p → p.name = label →
      p.val = (path ++ 58 :: (name ++ 58 :: D)) ++ 0 :: rest →
      (∀ b ∈ path ++ 58 :: (name ++ 58 :: D), b ≠ 0) →
      (∀ b ∈ path, b ≠ 58) → (∀ b ∈ name, b ≠ 58) → name ≠ [] → fixup_offset_wf D →
      fdt_overlay_apply rounds fdt fdto0 = some (apply_err .NOTFOUND fdt fdto) ∧
      (apply_err .NOTFOUND fdt fdto).fdt.root = fdt.root) := by
  have hA : ∀ po, overlay_fixup_one_phandle fdt fdto (fdt_path_offset fdt (str "/__symbols__"))
      path name po label = .error .NOTFOUND := by
    intro po
    rcases hcase with h | ⟨so, h, hg⟩ | ⟨so, sp, off, h, hg, hn, hph⟩
    · simp [overlay_fixup_one_phandle, h]
    · simp [overlay_fixup_one_phandle, h, hg]
    · simp [overlay_fixup_one_phandle, h, hg, hn, hph]
  refine ⟨hA poffset, ?_⟩
  intro rounds fdto0 fdto1 fixups_off p D rest hp hq h1 h2 hfix hprop hname hval h0 hP hN hNe hD
  have hso1 : ∀ e1, fdt_path_offset fdt (str "/__symbols__") = .error e1 → e1 = .NOTFOUND := by
    intro e1 h
    rcases hcase with h' | ⟨so, h', _⟩ | ⟨so, _, _, h', _⟩
    · rw [h'] at h
      cases h
      rfl
    · rw [h'] at h
      cases h
    · rw [h'] at h
      cases h
  exact ⟨fdt_overlay_apply_first_fixup rounds fdt fdto0 fdto1 fdto fixups_off p path name D rest
      .NOTFOUND hp hq h1 h2 hfix hso1 hprop hval h0 hP hN hNe hD (hname ▸ hA _), rfl⟩

/-- C18, witness: the label `L` of `base_no_phandle` designates `/soc/node`,
which has no phandle; the fixup of `overlay_fixup_reg` is refused with
`NOTFOUND` and the tree of the base is as it was. -/
theorem overlay_fixup_one_phandle_unresolved_witness :
    (fdt_path_offset base_no_phandle (str "/__symbols__") = .error .NOTFOUND ∨
      (∃ so, fdt_path_offset base_no_phandle (str "/__symbols__") = .ok so ∧
        fdt_getprop base_no_phandle so (str "L") = .error .NOTFOUND) ∨
      (∃ so sp off, fdt_path_offset base_no_phandle (str "/__symbols__") = .ok so ∧
        fdt_getprop base_no_phandle so (str "L") = .ok sp ∧
        fdt_path_offset base_no_phandle sp = .ok off ∧
        fdt_get_phandle base_no_phandle off = 0)) ∧
    overlay_fixup_one_phandle base_no_phandle overlay_fixup_reg
      (fdt_path_offset base_no_phandle (str "/__symbols__"))
      (str "/fragment@0/__overlay__/child") (str "reg") 4 (str "L") = .error .NOTFOUND ∧
    fdt_overlay_apply 1 base_no_phandle overlay_fixup_reg
      = some (apply_err .NOTFOUND base_no_phandle overlay_fixup_reg) :=
  ⟨Or.inr (Or.inr ⟨[1], zstr "/soc/node", [0, 0], rfl, rfl, rfl, by decide⟩),
    (overlay_fixup_one_phandle_unresolved base_no_phandle overlay_fixup_reg
      (str "/fragment@0/__overlay__/child") (str "reg") (str "L") 4
      (Or.inr (Or.inr ⟨[1], zstr "/soc/node", [0, 0], rfl, rfl, rfl, by decide⟩))).1,
    rfl⟩

/-- C18, counterexample: `/__fixups__` of `overlay_fixup_bad_then_reg` names
the label `L` with the well-formed string `/fragment@0/__overlay__/child:reg:4`
and `L` designates, in `base_no_phandle`, a node without a phandle; but the
property `K`, which comes first, holds a string without `:`, and
`fdt_overlay_apply` fails with `BADOVERLAY`, not with `NOTFOUND`. -/
theorem overlay_fixup_one_phandle_unresolved_counter :
    fdt_getprop overlay_fixup_bad_then_reg [1] (str "L")
      = .ok (zstr "/fragment@0/__overlay__/child:reg:4") ∧
    fdt_getprop base_no_phandle [1] (str "L") = .ok (zstr "/soc/node") ∧
    fdt_path_offset base_no_phandle (zstr "/soc/node") = .ok [0, 0] ∧
    fdt_get_phandle base_no_phandle [0, 0] = 0 ∧
    (fdt_overlay_apply 1 base_no_phandle overlay_fixup_bad_then_reg).map (fun r => r.ret)
      = some (some .BADOVERLAY) :=
  ⟨rfl, rfl, rfl, by decide, by decide⟩

/-! ### The shape of `/__local_fixups__` -/

theorem fdt_getprop_by_offset_layout (a b : Fdt) (h : a.root.layout = b.root.layout)
    (q : Offset) (i : Nat) :
    (∀ e, fdt_getprop_by_offset a q i = .error e → fdt_getprop_by_offset b q i = .error e) ∧
    (∀ p, fdt_getprop_by_offset a q i = .ok p →
      ∃ p1, fdt_getprop_by_offset b q i = .ok p1 ∧ p1.name = p.name ∧
        p1.val.length = p.val.length) := by
  have ha := node_at_layout q a.root
  have hb := node_at_layout q b.root
  rw [h] at ha
  rw [ha] at hb
  unfold fdt_getprop_by_offset
  cases h1 : a.root.node_at q with
  | none =>
    cases h2 : b.root.node_at q with
    | none => simp
    | some m => simp [h1, h2] at hb
  | some n =>
    cases h2 : b.root.node_at q with
    | none => simp [h1, h2] at hb
    | some m =>
      simp only [h1, h2, Option.map_some', Option.some.injEq] at hb
      have hp := congrArg Node.props hb
      simp only [layout_props] at hp
      have hf := congrArg (fun l => l[i]?) hp
      simp only [List.getElem?_map] at hf
      cases h3 : n.props[i]? with
      | none =>
        cases h4 : m.props[i]? with
        | none => simp [h3, h4]
        | some w => simp [h3, h4] at hf
      | some v =>
        cases h4 : m.props[i]? with
        | none => simp [h3, h4] at hf
        | some w =>
          simp only [h3, h4, Option.map_some', Option.some.injEq, Property.blank,
            Property.mk.injEq] at hf
          have hl := congrArg List.length hf.2
          simp only [List.length_replicate] at hl
          simp [h3, h4, hf.1, hl]

/-- The loop over the cells of a fixup property fails with `BADOVERLAY` only,
when the real node has the property. -/
theorem overlay_update_local_cells_error (tree_node fixup_node : Offset) (fixup_prop : Nat)
    (name : Bytes) (delta : Nat) :
    ∀ (n i : Nat) (fdto : Fdt) (e : FdtErr) (f : Fdt),
      (∃ v, fdt_getprop fdto tree_node name = .ok v) →
      overlay_update_local_cells tree_node fixup_node fixup_prop name delta n i fdto
        = .error (e, f) → e = .BADOVERLAY
  | 0, i, fdto, e, f, _, h => by
    simp [overlay_update_local_cells] at h
  | n + 1, i, fdto, e, f, ⟨v, hv⟩, h => by
    simp only [overlay_update_local_cells] at h
    split at h
    · rename_i e1 he1
      have hne : e1 = .NOSPACE := by
        unfold fdt_setprop_inplace_namelen_partial at he1
        simp only [hv] at he1
        split at he1
        · cases he1; rfl
        · cases he1
      simp only [hne, if_true, Except.error.injEq, Prod.mk.injEq] at h
      exact h.1.symm
    · rename_i fa ha
      have hl := (fdt_setprop_inplace_namelen_partial_layout _ _ _ _ _ _ ha).1
      obtain ⟨w, hw, _⟩ := (fdt_getprop_layout fdto fa hl.symm tree_node name).2 v hv
      exact overlay_update_local_cells_error tree_node fixup_node fixup_prop name delta n (i + 1)
        fa e f ⟨w, hw⟩ h

theorem drop_eq_cons_of_getElem? {α : Type} (l : List α) (i : Nat) (x : α)
    (h : l[i]? = some x) : l.drop i = x :: l.drop (i + 1) := by
  have hlt : i < l.length := by
    rcases Nat.lt_or_ge i l.length with hl | hl
    · exact hl
    · rw [List.getElem?_eq_none hl] at h; cases h
  have hx : l[i] = x := by
    have := List.getElem?_eq_getElem hlt
    rw [h] at this
    exact (Option.some.inj this).symm
  rw [← hx]
  exact List.drop_eq_getElem_cons hlt

/-- The loop over the properties of a fixup node: it succeeds only if every
property left is as `local_fixup_prop_ok` has it, and it fails with
`BADOVERLAY` only.  The blob `ref` is the overlay before the pass. -/
theorem overlay_update_local_props_fit (ref : Fdt) (tree_node fixup_node : Offset)
    (delta : Nat) (T Fc : Node) (hT : ref.root.node_at tree_node = some T)
    (hF : ref.root.node_at fixup_node = some Fc) :
    ∀ (n fixup_prop : Nat) (fdto : Fdt), fdto.root.layout = ref.root.layout →
      n + fixup_prop = Fc.props.length →
      (∀ f, overlay_update_local_props tree_node fixup_node delta n fixup_prop fdto = .ok f →
        (Fc.props.drop fixup_prop).all (local_fixup_prop_ok T) = true) ∧
      (∀ e f, overlay_update_local_props tree_node fixup_node delta n fixup_prop fdto
        = .error (e, f) → e = .BADOVERLAY)
  | 0, fixup_prop, fdto, _, hlen => by
    simp only [Nat.zero_add] at hlen
    simp [overlay_update_local_props, hlen]
  | n + 1, fixup_prop, fdto, hl, hlen => by
    have hlt : fixup_prop < Fc.props.length := by omega
    have hp0 : Fc.props[fixup_prop]? = some Fc.props[fixup_prop] := List.getElem?_eq_getElem hlt
    have href : fdt_getprop_by_offset ref fixup_node fixup_prop = .ok Fc.props[fixup_prop] := by
      simp [fdt_getprop_by_offset, hF, hp0]
    obtain ⟨p, hp, hpn, hpl⟩ :=
      (fdt_getprop_by_offset_layout ref fdto hl.symm fixup_node fixup_prop).2 _ href
    have hdrop := drop_eq_cons_of_getElem? Fc.props fixup_prop _ hp0
    have hrefget := fdt_getprop_eq ref tree_node p.name T hT
    simp only [overlay_update_local_props, hp]
    by_cases h4 : p.val.length % 4 = 0
    · simp only [h4, ne_eq, not_true_eq_false, if_false]
      cases hg : fdt_getprop fdto tree_node p.name with
      | error e1 =>
        have hr := (fdt_getprop_layout fdto ref hl tree_node p.name).1 e1 hg
        rw [hrefget] at hr
        have he1 : e1 = .NOTFOUND := by
          cases hq : prop_find T.props p.name with
          | none => simp only [hq] at hr; cases hr; rfl
          | some w => simp [hq] at hr
        simp [he1]
      | ok v =>
        simp only []
        obtain ⟨w, hw, _⟩ := (fdt_getprop_layout fdto ref hl tree_node p.name).2 v hg
        rw [hrefget] at hw
        have hsome : (prop_find T.props p.name).isSome = true := by
          cases hq : prop_find T.props p.name with
          | none => simp [hq] at hw
          | some w => rfl
        cases hc : overlay_update_local_cells tree_node fixup_node fixup_prop p.name delta
            (p.val.length / 4) 0 fdto with
        | error ef =>
          obtain ⟨e2, f2⟩ := ef
          have := overlay_update_local_cells_error tree_node fixup_node fixup_prop p.name delta
            _ _ fdto e2 f2 ⟨v, hg⟩ hc
          simp [this]
        | ok fa =>
          simp only []
          have hla : fa.root.layout = ref.root.layout := by
            rw [overlay_update_local_cells_layout _ _ _ _ _ _ _ _ _ hc, hl]
          obtain ⟨ih1, ih2⟩ := overlay_update_local_props_fit ref tree_node fixup_node delta T Fc
            hT hF n (fixup_prop + 1) fa hla (by omega)
          refine ⟨fun f hf => ?_, ih2⟩
          rw [hdrop, List.all_cons, ih1 f hf, Bool.and_true]
          simp only [local_fixup_prop_ok, ← hpn, ← hpl, h4, hsome, decide_True, Bool.and_self]
    · simp [h4]

mutual
/-- The function `overlay_update_local_node_references` succeeds only if the
fixup node matches the real node, and it fails with `BADOVERLAY` only.  The
blob `ref` is the overlay before the pass. -/
theorem overlay_update_local_node_references_fit (ref : Fdt) : ∀ (shape : Node) (fdto : Fdt)
    (tree_node fixup_node : Offset) (delta : Nat) (T : Node),
    fdto.root.layout = ref.root.layout → ref.root.node_at tree_node = some T →
    ref.root.node_at fixup_node = some shape →
    (∀ f, overlay_update_local_node_references fdto tree_node fixup_node delta shape = .ok f →
      shape.local_fixups_match T = true) ∧
    (∀ e f, overlay_update_local_node_references fdto tree_node fixup_node delta shape
      = .error (e, f) → e = .BADOVERLAY)
  | .mk nm props subs, fdto, tree_node, fixup_node, delta, T, hl, hT, hF => by
    obtain ⟨hp1, hp2⟩ := overlay_update_local_props_fit ref tree_node fixup_node delta T _ hT hF
      props.length 0 fdto hl rfl
    simp only [overlay_update_local_node_references, Node.local_fixups_match]
    cases hp : overlay_update_local_props tree_node fixup_node delta props.length 0 fdto with
    | error ef =>
      obtain ⟨e2, f2⟩ := ef
      have := hp2 e2 f2 hp
      simp [this]
    | ok fa =>
      simp only []
      have hla : fa.root.layout = ref.root.layout := by
        rw [overlay_update_local_props_layout _ _ _ _ _ _ _ hp, hl]
      obtain ⟨hs1, hs2⟩ := overlay_update_local_subnodes_fit ref subs fa tree_node fixup_node delta
        0 T _ hla hT hF rfl
      have hall := hp1 fa hp
      simp only [Node.props_mk, List.drop_zero] at hall
      refine ⟨fun f hf => ?_, hs2⟩
      rw [hall, hs1 f hf]
      rfl
/-- The loop over the subnodes of a fixup node, likewise. -/
theorem overlay_update_local_subnodes_fit (ref : Fdt) : ∀ (subs : List Node) (fdto : Fdt)
    (tree_node fixup_node : Offset) (delta fixup_child : Nat) (T Fc : Node),
    fdto.root.layout = ref.root.layout → ref.root.node_at tree_node = some T →
    ref.root.node_at fixup_node = some Fc → Fc.subnodes.drop fixup_child = subs →
    (∀ f, overlay_update_local_subnodes fdto tree_node fixup_node delta fixup_child subs = .ok f →
      Node.local_fixups_match_list subs T = true) ∧
    (∀ e f, overlay_update_local_subnodes fdto tree_node fixup_node delta fixup_child subs
      = .error (e, f) → e = .BADOVERLAY)
  | [], fdto, tree_node, fixup_node, delta, fixup_child, T, Fc, _, _, _, _ => by
    simp [overlay_update_local_subnodes, Node.local_fixups_match_list]
  | c :: cs, fdto, tree_node, fixup_node, delta, fixup_child, T, Fc, hl, hT, hF, hd => by
    have hlt : fixup_child < Fc.subnodes.length := by
      rcases Nat.lt_or_ge fixup_child Fc.subnodes.length with h | h
      · exact h
      · rw [List.drop_eq_nil_of_le h] at hd; cases hd
    have hd2 := List.drop_eq_getElem_cons hlt
    rw [hd] at hd2
    simp only [List.cons.injEq] at hd2
    have hc : Fc.subnodes[fixup_child]? = some c := by
      rw [List.getElem?_eq_getElem hlt, hd2.1]
    have hFc : ref.root.node_at (fixup_node ++ [fixup_child]) = some c := by
      rw [node_at_append, hF]
      simp [Node.node_at, hc]
    simp only [overlay_update_local_subnodes, Node.local_fixups_match_list]
    rw [fdt_subnode_offset_layout ref fdto hl.symm tree_node c.name,
      fdt_subnode_offset_eq ref tree_node c.name T hT]
    cases hi : subnode_index T.subnodes c.name with
    | none => simp
    | some i =>
      simp only []
      obtain ⟨t, ht, _⟩ := subnode_index_some T.subnodes c.name i hi
      have hTc : ref.root.node_at (tree_node ++ [i]) = some t := by
        rw [node_at_append, hT]
        simp [Node.node_at, ht]
      obtain ⟨hn1, hn2⟩ := overlay_update_local_node_references_fit ref c fdto (tree_node ++ [i])
        (fixup_node ++ [fixup_child]) delta t hl hTc hFc
      cases hr : overlay_update_local_node_references fdto (tree_node ++ [i])
          (fixup_node ++ [fixup_child]) delta c with
      | error ef =>
        obtain ⟨e2, f2⟩ := ef
        have := hn2 e2 f2 hr
        simp [this]
      | ok fa =>
        simp only []
        have hla : fa.root.layout = ref.root.layout := by
          rw [overlay_update_local_node_references_layout _ _ _ _ _ _ hr, hl]
        obtain ⟨hs1, hs2⟩ := overlay_update_local_subnodes_fit ref cs fa tree_node fixup_node delta
          (fixup_child + 1) T Fc hla hT hF hd2.2.symm
        refine ⟨fun f hf => ?_, hs2⟩
        simp [ht, hn1 fa hr, hs1 f hf]
end

/-- C12: `overlay_update_local_references` returns success and the overlay as
it was when there is no `/__local_fixups__`; and it fails with `BADOVERLAY`
whenever the tree under `/__local_fixups__` does not match the real tree of
the overlay, that is when it has a subnode with no node of the same name at
the corresponding place of the real tree, a property with no property of the
same name on the corresponding real node, or a property whose length is not
a multiple of 4. -/
theorem overlay_update_local_references_shape (fdto : Fdt) (delta : Nat) :
    (fdt_path_offset fdto (str "/__local_fixups__") = .error .NOTFOUND →
      overlay_update_local_references fdto delta = .ok fdto) ∧
    (∀ fixups F, fdt_path_offset fdto (str "/__local_fixups__") = .ok fixups →
      fdto.root.node_at fixups = some F → F.local_fixups_match fdto.root = false →
      ∃ f, overlay_update_local_references fdto delta = .error (.BADOVERLAY, f)) := by
  refine ⟨fun h => by simp [overlay_update_local_references, h], ?_⟩
  intro fixups F hfix hF hbad
  obtain ⟨h1, h2⟩ := overlay_update_local_node_references_fit fdto F fdto [] fixups delta
    fdto.root rfl rfl hF
  simp only [overlay_update_local_references, hfix, hF]
  cases hr : overlay_update_local_node_references fdto [] fixups delta F with
  | error ef =>
    obtain ⟨e2, f2⟩ := ef
    exact ⟨f2, by rw [h2 e2 f2 hr]⟩
  | ok f =>
    rw [h1 f hr] at hbad
    cases hbad

/-- C12, witness: the three defects on `overlay_local_no_node`,
`overlay_local_no_prop` and `overlay_local_odd_length`, each refused with
`BADOVERLAY`, and an overlay without `/__local_fixups__`, left as it was. -/
theorem overlay_update_local_references_shape_witness :
    ((fdt_path_offset overlay_new_node (str "/__local_fixups__") = .error .NOTFOUND →
      overlay_update_local_references overlay_new_node 5 = .ok overlay_new_node) ∧
    (∀ fixups F, fdt_path_offset overlay_new_node (str "/__local_fixups__") = .ok fixups →
      overlay_new_node.root.node_at fixups = some F →
      F.local_fixups_match overlay_new_node.root = false →
      ∃ f, overlay_update_local_references overlay_new_node 5 = .error (.BADOVERLAY, f))) ∧
    fdt_path_offset overlay_new_node (str "/__local_fixups__") = .error .NOTFOUND ∧
    (∃ f, overlay_update_local_references overlay_local_no_node 5 = .error (.BADOVERLAY, f)) ∧
    (∃ f, overlay_update_local_references overlay_local_no_prop 5 = .error (.BADOVERLAY, f)) ∧
    overlay_update_local_references overlay_local_odd_length 5
      = .error (.BADOVERLAY, overlay_local_odd_length) :=
  ⟨overlay_update_local_references_shape overlay_new_node 5, rfl, ⟨_, rfl⟩, ⟨_, rfl⟩, rfl⟩

/-! ### Listed cells of `/__local_fixups__` -/

theorem prop_index_some : ∀ (ps : List Property) (name : Bytes) (k : Nat),
    prop_index ps name = some k → ∃ p, ps[k]? = some p ∧ p.name = name
  | [], _, _, h => by simp [prop_index] at h
  | p :: ps, name, k, h => by
    simp only [prop_index] at h
    by_cases hp : p.name = name
    · simp only [hp, if_true, Option.some.injEq] at h
      subst h
      exact ⟨p, by simp, hp⟩
    · simp only [hp, if_false, Option.map_eq_some'] at h
      obtain ⟨k1, hk1, rfl⟩ := h
      obtain ⟨p1, hp1, hn⟩ := prop_index_some ps name k1 hk1
      exact ⟨p1, by simpa using hp1, hn⟩

theorem prop_find_eq_index : ∀ (ps : List Property) (name : Bytes),
    prop_find ps name = (prop_index ps name).bind (fun k => ps[k]?.map Property.val)
  | [], _ => by simp [prop_find, prop_index]
  | p :: ps, name => by
    simp only [prop_find, prop_index]
    by_cases hp : p.name = name
    · simp [hp]
    · simp only [hp, if_false, prop_find_eq_index ps name]
      cases prop_index ps name <;> simp

theorem prop_index_blank : ∀ (ps : List Property) (name : Bytes),
    prop_index (ps.map Property.blank) name = prop_index ps name
  | [], _ => by simp [prop_index]
  | p :: ps, name => by
    simp [prop_index, Property.blank, prop_index_blank ps name]

theorem prop_set_getElem? : ∀ (ps : List Property) (name v : Bytes) (k : Nat),
    (prop_set ps name v)[k]?
      = if prop_index ps name = some k then ps[k]?.map (fun p => { p with val := v })
        else ps[k]?
  | [], _, _, _ => by simp [prop_set]
  | p :: ps, name, v, k => by
    simp only [prop_set, prop_index]
    by_cases hp : p.name = name
    · subst hp
      simp only [if_true, Option.some.injEq]
      cases k with
      | zero => simp
      | succ k => simp
    · simp only [hp, if_false]
      cases k with
      | zero =>
        have : ¬ Option.map (fun x => x + 1) (prop_index ps name) = some 0 := by
          cases prop_index ps name <;> simp
        simp [this]
      | succ k =>
        simp only [List.getElem?_cons_succ, prop_set_getElem? ps name v k]
        cases hq : prop_index ps name with
        | none => simp
        | some k1 => simp

/-- A change of the properties of the node at `p` is not seen at an offset
that `p` does not lie at or below. -/
theorem node_at_update_at_off (f : Node → Node) (hf : ∀ n, (f n).subnodes = n.subnodes) :
    ∀ (p q : Offset) (root : Node), ¬ q <+: p →
      (root.update_at p f).node_at q = root.node_at q
  | [], q, root, h => by
    cases q with
    | nil => simp at h
    | cons j r => simp [Node.update_at, Node.node_at, hf]
  | i :: rest, q, root, h => by
    cases q with
    | nil => simp at h
    | cons j r =>
      simp only [Node.update_at]
      cases hc : root.subnodes[i]? with
      | none => rfl
      | some c =>
        simp only [Node.node_at, Node.subnodes_mk]
        by_cases hij : i = j
        · subst hij
          have hlt : i < root.subnodes.length := by
            rcases Nat.lt_or_ge i root.subnodes.length with hl | hl
            · exact hl
            · rw [List.getElem?_eq_none hl] at hc; cases hc
          have hr : ¬ r <+: rest := by
            intro hpre
            apply h
            exact (List.prefix_cons_inj i).mpr hpre
          simp only [List.getElem?_set_self hlt, hc]
          exact node_at_update_at_off f hf rest r c hr
        · rw [List.getElem?_set_ne hij]

/-- A change of the properties of the node at `p` leaves the properties of
the other nodes as they were. -/
theorem node_at_update_at_props (f : Node → Node) (hf : ∀ n, (f n).subnodes = n.subnodes) :
    ∀ (p q : Offset) (root : Node), q ≠ p →
      ((root.update_at p f).node_at q).map Node.props = (root.node_at q).map Node.props
  | [], q, root, h => by
    cases q with
    | nil => simp at h
    | cons j r => simp [Node.update_at, Node.node_at, hf]
  | i :: rest, q, root, h => by
    simp only [Node.update_at]
    cases hc : root.subnodes[i]? with
    | none => rfl
    | some c =>
      cases q with
      | nil => simp [Node.node_at]
      | cons j r =>
        simp only [Node.node_at, Node.subnodes_mk]
        by_cases hij : i = j
        · subst hij
          have hlt : i < root.subnodes.length := by
            rcases Nat.lt_or_ge i root.subnodes.length with hl | hl
            · exact hl
            · rw [List.getElem?_eq_none hl] at hc; cases hc
          have hr : r ≠ rest := by
            intro hpre
            apply h
            rw [hpre]
          simp only [List.getElem?_set_self hlt, hc]
          exact node_at_update_at_props f hf rest r c hr
        · rw [List.getElem?_set_ne hij]

theorem fdt_prop_index_layout (a b : Fdt) (h : a.root.layout = b.root.layout) (q : Offset)
    (name : Bytes) : fdt_prop_index a q name = fdt_prop_index b q name := by
  have ha := node_at_layout q a.root
  have hb := node_at_layout q b.root
  rw [h] at ha
  rw [ha] at hb
  unfold fdt_prop_index
  cases h1 : a.root.node_at q with
  | none =>
    cases h2 : b.root.node_at q with
    | none => rfl
    | some m => simp [h1, h2] at hb
  | some n =>
    cases h2 : b.root.node_at q with
    | none => simp [h1, h2] at hb
    | some m =>
      simp only [h1, h2, Option.map_some', Option.some.injEq] at hb
      have hp := congrArg Node.props hb
      simp only [layout_props] at hp
      simp only [Option.some_bind]
      rw [← prop_index_blank n.props, hp, prop_index_blank]

/-- The value that `fdt_getprop` returns is the value of the property at the
index `fdt_prop_index`. -/
theorem peek_prop_eq_by_offset (g : Fdt) (q : Offset) (name : Bytes) (k : Nat)
    (hk : fdt_prop_index g q name = some k) :
    peek_prop g q name = peek_prop_by_offset g q k := by
  unfold fdt_prop_index at hk
  unfold peek_prop peek_prop_by_offset fdt_getprop fdt_getprop_by_offset
  cases hn : g.root.node_at q with
  | none => simp [hn] at hk
  | some n =>
    simp only [hn, Option.some_bind] at hk
    simp only [prop_find_eq_index, hk, Option.some_bind]
    cases n.props[k]? <;> rfl

theorem fdt_prop_index_of_getprop (g : Fdt) (q : Offset) (name v : Bytes)
    (h : fdt_getprop g q name = .ok v) : ∃ k, fdt_prop_index g q name = some k := by
  unfold fdt_getprop at h
  unfold fdt_prop_index
  cases hn : g.root.node_at q with
  | none => simp [hn] at h
  | some n =>
    simp only [hn] at h
    cases hp : prop_find n.props name with
    | none => simp [hp] at h
    | some w =>
      rw [prop_find_eq_index] at hp
      cases hk : prop_index n.props name with
      | none => simp [hk] at hp
      | some k => exact ⟨k, by simp [hk]⟩

/-- What a write into a property changes, seen by node offset and property
index: the value of that property, and nothing else. -/
theorem peek_prop_by_offset_write_prop (g : Fdt) (node : Offset) (name v : Bytes) (ke : Nat)
    (hk : fdt_prop_index g node name = some ke) (q : Offset) (k : Nat) :
    peek_prop_by_offset (fdt_write_prop g node name v) q k
      = if q = node ∧ k = ke then v else peek_prop_by_offset g q k := by
  unfold fdt_prop_index at hk
  cases hn : g.root.node_at node with
  | none => simp [hn] at hk
  | some n =>
    simp only [hn, Option.some_bind] at hk
    unfold peek_prop_by_offset fdt_getprop_by_offset
    by_cases hq : q = node
    · subst hq
      have hu : (fdt_write_prop g q name v).root.node_at q = some (n.set_prop_val name v) :=
        node_at_update_at_same _ q g.root n hn
      simp only [hu, hn, Node.set_prop_val, Node.props_mk, prop_set_getElem?, true_and]
      obtain ⟨p, hp, _⟩ := prop_index_some n.props name ke hk
      by_cases hke : k = ke
      · subst hke
        simp [hk, hp]
      · have : ¬ prop_index n.props name = some k := by
          rw [hk]; intro h; exact hke (Option.some.inj h).symm
        simp [this, hke]
    · have hu := node_at_update_at_props (fun m => m.set_prop_val name v) (fun m => rfl)
        node q g.root hq
      have hu2 : ((fdt_write_prop g node name v).root.node_at q).map Node.props
          = (g.root.node_at q).map Node.props := hu
      simp only [hq, false_and, if_false]
      cases h1 : (fdt_write_prop g node name v).root.node_at q with
      | none =>
        cases h2 : g.root.node_at q with
        | none => rfl
        | some m => simp [h1, h2] at hu2
      | some m1 =>
        cases h2 : g.root.node_at q with
        | none => simp [h1, h2] at hu2
        | some m =>
          simp only [h1, h2, Option.map_some', Option.some.injEq] at hu2
          simp only [hu2]

theorem offsets_apart_not_above (p q : Offset) (h : offsets_apart p q) : ¬ p <+: q := by
  obtain ⟨m, a, b, ha, hb, hab⟩ := h
  rintro ⟨t, rfl⟩
  have hm : m < p.length := by
    rcases Nat.lt_or_ge m p.length with hl | hl
    · exact hl
    · rw [List.getElem?_eq_none hl] at ha; cases ha
  rw [List.getElem?_append_left hm, ha] at hb
  exact hab (Option.some.inj hb)

theorem offsets_apart_append (p q : Offset) (i : Nat) (h : offsets_apart p q) :
    offsets_apart p (q ++ [i]) := by
  obtain ⟨m, a, b, ha, hb, hab⟩ := h
  refine ⟨m, a, b, ha, ?_, hab⟩
  have hm : m < q.length := by
    rcases Nat.lt_or_ge m q.length with hl | hl
    · exact hl
    · rw [List.getElem?_eq_none hl] at hb; cases hb
  rw [List.getElem?_append_left hm, hb]

theorem fdt_write_prop_node_at_off (g : Fdt) (node q : Offset) (name v : Bytes)
    (h : ¬ q <+: node) : (fdt_write_prop g node name v).root.node_at q = g.root.node_at q :=
  node_at_update_at_off (fun m => m.set_prop_val name v) (fun _ => rfl) node q g.root h

/-- What a successful `fdt_setprop_inplace_namelen_partial` is: the write of
`val` at `idx` into a property that is long enough. -/
theorem fdt_setprop_inplace_namelen_partial_ok (g f : Fdt) (node : Offset) (name : Bytes)
    (idx : Nat) (val : Bytes)
    (h : fdt_setprop_inplace_namelen_partial g node name idx val = .ok f) :
    ∃ v, fdt_getprop g node name = .ok v ∧ val.length + idx ≤ v.length ∧
      f = fdt_write_prop g node name (write_at v idx val) := by
  unfold fdt_setprop_inplace_namelen_partial at h
  cases hg : fdt_getprop g node name with
  | error e => simp [hg] at h
  | ok v =>
    simp only [hg] at h
    split at h
    · cases h
    · rename_i hlen
      simp only [Except.ok.injEq] at h
      exact ⟨v, rfl, by omega, h.symm⟩

/-- The loop over the cells of a fixup property, when it succeeds, is the
update of the cells the property lists, in order; the tree under `fixups`
is left as it was and every cell lies within its property. -/
theorem overlay_update_local_cells_listed (ref : Fdt) (fixups tree_node fixup_node : Offset)
    (F : Node) (fixup_prop : Nat) (p : Property) (name : Bytes) (delta : Nat)
    (hapart : ¬ fixups <+: tree_node)
    (hread : ∀ g : Fdt, g.root.node_at fixups = some F →
      fdt_getprop_by_offset g fixup_node fixup_prop = .ok p) :
    ∀ (n i : Nat) (fdto f : Fdt), fdto.root.layout = ref.root.layout →
      fdto.root.node_at fixups = some F →
      overlay_update_local_cells tree_node fixup_node fixup_prop name delta n i fdto = .ok f →
      f = (local_fixup_cells tree_node name p.val n i).foldl (local_cell_update delta) fdto ∧
      f.root.node_at fixups = some F ∧
      ∀ e ∈ local_fixup_cells tree_node name p.val n i,
        ∃ v, fdt_getprop ref e.node e.name = .ok v ∧ e.off + 4 ≤ v.length
  | 0, i, fdto, f, _, hF, h => by
    simp only [overlay_update_local_cells, Except.ok.injEq] at h
    subst h
    simp [local_fixup_cells, hF]
  | n + 1, i, fdto, f, hl, hF, h => by
    simp only [overlay_update_local_cells] at h
    split at h
    · split at h <;> cases h
    · rename_i fa ha
      rw [peek_prop_by_offset_of _ _ _ _ (hread fdto hF)] at ha
      obtain ⟨v, hv, hlen, hfa⟩ := fdt_setprop_inplace_namelen_partial_ok _ _ _ _ _ _ ha
      have hla : fa.root.layout = ref.root.layout := by
        rw [(fdt_setprop_inplace_namelen_partial_layout _ _ _ _ _ _ ha).1, hl]
      have hFa : fa.root.node_at fixups = some F := by
        rw [hfa, fdt_write_prop_node_at_off _ _ _ _ _ hapart, hF]
      obtain ⟨h1, h2, h3⟩ := overlay_update_local_cells_listed ref fixups tree_node fixup_node F
        fixup_prop p name delta hapart hread n (i + 1) fa f hla hFa h
      have hupd : fa = local_cell_update delta fdto
          { node := tree_node, name := name, off := fdt32_to_cpu (p.val.drop (4 * i)) } := by
        rw [hfa]
        simp only [local_cell_update, peek_prop_of_getprop _ _ _ _ hv]
      refine ⟨?_, h2, ?_⟩
      · simp only [local_fixup_cells, List.foldl_cons, ← hupd]
        exact h1
      · intro e he
        simp only [local_fixup_cells, List.mem_cons] at he
        rcases he with rfl | he
        · obtain ⟨w, hw, hwl⟩ := (fdt_getprop_layout fdto ref hl tree_node name).2 v hv
          refine ⟨w, hw, ?_⟩
          simp only [cpu_to_fdt32_length] at hlen
          dsimp only
          omega
        · exact h3 e he

/-- The loop over the properties of a fixup node, likewise. -/
theorem overlay_update_local_props_listed (ref : Fdt) (fixups tree_node fixup_node : Offset)
    (F Fc : Node) (delta : Nat) (hapart : ¬ fixups <+: tree_node)
    (hread : ∀ g : Fdt, g.root.node_at fixups = some F → g.root.node_at fixup_node = some Fc) :
    ∀ (n fixup_prop : Nat) (fdto f : Fdt), fdto.root.layout = ref.root.layout →
      fdto.root.node_at fixups = some F → n + fixup_prop = Fc.props.length →
      overlay_update_local_props tree_node fixup_node delta n fixup_prop fdto = .ok f →
      f = (local_fixup_props tree_node (Fc.props.drop fixup_prop)).foldl
            (local_cell_update delta) fdto ∧
      f.root.node_at fixups = some F ∧
      ∀ e ∈ local_fixup_props tree_node (Fc.props.drop fixup_prop),
        ∃ v, fdt_getprop ref e.node e.name = .ok v ∧ e.off + 4 ≤ v.length
  | 0, fixup_prop, fdto, f, _, hF, hlen, h => by
    simp only [overlay_update_local_props, Except.ok.injEq] at h
    subst h
    simp only [Nat.zero_add] at hlen
    simp [hlen, local_fixup_props, hF]
  | n + 1, fixup_prop, fdto, f, hl, hF, hlen, h => by
    have hlt : fixup_prop < Fc.props.length := by omega
    have hp0 : Fc.props[fixup_prop]? = some Fc.props[fixup_prop] := List.getElem?_eq_getElem hlt
    have hrd : ∀ g : Fdt, g.root.node_at fixups = some F →
        fdt_getprop_by_offset g fixup_node fixup_prop = .ok Fc.props[fixup_prop] := by
      intro g hg
      simp [fdt_getprop_by_offset, hread g hg, hp0]
    have hdrop := drop_eq_cons_of_getElem? Fc.props fixup_prop _ hp0
    simp only [overlay_update_local_props, hrd fdto hF] at h
    split at h
    · cases h
    · split at h
      · split at h <;> cases h
      · split at h
        · cases h
        · rename_i fa ha
          have hla : fa.root.layout = ref.root.layout := by
            rw [overlay_update_local_cells_layout _ _ _ _ _ _ _ _ _ ha, hl]
          obtain ⟨c1, c2, c3⟩ := overlay_update_local_cells_listed ref fixups tree_node fixup_node
            F fixup_prop _ _ delta hapart hrd _ _ fdto fa hl hF ha
          obtain ⟨h1, h2, h3⟩ := overlay_update_local_props_listed ref fixups tree_node fixup_node
            F Fc delta hapart hread n (fixup_prop + 1) fa f hla c2 (by omega) h
          rw [hdrop]
          refine ⟨?_, h2, ?_⟩
          · simp only [local_fixup_props, List.foldl_append, ← c1]
            exact h1
          · intro e he
            simp only [local_fixup_props, List.mem_append] at he
            rcases he with he | he
            · exact c3 e he
            · exact h3 e he

mutual
/-- The function `overlay_update_local_node_references`, when it succeeds, is
the update of the cells that the fixup node lists, in order. -/
theorem overlay_update_local_node_references_listed (ref : Fdt) (fixups : Offset) (F : Node)
    (delta : Nat) : ∀ (shape : Node) (fdto f : Fdt) (tree_node fixup_node : Offset) (T : Node),
    fdto.root.layout = ref.root.layout → fdto.root.node_at fixups = some F →
    (∀ g : Fdt, g.root.node_at fixups = some F → g.root.node_at fixup_node = some shape) →
    ref.root.node_at tree_node = some T → ¬ fixups <+: tree_node →
    (∀ c ∈ shape.subnodes, ∀ i, subnode_index T.subnodes c.name = some i →
      offsets_apart fixups (tree_node ++ [i])) →
    overlay_update_local_node_references fdto tree_node fixup_node delta shape = .ok f →
    f = (shape.local_listed T tree_node).foldl (local_cell_update delta) fdto ∧
    f.root.node_at fixups = some F ∧
    ∀ e ∈ shape.local_listed T tree_node,
      ∃ v, fdt_getprop ref e.node e.name = .ok v ∧ e.off + 4 ≤ v.length
  | .mk nm props subs, fdto, f, tree_node, fixup_node, T, hl, hF, hread, hT, hapart, hsub, h => by
    simp only [overlay_update_local_node_references] at h
    split at h
    · cases h
    · rename_i fa ha
      have hla : fa.root.layout = ref.root.layout := by
        rw [overlay_update_local_props_layout _ _ _ _ _ _ _ ha, hl]
      obtain ⟨p1, p2, p3⟩ := overlay_update_local_props_listed ref fixups tree_node fixup_node
        F _ delta hapart hread props.length 0 fdto fa hl hF rfl ha
      obtain ⟨s1, s2, s3⟩ := overlay_update_local_subnodes_listed ref fixups F delta subs fa f
        tree_node fixup_node 0 T _ hla p2 hread rfl hT hsub h
      simp only [Node.props_mk, List.drop_zero] at p1 p3
      refine ⟨?_, s2, ?_⟩
      · simp only [Node.local_listed, List.foldl_append, ← p1]
        exact s1
      · intro e he
        simp only [Node.local_listed, List.mem_append] at he
        rcases he with he | he
        · exact p3 e he
        · exact s3 e he
/-- The loop over the subnodes of a fixup node, likewise. -/
theorem overlay_update_local_subnodes_listed (ref : Fdt) (fixups : Offset) (F : Node)
    (delta : Nat) : ∀ (subs : List Node) (fdto f : Fdt) (tree_node fixup_node : Offset)
    (fixup_child : Nat) (T Fc : Node),
    fdto.root.layout = ref.root.layout → fdto.root.node_at fixups = some F →
    (∀ g : Fdt, g.root.node_at fixups = some F → g.root.node_at fixup_node = some Fc) →
    Fc.subnodes.drop fixup_child = subs →
    ref.root.node_at tree_node = some T →
    (∀ c ∈ subs, ∀ i, subnode_index T.subnodes c.name = some i →
      offsets_apart fixups (tree_node ++ [i])) →
    overlay_update_local_subnodes fdto tree_node fixup_node delta fixup_child subs = .ok f →
    f = (Node.local_listed_list subs T tree_node).foldl (local_cell_update delta) fdto ∧
    f.root.node_at fixups = some F ∧
    ∀ e ∈ Node.local_listed_list subs T tree_node,
      ∃ v, fdt_getprop ref e.node e.name = .ok v ∧ e.off + 4 ≤ v.length
  | [], fdto, f, tree_node, fixup_node, fixup_child, T, Fc, _, hF, _, _, _, _, h => by
    simp only [overlay_update_local_subnodes, Except.ok.injEq] at h
    subst h
    simp [Node.local_listed_list, hF]
  | c :: cs, fdto, f, tree_node, fixup_node, fixup_child, T, Fc, hl, hF, hread, hd, hT, hsub,
      h => by
    have hlt : fixup_child < Fc.subnodes.length := by
      rcases Nat.lt_or_ge fixup_child Fc.subnodes.length with h | h
      · exact h
      · rw [List.drop_eq_nil_of_le h] at hd; cases hd
    have hd2 := List.drop_eq_getElem_cons hlt
    rw [hd] at hd2
    simp only [List.cons.injEq] at hd2
    have hc : Fc.subnodes[fixup_child]? = some c := by
      rw [List.getElem?_eq_getElem hlt, hd2.1]
    have hreadc : ∀ g : Fdt, g.root.node_at fixups = some F →
        g.root.node_at (fixup_node ++ [fixup_child]) = some c := by
      intro g hg
      rw [node_at_append, hread g hg]
      simp [Node.node_at, hc]
    simp only [overlay_update_local_subnodes] at h
    rw [fdt_subnode_offset_layout ref fdto hl.symm tree_node c.name,
      fdt_subnode_offset_eq ref tree_node c.name T hT] at h
    simp only [Node.local_listed_list]
    cases hi : subnode_index T.subnodes c.name with
    | none => simp [hi] at h
    | some i =>
      simp only [hi] at h
      obtain ⟨t, ht, _⟩ := subnode_index_some T.subnodes c.name i hi
      have hTc : ref.root.node_at (tree_node ++ [i]) = some t := by
        rw [node_at_append, hT]
        simp [Node.node_at, ht]
      have hap := hsub c (List.mem_cons_self _ _) i hi
      split at h
      · cases h
      · rename_i fa ha
        have hla : fa.root.layout = ref.root.layout := by
          rw [overlay_update_local_node_references_layout _ _ _ _ _ _ ha, hl]
        obtain ⟨n1, n2, n3⟩ := overlay_update_local_node_references_listed ref fixups F delta c
          fdto fa (tree_node ++ [i]) (fixup_node ++ [fixup_child]) t hl hF hreadc hTc
          (offsets_apart_not_above _ _ hap)
          (fun c1 _ i1 _ => offsets_apart_append _ _ i1 hap) ha
        obtain ⟨s1, s2, s3⟩ := overlay_update_local_subnodes_listed ref fixups F delta cs fa f
          tree_node fixup_node (fixup_child + 1) T Fc hla n2 hread hd2.2.symm hT
          (fun c1 hc1 i1 hi1 => hsub c1 (List.mem_cons_of_mem _ hc1) i1 hi1) h
        simp only [ht]
        refine ⟨?_, s2, ?_⟩
        · simp only [List.foldl_append, ← n1]
          exact s1
        · intro e he
          simp only [List.mem_append] at he
          rcases he with he | he
          · exact n3 e he
          · exact s3 e he
end

theorem subnode_index_none : ∀ (ss : List Node) (name : Bytes),
    subnode_index ss name = none → ∀ c ∈ ss, c.name ≠ name
  | [], _, _, c, hc => by simp at hc
  | s :: ss, name, h, c, hc => by
    simp only [subnode_index] at h
    by_cases hs : s.name = name
    · simp [hs] at h
    · simp only [hs, if_false, Option.map_eq_none'] at h
      simp only [List.mem_cons] at hc
      rcases hc with rfl | hc
      · exact hs
      · exact subnode_index_none ss name h c hc

theorem fdt_path_offset_local_fixups (fdto : Fdt) :
    fdt_path_offset fdto (str "/__local_fixups__")
      = fdt_subnode_offset fdto [] (str "__local_fixups__") := by
  simp [fdt_path_offset, fdt_path_offset_namelen, cstr, str, split_slash, walk_path]
  cases fdt_subnode_offset fdto []
    [95, 95, 108, 111, 99, 97, 108, 95, 102, 105, 120, 117, 112, 115, 95, 95] <;> rfl

/-- The pass `overlay_update_local_references`, when it succeeds on an overlay
whose `/__local_fixups__` has no subnode `__local_fixups__`, is the update of
the cells that `/__local_fixups__` lists, in order, and every cell lies
within its property. -/
theorem overlay_update_local_references_listed (fdto f : Fdt) (delta : Nat) (fixups : Offset)
    (F : Node) (hfix : fdt_path_offset fdto (str "/__local_fixups__") = .ok fixups)
    (hF : fdto.root.node_at fixups = some F)
    (hself : subnode_index F.subnodes (str "__local_fixups__") = none)
    (hok : overlay_update_local_references fdto delta = .ok f) :
    f = (F.local_listed fdto.root []).foldl (local_cell_update delta) fdto ∧
    ∀ e ∈ F.local_listed fdto.root [],
      ∃ v, fdt_getprop fdto e.node e.name = .ok v ∧ e.off + 4 ≤ v.length := by
  simp only [overlay_update_local_references, hfix, hF] at hok
  rw [fdt_path_offset_local_fixups, fdt_subnode_offset_eq fdto [] _ fdto.root rfl] at hfix
  cases hk : subnode_index fdto.root.subnodes (str "__local_fixups__") with
  | none => simp [hk] at hfix
  | some k =>
    simp only [hk, Except.ok.injEq, List.nil_append] at hfix
    subst hfix
    obtain ⟨x, hx, hxn⟩ := subnode_index_some _ _ _ hk
    have hsub : ∀ c ∈ F.subnodes, ∀ i, subnode_index fdto.root.subnodes c.name = some i →
        offsets_apart [k] ([] ++ [i]) := by
      intro c hc i hi
      obtain ⟨y, hy, hyn⟩ := subnode_index_some _ _ _ hi
      refine ⟨0, k, i, by simp, by simp, ?_⟩
      intro hki
      subst hki
      rw [hx] at hy
      cases hy
      exact subnode_index_none _ _ hself c hc (hyn.symm.trans hxn)
    obtain ⟨h1, _, h3⟩ := overlay_update_local_node_references_listed fdto [k] F delta F fdto f []
      [k] fdto.root rfl hF (fun g hg => hg) rfl (by simp) hsub hok
    exact ⟨h1, h3⟩

theorem fdt32_to_cpu_congr (a b : Bytes) (h : ∀ j, j < 4 → a[j]? = b[j]?) :
    fdt32_to_cpu a = fdt32_to_cpu b := by
  simp only [fdt32_to_cpu, List.getD_eq_getElem?_getD]
  rw [h 0 (by omega), h 1 (by omega), h 2 (by omega), h 3 (by omega)]

theorem fdt32_to_cpu_drop_congr (a b : Bytes) (o : Nat)
    (h : ∀ j, o ≤ j → j < o + 4 → a[j]? = b[j]?) :
    fdt32_to_cpu (a.drop o) = fdt32_to_cpu (b.drop o) := by
  apply fdt32_to_cpu_congr
  intro j hj
  simp only [List.getElem?_drop]
  exact h (o + j) (by omega) (by omega)

theorem fdt32_to_cpu_write_at (v : Bytes) (o x : Nat) (hlen : o + 4 ≤ v.length)
    (hx : x < 2 ^ 32) : fdt32_to_cpu ((write_at v o (cpu_to_fdt32 x)).drop o) = x := by
  rw [← fdt32_to_cpu_cpu_to_fdt32 x hx]
  apply fdt32_to_cpu_congr
  intro j hj
  simp only [List.getElem?_drop]
  rw [fdt32_to_cpu_cpu_to_fdt32 x hx]
  exact write_at_getElem?_mid v o (cpu_to_fdt32 x) j (by simp [cpu_to_fdt32_length, hj])
    (by omega)

theorem local_fixup_apart_symm (a b : LocalFixup) (h : a.apart b) : b.apart a := by
  intro h1 h2
  rcases h h1.symm h2.symm with h | h
  · exact Or.inr h
  · exact Or.inl h

/-- Listed cells that do not overlap do not cover each other's bytes. -/
theorem local_fixup_apart_not_covers (ref : Fdt) (a b : LocalFixup) (k j : Nat)
    (hab : a.apart b) (hk : fdt_prop_index ref b.node b.name = some k)
    (h1 : b.off ≤ j) (h2 : j < b.off + 4) : ¬ a.covers ref b.node k j := by
  rintro ⟨hn, hka, h3, h4⟩
  have hname : a.name = b.name := by
    unfold fdt_prop_index at hk hka
    cases hq : ref.root.node_at b.node with
    | none => simp [hq] at hk
    | some n =>
      simp only [hq, Option.some_bind] at hk hka
      obtain ⟨p, hp, hpn⟩ := prop_index_some _ _ _ hk
      obtain ⟨p1, hp1, hpn1⟩ := prop_index_some _ _ _ hka
      rw [hp] at hp1
      cases hp1
      rw [← hpn, ← hpn1]
  rcases hab hn hname with h | h <;> omega

/-- One update of a listed cell that lies within its property: the layout is
kept, the bytes outside the cell are as they were, and the cell holds its
former value plus `delta`. -/
theorem local_cell_update_step (ref g : Fdt) (delta : Nat) (e : LocalFixup)
    (hl : g.root.layout = ref.root.layout)
    (hr : ∃ v, fdt_getprop ref e.node e.name = .ok v ∧ e.off + 4 ≤ v.length) :
    (local_cell_update delta g e).root.layout = ref.root.layout ∧
    local_cell_update delta g e = g.with_root (local_cell_update delta g e).root ∧
    (∀ q k j, ¬ e.covers ref q k j →
      (peek_prop_by_offset (local_cell_update delta g e) q k)[j]?
        = (peek_prop_by_offset g q k)[j]?) ∧
    fdt32_to_cpu ((peek_prop (local_cell_update delta g e) e.node e.name).drop e.off)
      = (fdt32_to_cpu ((peek_prop g e.node e.name).drop e.off) + delta) % 2 ^ 32 := by
  obtain ⟨v, hv, hlen⟩ := hr
  obtain ⟨w, hw, hwl⟩ := (fdt_getprop_layout ref g hl.symm e.node e.name).2 v hv
  obtain ⟨ke, hke⟩ := fdt_prop_index_of_getprop g e.node e.name w hw
  have hpeek : peek_prop g e.node e.name = w := peek_prop_of_getprop _ _ _ _ hw
  have hset : fdt_setprop_inplace_namelen_partial g e.node e.name e.off
      (cpu_to_fdt32 ((fdt32_to_cpu (w.drop e.off) + delta) % 2 ^ 32))
        = .ok (local_cell_update delta g e) := by
    unfold fdt_setprop_inplace_namelen_partial local_cell_update
    simp only [hw, hpeek, cpu_to_fdt32_length]
    rw [if_neg (by omega)]
  have hlay := (fdt_setprop_inplace_namelen_partial_layout _ _ _ _ _ _ hset).1
  have hkr : fdt_prop_index ref e.node e.name = some ke := by
    rw [← fdt_prop_index_layout g ref hl, hke]
  have hview : ∀ q k, peek_prop_by_offset (local_cell_update delta g e) q k
      = if q = e.node ∧ k = ke
        then write_at w e.off (cpu_to_fdt32 ((fdt32_to_cpu (w.drop e.off) + delta) % 2 ^ 32))
        else peek_prop_by_offset g q k := by
    intro q k
    unfold local_cell_update
    rw [peek_prop_by_offset_write_prop g e.node e.name _ ke hke q k, hpeek]
  refine ⟨hlay.trans hl, rfl, ?_, ?_⟩
  · intro q k j hcov
    rw [hview]
    split
    · rename_i hqk
      obtain ⟨hq, hk⟩ := hqk
      subst hq hk
      rw [← peek_prop_eq_by_offset g e.node e.name k hke, hpeek]
      have hj : j < e.off ∨ e.off + 4 ≤ j := by
        by_contra hcon
        apply hcov
        exact ⟨rfl, hkr, by omega, by omega⟩
      rcases hj with hj | hj
      · exact write_at_getElem?_lt _ _ _ _ hj
      · exact write_at_getElem?_ge _ _ _ _ (by simp [cpu_to_fdt32_length]; omega)
    · rfl
  · have hke1 : fdt_prop_index (local_cell_update delta g e) e.node e.name = some ke := by
      rw [fdt_prop_index_layout _ g hlay, hke]
    rw [peek_prop_eq_by_offset _ e.node e.name ke hke1, hview, if_pos ⟨rfl, rfl⟩, hpeek]
    exact fdt32_to_cpu_write_at w e.off _ (by omega) (Nat.mod_lt _ (by norm_num))

/-- The updates of a list of cells leave every byte that no cell covers as it
was, and keep the layout and everything that is not in the tree. -/
theorem local_cells_fold_frame (ref : Fdt) (delta : Nat) :
    ∀ (L : List LocalFixup) (g : Fdt), g.root.layout = ref.root.layout →
      (∀ e ∈ L, ∃ v, fdt_getprop ref e.node e.name = .ok v ∧ e.off + 4 ≤ v.length) →
      (L.foldl (local_cell_update delta) g).root.layout = ref.root.layout ∧
      L.foldl (local_cell_update delta) g
        = g.with_root (L.foldl (local_cell_update delta) g).root ∧
      ∀ q k j, (∀ e ∈ L, ¬ e.covers ref q k j) →
        (peek_prop_by_offset (L.foldl (local_cell_update delta) g) q k)[j]?
          = (peek_prop_by_offset g q k)[j]?
  | [], g, hl, _ => ⟨hl, rfl, fun _ _ _ _ => rfl⟩
  | e :: L, g, hl, hr => by
    obtain ⟨s1, s2, s3, _⟩ := local_cell_update_step ref g delta e hl
      (hr e (List.mem_cons_self _ _))
    obtain ⟨h1, h2, h3⟩ := local_cells_fold_frame ref delta L (local_cell_update delta g e) s1
      (fun e1 he1 => hr e1 (List.mem_cons_of_mem _ he1))
    simp only [List.foldl_cons]
    refine ⟨h1, ?_, ?_⟩
    · rw [h2, s2]
      rfl
    · intro q k j hcov
      rw [h3 q k j (fun e1 he1 => hcov e1 (List.mem_cons_of_mem _ he1)),
        s3 q k j (hcov e (List.mem_cons_self _ _))]

/-- Two blobs of the same layout that agree on the bytes of a cell hold the
same value in it. -/
theorem local_cell_value_congr (ref a b : Fdt) (e : LocalFixup)
    (ha : a.root.layout = ref.root.layout) (hb : b.root.layout = ref.root.layout) (k : Nat)
    (hk : fdt_prop_index ref e.node e.name = some k)
    (h : ∀ j, e.off ≤ j → j < e.off + 4 →
      (peek_prop_by_offset a e.node k)[j]? = (peek_prop_by_offset b e.node k)[j]?) :
    fdt32_to_cpu ((peek_prop a e.node e.name).drop e.off)
      = fdt32_to_cpu ((peek_prop b e.node e.name).drop e.off) := by
  rw [peek_prop_eq_by_offset a e.node e.name k (by rw [fdt_prop_index_layout a ref ha, hk]),
    peek_prop_eq_by_offset b e.node e.name k (by rw [fdt_prop_index_layout b ref hb, hk])]
  exact fdt32_to_cpu_drop_congr _ _ _ h

/-- After the updates of a list of cells that lie within their properties and
do not overlap, every cell holds its former value plus `delta`. -/
theorem local_cells_fold_value (ref : Fdt) (delta : Nat) :
    ∀ (L : List LocalFixup) (g : Fdt), g.root.layout = ref.root.layout →
      (∀ e ∈ L, ∃ v, fdt_getprop ref e.node e.name = .ok v ∧ e.off + 4 ≤ v.length) →
      L.Pairwise LocalFixup.apart →
      ∀ e ∈ L, fdt32_to_cpu ((peek_prop (L.foldl (local_cell_update delta) g) e.node
          e.name).drop e.off)
        = (fdt32_to_cpu ((peek_prop g e.node e.name).drop e.off) + delta) % 2 ^ 32
  | [], _, _, _, _, e, he => by simp at he
  | e0 :: L, g, hl, hr, hp, e, he => by
    obtain ⟨hp0, hpL⟩ := List.pairwise_cons.mp hp
    have hr0 := hr e0 (List.mem_cons_self _ _)
    have hrL : ∀ e1 ∈ L, ∃ v, fdt_getprop ref e1.node e1.name = .ok v ∧ e1.off + 4 ≤ v.length :=
      fun e1 he1 => hr e1 (List.mem_cons_of_mem _ he1)
    obtain ⟨s1, _, s3, s4⟩ := local_cell_update_step ref g delta e0 hl hr0
    obtain ⟨f1, _, f3⟩ := local_cells_fold_frame ref delta L (local_cell_update delta g e0) s1 hrL
    simp only [List.foldl_cons]
    by_cases hhead : e = e0
    · subst hhead
      obtain ⟨v, hv, _⟩ := hr0
      obtain ⟨k, hk⟩ := fdt_prop_index_of_getprop ref e.node e.name v hv
      rw [← s4]
      apply local_cell_value_congr ref _ _ e f1 s1 k hk
      intro j hj1 hj2
      apply f3
      intro e1 he1
      exact local_fixup_apart_not_covers ref e1 e k j
        (local_fixup_apart_symm _ _ (hp0 e1 he1)) hk hj1 hj2
    · have heL : e ∈ L := by
        simp only [List.mem_cons] at he
        rcases he with he | he
        · exact absurd he hhead
        · exact he
      rw [local_cells_fold_value ref delta L (local_cell_update delta g e0) s1 hrL hpL e heL]
      obtain ⟨v, hv, _⟩ := hrL e heL
      obtain ⟨k, hk⟩ := fdt_prop_index_of_getprop ref e.node e.name v hv
      rw [local_cell_value_congr ref _ g e s1 hl k hk]
      intro j hj1 hj2
      apply s3
      exact local_fixup_apart_not_covers ref e0 e k j (hp0 e heL) hk hj1 hj2

/-- C11 (as amended): on an overlay whose `/__local_fixups__` has no subnode
named `__local_fixups__`, so that it lists no cell of its own subtree, and
whose listed cells do not overlap, a successful
`overlay_update_local_references` leaves, for each fixup property at a
relative path with name `N` and each byte offset `o` it lists, the cell
within the property `N` of the real node at that path, with at bytes
`[o, o + 4)` the big-endian value it held before plus `delta`, modulo
`2 ^ 32`; every byte of a property that no listed cell covers is as it was,
and so are the names, the lengths and everything outside the tree. -/
theorem overlay_update_local_references_patches (fdto f : Fdt) (delta : Nat) (fixups : Offset)
    (F : Node) (hfix : fdt_path_offset fdto (str "/__local_fixups__") = .ok fixups)
    (hF : fdto.root.node_at fixups = some F)
    (hself : subnode_index F.subnodes (str "__local_fixups__") = none)
    (hdisj : (F.local_listed fdto.root []).Pairwise LocalFixup.apart)
    (hok : overlay_update_local_references fdto delta = .ok f) :
    (∀ e ∈ F.local_listed fdto.root [],
      (∃ v, fdt_getprop fdto e.node e.name = .ok v ∧ e.off + 4 ≤ v.length) ∧
      fdt32_to_cpu ((peek_prop f e.node e.name).drop e.off)
        = (fdt32_to_cpu ((peek_prop fdto e.node e.name).drop e.off) + delta) % 2 ^ 32) ∧
    (∀ q k j, (∀ e ∈ F.local_listed fdto.root [], ¬ e.covers fdto q k j) →
      (peek_prop_by_offset f q k)[j]? = (peek_prop_by_offset fdto q k)[j]?) ∧
    f.root.layout = fdto.root.layout ∧ f = fdto.with_root f.root := by
  obtain ⟨hf, hr⟩ := overlay_update_local_references_listed fdto f delta fixups F hfix hF hself hok
  obtain ⟨f1, f2, f3⟩ := local_cells_fold_frame fdto delta (F.local_listed fdto.root []) fdto rfl hr
  have hv := local_cells_fold_value fdto delta (F.local_listed fdto.root []) fdto rfl hr hdisj
  rw [← hf] at f1 f2 f3 hv
  exact ⟨fun e he => ⟨hr e he, hv e he⟩, f3, f1, f2⟩

/-- C11, witness: `overlay_local_two_cells` lists the cells 0 and 4 of `x` of
the node `a`, which hold 1 and 2; with `delta = 4` they hold 5 and 6
afterwards. -/
theorem overlay_update_local_references_patches_witness :
    fdt_path_offset overlay_local_two_cells (str "/__local_fixups__") = .ok [1] ∧
    overlay_local_two_cells.root.node_at [1]
      = some (nd "__local_fixups__" [] [nd "a" [("x", [0, 0, 0, 0, 0, 0, 0, 4])] []]) ∧
    (nd "__local_fixups__" [] [nd "a" [("x", [0, 0, 0, 0, 0, 0, 0, 4])] []]).local_listed
        overlay_local_two_cells.root []
      = [{ node := [0], name := str "x", off := 0 }, { node := [0], name := str "x", off := 4 }] ∧
    overlay_update_local_references overlay_local_two_cells 4
      = .ok overlay_local_two_cells_done ∧
    peek_prop overlay_local_two_cells [0] (str "x") = [0, 0, 0, 1, 0, 0, 0, 2] ∧
    peek_prop overlay_local_two_cells_done [0] (str "x") = [0, 0, 0, 5, 0, 0, 0, 6] ∧
    ((∀ e ∈ (nd "__local_fixups__" [] [nd "a" [("x", [0, 0, 0, 0, 0, 0, 0, 4])] []]).local_listed
          overlay_local_two_cells.root [],
      (∃ v, fdt_getprop overlay_local_two_cells e.node e.name = .ok v ∧ e.off + 4 ≤ v.length) ∧
      fdt32_to_cpu ((peek_prop overlay_local_two_cells_done e.node e.name).drop e.off)
        = (fdt32_to_cpu ((peek_prop overlay_local_two_cells e.node e.name).drop e.off) + 4)
          % 2 ^ 32) ∧
    (∀ q k j, (∀ e ∈ (nd "__local_fixups__" [] [nd "a" [("x", [0, 0, 0, 0, 0, 0, 0, 4])]
          []]).local_listed overlay_local_two_cells.root [],
        ¬ e.covers overlay_local_two_cells q k j) →
      (peek_prop_by_offset overlay_local_two_cells_done q k)[j]?
        = (peek_prop_by_offset overlay_local_two_cells q k)[j]?) ∧
    overlay_local_two_cells_done.root.layout = overlay_local_two_cells.root.layout ∧
    overlay_local_two_cells_done
      = overlay_local_two_cells.with_root overlay_local_two_cells_done.root) :=
  ⟨rfl, rfl, by decide, rfl, by decide, by decide,
    overlay_update_local_references_patches overlay_local_two_cells overlay_local_two_cells_done
      4 [1] (nd "__local_fixups__" [] [nd "a" [("x", [0, 0, 0, 0, 0, 0, 0, 4])] []])
      rfl rfl (by decide) (by decide) rfl⟩

/-- C11, counterexample: `/__local_fixups__` of `overlay_local_self` matches
the real tree and lists two cells, byte 0 of `x` of `/__local_fixups__/a` and
byte 0 of `x` of `/a`, which lie within their properties and do not overlap.
With `delta = 4` the pass succeeds; it shifts the first cell, which is the
offset that the second fixup property lists, before it reads it: bytes
`[0, 4)` of `x` of `/a` still hold 1 instead of 5, and bytes `[4, 8)`, which
no cell covers, hold 6 instead of 2. -/
theorem overlay_update_local_references_patches_counter :
    fdt_path_offset overlay_local_self (str "/__local_fixups__") = .ok [1] ∧
    (overlay_local_self.root.node_at [1]).map
        (fun F => (F.local_fixups_match overlay_local_self.root,
          F.local_listed overlay_local_self.root []))
      = some (true, [{ node := [1, 1], name := str "x", off := 0 },
          { node := [0], name := str "x", off := 0 }]) ∧
    peek_prop overlay_local_self [1, 1] (str "x") = [0, 0, 0, 0] ∧
    peek_prop overlay_local_self [0] (str "x") = [0, 0, 0, 1, 0, 0, 0, 2] ∧
    (overlay_update_local_references overlay_local_self 4).toOption.map
        (fun f => peek_prop f [0] (str "x"))
      = some [0, 0, 0, 1, 0, 0, 0, 6] :=
  ⟨rfl, by decide, by decide, by decide, by decide⟩

/-! ### The entry points: what an error leaves behind -/

/-- C29: the renumbering, local-reference and symbol-fixup passes of
`fdt_overlay_apply` hand back the overlay only; when one of them fails, the
base that `fdt_overlay_apply` leaves is the base it was given with its magic
erased: the tree, the string table, the free space and the version fields are
those of before the call. -/
theorem fdt_overlay_apply_passes_frame (rounds : Nat) (fdt fdto : Fdt) (e : FdtErr) (f : Fdt)
    (hp : fdt_ro_probe fdt = .ok ()) (hq : fdt_ro_probe fdto = .ok ())
    (hfail : overlay_adjust_local_phandles fdto (fdt.root.max_phandle 0) = .error (e, f) ∨
      (∃ fdto1, overlay_adjust_local_phandles fdto (fdt.root.max_phandle 0) = .ok fdto1 ∧
        overlay_update_local_references fdto1 (fdt.root.max_phandle 0) = .error (e, f)) ∨
      (∃ fdto1 fdto2, overlay_adjust_local_phandles fdto (fdt.root.max_phandle 0) = .ok fdto1 ∧
        overlay_update_local_references fdto1 (fdt.root.max_phandle 0) = .ok fdto2 ∧
        overlay_fixup_phandles fdt fdto2 0 = .error (e, f))) :
    ∃ r, fdt_overlay_apply rounds fdt fdto = some r ∧ r.ret = some e ∧
      r.fdt = fdt_set_magic fdt UINT32_MAX ∧ r.fdt.root = fdt.root ∧
      r.fdt.strings = fdt.strings ∧ r.fdt.free = fdt.free ∧ r.fdt.version = fdt.version ∧
      r.fdt.last_comp_version = fdt.last_comp_version ∧ r.fdt.magic = UINT32_MAX ∧
      r.fdto = fdt_set_magic f UINT32_MAX := by
  refine ⟨apply_err e fdt f, ?_, rfl, rfl, rfl, rfl, rfl, rfl, rfl, rfl, rfl⟩
  rcases hfail with h1 | ⟨fdto1, h1, h2⟩ | ⟨fdto1, fdto2, h1, h2, h3⟩
  · simp [fdt_overlay_apply, hp, hq, fdt_find_max_phandle, h1]
  · simp [fdt_overlay_apply, hp, hq, fdt_find_max_phandle, h1, h2]
  · simp [fdt_overlay_apply, hp, hq, fdt_find_max_phandle, h1, h2, h3]

/-- C29, witness: the fixup string of `overlay_fixup_no_node` names a node the
overlay does not have, so the symbol-fixup pass fails on `base_soc`; the base
comes back with its tree as it was and its magic erased. -/
theorem fdt_overlay_apply_passes_frame_witness :
    fdt_ro_probe base_soc = .ok () ∧ fdt_ro_probe overlay_fixup_no_node = .ok () ∧
    overlay_adjust_local_phandles overlay_fixup_no_node (base_soc.root.max_phandle 0)
      = .ok overlay_fixup_no_node ∧
    overlay_update_local_references overlay_fixup_no_node (base_soc.root.max_phandle 0)
      = .ok overlay_fixup_no_node ∧
    overlay_fixup_phandles base_soc overlay_fixup_no_node 0
      = .error (.BADOVERLAY, overlay_fixup_no_node) ∧
    ∃ r, fdt_overlay_apply 1 base_soc overlay_fixup_no_node = some r ∧
      r.ret = some .BADOVERLAY ∧
      r.fdt = fdt_set_magic base_soc UINT32_MAX ∧ r.fdt.root = base_soc.root ∧
      r.fdt.strings = base_soc.strings ∧ r.fdt.free = base_soc.free ∧
      r.fdt.version = base_soc.version ∧
      r.fdt.last_comp_version = base_soc.last_comp_version ∧ r.fdt.magic = UINT32_MAX ∧
      r.fdto = fdt_set_magic overlay_fixup_no_node UINT32_MAX :=
  ⟨rfl, rfl, rfl, rfl, rfl,
    fdt_overlay_apply_passes_frame 1 base_soc overlay_fixup_no_node .BADOVERLAY
      overlay_fixup_no_node rfl rfl (Or.inr (Or.inr ⟨_, _, rfl, rfl, rfl⟩))⟩

theorem fdt_get_max_phandle_lt (fdt : Fdt) : fdt_get_max_phandle fdt < 2 ^ 32 := by
  simp only [fdt_get_max_phandle, fdt_find_max_phandle]
  exact max_phandle_lt fdt.root 0 (by norm_num)

/-- C24 (code defect): `fdt_overlay_merge` does not look at what
`fdt_check_header` returns.  The base `base_bad_magic` fails the validation of
its header (its magic is 0), the overlay `overlay_root_phandle` passes it, and
the call does not return an error: every pass runs, the call returns 0 and the
overlay is consumed (its magic is erased), as after a merge into a valid
base. -/
theorem fdt_overlay_merge_runs_on_bad_header (rounds : Nat) :
    fdt_check_header base_bad_magic = .error .BADMAGIC ∧
    fdt_check_header overlay_root_phandle = .ok () ∧
    fdt_overlay_merge rounds base_bad_magic overlay_root_phandle
      = some { ret := none, fdt := base_bad_magic,
               fdto := fdt_set_magic overlay_root_phandle UINT32_MAX, fdto_nospace := 0 } := by
  cases rounds <;> exact ⟨rfl, rfl, rfl⟩

/-- The check of `fdt_overlay_merge` on the two largest phandles, case by
case.  It returns `BADOVERLAY`, with both blobs as they were, when the sum of
the largest phandles of the base and of the overlay exceeds `UINT32_MAX`.
When the sum is below `UINT32_MAX` the passes run with
`max_phandle(base) + max_phandle(overlay) + 1` as the first free phandle, a
value that fits in 32 bits.  When the sum is exactly `UINT32_MAX`, so that the
sum plus 1 does not fit in 32 bits, the check lets the pair through and the
passes run with the wrapped value 0: the check misses the `+ 1`. -/
theorem fdt_overlay_merge_first_free_phandle (rounds : Nat) (fdt fdto : Fdt) :
    (UINT32_MAX < fdt_get_max_phandle fdt + fdt_get_max_phandle fdto →
      fdt_overlay_merge rounds fdt fdto
        = some { ret := some .BADOVERLAY, fdt := fdt, fdto := fdto, fdto_nospace := 0 }) ∧
    (fdt_get_max_phandle fdt + fdt_get_max_phandle fdto < UINT32_MAX →
      fdt_overlay_merge rounds fdt fdto
        = fdt_overlay_merge_passes rounds fdt fdto (fdt_get_max_phandle fdt)
            (fdt_get_max_phandle fdt + fdt_get_max_phandle fdto + 1) ∧
      fdt_get_max_phandle fdt + fdt_get_max_phandle fdto + 1 < 2 ^ 32) ∧
    (fdt_get_max_phandle fdt + fdt_get_max_phandle fdto = UINT32_MAX →
      fdt_overlay_merge rounds fdt fdto
        = fdt_overlay_merge_passes rounds fdt fdto (fdt_get_max_phandle fdt) 0) := by
  have h1 := fdt_get_max_phandle_lt fdt
  have h2 := fdt_get_max_phandle_lt fdto
  simp only [UINT32_MAX] at *
  refine ⟨fun h => ?_, fun h => ⟨?_, by omega⟩, fun h => ?_⟩
  · have hc : 0xFFFFFFFF - fdt_get_max_phandle fdt < fdt_get_max_phandle fdto := by omega
    simp [fdt_overlay_merge, UINT32_MAX, hc]
  · have hc : ¬ 0xFFFFFFFF - fdt_get_max_phandle fdt < fdt_get_max_phandle fdto := by omega
    have hm : (fdt_get_max_phandle fdt + fdt_get_max_phandle fdto + 1) % 2 ^ 32
        = fdt_get_max_phandle fdt + fdt_get_max_phandle fdto + 1 := Nat.mod_eq_of_lt (by omega)
    simp only [fdt_overlay_merge, UINT32_MAX, hc, if_false, hm]
  · have hc : ¬ 0xFFFFFFFF - fdt_get_max_phandle fdt < fdt_get_max_phandle fdto := by omega
    have hm : (fdt_get_max_phandle fdt + fdt_get_max_phandle fdto + 1) % 2 ^ 32 = 0 := by
      omega
    simp only [fdt_overlay_merge, UINT32_MAX, hc, if_false, hm]

/-- An instance of `fdt_overlay_merge_first_free_phandle`: the largest
phandles of `base_root_phandle` and `overlay_root_phandle` are 1 and 2; the
passes run with 4 as the first free phandle. -/
theorem fdt_overlay_merge_first_free_phandle_witness :
    fdt_get_max_phandle base_root_phandle + fdt_get_max_phandle overlay_root_phandle = 3 ∧
    fdt_overlay_merge 1 base_root_phandle overlay_root_phandle
      = fdt_overlay_merge_passes 1 base_root_phandle overlay_root_phandle
          (fdt_get_max_phandle base_root_phandle)
          (fdt_get_max_phandle base_root_phandle + fdt_get_max_phandle overlay_root_phandle
            + 1) ∧
    fdt_get_max_phandle base_root_phandle + fdt_get_max_phandle overlay_root_phandle + 1
      < 2 ^ 32 :=
  ⟨by decide,
    (fdt_overlay_merge_first_free_phandle 1 base_root_phandle overlay_root_phandle).2.1
      (by decide)⟩

/-- C21 (code defect): the check `UINT32_MAX - delta < delta0` of
`fdt_overlay_merge` guards `delta + delta0 + 1` and misses the `+ 1`.  The
largest phandle of `base_max_phandle` is `0xFFFFFFFF` and `overlay_unresolved`
has no phandle, so that the sum plus 1 does not fit in 32 bits.
`fdt_overlay_merge` does not return `BADOVERLAY`: it succeeds, and the first
free phandle it uses is the wrapped value 0, which the copy `fragment@1` of
the overlay's fragment gets. -/
theorem fdt_overlay_merge_first_free_phandle_counter :
    fdt_get_max_phandle base_max_phandle + fdt_get_max_phandle overlay_unresolved + 1
      = 2 ^ 32 ∧
    (fdt_overlay_merge 1 base_max_phandle overlay_unresolved).map
        (fun o => (o.ret, (fdt_get_name o.fdt [0]).toOption,
          peek_prop o.fdt [0] (str "phandle"), peek_prop o.fdto [0] (str "target")))
      = some (none, some (str "fragment@1"), [0, 0, 0, 0], [0, 0, 0, 0]) :=
  ⟨by decide, by decide⟩

theorem fdt_getprop_error (fdt : Fdt) (node : Offset) (name : Bytes) (e : FdtErr)
    (h : fdt_getprop fdt node name = .error e) : e = .BADOFFSET ∨ e = .NOTFOUND := by
  unfold fdt_getprop at h
  repeat' split at h
  all_goals first
    | (cases h; exact Or.inl rfl)
    | (cases h; exact Or.inr rfl)
    | cases h

theorem overlay_phandle_add_offset_error (fdt : Fdt) (node : Offset) (name : Bytes)
    (delta : Nat) (e : FdtErr) (h : overlay_phandle_add_offset fdt node name delta = .error e) :
    e ≠ .NOSPACE := by
  unfold overlay_phandle_add_offset at h
  cases hv : fdt_getprop fdt node name with
  | error e1 =>
    simp only [hv, Except.error.injEq] at h
    subst h
    rcases fdt_getprop_error _ _ _ _ hv with h | h <;> simp [h]
  | ok val =>
    simp only [hv] at h
    by_cases hlen : val.length = 4
    · simp only [hlen, ne_eq, not_true_eq_false, if_false] at h
      split at h
      · cases h; simp
      · split at h
        · cases h; simp
        · rw [fdt_setprop_inplace_u32_ok fdt node name val _ hv hlen] at h
          cases h
    · simp only [hlen, ne_eq, not_false_eq_true, if_true, Except.error.injEq] at h
      subst h; simp

theorem overlay_adjust_own_phandles_error (fdto f : Fdt) (node : Offset) (delta : Nat)
    (e : FdtErr) (h : overlay_adjust_own_phandles fdto node delta = .error (e, f)) :
    e ≠ .NOSPACE := by
  unfold overlay_adjust_own_phandles at h
  cases h1 : overlay_phandle_add_offset fdto node (str "phandle") delta with
  | error e1 =>
    simp only [h1] at h
    split at h
    · cases h
      exact overlay_phandle_add_offset_error _ _ _ _ _ h1
    · cases h2 : overlay_phandle_add_offset fdto node (str "linux,phandle") delta with
      | error e2 =>
        simp only [h2] at h
        split at h
        · cases h
          exact overlay_phandle_add_offset_error _ _ _ _ _ h2
        · cases h
      | ok f2 => simp [h2] at h
  | ok f1 =>
    simp only [h1] at h
    cases h2 : overlay_phandle_add_offset f1 node (str "linux,phandle") delta with
    | error e2 =>
      simp only [h2] at h
      split at h
      · cases h
        exact overlay_phandle_add_offset_error _ _ _ _ _ h2
      · cases h
    | ok f2 => simp [h2] at h

mutual
theorem overlay_adjust_node_phandles_error : ∀ (shape : Node) (fdto f : Fdt) (node : Offset)
    (delta : Nat) (e : FdtErr),
    overlay_adjust_node_phandles fdto node delta shape = .error (e, f) → e ≠ .NOSPACE
  | .mk _ _ subs, fdto, f, node, delta, e, h => by
    simp only [overlay_adjust_node_phandles] at h
    cases h1 : overlay_adjust_own_phandles fdto node delta with
    | error e1 =>
      simp only [h1, Except.error.injEq] at h
      subst h
      exact overlay_adjust_own_phandles_error _ _ _ _ _ h1
    | ok fa =>
      simp only [h1] at h
      exact overlay_adjust_subnodes_error subs fa f node delta 0 e h
theorem overlay_adjust_subnodes_error : ∀ (subs : List Node) (fdto f : Fdt) (node : Offset)
    (delta child : Nat) (e : FdtErr),
    overlay_adjust_subnodes fdto node delta child subs = .error (e, f) → e ≠ .NOSPACE
  | [], fdto, f, node, delta, child, e, h => by
    simp [overlay_adjust_subnodes] at h
  | c :: cs, fdto, f, node, delta, child, e, h => by
    simp only [overlay_adjust_subnodes] at h
    cases h1 : overlay_adjust_node_phandles fdto (node ++ [child]) delta c with
    | error e1 =>
      simp only [h1, Except.error.injEq] at h
      subst h
      exact overlay_adjust_node_phandles_error c fdto _ _ delta _ h1
    | ok fa =>
      simp only [h1] at h
      exact overlay_adjust_subnodes_error cs fa f node delta (child + 1) e h
end

/-- Every error of the local-reference pass is `BADOVERLAY`. -/
theorem overlay_update_local_references_error (fdto f : Fdt) (delta : Nat) (e : FdtErr)
    (h : overlay_update_local_references fdto delta = .error (e, f)) : e = .BADOVERLAY := by
  unfold overlay_update_local_references at h
  rw [fdt_path_offset_local_fixups, fdt_subnode_offset_eq fdto [] _ fdto.root rfl] at h
  cases hk : subnode_index fdto.root.subnodes (str "__local_fixups__") with
  | none => simp [hk] at h
  | some k =>
    obtain ⟨x, hx, _⟩ := subnode_index_some _ _ _ hk
    have hF : fdto.root.node_at ([] ++ [k]) = some x := by simp [Node.node_at, hx]
    simp only [hk, hF] at h
    exact (overlay_update_local_node_references_fit fdto x fdto [] ([] ++ [k]) delta fdto.root
      rfl rfl hF).2 e f h

/-- C25 (as amended): when `fdt_overlay_merge` returns an error,
`*fdto_nospace` is 0; the error is either the `BADOVERLAY` of the check of the
sum of the two largest phandles, which leaves both blobs as they were, magic
included, or the error of a pass, after which the magic of the overlay and the
magic of the base are both erased. -/
theorem fdt_overlay_merge_error_poisons (rounds : Nat) (fdt fdto : Fdt) (o : MergeOutcome)
    (e : FdtErr) (h : fdt_overlay_merge rounds fdt fdto = some o) (he : o.ret = some e) :
    o.fdto_nospace = 0 ∧
    ((UINT32_MAX < fdt_get_max_phandle fdt + fdt_get_max_phandle fdto ∧ e = .BADOVERLAY ∧
        o.fdt = fdt ∧ o.fdto = fdto) ∨
      (fdt_get_max_phandle fdt + fdt_get_max_phandle fdto ≤ UINT32_MAX ∧
        o.fdt.magic = UINT32_MAX ∧ o.fdto.magic = UINT32_MAX)) := by
  have h1 := fdt_get_max_phandle_lt fdt
  have h2 := fdt_get_max_phandle_lt fdto
  have htail : ∀ (a b : Fdt) (m : Nat), fdt_overlay_merge_tail rounds a b m = some o →
      o.fdto_nospace = 0 ∧ o.fdt.magic = UINT32_MAX ∧ o.fdto.magic = UINT32_MAX := by
    intro a b m ht
    unfold fdt_overlay_merge_tail at ht
    repeat' first
      | (cases ht <;> first | exact ⟨rfl, rfl, rfl⟩ | simp at he)
      | split at ht
      | dsimp only at ht
  by_cases hc : UINT32_MAX - fdt_get_max_phandle fdt < fdt_get_max_phandle fdto
  · simp only [fdt_overlay_merge, hc, if_true, Option.some.injEq] at h
    subst h
    simp only [Option.some.injEq] at he
    refine ⟨rfl, Or.inl ⟨?_, he.symm, rfl, rfl⟩⟩
    simp only [UINT32_MAX] at hc ⊢
    omega
  · simp only [fdt_overlay_merge, hc, if_false] at h
    have hsum : fdt_get_max_phandle fdt + fdt_get_max_phandle fdto ≤ UINT32_MAX := by
      simp only [UINT32_MAX] at hc ⊢
      omega
    suffices hs : o.fdto_nospace = 0 ∧ o.fdt.magic = UINT32_MAX ∧ o.fdto.magic = UINT32_MAX from
      ⟨hs.1, Or.inr ⟨hsum, hs.2⟩⟩
    unfold fdt_overlay_merge_passes at h
    cases p1 : overlay_adjust_local_phandles fdto (fdt_get_max_phandle fdt) with
    | error e1 =>
      obtain ⟨e1, f1⟩ := e1
      have hne := overlay_adjust_node_phandles_error fdto.root fdto f1 [] _ e1 p1
      simp only [p1, hne, if_false, Option.some.injEq] at h
      subst h
      exact ⟨rfl, rfl, rfl⟩
    | ok fdto1 =>
      simp only [p1] at h
      cases p2 : overlay_update_local_references fdto1 (fdt_get_max_phandle fdt) with
      | error e2 =>
        obtain ⟨e2, f2⟩ := e2
        have hb := overlay_update_local_references_error fdto1 f2 _ e2 p2
        subst hb
        simp only [p2, Option.some.injEq] at h
        subst h
        exact ⟨rfl, rfl, rfl⟩
      | ok fdto2 =>
        simp only [p2] at h
        split at h
        · split at h
          · cases h
            exact ⟨rfl, rfl, rfl⟩
          · exact htail _ _ _ h
        · exact htail _ _ _ h

/-- C25, witness: the fragment of `overlay_target_five` targets a phandle that
`base_soc` does not have; `fdt_overlay_merge` fails with `NOTFOUND` in the
pass that merges the fragments, and both magics are erased. -/
theorem fdt_overlay_merge_error_poisons_witness :
    fdt_overlay_merge 1 base_soc overlay_target_five
      = some (merge_err .NOTFOUND base_soc overlay_target_five 0) ∧
    (merge_err .NOTFOUND base_soc overlay_target_five 0).ret = some .NOTFOUND ∧
    (merge_err .NOTFOUND base_soc overlay_target_five 0).fdto_nospace = 0 ∧
    ((UINT32_MAX < fdt_get_max_phandle base_soc + fdt_get_max_phandle overlay_target_five ∧
        FdtErr.NOTFOUND = .BADOVERLAY ∧
        (merge_err .NOTFOUND base_soc overlay_target_five 0).fdt = base_soc ∧
        (merge_err .NOTFOUND base_soc overlay_target_five 0).fdto = overlay_target_five) ∨
      (fdt_get_max_phandle base_soc + fdt_get_max_phandle overlay_target_five ≤ UINT32_MAX ∧
        (merge_err .NOTFOUND base_soc overlay_target_five 0).fdt.magic = UINT32_MAX ∧
        (merge_err .NOTFOUND base_soc overlay_target_five 0).fdto.magic = UINT32_MAX)) :=
  ⟨rfl, rfl,
    fdt_overlay_merge_error_poisons 1 base_soc overlay_target_five
      (merge_err .NOTFOUND base_soc overlay_target_five 0) .NOTFOUND rfl rfl⟩

/-- C25, counterexample: the largest phandles of `base_max_phandle` and
`overlay_root_phandle` are `0xFFFFFFFF` and 2; `fdt_overlay_merge` returns
`BADOVERLAY` and the magic of the overlay is still valid, as is the magic of
the base although `*fdto_nospace` is 0. -/
theorem fdt_overlay_merge_error_poisons_counter :
    (fdt_overlay_merge 1 base_max_phandle overlay_root_phandle).map
        (fun o => (o.ret, o.fdto.magic, o.fdt.magic, o.fdto_nospace))
      = some (some .BADOVERLAY, FDT_MAGIC, FDT_MAGIC, 0) ∧
    fdt_ro_probe overlay_root_phandle = .ok () ∧ fdt_ro_probe base_max_phandle = .ok () :=
  ⟨by decide, rfl, rfl⟩

/-! ### Fragments without a target in the base -/

/-- What a successful `copy_fragment_to_base` did. -/
theorem copy_fragment_to_base_ok (st st1 : MergeState) (fragment : Offset)
    (h : copy_fragment_to_base st fragment = .ok st1) :
    ∃ m name0 idx frag fdt1 i,
      st.merge_olay_max_phdl = some m ∧
      fdt_get_name st.fdto fragment = .ok name0 ∧
      get_fragment_index name0 = .ok idx ∧
      ¬ MAX_ULONG - st.base_fragment_count < idx ∧
      st.fdto.root.node_at fragment = some frag ∧
      copy_node st.fdt [] (some (str "fragment@" ++ decimal (idx + st.base_fragment_count)))
        false frag = .ok fdt1 ∧
      subnode_index fdt1.root.subnodes
        (str "fragment@" ++ decimal (idx + st.base_fragment_count)) = some i ∧
      fdt_setprop_u32 fdt1 [i] (str "phandle") m = .ok st1.fdt ∧
      fdt_setprop_inplace_u32 st.fdto fragment (str "target") m = .ok st1.fdto ∧
      st1.merge_olay_max_phdl = some ((m + 1) % 2 ^ 32) ∧ (m + 1) % 2 ^ 32 ≠ UINT32_MAX ∧
      st1.base_fragment_count = (st.base_fragment_count + 1) % 2 ^ 64 ∧
      (st.base_fragment_count + 1) % 2 ^ 64 ≠ MAX_ULONG := by
  unfold copy_fragment_to_base at h
  cases hm : st.merge_olay_max_phdl with
  | none => simp [hm] at h
  | some m =>
    simp only [hm] at h
    cases hn : get_fragment_name st.fdto fragment MAX_BUF_SIZE with
    | error e => simp [hn] at h
    | ok name0 =>
      simp only [hn] at h
      have hname : fdt_get_name st.fdto fragment = .ok name0 := by
        unfold get_fragment_name at hn
        cases hg : fdt_get_name st.fdto fragment with
        | error e => simp [hg] at hn
        | ok nn =>
          simp only [hg] at hn
          split at hn
          · cases hn
          · cases hn; rfl
      cases hs : set_new_fragment_name name0 MAX_BUF_SIZE st.base_fragment_count with
      | error e => simp [hs] at h
      | ok name =>
        simp only [hs] at h
        unfold set_new_fragment_name at hs
        cases hi : get_fragment_index name0 with
        | error e => simp [hi] at hs
        | ok idx =>
          simp only [hi] at hs
          by_cases hov : MAX_ULONG - st.base_fragment_count < idx
          · simp [hov] at hs
          · simp only [hov, if_false] at hs
            split at hs
            · cases hs
            · have hnm : name = str "fragment@" ++ decimal (idx + st.base_fragment_count) := by
                cases hs; rfl
              cases hf : st.fdto.root.node_at fragment with
              | none => simp [hf] at h
              | some frag =>
                simp only [hf] at h
                cases hc : copy_node st.fdt [] (some name) false frag with
                | error e => simp [hc] at h
                | ok fdt1 =>
                  simp only [hc] at h
                  cases ha : add_phandle fdt1 name m with
                  | error e => simp [ha] at h
                  | ok fdt2 =>
                    simp only [ha] at h
                    cases ht : fdt_setprop_inplace_u32 st.fdto fragment (str "target") m with
                    | error e => simp [ht] at h
                    | ok fdto1 =>
                      simp only [ht] at h
                      unfold add_phandle at ha
                      rw [fdt_subnode_offset_eq fdt1 [] name fdt1.root rfl] at ha
                      cases hx : subnode_index fdt1.root.subnodes name with
                      | none => simp [hx] at ha
                      | some i =>
                        simp only [hx, List.nil_append] at ha
                        split at h
                        · cases h
                        · split at h
                          · cases h
                          · rename_i h1 h2
                            cases h
                            subst hnm
                            exact ⟨m, name0, idx, frag, fdt1, i, rfl, hname, hi, hov, rfl, hc, hx,
                              ha, ht, rfl, h1, rfl, h2⟩

/-- After `fdt_setprop_u32` on a subnode of the root, the subnode is found
under the same name and holds the value. -/
theorem fdt_setprop_u32_root_child (f f2 : Fdt) (name pname : Bytes) (i m : Nat)
    (hx : subnode_index f.root.subnodes name = some i)
    (h : fdt_setprop_u32 f [i] pname m = .ok f2) :
    subnode_index f2.root.subnodes name = some i ∧
    fdt_getprop f2 [i] pname = .ok (cpu_to_fdt32 m) := by
  obtain ⟨c, hc, hcn⟩ := subnode_index_some _ _ _ hx
  have hn : f.root.node_at [i] = some c := by simp [Node.node_at, hc]
  have hr := (fdt_setprop_refines f f2 [i] pname (cpu_to_fdt32 m) c hn h).1
  have hsub : f2.root.subnodes
      = f.root.subnodes.set i (.mk c.name (set_or_add c.props pname (cpu_to_fdt32 m))
          c.subnodes) := by
    rw [hr]
    simp only [Node.update_at, hc]
    rfl
  constructor
  · rw [hsub, subnode_index_set f.root.subnodes i c
      (.mk c.name (set_or_add c.props pname (cpu_to_fdt32 m)) c.subnodes) name hc rfl, hx]
  · have hlt : i < f.root.subnodes.length := by
      rcases List.getElem?_eq_some_iff.1 hc with ⟨hlt, _⟩
      exact hlt
    simp [fdt_getprop, Node.node_at, hsub, hlt, Node.props, prop_find_set_or_add]

/-- A successful `fdt_setprop_inplace_u32` leaves the value in the property. -/
theorem fdt_setprop_inplace_u32_getprop (f f1 : Fdt) (node : Offset) (name : Bytes) (v : Nat)
    (h : fdt_setprop_inplace_u32 f node name v = .ok f1) :
    f1 = fdt_write_prop f node name (cpu_to_fdt32 v) ∧
    fdt_getprop f1 node name = .ok (cpu_to_fdt32 v) := by
  cases hg : fdt_getprop f node name with
  | error e => simp [fdt_setprop_inplace_u32, hg] at h
  | ok val =>
    by_cases hl : val.length = 4
    · rw [fdt_setprop_inplace_u32_ok f node name val v hg hl] at h
      cases h
      exact ⟨rfl, fdt_getprop_write_prop_same f node name val _ hg⟩
    · simp [fdt_setprop_inplace_u32, hg, hl] at h

/-- The lookup of a target whose `target` property is `0xFFFFFFFF` or is not
4 bytes long fails with `BADPHANDLE`. -/
theorem overlay_get_target_unresolved (fdt fdto : Fdt) (fragment : Offset)
    (h : overlay_get_target_phandle fdto fragment = UINT32_MAX) :
    overlay_get_target fdt fdto fragment = .error .BADPHANDLE := by
  simp [overlay_get_target, h]

/-- C22 (as amended): in the loop of `overlay_merge` in merge mode, a fragment
that has an `__overlay__` child and whose `target` is unresolved (the phandle
`0xFFFFFFFF`, or a `target` that is not 4 bytes long) is handed to
`copy_fragment_to_base`: an error of that function is the error of the pass,
and when it succeeds the pass goes on with the next fragment, the base has a
root child `fragment@<index + base_fragment_count>` that `copy_node` made from
the fragment and that carries the phandle `*merge_olay_max_phdl`, and the
fragment's `target` holds that phandle.  A fragment whose target phandle is
carried by no node of the base, or whose `target-path` names no node of the
base, makes the pass fail with `NOTFOUND`. -/
theorem overlay_merge_fragments_unresolved (n k m : Nat) (st : MergeState) (overlay : Offset)
    (hm : st.merge_olay_max_phdl = some m)
    (hov : fdt_subnode_offset st.fdto [k] (str "__overlay__") = .ok overlay) :
    (overlay_get_target_phandle st.fdto [k] = UINT32_MAX →
      (∀ e, copy_fragment_to_base st [k] = .error e →
        overlay_merge_fragments (n + 1) k st = .error e) ∧
      (∀ st1, copy_fragment_to_base st [k] = .ok st1 →
        overlay_merge_fragments (n + 1) k st = overlay_merge_fragments n (k + 1) st1 ∧
        ∃ name0 idx frag fdt1 i,
          fdt_get_name st.fdto [k] = .ok name0 ∧ get_fragment_index name0 = .ok idx ∧
          st.fdto.root.node_at [k] = some frag ∧
          copy_node st.fdt []
            (some (str "fragment@" ++ decimal (idx + st.base_fragment_count))) false frag
            = .ok fdt1 ∧
          subnode_index st1.fdt.root.subnodes
            (str "fragment@" ++ decimal (idx + st.base_fragment_count)) = some i ∧
          fdt_getprop st1.fdt [i] (str "phandle") = .ok (cpu_to_fdt32 m) ∧
          fdt_getprop st1.fdto [k] (str "target") = .ok (cpu_to_fdt32 m))) ∧
    (∀ p, overlay_get_target_phandle st.fdto [k] = p → p ≠ 0 → p ≠ UINT32_MAX →
      st.fdt.root.find_phandle p = none →
      overlay_merge_fragments (n + 1) k st = .error (.NOTFOUND, st)) ∧
    (∀ path, overlay_get_target_phandle st.fdto [k] = 0 →
      fdt_getprop st.fdto [k] (str "target-path") = .ok path →
      fdt_path_offset st.fdt path = .error .NOTFOUND →
      overlay_merge_fragments (n + 1) k st = .error (.NOTFOUND, st)) := by
  refine ⟨fun hu => ⟨fun e he => ?_, fun st1 h1 => ⟨?_, ?_⟩⟩, fun p hp h0 h1 hf => ?_,
    fun path hp hg hf => ?_⟩
  · simp [overlay_merge_fragments, hov, overlay_get_target_unresolved _ _ _ hu, hm, he]
  · simp [overlay_merge_fragments, hov, overlay_get_target_unresolved _ _ _ hu, hm, h1]
  · obtain ⟨m1, name0, idx, frag, fdt1, i, h_m, hname, hi, _, hf, hc, hx, ha, ht, _⟩ :=
      copy_fragment_to_base_ok st st1 [k] h1
    have hmm : m1 = m := by
      rw [hm] at h_m
      cases h_m; rfl
    subst hmm
    have hb := fdt_setprop_u32_root_child fdt1 st1.fdt _ _ i m1 hx ha
    exact ⟨name0, idx, frag, fdt1, i, hname, hi, hf, hc, hb.1, hb.2,
      (fdt_setprop_inplace_u32_getprop _ _ _ _ _ ht).2⟩
  · have ht : overlay_get_target st.fdt st.fdto [k] = .error .NOTFOUND := by
      simp [overlay_get_target, hp, h0, h1, fdt_node_offset_by_phandle, hf]
    simp [overlay_merge_fragments, hov, ht]
  · have ht : overlay_get_target st.fdt st.fdto [k] = .error .NOTFOUND := by
      have hne : (0 : Nat) ≠ UINT32_MAX := by decide
      simp [overlay_get_target, hp, hne, hg, hf]
    simp [overlay_merge_fragments, hov, ht]

/-- C22, witness: the fragment of `overlay_unresolved` has the target phandle
`0xFFFFFFFF`; with 7 as the first free phandle and 1 as the count of the
fragments of the base, the pass copies it into `base_soc` as `fragment@1` with
the phandle 7, writes 7 into its `target` and ends. -/
theorem overlay_merge_fragments_unresolved_witness :
    fdt_subnode_offset overlay_unresolved [0] (str "__overlay__") = .ok [0, 0] ∧
    overlay_get_target_phandle overlay_unresolved [0] = UINT32_MAX ∧
    (∃ st1, copy_fragment_to_base
        { fdt := base_soc, fdto := overlay_unresolved, merge_olay_max_phdl := some 7,
          base_fragment_count := 1 } [0] = .ok st1 ∧
      overlay_merge_fragments 1 0
          { fdt := base_soc, fdto := overlay_unresolved, merge_olay_max_phdl := some 7,
            base_fragment_count := 1 }
        = overlay_merge_fragments 0 1 st1 ∧
      (fdt_get_name st1.fdt [0]).toOption = some (str "fragment@1") ∧
      fdt_getprop st1.fdt [0] (str "phandle") = .ok [0, 0, 0, 7] ∧
      fdt_getprop st1.fdto [0] (str "target") = .ok [0, 0, 0, 7]) :=
  ⟨rfl, by decide, _, rfl,
    ((((overlay_merge_fragments_unresolved 0 0 7
      { fdt := base_soc, fdto := overlay_unresolved, merge_olay_max_phdl := some 7,
        base_fragment_count := 1 } [0, 0] rfl rfl).1 (by decide)).2 _ rfl).1),
    by decide, rfl, rfl⟩

/-- C22, counterexample: the fragments of `overlay_target_five` and
`overlay_target_path_missing` have an `__overlay__` child; the target phandle
5 of the first is carried by no node of `base_soc` and the `target-path` of
the second names no node of it.  `fdt_overlay_merge` does not copy them: it
fails with `NOTFOUND`. -/
theorem overlay_merge_fragments_unresolved_counter :
    fdt_subnode_offset overlay_target_five [0] (str "__overlay__") = .ok [0, 0] ∧
    overlay_get_target_phandle overlay_target_five [0] = 5 ∧
    base_soc.root.find_phandle 5 = none ∧
    (fdt_overlay_merge 1 base_soc overlay_target_five).map (fun o => o.ret)
      = some (some .NOTFOUND) ∧
    fdt_subnode_offset overlay_target_path_missing [0] (str "__overlay__") = .ok [0, 0] ∧
    fdt_path_offset base_soc (zstr "/nowhere") = .error .NOTFOUND ∧
    (fdt_overlay_merge 1 base_soc overlay_target_path_missing).map (fun o => o.ret)
      = some (some .NOTFOUND) :=
  ⟨rfl, by decide, by decide, by decide, rfl, rfl, by decide⟩

/-! ### The names of the copied fragments -/

theorem digitChar_toNat (d : Nat) (h : d < 10) : (Nat.digitChar d).toNat = 48 + d := by
  interval_cases d <;> rfl

theorem strtoul_digits_all : ∀ (ds : Bytes) (acc n : Nat), (∀ c ∈ ds, isdigit c = true) →
    strtoul_digits ds acc n = (digits_value ds acc, n + ds.length)
  | [], acc, n, _ => by simp [strtoul_digits, digits_value]
  | c :: cs, acc, n, h => by
    have hc : isdigit c = true := h c (by simp)
    have ih := strtoul_digits_all cs (acc * 10 + (c - 48)) (n + 1)
      (fun x hx => h x (by simp [hx]))
    simp only [strtoul_digits, hc, if_true, ih, digits_value, List.foldl_cons, List.length_cons]
    congr 1
    omega

theorem toDigitsCore_spec : ∀ (fuel n : Nat) (ds : List Char), n < fuel →
    ∃ pre : List Char, Nat.toDigitsCore 10 fuel n ds = pre ++ ds ∧ pre ≠ [] ∧
      (∀ c ∈ pre.map Char.toNat, isdigit c = true) ∧
      digits_value (pre.map Char.toNat) 0 = n
  | 0, n, ds, h => by omega
  | fuel + 1, n, ds, h => by
    have hd : n % 10 < 10 := Nat.mod_lt _ (by norm_num)
    have hdig : isdigit (Nat.digitChar (n % 10)).toNat = true := by
      rw [digitChar_toNat _ hd]
      simp only [isdigit, Bool.and_eq_true, decide_eq_true_eq]
      omega
    by_cases h0 : n / 10 = 0
    · refine ⟨[Nat.digitChar (n % 10)], ?_, by simp, ?_, ?_⟩
      · simp [Nat.toDigitsCore, h0]
      · intro c hc
        simp only [List.map_cons, List.map_nil, List.mem_singleton] at hc
        rw [hc]
        exact hdig
      · simp only [digits_value, List.map_cons, List.map_nil, List.foldl_cons, List.foldl_nil,
          digitChar_toNat _ hd]
        omega
    · obtain ⟨pre, hp, _, hall, hval⟩ :=
        toDigitsCore_spec fuel (n / 10) (Nat.digitChar (n % 10) :: ds) (by omega)
      refine ⟨pre ++ [Nat.digitChar (n % 10)], ?_, by simp, ?_, ?_⟩
      · simp [Nat.toDigitsCore, h0, hp]
      · intro c hc
        simp only [List.map_append, List.map_cons, List.map_nil, List.mem_append,
          List.mem_singleton] at hc
        rcases hc with hc | hc
        · exact hall c hc
        · rw [hc]
          exact hdig
      · have hv : digits_value (List.map Char.toNat pre) 0 = n / 10 := hval
        simp only [digits_value, List.map_append, List.map_cons, List.map_nil,
          List.foldl_append, List.foldl_cons, List.foldl_nil, digitChar_toNat _ hd]
        simp only [digits_value] at hv
        rw [hv]
        omega

/-- The decimal digits of a number: a non-empty string of digits whose value
is the number. -/
theorem decimal_spec (n : Nat) :
    decimal n ≠ [] ∧ (∀ c ∈ decimal n, isdigit c = true) ∧ digits_value (decimal n) 0 = n := by
  obtain ⟨pre, hp, hne, hall, hval⟩ := toDigitsCore_spec (n + 1) n [] (by omega)
  have hd : decimal n = pre.map Char.toNat := by
    simp [decimal, Nat.toDigits, hp]
  rw [hd]
  exact ⟨by simpa using hne, hall, hval⟩

/-- The function `strtoul` reads back what `%lu` printed. -/
theorem strtoul_decimal (n : Nat) (h : n ≤ MAX_ULONG) :
    strtoul (decimal n) = (n, (decimal n).length) := by
  obtain ⟨hne, hall, hval⟩ := decimal_spec n
  cases hd : decimal n with
  | nil => exact absurd hd hne
  | cons c cs =>
    rw [hd] at hall hval
    have hc : isdigit c = true := hall c (by simp)
    simp only [isdigit, Bool.and_eq_true, decide_eq_true_eq] at hc
    have hsp : isspace c = false := by
      simp only [isspace, Bool.or_eq_false_iff, decide_eq_false_iff_not, Bool.and_eq_false_iff]
      omega
    have h43 : c ≠ 43 := by omega
    have h45 : c ≠ 45 := by omega
    have hr := strtoul_digits_all (c :: cs) 0 0 hall
    rw [hval] at hr
    have hsign : (match c :: cs with
        | 43 :: _ => 1
        | 45 :: _ => 1
        | _ => 0) = 0 := by
      split
      · rename_i heq
        cases heq
        exact absurd rfl h43
      · rename_i heq
        cases heq
        exact absurd rfl h45
      · rfl
    have hgt : ¬ n > MAX_ULONG := by omega
    simp [strtoul, hsp, List.takeWhile, hsign, hr, hgt, h45]

theorem get_fragment_index_decimal (n : Nat) (h : n ≤ MAX_ULONG) :
    get_fragment_index (str "fragment@" ++ decimal n) = .ok n := by
  have hl : (str "fragment@").length = 9 := by decide
  have hdrop : (str "fragment@" ++ decimal n).drop 9 = decimal n := by
    rw [← hl, List.drop_left]
  have hne := (decimal_spec n).1
  have hpos : (decimal n).length ≠ 0 := by
    intro h0
    exact hne (List.length_eq_zero.1 h0)
  simp [get_fragment_index, hdrop, strtoul_decimal n h, hl, hpos]

/-- The result of `count_fragments_loop` bounds the index of every child it
counted. -/
theorem count_fragments_loop_bound : ∀ (ss : List Node) (found : Bool) (max : Nat)
    (r : Bool × Nat), count_fragments_loop ss found max = .ok r →
    max ≤ r.2 ∧ ∀ c ∈ ss, c.is_counted_fragment = true → (strtoul (c.name.drop 9)).1 ≤ r.2
  | [], found, max, r, h => by
    simp only [count_fragments_loop, Except.ok.injEq] at h
    subst h
    simp
  | n :: rest, found, max, r, h => by
    simp only [count_fragments_loop] at h
    by_cases h1 : n.name.length < 9 ∨ n.name.take 9 ≠ str "fragment@"
    · simp only [h1, if_true] at h
      obtain ⟨hm, hall⟩ := count_fragments_loop_bound rest found max r h
      refine ⟨hm, fun c hc hcnt => ?_⟩
      rcases List.mem_cons.1 hc with hc | hc
      · subst hc
        simp only [Node.is_counted_fragment, Bool.and_eq_true, decide_eq_true_eq] at hcnt
        rcases h1 with h1 | h1
        · omega
        · exact absurd hcnt.1.2 h1
      · exact hall c hc hcnt
    · simp only [h1, if_false] at h
      cases hs : n.subnodes with
      | nil => simp [hs] at h
      | cons child more =>
        simp only [hs] at h
        by_cases h2 : child.name.length < 11 ∨ child.name.take 11 ≠ str "__overlay__"
        · simp only [h2, if_true] at h
          obtain ⟨hm, hall⟩ := count_fragments_loop_bound rest found max r h
          refine ⟨hm, fun c hc hcnt => ?_⟩
          rcases List.mem_cons.1 hc with hc | hc
          · subst hc
            simp only [Node.is_counted_fragment, hs, Bool.and_eq_true, decide_eq_true_eq]
              at hcnt
            rcases h2 with h2 | h2
            · omega
            · exact absurd hcnt.2.2 h2
          · exact hall c hc hcnt
        · simp only [h2, if_false] at h
          obtain ⟨hm, hall⟩ := count_fragments_loop_bound rest true _ r h
          refine ⟨?_, fun c hc hcnt => ?_⟩
          · split at hm <;> omega
          · rcases List.mem_cons.1 hc with hc | hc
            · subst hc
              split at hm <;> omega
            · exact hall c hc hcnt

/-- The name under which `copy_fragment_to_base` copies a fragment is
`fragment@<N>` with `N` the index of the fragment plus
`base_fragment_count`, in decimal without leading zeros, so that it reads
back as `N`; the base has a root child of that name afterwards and
`base_fragment_count` has grown by 1.  `overlay_merge` starts the count at
the largest index that `count_fragments` found plus 1, and every root child of
the base that `count_fragments` counts (its name starts with `fragment@` and
its first subnode is `__overlay__`) has an index below that: the new name
differs from the name of each of them while the count is above that largest
index.  It differs from the name given to another fragment exactly when the
two sums of index and count differ. -/
theorem copy_fragment_to_base_name (st st1 : MergeState) (k : Nat)
    (hcount : st.base_fragment_count ≤ MAX_ULONG)
    (h : copy_fragment_to_base st [k] = .ok st1) :
    ∃ name0 idx i,
      fdt_get_name st.fdto [k] = .ok name0 ∧ get_fragment_index name0 = .ok idx ∧
      subnode_index st1.fdt.root.subnodes
        (str "fragment@" ++ decimal (idx + st.base_fragment_count)) = some i ∧
      get_fragment_index (str "fragment@" ++ decimal (idx + st.base_fragment_count))
        = .ok (idx + st.base_fragment_count) ∧
      st1.base_fragment_count = (st.base_fragment_count + 1) % 2 ^ 64 ∧
      (∀ (base fdto : Fdt) (m cmax : Nat), count_fragments base = .ok cmax →
        overlay_merge base fdto (some m)
          = overlay_merge_fragments fdto.root.subnodes.length 0
              { fdt := base, fdto := fdto, merge_olay_max_phdl := some m,
                base_fragment_count := (cmax + 1) % 2 ^ 64 } ∧
        ∀ c ∈ base.root.subnodes, c.is_counted_fragment = true →
          (strtoul (c.name.drop 9)).1 ≤ cmax ∧
          (cmax < st.base_fragment_count →
            c.name ≠ str "fragment@" ++ decimal (idx + st.base_fragment_count))) ∧
      (∀ n, n ≤ MAX_ULONG →
        (str "fragment@" ++ decimal n
            = str "fragment@" ++ decimal (idx + st.base_fragment_count)
          ↔ n = idx + st.base_fragment_count)) := by
  obtain ⟨m, name0, idx, frag, fdt1, i, _, hname, hi, hov, _, _, hx, ha, _, _, _, hcnt, _⟩ :=
    copy_fragment_to_base_ok st st1 [k] h
  have hle : idx + st.base_fragment_count ≤ MAX_ULONG := by omega
  have hrt := get_fragment_index_decimal _ hle
  refine ⟨name0, idx, i, hname, hi, (fdt_setprop_u32_root_child fdt1 st1.fdt _ _ i m hx ha).1,
    hrt, hcnt, ?_, ?_⟩
  · intro base fdto m1 cmax hc
    refine ⟨by simp [overlay_merge, hc], fun c hcm hcounted => ?_⟩
    have hb : (strtoul (c.name.drop 9)).1 ≤ cmax := by
      unfold count_fragments at hc
      cases hl : count_fragments_loop base.root.subnodes false 0 with
      | error e => simp [hl] at hc
      | ok r =>
        simp only [hl] at hc
        split at hc
        · cases hc
          exact (count_fragments_loop_bound _ _ _ r hl).2 c hcm hcounted
        · cases hc
    refine ⟨hb, fun hlt heq => ?_⟩
    have hl9 : (str "fragment@").length = 9 := by decide
    have hd : c.name.drop 9 = decimal (idx + st.base_fragment_count) := by
      rw [heq, ← hl9, List.drop_left]
    rw [hd, strtoul_decimal _ hle] at hb
    simp only at hb
    omega
  · intro n hn
    constructor
    · intro heq
      have h1 := get_fragment_index_decimal n hn
      rw [heq, hrt] at h1
      cases h1
      rfl
    · intro heq
      rw [heq]

/-- An instance of `copy_fragment_to_base_name`: with 1 as the count, the
fragment `fragment@0` of
`overlay_unresolved` is copied into `base_fragment_zero` as `fragment@1`, a
name that differs from that of the fragment `fragment@0` of the base, which
`count_fragments` counted. -/
theorem copy_fragment_to_base_name_witness :
    count_fragments base_fragment_zero = .ok 0 ∧
    ∃ st1, copy_fragment_to_base
        { fdt := base_fragment_zero, fdto := overlay_unresolved,
          merge_olay_max_phdl := some 1, base_fragment_count := 1 } [0] = .ok st1 ∧
      ∃ name0 idx i,
        fdt_get_name overlay_unresolved [0] = .ok name0 ∧
        get_fragment_index name0 = .ok idx ∧
        subnode_index st1.fdt.root.subnodes (str "fragment@" ++ decimal (idx + 1)) = some i ∧
        get_fragment_index (str "fragment@" ++ decimal (idx + 1)) = .ok (idx + 1) ∧
        st1.base_fragment_count = (1 + 1) % 2 ^ 64 ∧
        (∀ (base fdto : Fdt) (m cmax : Nat), count_fragments base = .ok cmax →
          overlay_merge base fdto (some m)
            = overlay_merge_fragments fdto.root.subnodes.length 0
                { fdt := base, fdto := fdto, merge_olay_max_phdl := some m,
                  base_fragment_count := (cmax + 1) % 2 ^ 64 } ∧
          ∀ c ∈ base.root.subnodes, c.is_counted_fragment = true →
            (strtoul (c.name.drop 9)).1 ≤ cmax ∧
            (cmax < 1 → c.name ≠ str "fragment@" ++ decimal (idx + 1))) ∧
        (∀ n, n ≤ MAX_ULONG →
          (str "fragment@" ++ decimal n = str "fragment@" ++ decimal (idx + 1)
            ↔ n = idx + 1)) :=
  ⟨rfl, _, rfl,
    copy_fragment_to_base_name
      { fdt := base_fragment_zero, fdto := overlay_unresolved,
        merge_olay_max_phdl := some 1, base_fragment_count := 1 } _ 0 (by decide) rfl⟩

/-- A fragment with an unresolved target costs the loop of `overlay_merge` one
call of `copy_fragment_to_base`. -/
theorem overlay_merge_fragments_copy (n k m : Nat) (st st1 : MergeState) (overlay : Offset)
    (hm : st.merge_olay_max_phdl = some m)
    (hov : fdt_subnode_offset st.fdto [k] (str "__overlay__") = .ok overlay)
    (hu : overlay_get_target_phandle st.fdto [k] = UINT32_MAX)
    (h1 : copy_fragment_to_base st [k] = .ok st1) :
    overlay_merge_fragments (n + 1) k st = overlay_merge_fragments n (k + 1) st1 := by
  simp [overlay_merge_fragments, hov, overlay_get_target_unresolved _ _ _ hu, hm, h1]

/-- C23 (code defect): the new index of `copy_fragment_to_base`, the index
of the fragment plus a count that grows with every copy, and the count that
`count_fragments` starts it from are meant to give every copy a name that no
root child of the base has, and do not.  `overlay_merge` copies the fragments
`fragment@1` and `fragment@0` of `overlay_one_then_zero`, in that order, into
`base_fragment_zero`, the first with the count 1 and the second with the count
2: both under the name `fragment@2`, so that the second copy lands in the root
child that the first one made, and the base has one root child more, not two.
`fdt_overlay_merge` copies the fragment `fragment@0` of `overlay_unresolved`
into `base_fragment_one_late` under the name `fragment@1` of the fragment that
base has: no root child is added. -/
theorem copy_fragment_to_base_name_counter :
    copy_fragment_to_base
        { fdt := base_fragment_zero, fdto := overlay_one_then_zero,
          merge_olay_max_phdl := some 1, base_fragment_count := 1 } [0]
      = .ok { fdt := base_fragment_zero_copied_one, fdto := overlay_one_then_zero_copied_one,
              merge_olay_max_phdl := some 2, base_fragment_count := 2 } ∧
    base_fragment_zero_copied_one.root.subnodes.map Node.name
      = [str "fragment@2", str "fragment@0"] ∧
    copy_fragment_to_base
        { fdt := base_fragment_zero_copied_one, fdto := overlay_one_then_zero_copied_one,
          merge_olay_max_phdl := some 2, base_fragment_count := 2 } [1]
      = .ok { fdt := base_fragment_zero_copied_two, fdto := overlay_one_then_zero_copied_two,
              merge_olay_max_phdl := some 3, base_fragment_count := 3 } ∧
    base_fragment_zero_copied_two.root.subnodes.map Node.name
      = [str "fragment@2", str "fragment@0"] ∧
    overlay_merge base_fragment_zero overlay_one_then_zero (some 1)
      = .ok { fdt := base_fragment_zero_copied_two, fdto := overlay_one_then_zero_copied_two,
              merge_olay_max_phdl := some 3, base_fragment_count := 3 } ∧
    base_fragment_one_late.root.subnodes.map Node.name = [str "fragment@1"] ∧
    (fdt_overlay_merge 1 base_fragment_one_late overlay_unresolved).map
        (fun o => (o.ret, o.fdt.root.subnodes.map Node.name,
          peek_prop o.fdt [0, 1] (str "q"), peek_prop o.fdt [0, 1] (str "a")))
      = some (none, [str "fragment@1"], [9], [1]) :=
  ⟨rfl, by decide, rfl, by decide,
    calc overlay_merge base_fragment_zero overlay_one_then_zero (some 1)
        = overlay_merge_fragments 2 0
            { fdt := base_fragment_zero, fdto := overlay_one_then_zero,
              merge_olay_max_phdl := some 1, base_fragment_count := 1 } := rfl
      _ = overlay_merge_fragments 1 1
            { fdt := base_fragment_zero_copied_one, fdto := overlay_one_then_zero_copied_one,
              merge_olay_max_phdl := some 2, base_fragment_count := 2 } :=
          overlay_merge_fragments_copy 1 0 1 _ _ [0, 0] rfl rfl (by decide) rfl
      _ = overlay_merge_fragments 0 2
            { fdt := base_fragment_zero_copied_two, fdto := overlay_one_then_zero_copied_two,
              merge_olay_max_phdl := some 3, base_fragment_count := 3 } :=
          overlay_merge_fragments_copy 0 1 2 _ _ [1, 0] rfl rfl (by decide) rfl
      _ = .ok _ := rfl,
    by decide, by decide⟩

/-! ### The phandles of the copied fragments -/

theorem overlay_get_target_phandle_node (fdto : Fdt) (k : Nat) (c : Node)
    (hc : fdto.root.subnodes[k]? = some c) :
    overlay_get_target_phandle fdto [k] = c.target_phandle := by
  have hn : fdto.root.node_at [k] = some c := by simp [Node.node_at, hc]
  unfold overlay_get_target_phandle Node.target_phandle fdt_getprop
  rw [hn]
  cases hp : prop_find c.props (str "target") <;> simp [hp]

theorem fdt_subnode_offset_error (fdt : Fdt) (off : Offset) (name : Bytes) (e : FdtErr)
    (h : fdt_subnode_offset fdt off name = .error e) : e = .BADOFFSET ∨ e = .NOTFOUND := by
  unfold fdt_subnode_offset at h
  repeat' split at h
  all_goals first
    | (cases h; exact Or.inl rfl)
    | (cases h; exact Or.inr rfl)
    | cases h

theorem walk_path_error (fdt : Fdt) : ∀ (segs : List Bytes) (off : Offset) (e : FdtErr),
    walk_path fdt off segs = .error e → e = .BADOFFSET ∨ e = .NOTFOUND
  | [], off, e, h => by simp [walk_path] at h
  | seg :: segs, off, e, h => by
    simp only [walk_path] at h
    split at h
    · exact walk_path_error fdt segs off e h
    · cases hs : fdt_subnode_offset fdt off seg with
      | error e1 =>
        simp only [hs, Except.error.injEq] at h
        subst h
        exact fdt_subnode_offset_error _ _ _ _ hs
      | ok o =>
        simp only [hs] at h
        exact walk_path_error fdt segs o e h

theorem fdt_path_offset_error (fdt : Fdt) (path : Bytes) (e : FdtErr)
    (h : fdt_path_offset fdt path = .error e) :
    e = .BADPATH ∨ e = .BADOFFSET ∨ e = .NOTFOUND := by
  unfold fdt_path_offset fdt_path_offset_namelen at h
  split at h
  · cases h; exact Or.inl rfl
  · split at h
    · exact Or.inr (walk_path_error fdt _ _ e h)
    · cases h; exact Or.inl rfl

/-- The lookup of a target fails with `BADPHANDLE` only for a target phandle
`(uint32_t)-1`. -/
theorem overlay_get_target_badphandle (fdt fdto : Fdt) (fragment : Offset)
    (h : overlay_get_target fdt fdto fragment = .error .BADPHANDLE) :
    overlay_get_target_phandle fdto fragment = UINT32_MAX := by
  by_contra hne
  unfold overlay_get_target at h
  simp only [hne, if_false] at h
  split at h
  · cases hg : fdt_getprop fdto fragment (str "target-path") with
    | error e1 =>
      simp only [hg] at h
      split at h
      · cases h
      · simp only [Except.error.injEq] at h
        rcases fdt_getprop_error _ _ _ _ hg with h1 | h1 <;> rw [h1] at h <;> cases h
    | ok path =>
      simp only [hg] at h
      cases hp : fdt_path_offset fdt path with
      | error e2 =>
        simp only [hp, Except.error.injEq] at h
        rcases fdt_path_offset_error _ _ _ hp with h1 | h1 | h1 <;> rw [h1] at h <;> cases h
      | ok r => simp [hp] at h
  · rename_i h0
    unfold fdt_node_offset_by_phandle at h
    simp only [h0, hne, or_self, if_false] at h
    cases hf : fdt.root.find_phandle (overlay_get_target_phandle fdto fragment) <;>
      simp [hf] at h

theorem list_set_append_cons (pre suf : List Node) (c c1 : Node) :
    (pre ++ c :: suf).set pre.length c1 = pre ++ c1 :: suf := by
  induction pre with
  | nil => rfl
  | cons x xs ih => simp [List.set, ih]

theorem list_getElem?_append_cons (pre suf : List Node) (c : Node) :
    (pre ++ c :: suf)[pre.length]? = some c := by
  induction pre with
  | nil => simp
  | cons x xs ih => simpa using ih

/-- What `copy_fragment_to_base` leaves in the overlay: the `target` of the
fragment holds the phandle, nothing else has changed. -/
theorem copy_fragment_to_base_fdto (st st1 : MergeState) (m : Nat) (pre suf : List Node)
    (c : Node) (hm : st.merge_olay_max_phdl = some m)
    (hss : st.fdto.root.subnodes = pre ++ c :: suf)
    (h : copy_fragment_to_base st [pre.length] = .ok st1) :
    ∃ c1, st1.fdto.root.subnodes = pre ++ c1 :: suf ∧
      prop_find c1.props (str "target") = some (cpu_to_fdt32 m) ∧
      st1.merge_olay_max_phdl = some ((m + 1) % 2 ^ 32) ∧ (m + 1) % 2 ^ 32 ≠ UINT32_MAX := by
  obtain ⟨m1, name0, idx, frag, fdt1, i, h_m, _, _, _, _, _, _, _, ht, hm1, hne, _⟩ :=
    copy_fragment_to_base_ok st st1 [pre.length] h
  have hmm : m1 = m := by
    rw [hm] at h_m
    cases h_m; rfl
  subst hmm
  have hck : st.fdto.root.subnodes[pre.length]? = some c := by
    rw [hss]
    exact list_getElem?_append_cons pre suf c
  obtain ⟨hw, hg⟩ := fdt_setprop_inplace_u32_getprop _ _ _ _ _ ht
  refine ⟨c.set_prop_val (str "target") (cpu_to_fdt32 m1), ?_, ?_, hm1, hne⟩
  · rw [hw]
    simp only [fdt_write_prop, Node.update_at, hck]
    show (st.fdto.root.subnodes.set pre.length _) = _
    rw [hss, list_set_append_cons]
  · have hsub : st1.fdto.root.subnodes
        = pre ++ c.set_prop_val (str "target") (cpu_to_fdt32 m1) :: suf := by
      rw [hw]
      simp only [fdt_write_prop, Node.update_at, hck]
      show (st.fdto.root.subnodes.set pre.length _) = _
      rw [hss, list_set_append_cons]
    have hn : st1.fdto.root.node_at [pre.length]
        = some (c.set_prop_val (str "target") (cpu_to_fdt32 m1)) := by
      simp only [Node.node_at, hsub, list_getElem?_append_cons]
    unfold fdt_getprop at hg
    rw [hn] at hg
    cases hp : prop_find (c.set_prop_val (str "target") (cpu_to_fdt32 m1)).props (str "target")
      with
    | none => simp [hp] at hg
    | some v =>
      simp only [hp, Except.ok.injEq] at hg
      rw [hg]

theorem is_unresolved_of_no_overlay (c : Node)
    (h : subnode_index c.subnodes (str "__overlay__") = none) : c.is_unresolved = false := by
  simp [Node.is_unresolved, h]

/-- The loop of `overlay_merge` in merge mode, seen from the overlay: the
fragments before the current one are not touched any more, each fragment with
an unresolved target gets the next phandle written into its `target`, and the
counter ends at its start value plus the number of those fragments. -/
theorem overlay_merge_fragments_targets : ∀ (n : Nat) (st st' : MergeState) (m : Nat)
    (pre suf : List Node),
    st.merge_olay_max_phdl = some m → m < UINT32_MAX →
    st.fdto.root.subnodes = pre ++ suf →
    overlay_merge_fragments n pre.length st = .ok st' →
    ∃ suf', st'.fdto.root.subnodes = pre ++ suf' ∧
      st'.merge_olay_max_phdl = some (m + (suf.take n).countP Node.is_unresolved) ∧
      m + (suf.take n).countP Node.is_unresolved < UINT32_MAX ∧
      ∀ i c, i < n → suf[i]? = some c → c.is_unresolved = true →
        ∃ c', suf'[i]? = some c' ∧
          prop_find c'.props (str "target")
            = some (cpu_to_fdt32 (m + (suf.take i).countP Node.is_unresolved))
  | 0, st, st', m, pre, suf, hm, hlt, hss, h => by
    simp only [overlay_merge_fragments, Except.ok.injEq] at h
    subst h
    exact ⟨suf, hss, by simpa using hm, by simpa using hlt, fun i c hi => absurd hi (by omega)⟩
  | n + 1, st, st', m, pre, suf, hm, hlt, hss, h => by
    cases suf with
    | nil =>
      have hn : st.fdto.root.node_at [pre.length] = none := by
        simp [Node.node_at, hss]
      simp [overlay_merge_fragments, fdt_subnode_offset, hn] at h
    | cons c suf2 =>
      have hck : st.fdto.root.subnodes[pre.length]? = some c := by
        rw [hss]
        exact list_getElem?_append_cons pre suf2 c
      have hn : st.fdto.root.node_at [pre.length] = some c := by
        simp [Node.node_at, hck]
      have hpre : (pre ++ [c]).length = pre.length + 1 := by simp
      -- the rounds that leave the overlay as it is
      have skip : ∀ (s2 : MergeState), s2.fdto = st.fdto → s2.merge_olay_max_phdl = some m →
          c.is_unresolved = false →
          overlay_merge_fragments n (pre.length + 1) s2 = .ok st' →
          ∃ suf', st'.fdto.root.subnodes = pre ++ suf' ∧
            st'.merge_olay_max_phdl
              = some (m + ((c :: suf2).take (n + 1)).countP Node.is_unresolved) ∧
            m + ((c :: suf2).take (n + 1)).countP Node.is_unresolved < UINT32_MAX ∧
            ∀ i c0, i < n + 1 → (c :: suf2)[i]? = some c0 → c0.is_unresolved = true →
              ∃ c', suf'[i]? = some c' ∧
                prop_find c'.props (str "target")
                  = some (cpu_to_fdt32 (m + ((c :: suf2).take i).countP Node.is_unresolved)) := by
        intro s2 hf hm2 hu h2
        have hss2 : s2.fdto.root.subnodes = (pre ++ [c]) ++ suf2 := by
          rw [hf, hss]; simp
        rw [← hpre] at h2
        obtain ⟨suf', h_a, h_b, h_c, h_d⟩ :=
          overlay_merge_fragments_targets n s2 st' m (pre ++ [c]) suf2 hm2 hlt hss2 h2
        refine ⟨c :: suf', by rw [h_a]; simp, ?_, ?_, ?_⟩
        · rw [h_b]; simp [List.take, List.countP_cons, hu]
        · simpa [List.take, List.countP_cons, hu] using h_c
        · intro i c0 hi hc0 hu0
          cases i with
          | zero =>
            simp only [List.getElem?_cons_zero, Option.some.injEq] at hc0
            subst hc0
            rw [hu] at hu0
            cases hu0
          | succ j =>
            simp only [List.getElem?_cons_succ] at hc0
            obtain ⟨c', h1, h2⟩ := h_d j c0 (by omega) hc0 hu0
            exact ⟨c', by simpa using h1, by simpa [List.take, List.countP_cons, hu] using h2⟩
      simp only [overlay_merge_fragments] at h
      rw [fdt_subnode_offset_eq st.fdto [pre.length] _ c hn] at h
      cases hx : subnode_index c.subnodes (str "__overlay__") with
      | none =>
        simp only [hx, if_true] at h
        exact skip st rfl hm (is_unresolved_of_no_overlay c hx) h
      | some x =>
        simp only [hx] at h
        cases ht : overlay_get_target st.fdt st.fdto [pre.length] with
        | ok target =>
          have hu : c.is_unresolved = false := by
            have hne : overlay_get_target_phandle st.fdto [pre.length] ≠ UINT32_MAX := by
              intro hmax
              rw [overlay_get_target_unresolved _ _ _ hmax] at ht
              cases ht
            rw [overlay_get_target_phandle_node _ _ c hck] at hne
            simp [Node.is_unresolved, hne]
          simp only [ht] at h
          cases hov : st.fdto.root.node_at ([pre.length] ++ [x]) with
          | none =>
            rw [hov] at h
            cases h
          | some ov =>
            rw [hov] at h
            dsimp only at h
            cases ha : overlay_apply_node st.fdt target.1 ov with
            | error e =>
              obtain ⟨e1, f1⟩ := e
              simp [ha] at h
            | ok fdt1 =>
              simp only [ha] at h
              exact skip { st with fdt := fdt1 } rfl hm hu h
        | error e =>
          simp only [ht, hm] at h
          by_cases he : e = .BADPHANDLE
          · subst he
            have hu : c.is_unresolved = true := by
              have hmax := overlay_get_target_badphandle _ _ _ ht
              rw [overlay_get_target_phandle_node _ _ c hck] at hmax
              simp [Node.is_unresolved, hx, hmax]
            simp only [ne_eq, not_true_eq_false, or_false, if_false] at h
            cases hcp : copy_fragment_to_base st [pre.length] with
            | error e2 => simp [hcp] at h
            | ok st1 =>
              simp only [hcp] at h
              obtain ⟨c1, h1s, h1p, h1m, h1ne⟩ :=
                copy_fragment_to_base_fdto st st1 m pre suf2 c hm hss hcp
              have hm32 : (m + 1) % 2 ^ 32 = m + 1 := by
                apply Nat.mod_eq_of_lt
                simp only [UINT32_MAX] at hlt
                omega
              rw [hm32] at h1m h1ne
              have hlt1 : m + 1 < UINT32_MAX := by
                simp only [UINT32_MAX] at hlt h1ne ⊢
                omega
              have hss1 : st1.fdto.root.subnodes = (pre ++ [c1]) ++ suf2 := by
                rw [h1s]; simp
              have hpre1 : (pre ++ [c1]).length = pre.length + 1 := by simp
              rw [← hpre1] at h
              obtain ⟨suf', h_a, h_b, h_c, h_d⟩ :=
                overlay_merge_fragments_targets n st1 st' (m + 1) (pre ++ [c1]) suf2 h1m hlt1
                  hss1 h
              refine ⟨c1 :: suf', by rw [h_a]; simp, ?_, ?_, ?_⟩
              · rw [h_b]
                simp only [List.take, List.countP_cons, hu, if_true]
                congr 1
                omega
              · simp only [List.take, List.countP_cons, hu, if_true]
                omega
              · intro i c0 hi hc0 hu0
                cases i with
                | zero => exact ⟨c1, by simp, by simpa using h1p⟩
                | succ j =>
                  simp only [List.getElem?_cons_succ] at hc0
                  obtain ⟨c', h1, h2⟩ := h_d j c0 (by omega) hc0 hu0
                  refine ⟨c', by simpa using h1, ?_⟩
                  rw [h2]
                  simp only [List.take, List.countP_cons, hu, if_true]
                  congr 2
                  omega
          · simp [he] at h

theorem countP_take_lt (p : Node → Bool) : ∀ (l : List Node) (i j : Nat) (c : Node),
    i < j → l[i]? = some c → p c = true → (l.take i).countP p < (l.take j).countP p
  | [], i, j, c, _, h, _ => by simp at h
  | x :: xs, 0, j + 1, c, _, h, hp => by
    simp only [List.getElem?_cons_zero, Option.some.injEq] at h
    subst h
    simp [List.take, List.countP_cons, hp]
  | x :: xs, i + 1, 0, c, hlt, _, _ => by omega
  | x :: xs, i + 1, j + 1, c, hlt, h, hp => by
    simp only [List.getElem?_cons_succ] at h
    have ih := countP_take_lt p xs i j c (by omega) h hp
    simp only [List.take, List.countP_cons]
    omega

/-- A successful `fdt_overlay_merge_tail` went through `overlay_merge` and
left the overlay as that pass left it, magic apart. -/
theorem fdt_overlay_merge_tail_ok (rounds : Nat) (a b : Fdt) (m : Nat) (o : MergeOutcome)
    (h : fdt_overlay_merge_tail rounds a b m = some o) (hr : o.ret = none) :
    ∃ st, overlay_merge a b (some m) = .ok st ∧ o.fdto = fdt_set_magic st.fdto UINT32_MAX := by
  unfold fdt_overlay_merge_tail at h
  cases hm : overlay_merge a b (some m) with
  | error e =>
    simp only [hm, Option.some.injEq] at h
    subst h
    simp [merge_err] at hr
  | ok st =>
    refine ⟨st, rfl, ?_⟩
    simp only [hm] at h
    repeat' first
      | (cases h <;> rfl)
      | split at h

/-- A successful `fdt_overlay_merge` ran its first three passes on the
overlay, then `overlay_merge` with the first free phandle. -/
theorem fdt_overlay_merge_ok_inv (rounds : Nat) (fdt fdto : Fdt) (o : MergeOutcome)
    (h : fdt_overlay_merge rounds fdt fdto = some o) (hr : o.ret = none) :
    ¬ UINT32_MAX - fdt_get_max_phandle fdt < fdt_get_max_phandle fdto ∧
    ∃ fdto1 fdto2 fdto3 st,
      overlay_adjust_local_phandles fdto (fdt_get_max_phandle fdt) = .ok fdto1 ∧
      overlay_update_local_references fdto1 (fdt_get_max_phandle fdt) = .ok fdto2 ∧
      (overlay_fixup_phandles fdt fdto2
          ((fdt_get_max_phandle fdt + fdt_get_max_phandle fdto + 1) % 2 ^ 32) = .ok fdto3 ∨
        overlay_fixup_phandles fdt fdto2
          ((fdt_get_max_phandle fdt + fdt_get_max_phandle fdto + 1) % 2 ^ 32)
          = .error (.NOTFOUND, fdto3)) ∧
      overlay_merge fdt fdto3
        (some ((fdt_get_max_phandle fdt + fdt_get_max_phandle fdto + 1) % 2 ^ 32)) = .ok st ∧
      o.fdto = fdt_set_magic st.fdto UINT32_MAX := by
  by_cases hc : UINT32_MAX - fdt_get_max_phandle fdt < fdt_get_max_phandle fdto
  · simp only [fdt_overlay_merge, hc, if_true, Option.some.injEq] at h
    subst h
    simp at hr
  · refine ⟨hc, ?_⟩
    simp only [fdt_overlay_merge, hc, if_false] at h
    unfold fdt_overlay_merge_passes at h
    cases p1 : overlay_adjust_local_phandles fdto (fdt_get_max_phandle fdt) with
    | error e =>
      simp only [p1, Option.some.injEq] at h
      subst h
      simp [merge_err] at hr
    | ok fdto1 =>
      simp only [p1] at h
      cases p2 : overlay_update_local_references fdto1 (fdt_get_max_phandle fdt) with
      | error e =>
        simp only [p2, Option.some.injEq] at h
        subst h
        simp [merge_err] at hr
      | ok fdto2 =>
        simp only [p2] at h
        cases p3 : overlay_fixup_phandles fdt fdto2
            ((fdt_get_max_phandle fdt + fdt_get_max_phandle fdto + 1) % 2 ^ 32) with
        | error e =>
          obtain ⟨e1, f3⟩ := e
          simp only [p3] at h
          by_cases he : e1 = .NOTFOUND
          · subst he
            simp only [ne_eq, not_true_eq_false, if_false] at h
            obtain ⟨st, h1, h2⟩ := fdt_overlay_merge_tail_ok rounds fdt f3 _ o h hr
            exact ⟨fdto1, fdto2, f3, st, rfl, p2, Or.inr p3, h1, h2⟩
          · simp only [ne_eq, he, not_false_eq_true, if_true, Option.some.injEq] at h
            subst h
            simp [merge_err] at hr
        | ok fdto3 =>
          simp only [p3] at h
          obtain ⟨st, h1, h2⟩ := fdt_overlay_merge_tail_ok rounds fdt fdto3 _ o h hr
          exact ⟨fdto1, fdto2, fdto3, st, rfl, p2, Or.inl p3, h1, h2⟩

/-- The pass `overlay_merge` in merge mode is its loop over the subnodes of
the overlay's root, started with some count of fragments. -/
theorem overlay_merge_ok_loop (fdt fdto : Fdt) (m : Nat) (st : MergeState)
    (h : overlay_merge fdt fdto (some m) = .ok st) :
    ∃ count, overlay_merge_fragments fdto.root.subnodes.length 0
        { fdt := fdt, fdto := fdto, merge_olay_max_phdl := some m,
          base_fragment_count := count } = .ok st := by
  unfold overlay_merge at h
  simp only at h
  cases hc : count_fragments fdt with
  | error e =>
    simp only [hc] at h
    split at h
    · cases h
    · exact ⟨_, h⟩
  | ok c =>
    simp only [hc] at h
    exact ⟨_, h⟩

/-- When the largest phandles of the base and of the overlay add up to less
than `0xFFFFFFFE`, a successful `fdt_overlay_merge` has written
into the `target` of the j-th fragment that `overlay_merge` found with an
`__overlay__` subnode and an unresolved target (counted from 0, in the order of
the overlay) the phandle `max(base) + max(overlay) + 1 + j`.  That value fits
in 32 bits, is not 0 and not `0xFFFFFFFF`, is above every phandle of the base
as it was before the merge and above every phandle of the overlay once
renumbered, and is above the value given to each fragment copied before.
`copy_fragment_to_base` gives the copy it makes in the base a `phandle`
property with the value it writes into the fragment's `target`. -/
theorem fdt_overlay_merge_copied_phandles (rounds : Nat) (fdt fdto : Fdt) (o : MergeOutcome)
    (h : fdt_overlay_merge rounds fdt fdto = some o) (hr : o.ret = none)
    (hs : fdt_get_max_phandle fdt + fdt_get_max_phandle fdto + 1 < UINT32_MAX) :
    (∃ fdto1 fdto2 fdto3,
      overlay_adjust_local_phandles fdto (fdt_get_max_phandle fdt) = .ok fdto1 ∧
      overlay_update_local_references fdto1 (fdt_get_max_phandle fdt) = .ok fdto2 ∧
      (overlay_fixup_phandles fdt fdto2
          (fdt_get_max_phandle fdt + fdt_get_max_phandle fdto + 1) = .ok fdto3 ∨
        overlay_fixup_phandles fdt fdto2
          (fdt_get_max_phandle fdt + fdt_get_max_phandle fdto + 1)
          = .error (.NOTFOUND, fdto3)) ∧
      ∀ j c, fdto3.root.subnodes[j]? = some c → c.is_unresolved = true →
        fdt_getprop o.fdto [j] (str "target")
          = .ok (cpu_to_fdt32 (fdt_get_max_phandle fdt + fdt_get_max_phandle fdto + 1
              + (fdto3.root.subnodes.take j).countP Node.is_unresolved)) ∧
        fdt32_to_cpu (cpu_to_fdt32 (fdt_get_max_phandle fdt + fdt_get_max_phandle fdto + 1
              + (fdto3.root.subnodes.take j).countP Node.is_unresolved))
          = fdt_get_max_phandle fdt + fdt_get_max_phandle fdto + 1
              + (fdto3.root.subnodes.take j).countP Node.is_unresolved ∧
        0 < fdt_get_max_phandle fdt + fdt_get_max_phandle fdto + 1
              + (fdto3.root.subnodes.take j).countP Node.is_unresolved ∧
        fdt_get_max_phandle fdt + fdt_get_max_phandle fdto + 1
              + (fdto3.root.subnodes.take j).countP Node.is_unresolved < UINT32_MAX ∧
        (∀ q, fdt_get_phandle fdt q
          < fdt_get_max_phandle fdt + fdt_get_max_phandle fdto + 1
              + (fdto3.root.subnodes.take j).countP Node.is_unresolved) ∧
        (∀ q, fdt_get_phandle fdto q + fdt_get_max_phandle fdt
          < fdt_get_max_phandle fdt + fdt_get_max_phandle fdto + 1
              + (fdto3.root.subnodes.take j).countP Node.is_unresolved) ∧
        (∀ i d, i < j → fdto3.root.subnodes[i]? = some d → d.is_unresolved = true →
          (fdto3.root.subnodes.take i).countP Node.is_unresolved
            < (fdto3.root.subnodes.take j).countP Node.is_unresolved)) ∧
    (∀ (s s1 : MergeState) (k p : Nat), s.merge_olay_max_phdl = some p →
      copy_fragment_to_base s [k] = .ok s1 →
      ∃ name i, subnode_index s1.fdt.root.subnodes name = some i ∧
        fdt_getprop s1.fdt [i] (str "phandle") = .ok (cpu_to_fdt32 p) ∧
        fdt_getprop s1.fdto [k] (str "target") = .ok (cpu_to_fdt32 p)) := by
  constructor
  · obtain ⟨_, fdto1, fdto2, fdto3, st, p1, p2, p3, hmg, hfd⟩ :=
      fdt_overlay_merge_ok_inv rounds fdt fdto o h hr
    have hm32 : (fdt_get_max_phandle fdt + fdt_get_max_phandle fdto + 1) % 2 ^ 32
        = fdt_get_max_phandle fdt + fdt_get_max_phandle fdto + 1 := by
      apply Nat.mod_eq_of_lt
      simp only [UINT32_MAX] at hs
      omega
    rw [hm32] at p3 hmg
    refine ⟨fdto1, fdto2, fdto3, p1, p2, p3, ?_⟩
    obtain ⟨count, hloop⟩ := overlay_merge_ok_loop fdt fdto3 _ st hmg
    obtain ⟨suf', h_a, _, h_c, h_d⟩ :=
      overlay_merge_fragments_targets fdto3.root.subnodes.length
        { fdt := fdt, fdto := fdto3, merge_olay_max_phdl := some _,
          base_fragment_count := count } st
        (fdt_get_max_phandle fdt + fdt_get_max_phandle fdto + 1) [] fdto3.root.subnodes
        rfl hs rfl hloop
    intro j c hj hu
    have hjl : j < fdto3.root.subnodes.length := by
      rcases List.getElem?_eq_some_iff.1 hj with ⟨hlt, _⟩
      exact hlt
    obtain ⟨c', hc', hp⟩ := h_d j c hjl hj hu
    have hcnt : (fdto3.root.subnodes.take j).countP Node.is_unresolved
        ≤ (fdto3.root.subnodes.take fdto3.root.subnodes.length).countP Node.is_unresolved := by
      rw [List.take_length]
      exact (List.take_sublist j _).countP_le _
    have hb := fdt_get_phandle_le_max
    have hmaxb : ∀ q, fdt_get_phandle fdt q ≤ fdt_get_max_phandle fdt := fun q => by
      simpa [fdt_get_max_phandle, fdt_find_max_phandle] using fdt_get_phandle_le_max fdt q
    have hmaxo : ∀ q, fdt_get_phandle fdto q ≤ fdt_get_max_phandle fdto := fun q => by
      simpa [fdt_get_max_phandle, fdt_find_max_phandle] using fdt_get_phandle_le_max fdto q
    refine ⟨?_, ?_, by omega, by omega, fun q => ?_, fun q => ?_, fun i d hi hd hud => ?_⟩
    · have hn : o.fdto.root.node_at [j] = some c' := by
        rw [hfd]
        simp only [fdt_set_magic, Node.node_at, h_a, List.nil_append, hc']
      simp [fdt_getprop, hn, hp]
    · apply fdt32_to_cpu_cpu_to_fdt32
      simp only [UINT32_MAX] at h_c
      omega
    · have := hmaxb q
      omega
    · have := hmaxo q
      omega
    · exact countP_take_lt _ _ i j d hi hd hud
  · intro s s1 k p hp hcp
    obtain ⟨m1, name0, idx, frag, fdt1, i, h_m, _, _, _, _, _, hx, ha, ht, _⟩ :=
      copy_fragment_to_base_ok s s1 [k] hcp
    have hmm : m1 = p := by
      rw [hp] at h_m
      cases h_m; rfl
    subst hmm
    have hb := fdt_setprop_u32_root_child fdt1 s1.fdt _ _ i m1 hx ha
    exact ⟨_, i, hb.1, hb.2, (fdt_setprop_inplace_u32_getprop _ _ _ _ _ ht).2⟩

/-- An instance of `fdt_overlay_merge_copied_phandles`: `fdt_overlay_merge`
succeeds on `base_soc` and
`overlay_unresolved`, whose largest phandles add up to less than
`0xFFFFFFFE`. -/
theorem fdt_overlay_merge_copied_phandles_witness :
    ∃ o, fdt_overlay_merge 1 base_soc overlay_unresolved = some o ∧ o.ret = none ∧
      fdt_get_max_phandle base_soc + fdt_get_max_phandle overlay_unresolved + 1 < UINT32_MAX ∧
      ((∃ fdto1 fdto2 fdto3,
        overlay_adjust_local_phandles overlay_unresolved (fdt_get_max_phandle base_soc)
          = .ok fdto1 ∧
        overlay_update_local_references fdto1 (fdt_get_max_phandle base_soc) = .ok fdto2 ∧
        (overlay_fixup_phandles base_soc fdto2
            (fdt_get_max_phandle base_soc + fdt_get_max_phandle overlay_unresolved + 1)
            = .ok fdto3 ∨
          overlay_fixup_phandles base_soc fdto2
            (fdt_get_max_phandle base_soc + fdt_get_max_phandle overlay_unresolved + 1)
            = .error (.NOTFOUND, fdto3)) ∧
        ∀ j c, fdto3.root.subnodes[j]? = some c → c.is_unresolved = true →
          fdt_getprop o.fdto [j] (str "target")
            = .ok (cpu_to_fdt32
              (fdt_get_max_phandle base_soc
                + fdt_get_max_phandle overlay_unresolved + 1
                + (fdto3.root.subnodes.take j).countP Node.is_unresolved)) ∧
          fdt32_to_cpu (cpu_to_fdt32
              (fdt_get_max_phandle base_soc
                + fdt_get_max_phandle overlay_unresolved + 1
                + (fdto3.root.subnodes.take j).countP Node.is_unresolved))
            = fdt_get_max_phandle base_soc
                + fdt_get_max_phandle overlay_unresolved + 1
                + (fdto3.root.subnodes.take j).countP Node.is_unresolved ∧
          0 < fdt_get_max_phandle base_soc
                + fdt_get_max_phandle overlay_unresolved + 1
                + (fdto3.root.subnodes.take j).countP Node.is_unresolved ∧
          fdt_get_max_phandle base_soc
                + fdt_get_max_phandle overlay_unresolved + 1
                + (fdto3.root.subnodes.take j).countP Node.is_unresolved < UINT32_MAX ∧
          (∀ q, fdt_get_phandle base_soc q
            < fdt_get_max_phandle base_soc
                + fdt_get_max_phandle overlay_unresolved + 1
                + (fdto3.root.subnodes.take j).countP Node.is_unresolved) ∧
          (∀ q, fdt_get_phandle overlay_unresolved q + fdt_get_max_phandle base_soc
            < fdt_get_max_phandle base_soc
                + fdt_get_max_phandle overlay_unresolved + 1
                + (fdto3.root.subnodes.take j).countP Node.is_unresolved) ∧
          (∀ i d, i < j → fdto3.root.subnodes[i]? = some d → d.is_unresolved = true →
            (fdto3.root.subnodes.take i).countP Node.is_unresolved
              < (fdto3.root.subnodes.take j).countP Node.is_unresolved)) ∧
      (∀ (s s1 : MergeState) (k p : Nat), s.merge_olay_max_phdl = some p →
        copy_fragment_to_base s [k] = .ok s1 →
        ∃ name i, subnode_index s1.fdt.root.subnodes name = some i ∧
          fdt_getprop s1.fdt [i] (str "phandle") = .ok (cpu_to_fdt32 p) ∧
          fdt_getprop s1.fdto [k] (str "target") = .ok (cpu_to_fdt32 p))) :=
  ⟨_, rfl, rfl, by decide,
    fdt_overlay_merge_copied_phandles 1 base_soc overlay_unresolved _ rfl rfl (by decide)⟩

/-- C30 (code defect): the check of `fdt_overlay_merge` on the two largest
phandles misses the `+ 1` of the first free phandle, which wraps to 0.  The
largest phandle of `base_max_phandle` is `0xFFFFFFFF` and `overlay_unresolved`
has none; `fdt_overlay_merge` succeeds
and the phandle it gives to the copy of the fragment, in the `phandle` of the
copy and in the `target` of the fragment, is 0, which is not above the phandle
`0xFFFFFFFF` of the node `n` of the base. -/
theorem fdt_overlay_merge_copied_phandles_counter :
    fdt_get_phandle base_max_phandle [0] = 0xFFFFFFFF ∧
    (fdt_overlay_merge 1 base_max_phandle overlay_unresolved).map
        (fun o => (o.ret, o.fdt.root.subnodes.map Node.name,
          fdt32_to_cpu (peek_prop o.fdt [0] (str "phandle")),
          fdt32_to_cpu (peek_prop o.fdto [0] (str "target"))))
      = some (none, [str "fragment@1", str "n"], 0, 0) :=
  ⟨by decide, by decide⟩

/-! ### `copy_node` -/

theorem prop_find_copy_props_other : ∀ (ps tps : List Property) (name : Bytes),
    name ∉ ps.map Property.name → prop_find (copy_props tps ps) name = prop_find tps name
  | [], tps, name, _ => rfl
  | p :: ps, tps, name, h => by
    simp only [List.map_cons, List.mem_cons, not_or] at h
    simp only [copy_props]
    rw [prop_find_copy_props_other ps _ name h.2, prop_find_set_or_add,
      if_neg (fun e => h.1 e.symm)]

theorem prop_find_copy_props_mem : ∀ (ps tps : List Property) (p : Property),
    (ps.map Property.name).Nodup → p ∈ ps →
    prop_find (copy_props tps ps) p.name = some ((prop_find tps p.name).getD [] ++ p.val)
  | [], tps, p, _, h => by simp at h
  | q :: ps, tps, p, hnd, h => by
    simp only [List.map_cons, List.nodup_cons] at hnd
    simp only [copy_props]
    rcases List.mem_cons.1 h with h | h
    · subst h
      rw [prop_find_copy_props_other ps _ p.name hnd.1, prop_find_set_or_add]
      simp
    · have hne : q.name ≠ p.name := by
        intro e
        apply hnd.1
        rw [e]
        exact List.mem_map_of_mem _ h
      rw [prop_find_copy_props_mem ps _ p hnd.2 h, prop_find_set_or_add]
      simp [hne]

theorem copied_name : ∀ (t ov : Node), (t.copied ov).name = t.name
  | t, .mk _ _ _ => by simp [Node.copied, Node.name]

theorem find_child_cons (x : Node) (ss : List Node) (name : Bytes) :
    find_child (x :: ss) name = if x.name = name then some x else find_child ss name := by
  unfold find_child
  by_cases h : x.name = name
  · simp [subnode_index, h]
  · simp only [subnode_index, h, if_false]
    cases hs : subnode_index ss name <;> simp

theorem find_child_set (ss : List Node) (j : Nat) (t x : Node) (name : Bytes)
    (hj : subnode_index ss t.name = some j) (ht : ss[j]? = some t) (hx : x.name = t.name) :
    find_child (ss.set j x) name = if t.name = name then some x else find_child ss name := by
  unfold find_child
  rw [subnode_index_set ss j t x name ht hx]
  have hlt : j < ss.length := by
    rcases List.getElem?_eq_some_iff.1 ht with ⟨hlt, _⟩
    exact hlt
  by_cases h : t.name = name
  · subst h
    simp [hj, hlt]
  · simp only [h, if_false]
    cases hs : subnode_index ss name with
    | none => rfl
    | some i =>
      obtain ⟨c, hc, hcn⟩ := subnode_index_some ss name i hs
      have hij : j ≠ i := by
        intro e
        subst e
        rw [ht] at hc
        cases hc
        exact h hcn
      simp [List.getElem?_set_ne hij]

theorem find_child_copied_subnodes_other : ∀ (cs tss : List Node) (name : Bytes),
    name ∉ cs.map Node.name →
    find_child (Node.copied_subnodes tss cs) name = find_child tss name
  | [], tss, name, _ => by simp [Node.copied_subnodes]
  | c :: cs, tss, name, h => by
    simp only [List.map_cons, List.mem_cons, not_or] at h
    simp only [Node.copied_subnodes]
    cases hs : subnode_index tss c.name with
    | none =>
      simp only []
      rw [find_child_copied_subnodes_other cs _ name h.2, find_child_cons, copied_name,
        Node.name_mk, if_neg (fun e => h.1 e.symm)]
    | some j =>
      obtain ⟨t, ht, htn⟩ := subnode_index_some tss c.name j hs
      simp only [ht]
      rw [find_child_copied_subnodes_other cs _ name h.2,
        find_child_set tss j t _ name (by rw [htn]; exact hs) ht (copied_name t c)]
      have hne : t.name ≠ name := by
        rw [htn]
        exact fun e => h.1 e.symm
      simp [hne]

theorem find_child_copied_subnodes_mem : ∀ (cs tss : List Node) (c : Node),
    (cs.map Node.name).Nodup → c ∈ cs →
    find_child (Node.copied_subnodes tss cs) c.name = some ((old_child tss c.name).copied c)
  | [], tss, c, _, h => by simp at h
  | c0 :: cs, tss, c, hnd, h => by
    simp only [List.map_cons, List.nodup_cons] at hnd
    simp only [Node.copied_subnodes]
    cases hs : subnode_index tss c0.name with
    | none =>
      simp only []
      rcases List.mem_cons.1 h with h | h
      · subst h
        rw [find_child_copied_subnodes_other cs _ c.name hnd.1, find_child_cons, copied_name,
          Node.name_mk, if_pos rfl]
        simp [old_child, find_child, hs]
      · have hne : c0.name ≠ c.name := by
          intro e
          apply hnd.1
          rw [e]
          exact List.mem_map_of_mem _ h
        rw [find_child_copied_subnodes_mem cs _ c hnd.2 h]
        simp only [old_child]
        rw [find_child_cons, copied_name, Node.name_mk, if_neg hne]
    | some j =>
      obtain ⟨t, ht, htn⟩ := subnode_index_some tss c0.name j hs
      simp only [ht]
      have hset := fun name => find_child_set tss j t (t.copied c0) name
        (by rw [htn]; exact hs) ht (copied_name t c0)
      rcases List.mem_cons.1 h with h | h
      · subst h
        rw [find_child_copied_subnodes_other cs _ c.name hnd.1, hset, if_pos htn]
        simp [old_child, find_child, hs, ht]
      · have hne : t.name ≠ c.name := by
          rw [htn]
          intro e
          apply hnd.1
          rw [e]
          exact List.mem_map_of_mem _ h
        rw [find_child_copied_subnodes_mem cs _ c hnd.2 h]
        simp only [old_child]
        rw [hset, if_neg hne]

theorem holds_copy_list_of (old res : Node) : ∀ (cs : List Node),
    (∀ c ∈ cs, ∃ r, find_child res.subnodes c.name = some r ∧
      Node.holds_copy (old_child old.subnodes c.name) c r = true) →
    Node.holds_copy_list old cs res = true
  | [], _ => by simp [Node.holds_copy_list]
  | c :: cs, h => by
    obtain ⟨r, hr, hc⟩ := h c (by simp)
    simp only [Node.holds_copy_list, hr, hc, Bool.true_and]
    exact holds_copy_list_of old res cs (fun x hx => h x (by simp [hx]))

theorem unique_names_list_mem : ∀ (cs : List Node) (c : Node),
    Node.unique_names_list cs = true → c ∈ cs → c.unique_names = true
  | [], c, _, h => by simp at h
  | x :: cs, c, hu, h => by
    simp only [Node.unique_names_list, Bool.and_eq_true] at hu
    rcases List.mem_cons.1 h with h | h
    · subst h; exact hu.1
    · exact unique_names_list_mem cs c hu.2 h

mutual
/-- The result of `Node.copied` holds a copy of the overlay node on top of the
destination, when no name occurs twice in the overlay node. -/
theorem holds_copy_copied : ∀ (ov t : Node), ov.unique_names = true →
    Node.holds_copy t ov (t.copied ov) = true
  | .mk onm ps ss, t, hu => by
    simp only [Node.unique_names, Bool.and_eq_true, decide_eq_true_eq] at hu
    simp only [Node.holds_copy, Node.copied, Bool.and_eq_true, List.all_eq_true,
      decide_eq_true_eq, Node.props_mk]
    refine ⟨fun p hp => prop_find_copy_props_mem ps t.props p hu.1.1 hp, ?_⟩
    apply holds_copy_list_of
    intro c hc
    refine ⟨_, ?_, holds_copy_copied_list ss c hu.2 hc (old_child t.subnodes c.name)⟩
    simp only [Node.subnodes_mk]
    exact find_child_copied_subnodes_mem ss t.subnodes c hu.1.2 hc
theorem holds_copy_copied_list : ∀ (cs : List Node) (c : Node),
    Node.unique_names_list cs = true → c ∈ cs → ∀ t : Node,
    Node.holds_copy t c (t.copied c) = true
  | [], c, _, h => by simp at h
  | x :: cs, c, hu, h => by
    simp only [Node.unique_names_list, Bool.and_eq_true] at hu
    by_cases hx : c = x
    · subst hx
      exact fun t => holds_copy_copied c t hu.1
    · have hm : c ∈ cs := by
        rcases List.mem_cons.1 h with h | h
        · exact absurd h hx
        · exact h
      exact holds_copy_copied_list cs c hu.2 hm
end

theorem prop_find_placeholder_props_same (tps : List Property) (name : Bytes) (len : Nat) :
    prop_find (placeholder_props tps name len) name
      = some (resize_val ((prop_find tps name).getD []) len) := by
  unfold placeholder_props
  cases hp : prop_find tps name with
  | some old =>
    simp only [Option.getD_some]
    exact prop_find_prop_set_same tps name _ (by simp [hp])
  | none => simp [prop_find, resize_val]

/-- One round of the property loop of `copy_node`. -/
theorem copy_node_props_step (fdt f1 : Fdt) (target : Offset) (nm : Bytes)
    (tps : List Property) (tsubs : List Node) (p : Property)
    (hn : fdt.root.node_at target = some (.mk nm tps tsubs))
    (h : fdt_setprop_placeholder fdt target p.name
      (p.val.length + ((prop_find tps p.name).getD []).length) = .ok f1) :
    (fdt_write_prop f1 target p.name
        (write_at (peek_prop f1 target p.name) ((prop_find tps p.name).getD []).length
          p.val)).root
      = fdt.root.update_at target (fun _ =>
          .mk nm (set_or_add tps p.name ((prop_find tps p.name).getD [] ++ p.val)) tsubs) := by
  obtain ⟨hr1, _⟩ := fdt_setprop_placeholder_refines fdt f1 target p.name _ _ hn h
  simp only [Node.name_mk, Node.props_mk, Node.subnodes_mk] at hr1
  have hn1 : f1.root.node_at target
      = some (.mk nm (placeholder_props tps p.name
          (p.val.length + ((prop_find tps p.name).getD []).length)) tsubs) := by
    rw [hr1]; exact node_at_update_at_same _ target fdt.root _ hn
  have hg : fdt_getprop f1 target p.name
      = .ok (resize_val ((prop_find tps p.name).getD [])
          (p.val.length + ((prop_find tps p.name).getD []).length)) := by
    rw [fdt_getprop_eq f1 target p.name _ hn1]
    simp only [Node.props_mk, prop_find_placeholder_props_same]
  have hw : write_at (peek_prop f1 target p.name) ((prop_find tps p.name).getD []).length p.val
      = (prop_find tps p.name).getD [] ++ p.val := by
    rw [peek_prop_of_getprop _ _ _ _ hg]
    generalize (prop_find tps p.name).getD [] = old
    have hres : resize_val old (p.val.length + old.length)
        = old ++ List.replicate p.val.length 0 := by
      simp [resize_val]
    rw [hres]
    have := write_at_append_right old (List.replicate p.val.length 0) 0 p.val
    simp only [Nat.add_zero] at this
    rw [this, write_at_zero_full _ _ (by simp)]
  rw [hw]
  obtain ⟨hr2, _⟩ := fdt_write_prop_refines f1 target p.name
    ((prop_find tps p.name).getD [] ++ p.val) _ hn1
  rw [hr2, hr1, update_at_update_at_same_const]
  simp only [Node.name_mk, Node.props_mk, Node.subnodes_mk, prop_set_placeholder_props]

/-- The property loop of `copy_node` computes `copy_props`. -/
theorem copy_node_props_refines :
    ∀ (ps : List Property) (fdt fdt1 : Fdt) (target : Offset) (nm : Bytes)
      (tps : List Property) (tsubs : List Node),
      fdt.root.node_at target = some (.mk nm tps tsubs) →
      copy_node_props target ps fdt = .ok fdt1 →
      fdt1.root = fdt.root.update_at target (fun _ => .mk nm (copy_props tps ps) tsubs)
  | [], fdt, fdt1, target, nm, tps, tsubs, hn, h => by
    simp only [copy_node_props, Except.ok.injEq] at h
    subst h
    simp only [copy_props]
    rw [update_at_congr (fun _ => Node.mk nm tps tsubs) (fun m => m) target fdt.root _ hn rfl,
      update_at_id]
  | p :: ps, fdt, fdt1, target, nm, tps, tsubs, hn, h => by
    simp only [copy_node_props] at h
    rw [fdt_getprop_eq fdt target p.name _ hn] at h
    simp only [Node.props_mk] at h
    have key : ∀ f1, fdt_setprop_placeholder fdt target p.name
          (p.val.length + ((prop_find tps p.name).getD []).length) = .ok f1 →
        copy_node_props target ps (fdt_write_prop f1 target p.name
          (write_at (peek_prop f1 target p.name) ((prop_find tps p.name).getD []).length
            p.val)) = .ok fdt1 →
        fdt1.root = fdt.root.update_at target
          (fun _ => .mk nm (copy_props tps (p :: ps)) tsubs) := by
      intro f1 hpl hrest
      have hstep := copy_node_props_step fdt f1 target nm tps tsubs p hn hpl
      have hn1 : (fdt_write_prop f1 target p.name
          (write_at (peek_prop f1 target p.name) ((prop_find tps p.name).getD []).length
            p.val)).root.node_at target
          = some (.mk nm (set_or_add tps p.name ((prop_find tps p.name).getD [] ++ p.val))
              tsubs) := by
        rw [hstep]; exact node_at_update_at_same _ target fdt.root _ hn
      have ih := copy_node_props_refines ps _ fdt1 target nm _ tsubs hn1 hrest
      rw [ih, hstep, update_at_update_at_same_const]
      simp only [copy_props]
    cases hp : prop_find tps p.name with
    | some old =>
      simp only [hp] at h
      cases hpl : fdt_setprop_placeholder fdt target p.name (p.val.length + old.length) with
      | error e => simp [hpl] at h
      | ok f1 =>
        simp only [hpl] at h
        apply key f1
        · simpa [hp] using hpl
        · simpa [hp] using h
    | none =>
      simp only [hp] at h
      cases hpl : fdt_setprop_placeholder fdt target p.name p.val.length with
      | error e => simp [hpl] at h
      | ok f1 =>
        simp only [hpl] at h
        apply key f1
        · simpa [hp] using hpl
        · simpa [hp] using h

/-- The two ways in which `copy_node` finds the node to copy into: the subnode
of that name, or a new one. -/
theorem copy_node_child_cases (fdt f1 : Fdt) (target : Offset) (name : Option Bytes)
    (c : Node) (nm : Bytes) (ps : List Property) (tsubs : List Node)
    (hn : fdt.root.node_at target = some (.mk nm ps tsubs))
    (h : copy_node fdt target name false c = .ok f1) :
    (∃ j tc, subnode_index tsubs (name.getD c.name) = some j ∧ tsubs[j]? = some tc ∧
      copy_node fdt (target ++ [j]) name true c = .ok f1) ∨
    (∃ f0, subnode_index tsubs (name.getD c.name) = none ∧
      f0.root = fdt.root.update_at target
        (fun _ => .mk nm ps (.mk (name.getD c.name) [] [] :: tsubs)) ∧
      copy_node f0 (target ++ [0]) name true c = .ok f1) := by
  cases c with
  | mk own props subs =>
    simp only [copy_node, Bool.false_eq_true, if_false] at h
    rw [fdt_subnode_offset_eq fdt target _ _ hn] at h
    simp only [Node.subnodes_mk] at h
    simp only [Node.name_mk]
    cases hs : subnode_index tsubs (name.getD own) with
    | some j =>
      obtain ⟨tc, htc, _⟩ := subnode_index_some tsubs _ j hs
      simp only [hs] at h
      refine Or.inl ⟨j, tc, rfl, htc, ?_⟩
      simp only [copy_node, if_true]
      exact h
    | none =>
      simp only [hs] at h
      cases ha : fdt_add_subnode fdt target (name.getD own) with
      | error e => simp [ha] at h
      | ok r =>
        obtain ⟨f0, nnode⟩ := r
        simp only [ha] at h
        obtain ⟨_, hnn, hr0, _⟩ := fdt_add_subnode_refines fdt f0 target nnode _ nm ps tsubs hn ha
        subst hnn
        refine Or.inr ⟨f0, rfl, hr0, ?_⟩
        simp only [copy_node, if_true]
        exact h

mutual
/-- The function `copy_node` with `skip_fdto_child` computes `Node.copied` on
the node it copies into. -/
theorem copy_node_skip_refines :
    ∀ (ov : Node) (fdt fdt1 : Fdt) (target : Offset) (name : Option Bytes) (t : Node),
      fdt.root.node_at target = some t →
      copy_node fdt target name true ov = .ok fdt1 →
      fdt1.root = fdt.root.update_at target (fun _ => t.copied ov)
  | .mk onm props subs, fdt, fdt1, target, name, t, hn, h => by
    simp only [copy_node, if_true] at h
    cases h1 : copy_node_props target props fdt with
    | error e => simp [h1] at h
    | ok f1 =>
      simp only [h1] at h
      have hn0 : fdt.root.node_at target = some (.mk t.name t.props t.subnodes) := by
        rw [node_mk_eta]; exact hn
      have hr1 := copy_node_props_refines props fdt f1 target _ _ _ hn0 h1
      have hn1 : f1.root.node_at target
          = some (.mk t.name (copy_props t.props props) t.subnodes) := by
        rw [hr1]; exact node_at_update_at_same _ target fdt.root _ hn
      have hr2 := copy_node_subnodes_refines subs f1 fdt1 target _ _ _ hn1 h
      rw [hr2, hr1, update_at_update_at_same_const]
      simp only [Node.copied]
/-- The subnode loop of `copy_node` computes `Node.copied_subnodes`. -/
theorem copy_node_subnodes_refines :
    ∀ (cs : List Node) (fdt fdt1 : Fdt) (target : Offset) (nm : Bytes) (ps : List Property)
      (tsubs : List Node),
      fdt.root.node_at target = some (.mk nm ps tsubs) →
      copy_node_subnodes fdt target cs = .ok fdt1 →
      fdt1.root = fdt.root.update_at target
          (fun _ => .mk nm ps (Node.copied_subnodes tsubs cs))
  | [], fdt, fdt1, target, nm, ps, tsubs, hn, h => by
    simp only [copy_node_subnodes, Except.ok.injEq] at h
    subst h
    simp only [Node.copied_subnodes]
    rw [update_at_congr (fun _ => Node.mk nm ps tsubs) (fun m => m) target fdt.root _ hn rfl,
      update_at_id]
  | c :: cs, fdt, fdt1, target, nm, ps, tsubs, hn, h => by
    simp only [copy_node_subnodes] at h
    cases h1 : copy_node fdt target none false c with
    | error e => simp [h1] at h
    | ok f1 =>
      simp only [h1] at h
      rcases copy_node_child_cases fdt f1 target none c nm ps tsubs hn h1 with
        ⟨j, tc, hj, htc, hc⟩ | ⟨f0, hj, hr0, hc⟩
      · simp only [Option.getD_none] at hj
        have hnc : fdt.root.node_at (target ++ [j]) = some tc :=
          node_at_child_idx fdt.root target nm ps tsubs j tc hn htc
        have hr1 := copy_node_skip_refines c fdt f1 (target ++ [j]) none tc hnc hc
        have hn1 : f1.root.node_at target = some (.mk nm ps (tsubs.set j (tc.copied c))) := by
          rw [hr1]
          exact update_at_child_idx fdt.root target nm ps tsubs j tc _ hn htc
        have hr2 := copy_node_subnodes_refines cs f1 fdt1 target nm ps _ hn1 h
        rw [hr2, hr1, update_at_update_at_const]
        simp only [Node.copied_subnodes, hj, htc]
      · simp only [Option.getD_none] at hj hr0 hc
        have hn0 : f0.root.node_at target = some (.mk nm ps (.mk c.name [] [] :: tsubs)) := by
          rw [hr0]; exact node_at_update_at_same _ target fdt.root _ hn
        have hnc : f0.root.node_at (target ++ [0]) = some (.mk c.name [] []) :=
          node_at_child_idx f0.root target nm ps _ 0 _ hn0 (by simp)
        have hr1 := copy_node_skip_refines c f0 f1 (target ++ [0]) none _ hnc hc
        have hn1 : f1.root.node_at target
            = some (.mk nm ps ((Node.mk c.name [] []).copied c :: tsubs)) := by
          rw [hr1]
          have := update_at_child_idx f0.root target nm ps _ 0 (Node.mk c.name [] [])
            ((Node.mk c.name [] []).copied c) hn0 (by simp)
          simpa using this
        have hr2 := copy_node_subnodes_refines cs f1 fdt1 target nm ps _ hn1 h
        rw [hr2, hr1, update_at_update_at_const, hr0, update_at_update_at_same_const]
        simp only [Node.copied_subnodes, hj]
end

/-- C27 (as amended): after `copy_node(fdt, fdto, parent, child, name, 0)`
succeeds on an overlay node in which no node has two properties or two
subnodes of the same name, the base node named `name` (the overlay node's own
name when `name` is null) under `parent` exists, and each property of the
overlay node and of each of its descendants has, in the corresponding base
node, the value that base node had under that name before the call (nothing
when it had no such property or did not exist) followed by the value it has in
the overlay.  When the destination node did not exist before the call, that is
exactly the overlay's value. -/
theorem copy_node_values (fdt fdt1 : Fdt) (parent : Offset) (name : Option Bytes)
    (ov pn : Node) (hp : fdt.root.node_at parent = some pn) (hu : ov.unique_names = true)
    (h : copy_node fdt parent name false ov = .ok fdt1) :
    ∃ pn1 i r, fdt1.root.node_at parent = some pn1 ∧
      fdt_subnode_offset fdt1 parent (name.getD ov.name) = .ok (parent ++ [i]) ∧
      fdt1.root.node_at (parent ++ [i]) = some r ∧
      find_child pn1.subnodes (name.getD ov.name) = some r ∧
      r = (old_child pn.subnodes (name.getD ov.name)).copied ov ∧
      Node.holds_copy (old_child pn.subnodes (name.getD ov.name)) ov r = true ∧
      (find_child pn.subnodes (name.getD ov.name) = none →
        Node.holds_copy (.mk (name.getD ov.name) [] []) ov r = true) := by
  have hn : fdt.root.node_at parent = some (.mk pn.name pn.props pn.subnodes) := by
    rw [node_mk_eta]; exact hp
  have fin : ∀ (pn1 r : Node) (i : Nat), fdt1.root.node_at parent = some pn1 →
      subnode_index pn1.subnodes (name.getD ov.name) = some i → pn1.subnodes[i]? = some r →
      r = (old_child pn.subnodes (name.getD ov.name)).copied ov →
      ∃ pn1 i r, fdt1.root.node_at parent = some pn1 ∧
        fdt_subnode_offset fdt1 parent (name.getD ov.name) = .ok (parent ++ [i]) ∧
        fdt1.root.node_at (parent ++ [i]) = some r ∧
        find_child pn1.subnodes (name.getD ov.name) = some r ∧
        r = (old_child pn.subnodes (name.getD ov.name)).copied ov ∧
        Node.holds_copy (old_child pn.subnodes (name.getD ov.name)) ov r = true ∧
        (find_child pn.subnodes (name.getD ov.name) = none →
          Node.holds_copy (.mk (name.getD ov.name) [] []) ov r = true) := by
    intro pn1 r i h1 h2 h3 h4
    have hn1 : fdt1.root.node_at parent = some (.mk pn1.name pn1.props pn1.subnodes) := by
      rw [node_mk_eta]; exact h1
    have hc := holds_copy_copied ov (old_child pn.subnodes (name.getD ov.name)) hu
    refine ⟨pn1, i, r, h1, ?_, node_at_child_idx _ _ _ _ _ i r hn1 h3, ?_, h4, ?_, ?_⟩
    · rw [fdt_subnode_offset_eq fdt1 parent _ pn1 h1, h2]
    · simp [find_child, h2, h3]
    · rw [h4]; exact hc
    · intro hnone
      rw [h4]
      have : old_child pn.subnodes (name.getD ov.name) = .mk (name.getD ov.name) [] [] := by
        simp [old_child, hnone]
      rw [this] at hc ⊢
      exact hc
  rcases copy_node_child_cases fdt fdt1 parent name ov _ _ _ hn h with
    ⟨j, tc, hj, htc, hc⟩ | ⟨f0, hj, hr0, hc⟩
  · have hnc : fdt.root.node_at (parent ++ [j]) = some tc :=
      node_at_child_idx fdt.root parent _ _ _ j tc hn htc
    have hr1 := copy_node_skip_refines ov fdt fdt1 (parent ++ [j]) name tc hnc hc
    have hn1 : fdt1.root.node_at parent
        = some (.mk pn.name pn.props (pn.subnodes.set j (tc.copied ov))) := by
      rw [hr1]
      exact update_at_child_idx fdt.root parent _ _ _ j tc _ hn htc
    have hlt : j < pn.subnodes.length := by
      rcases List.getElem?_eq_some_iff.1 htc with ⟨hlt, _⟩
      exact hlt
    refine fin _ (tc.copied ov) j hn1 ?_ ?_ ?_
    · simp only [Node.subnodes_mk]
      rw [subnode_index_set pn.subnodes j tc _ _ htc (copied_name tc ov), hj]
    · simp [hlt]
    · simp [old_child, find_child, hj, htc]
  · have hn0 : f0.root.node_at parent
        = some (.mk pn.name pn.props (.mk (name.getD ov.name) [] [] :: pn.subnodes)) := by
      rw [hr0]; exact node_at_update_at_same _ parent fdt.root _ hn
    have hnc : f0.root.node_at (parent ++ [0]) = some (.mk (name.getD ov.name) [] []) :=
      node_at_child_idx f0.root parent _ _ _ 0 _ hn0 (by simp)
    have hr1 := copy_node_skip_refines ov f0 fdt1 (parent ++ [0]) name _ hnc hc
    have hn1 : fdt1.root.node_at parent
        = some (.mk pn.name pn.props
            ((Node.mk (name.getD ov.name) [] []).copied ov :: pn.subnodes)) := by
      rw [hr1]
      have := update_at_child_idx f0.root parent _ _ _ 0 (Node.mk (name.getD ov.name) [] [])
        ((Node.mk (name.getD ov.name) [] []).copied ov) hn0 (by simp)
      simpa using this
    refine fin _ ((Node.mk (name.getD ov.name) [] []).copied ov) 0 hn1 ?_ ?_ ?_
    · simp [subnode_index, copied_name]
    · simp
    · simp [old_child, find_child, hj]

/-- C27, witness: the root of `base_soc` has no subnode `node`; `copy_node`
creates it and copies the overlay node `node_p8` into it, with the values of
the overlay. -/
theorem copy_node_values_witness :
    base_soc.root.node_at [] = some base_soc.root ∧ node_p8.unique_names = true ∧
    find_child base_soc.root.subnodes (str "node") = none ∧
    ∃ fdt1, copy_node base_soc [] none false node_p8 = .ok fdt1 ∧
      peek_prop fdt1 [0] (str "p") = [8] ∧ peek_prop fdt1 [0, 0] (str "q") = [3] ∧
      ∃ pn1 i r, fdt1.root.node_at [] = some pn1 ∧
        fdt_subnode_offset fdt1 [] ((none : Option Bytes).getD node_p8.name)
          = .ok ([] ++ [i]) ∧
        fdt1.root.node_at ([] ++ [i]) = some r ∧
        find_child pn1.subnodes ((none : Option Bytes).getD node_p8.name) = some r ∧
        r = (old_child base_soc.root.subnodes
              ((none : Option Bytes).getD node_p8.name)).copied node_p8 ∧
        Node.holds_copy (old_child base_soc.root.subnodes
            ((none : Option Bytes).getD node_p8.name)) node_p8 r = true ∧
        (find_child base_soc.root.subnodes ((none : Option Bytes).getD node_p8.name) = none →
          Node.holds_copy (.mk ((none : Option Bytes).getD node_p8.name) [] []) node_p8 r
            = true) :=
  ⟨rfl, by decide, rfl, _, rfl, by decide, by decide,
    copy_node_values base_soc _ [] none node_p8 base_soc.root rfl (by decide) rfl⟩

/-- C27, counterexample: the node `/soc/node` of `base_soc` has the property
`p` with the value `[1, 2]`; after `copy_node` copied `node_p8`, whose `p` is
`[8]`, under `/soc`, the value of `p` in `/soc/node` is `[1, 2, 8]`, not the
value `[8]` it has in the overlay. -/
theorem copy_node_values_counter :
    peek_prop base_soc [0, 0] (str "p") = [1, 2] ∧
    prop_find node_p8.props (str "p") = some [8] ∧
    (copy_node base_soc [0] none false node_p8).toOption.map
        (fun f => ((fdt_get_name f [0, 0]).toOption, peek_prop f [0, 0] (str "p")))
      = some (some (str "node"), [1, 2, 8]) :=
  ⟨by decide, by decide, by decide⟩

/-! ### The relative path of a symbol in merge mode -/

/-- In `overlay_symbol_write` the variable `rel_path_olay` only selects the
relative path that is written and is handed on: without an earlier
`rel_path_olay` the relative path is the symbol's own. -/
theorem overlay_symbol_write_no_olay (fdt fdto : Fdt) (root_sym : Offset) (m : Nat)
    (name frag rel0 : Bytes) :
    overlay_symbol_write fdt fdto root_sym m name frag rel0 none
      = overlay_symbol_write fdt fdto root_sym 0 name frag rel0 none := by
  unfold overlay_symbol_write
  rfl

theorem overlay_symbol_write_some_olay (fdt fdto : Fdt) (root_sym : Offset) (m : Nat)
    (name frag rel0 o : Bytes) (fragment : Offset)
    (hf : fdt_subnode_offset fdto [] frag = .ok fragment) :
    overlay_symbol_write fdt fdto root_sym m name frag rel0 (some o)
      = (overlay_symbol_write fdt fdto root_sym 0 name frag
          (if overlay_get_target_phandle fdto fragment < m then rel0 else o) none).set_olay
          (some o) := by
  unfold overlay_symbol_write
  simp only [hf]
  cases h1 : fdt_subnode_offset fdto fragment (str "__overlay__") with
  | error e => rfl
  | ok ov =>
    simp only []
    cases h2 : overlay_get_target fdt fdto fragment with
    | error e => rfl
    | ok tgt =>
      simp only []
      generalize (if overlay_get_target_phandle fdto fragment < m then rel0 else o) = rel
      repeat' split
      all_goals rfl

/-- A symbol of the form `/<frag>/__overlay__/<rel>`: the round of the loop is
`overlay_symbol_write` with the relative path `<rel>`, and in merge mode with
`__overlay__/<rel>` as `rel_path_olay`, whatever that variable held. -/
theorem overlay_symbol_step_long (fdt fdto : Fdt) (ov_sym root_sym : Offset) (m prop : Nat)
    (sym : Property) (frag rel : Bytes) (olay : Option Bytes)
    (hsym : fdt_getprop_by_offset fdto ov_sym prop = .ok sym)
    (hval : sym.val = [47] ++ frag ++ str "/__overlay__/" ++ rel ++ [0])
    (hfrag : ∀ b ∈ frag, b ≠ 47 ∧ b ≠ 0) (hrel : ∀ b ∈ rel, b ≠ 0) :
    overlay_symbol_step fdt fdto ov_sym root_sym m prop olay
      = overlay_symbol_write fdt fdto root_sym m sym.name frag rel
          (if m ≠ 0 then some (str "__overlay__/" ++ rel) else olay) := by
  have hov : str "/__overlay__/" = 47 :: str "__overlay__/" := by decide
  have hovl : (str "/__overlay__/").length = 13 := by decide
  have e1 : sym.val.drop 1 = frag ++ 47 :: (str "__overlay__/" ++ rel ++ [0]) := by
    rw [hval, hov]; simp
  have hk : strchr (sym.val.drop 1) 47 = some frag.length := by
    rw [e1]; exact strchr_append frag _ 47 hfrag
  have e2 : sym.val.drop (1 + frag.length) = str "/__overlay__/" ++ (rel ++ [0]) := by
    rw [hval]
    have : [47] ++ frag ++ str "/__overlay__/" ++ rel ++ [0]
        = ([47] ++ frag) ++ (str "/__overlay__/" ++ (rel ++ [0])) := by simp
    rw [this]
    have hl : 1 + frag.length = ([47] ++ frag).length := by simp; omega
    rw [hl, List.drop_left]
  have e3 : (sym.val.drop 1).take frag.length = frag := by
    rw [e1, List.take_left]
  have c1 : (sym.val.drop (1 + frag.length)).length > 13 ∧
      (sym.val.drop (1 + frag.length)).take 13 = str "/__overlay__/" := by
    rw [e2]
    refine ⟨by simp [hovl], ?_⟩
    rw [← hovl, List.take_left]
  have e4 : ((sym.val.drop (1 + frag.length)).drop 13).dropLast = rel := by
    rw [e2, ← hovl, List.drop_left]
    simp
  have e5 : ((sym.val.drop (1 + frag.length)).drop 1).dropLast = str "__overlay__/" ++ rel := by
    rw [e2, hov]
    simp [List.dropLast_append_of_ne_nil]
  have hlen : ¬ sym.val.length < 1 := by rw [hval]; simp
  have hmem : memchr sym.val 0 sym.val.length = some (sym.val.length - 1) := by
    have hsplit : sym.val = ([47] ++ frag ++ str "/__overlay__/" ++ rel) ++ 0 :: [] := by
      rw [hval]
    have hnz : ∀ x ∈ [47] ++ frag ++ str "/__overlay__/" ++ rel, x ≠ 0 := by
      intro x hx
      simp only [List.mem_append, List.mem_singleton] at hx
      rcases hx with ((hx | hx) | hx) | hx
      · omega
      · exact (hfrag x hx).2
      · intro h0
        subst h0
        revert hx
        decide
      · exact hrel x hx
    have := memchr_append _ [] 0 hnz sym.val.length (by rw [hsplit]; simp)
    rw [← hsplit] at this
    rw [this]
    congr 1
    rw [hsplit]
    simp
    omega
  have hhead : sym.val.head? = some 47 := by rw [hval]; simp
  unfold overlay_symbol_step
  simp only [hsym, hlen, hmem, hhead, hk, e3, c1, e4, e5, and_self, if_true, ne_eq,
    not_true_eq_false, if_false, false_or]

/-- A symbol of the form `/<frag>/__overlay__`: the round of the loop is
`overlay_symbol_write` with an empty relative path, and with the
`rel_path_olay` that an earlier round left. -/
theorem overlay_symbol_step_exact (fdt fdto : Fdt) (ov_sym root_sym : Offset) (m prop : Nat)
    (sym : Property) (frag : Bytes) (olay : Option Bytes)
    (hsym : fdt_getprop_by_offset fdto ov_sym prop = .ok sym)
    (hval : sym.val = [47] ++ frag ++ str "/__overlay__" ++ [0])
    (hfrag : ∀ b ∈ frag, b ≠ 47 ∧ b ≠ 0) :
    overlay_symbol_step fdt fdto ov_sym root_sym m prop olay
      = overlay_symbol_write fdt fdto root_sym m sym.name frag [] olay := by
  have hov : str "/__overlay__" = 47 :: str "__overlay__" := by decide
  have hovl : (str "/__overlay__").length = 12 := by decide
  have e1 : sym.val.drop 1 = frag ++ 47 :: (str "__overlay__" ++ [0]) := by
    rw [hval, hov]; simp
  have hk : strchr (sym.val.drop 1) 47 = some frag.length := by
    rw [e1]; exact strchr_append frag _ 47 hfrag
  have e2 : sym.val.drop (1 + frag.length) = str "/__overlay__" ++ [0] := by
    rw [hval]
    have : [47] ++ frag ++ str "/__overlay__" ++ [0]
        = ([47] ++ frag) ++ (str "/__overlay__" ++ [0]) := by simp
    rw [this]
    have hl : 1 + frag.length = ([47] ++ frag).length := by simp; omega
    rw [hl, List.drop_left]
  have e3 : (sym.val.drop 1).take frag.length = frag := by
    rw [e1, List.take_left]
  have c1 : ¬ ((sym.val.drop (1 + frag.length)).length > 13 ∧
      (sym.val.drop (1 + frag.length)).take 13 = str "/__overlay__/") := by
    rw [e2]
    simp [hovl]
  have c2 : (sym.val.drop (1 + frag.length)).length = 13 ∧
      (sym.val.drop (1 + frag.length)).take 12 = str "/__overlay__" := by
    rw [e2]
    refine ⟨by simp [hovl], ?_⟩
    rw [← hovl, List.take_left]
  have hlen : ¬ sym.val.length < 1 := by rw [hval]; simp
  have hmem : memchr sym.val 0 sym.val.length = some (sym.val.length - 1) := by
    have hsplit : sym.val = ([47] ++ frag ++ str "/__overlay__") ++ 0 :: [] := by
      rw [hval]
    have hnz : ∀ x ∈ [47] ++ frag ++ str "/__overlay__", x ≠ 0 := by
      intro x hx
      simp only [List.mem_append, List.mem_singleton] at hx
      rcases hx with (hx | hx) | hx
      · omega
      · exact (hfrag x hx).2
      · intro h0
        subst h0
        revert hx
        decide
    have := memchr_append _ [] 0 hnz sym.val.length (by rw [hsplit]; simp)
    rw [← hsplit] at this
    rw [this]
    congr 1
    rw [hsplit]
    simp
    omega
  have hhead : sym.val.head? = some 47 := by rw [hval]; simp
  unfold overlay_symbol_step
  simp only [hsym, hlen, hmem, hhead, hk, e3, c1, c2, and_self, if_true, ne_eq,
    not_true_eq_false, if_false, false_or]
  rw [if_neg (fun h => by have := h.1; omega)]

/-- In merge mode (`merge_olay_max_phdl` non-zero) a round of the loop of
`overlay_symbol_update` writes the label with the value
`P ++ "/" ++ rel' ++ NUL`, `P` being the path of the target, and what it does
is the following.  For a symbol `/<frag>/__overlay__/<rel>` it does not depend
on the `rel_path_olay` that earlier symbols left: `rel'` is `<rel>` when the
target phandle of the fragment is below `merge_olay_max_phdl` and
`__overlay__/<rel>` otherwise, and `__overlay__/<rel>` is handed on as
`rel_path_olay`.  For a symbol that is exactly `/<frag>/__overlay__`, `rel'`
is empty when no earlier symbol left a `rel_path_olay` or when the target
phandle of the fragment is below `merge_olay_max_phdl`; otherwise `rel'` is
the `rel_path_olay` that an earlier symbol left. -/
theorem overlay_symbol_step_merge (fdt fdto : Fdt) (ov_sym root_sym fragment : Offset)
    (m prop : Nat) (sym : Property) (frag : Bytes) (hm : m ≠ 0)
    (hsym : fdt_getprop_by_offset fdto ov_sym prop = .ok sym)
    (hfrag : ∀ b ∈ frag, b ≠ 47 ∧ b ≠ 0)
    (hf : fdt_subnode_offset fdto [] frag = .ok fragment) :
    (∀ rel olay, sym.val = [47] ++ frag ++ str "/__overlay__/" ++ rel ++ [0] →
      (∀ b ∈ rel, b ≠ 0) →
      overlay_symbol_step fdt fdto ov_sym root_sym m prop olay
        = (overlay_symbol_write fdt fdto root_sym 0 sym.name frag
            (if overlay_get_target_phandle fdto fragment < m then rel
              else str "__overlay__/" ++ rel) none).set_olay
            (some (str "__overlay__/" ++ rel))) ∧
    (sym.val = [47] ++ frag ++ str "/__overlay__" ++ [0] →
      overlay_symbol_step fdt fdto ov_sym root_sym m prop none
        = overlay_symbol_write fdt fdto root_sym 0 sym.name frag [] none ∧
      (∀ o, overlay_get_target_phandle fdto fragment < m →
        overlay_symbol_step fdt fdto ov_sym root_sym m prop (some o)
          = (overlay_symbol_write fdt fdto root_sym 0 sym.name frag [] none).set_olay
              (some o)) ∧
      (∀ o, ¬ overlay_get_target_phandle fdto fragment < m →
        overlay_symbol_step fdt fdto ov_sym root_sym m prop (some o)
          = (overlay_symbol_write fdt fdto root_sym 0 sym.name frag o none).set_olay
              (some o))) ∧
    (∀ rel fdt1 olay1, sym.name ≠ str "phandle" → sym.name ≠ str "linux,phandle" →
      overlay_symbol_write fdt fdto root_sym 0 sym.name frag rel none = .next fdt1 olay1 →
      ∃ P, fdt_getprop fdt1 root_sym sym.name = .ok (P ++ [47] ++ rel ++ [0])) := by
  refine ⟨fun rel olay hval hrel => ?_, fun hval => ⟨?_, fun o hlt => ?_, fun o hge => ?_⟩,
    fun rel fdt1 olay1 h1 h2 hw => ?_⟩
  · rw [overlay_symbol_step_long fdt fdto ov_sym root_sym m prop sym frag rel olay hsym hval
      hfrag hrel, if_pos hm,
      overlay_symbol_write_some_olay fdt fdto root_sym m sym.name frag rel _ fragment hf]
  · rw [overlay_symbol_step_exact fdt fdto ov_sym root_sym m prop sym frag none hsym hval hfrag,
      overlay_symbol_write_no_olay]
  · rw [overlay_symbol_step_exact fdt fdto ov_sym root_sym m prop sym frag _ hsym hval hfrag,
      overlay_symbol_write_some_olay fdt fdto root_sym m sym.name frag [] o fragment hf,
      if_pos hlt]
  · rw [overlay_symbol_step_exact fdt fdto ov_sym root_sym m prop sym frag _ hsym hval hfrag,
      overlay_symbol_write_some_olay fdt fdto root_sym m sym.name frag [] o fragment hf,
      if_neg hge]
  · obtain ⟨_, _, P, _, _, hg, _⟩ :=
      overlay_symbol_write_value fdt fdto fdt1 root_sym sym.name frag rel olay1 h1 h2 hw
    exact ⟨P, hg⟩

/-- An instance of `overlay_symbol_step_merge`: the symbol `b` of
`overlay_symbols_a_b` is exactly
`/fragment@0/__overlay__` and the target phandle 5 of its fragment is not below
the first free phandle 1. -/
theorem overlay_symbol_step_merge_witness :
    fdt_getprop_by_offset overlay_symbols_a_b [1] 1
      = .ok { name := str "b", val := zstr "/fragment@0/__overlay__" } ∧
    (∀ b ∈ str "fragment@0", b ≠ 47 ∧ b ≠ 0) ∧
    fdt_subnode_offset overlay_symbols_a_b [] (str "fragment@0") = .ok [0] ∧
    ((∀ rel olay,
        zstr "/fragment@0/__overlay__"
          = [47] ++ str "fragment@0" ++ str "/__overlay__/" ++ rel ++ [0] →
        (∀ b ∈ rel, b ≠ 0) →
        overlay_symbol_step base_tgt overlay_symbols_a_b [1] [1] 1 1 olay
          = (overlay_symbol_write base_tgt overlay_symbols_a_b [1] 0 (str "b")
              (str "fragment@0")
              (if overlay_get_target_phandle overlay_symbols_a_b [0] < 1 then rel
                else str "__overlay__/" ++ rel) none).set_olay
              (some (str "__overlay__/" ++ rel))) ∧
      (zstr "/fragment@0/__overlay__"
          = [47] ++ str "fragment@0" ++ str "/__overlay__" ++ [0] →
        overlay_symbol_step base_tgt overlay_symbols_a_b [1] [1] 1 1 none
          = overlay_symbol_write base_tgt overlay_symbols_a_b [1] 0 (str "b")
              (str "fragment@0") [] none ∧
        (∀ o, overlay_get_target_phandle overlay_symbols_a_b [0] < 1 →
          overlay_symbol_step base_tgt overlay_symbols_a_b [1] [1] 1 1 (some o)
            = (overlay_symbol_write base_tgt overlay_symbols_a_b [1] 0 (str "b")
                (str "fragment@0") [] none).set_olay (some o)) ∧
        (∀ o, ¬ overlay_get_target_phandle overlay_symbols_a_b [0] < 1 →
          overlay_symbol_step base_tgt overlay_symbols_a_b [1] [1] 1 1 (some o)
            = (overlay_symbol_write base_tgt overlay_symbols_a_b [1] 0 (str "b")
                (str "fragment@0") o none).set_olay (some o))) ∧
      (∀ rel fdt1 olay1, str "b" ≠ str "phandle" → str "b" ≠ str "linux,phandle" →
        overlay_symbol_write base_tgt overlay_symbols_a_b [1] 0 (str "b") (str "fragment@0")
          rel none = .next fdt1 olay1 →
        ∃ P, fdt_getprop fdt1 [1] (str "b") = .ok (P ++ [47] ++ rel ++ [0]))) :=
  ⟨rfl, by decide, rfl,
    overlay_symbol_step_merge base_tgt overlay_symbols_a_b [1] [1] [0] 1 1
      { name := str "b", val := zstr "/fragment@0/__overlay__" } (str "fragment@0")
      (by decide) rfl (by decide) rfl⟩

/-- C28 (code defect): the variable `rel_path_olay` of
`overlay_symbol_update` is set for a symbol `/<frag>/__overlay__/<rel>` and
never reset, so that a later symbol that is exactly `/<frag>/__overlay__`
inherits it.  The overlays `overlay_symbols_a_b` and `overlay_symbols_b` have
the same fragment and the same symbol `b`, which is
exactly `/fragment@0/__overlay__`; the first lists the symbol `a` before it.
In merge mode, with 1 as the first free phandle, `overlay_symbol_update`
writes `/tgt/__overlay__/x` for `b` from the first, the relative path being
that of the symbol `a`, and `/tgt/` from the second. -/
theorem overlay_symbol_step_merge_counter :
    overlay_symbols_a_b.root.subnodes[0]? = overlay_symbols_b.root.subnodes[0]? ∧
    peek_prop overlay_symbols_a_b [1] (str "b") = zstr "/fragment@0/__overlay__" ∧
    peek_prop overlay_symbols_b [1] (str "b") = zstr "/fragment@0/__overlay__" ∧
    peek_prop overlay_symbols_a_b [1] (str "a") = zstr "/fragment@0/__overlay__/x" ∧
    (overlay_symbol_update 3 base_tgt overlay_symbols_a_b 1).map
        (fun r => r.toOption.map (fun f => peek_prop f [1] (str "b")))
      = some (some (zstr "/tgt/__overlay__/x")) ∧
    (overlay_symbol_update 3 base_tgt overlay_symbols_b 1).map
        (fun r => r.toOption.map (fun f => peek_prop f [1] (str "b")))
      = some (some (zstr "/tgt/")) :=
  ⟨rfl, by decide, by decide, by decide, by decide, by decide⟩

/-! ### Labels that the base does not define, in merge mode -/

/-- The property writes of `add_to_fixups`, on a node of the base that is
known: the string and its NUL are put after the value the property holds. -/
theorem add_to_fixups_tail (f fdt1 : Fdt) (off : Offset) (c : Node) (v label : Bytes)
    (hn : f.root.node_at off = some c)
    (h : (match fdt_getprop f off label with
      | .ok old =>
        match fdt_setprop_placeholder f off label (v.length + 1 + old.length) with
        | .error e => .error (e, f)
        | .ok f1 =>
          .ok (fdt_write_prop f1 off label
            (write_at (peek_prop f1 off label) old.length (v ++ [0])))
      | .error _ =>
        match fdt_setprop_placeholder f off label (v.length + 1) with
        | .error e => .error (e, f)
        | .ok f1 =>
          .ok (fdt_write_prop f1 off label (write_at (peek_prop f1 off label) 0 (v ++ [0]))))
      = (.ok fdt1 : Except (FdtErr × Fdt) Fdt)) :
    fdt1.root.skel = f.root.skel ∧
    fdt_getprop fdt1 off label = .ok ((prop_find c.props label).getD [] ++ v ++ [0]) := by
  have hn0 : f.root.node_at off = some (.mk c.name c.props c.subnodes) := by
    rw [node_mk_eta]; exact hn
  have key : ∀ f1, fdt_setprop_placeholder f off label
        (v.length + 1 + ((prop_find c.props label).getD []).length) = .ok f1 →
      fdt1 = fdt_write_prop f1 off label
        (write_at (peek_prop f1 off label) ((prop_find c.props label).getD []).length
          (v ++ [0])) →
      fdt1.root.skel = f.root.skel ∧
      fdt_getprop fdt1 off label = .ok ((prop_find c.props label).getD [] ++ v ++ [0]) := by
    intro f1 hpl hw
    have hstep := copy_node_props_step f f1 off c.name c.props c.subnodes
      { name := label, val := v ++ [0] } hn0 (by simpa using hpl)
    simp only at hstep
    rw [← hw] at hstep
    constructor
    · rw [hstep]
      exact skel_update_at c _ off f.root hn
    · have hn1 : fdt1.root.node_at off
          = some (.mk c.name (set_or_add c.props label
              ((prop_find c.props label).getD [] ++ (v ++ [0]))) c.subnodes) := by
        rw [hstep]; exact node_at_update_at_same _ off f.root _ hn
      rw [fdt_getprop_eq fdt1 off label _ hn1]
      simp [prop_find_set_or_add]
  rw [fdt_getprop_eq f off label c hn] at h
  cases hp : prop_find c.props label with
  | some old =>
    simp only [hp] at h
    cases hpl : fdt_setprop_placeholder f off label (v.length + 1 + old.length) with
    | error e => simp [hpl] at h
    | ok f1 =>
      simp only [hpl, Except.ok.injEq] at h
      have := key f1 (by simpa [hp] using hpl) (by simpa [hp] using h.symm)
      simpa [hp] using this
  | none =>
    simp only [hp] at h
    cases hpl : fdt_setprop_placeholder f off label (v.length + 1) with
    | error e => simp [hpl] at h
    | ok f1 =>
      simp only [hpl, Except.ok.injEq] at h
      have := key f1 (by simpa [hp] using hpl) (by simpa [hp] using h.symm)
      simpa [hp] using this

/-- After `add_to_fixups` the base has a `/__fixups__` whose property `label`
holds what it held before, followed by the string and its NUL. -/
theorem add_to_fixups_value (fdt fdt1 : Fdt) (v label : Bytes)
    (h : add_to_fixups fdt v label = .ok fdt1) :
    ∃ off old, fdt_subnode_offset fdt1 [] (str "__fixups__") = .ok off ∧
      fdt_getprop fdt1 off label = .ok (old ++ v ++ [0]) ∧
      (∀ o, fdt_subnode_offset fdt [] (str "__fixups__") = .ok o →
        old = peek_prop fdt o label) ∧
      ((∀ o, fdt_subnode_offset fdt [] (str "__fixups__") ≠ .ok o) → old = []) := by
  unfold add_to_fixups at h
  cases hs : fdt_subnode_offset fdt [] (str "__fixups__") with
  | ok off =>
    simp only [hs] at h
    have hs' := hs
    rw [fdt_subnode_offset_eq fdt [] _ fdt.root rfl] at hs'
    cases hi : subnode_index fdt.root.subnodes (str "__fixups__") with
    | none => simp [hi] at hs'
    | some i =>
      simp only [hi, List.nil_append, Except.ok.injEq] at hs'
      subst hs'
      obtain ⟨c, hc, _⟩ := subnode_index_some _ _ _ hi
      have hn : fdt.root.node_at [i] = some c := by simp [Node.node_at, hc]
      obtain ⟨hsk, hg⟩ := add_to_fixups_tail fdt fdt1 [i] c v label hn h
      refine ⟨[i], (prop_find c.props label).getD [], ?_, hg, ?_, ?_⟩
      · rw [fdt_subnode_offset_skel fdt fdt1 hsk.symm, hs]
      · intro o ho
        cases ho
        unfold peek_prop
        rw [fdt_getprop_eq fdt [i] label c hn]
        cases prop_find c.props label <;> rfl
      · intro hno
        exact absurd rfl (hno [i])
  | error e =>
    simp only [hs] at h
    by_cases he : e = .NOTFOUND
    · simp only [he, if_true] at h
      cases ha : fdt_add_subnode fdt [] (str "__fixups__") with
      | error e2 => simp [ha] at h
      | ok r =>
        obtain ⟨f0, nn⟩ := r
        simp only [ha] at h
        have hroot : fdt.root.node_at []
            = some (.mk fdt.root.name fdt.root.props fdt.root.subnodes) := by
          rw [node_mk_eta]; rfl
        obtain ⟨_, hnn, hr0, _⟩ := fdt_add_subnode_refines fdt f0 [] nn _ _ _ _ hroot ha
        subst hnn
        have hn : f0.root.node_at ([] ++ [0]) = some (.mk (str "__fixups__") [] []) := by
          rw [hr0]
          simp [Node.update_at, Node.node_at]
        obtain ⟨hsk, hg⟩ := add_to_fixups_tail f0 fdt1 ([] ++ [0]) _ v label hn h
        refine ⟨[] ++ [0], [], ?_, by simpa [prop_find] using hg, ?_, fun _ => rfl⟩
        · rw [fdt_subnode_offset_skel f0 fdt1 hsk.symm]
          exact fdt_add_subnode_offset fdt f0 _ _ ha
        · intro o ho
          cases ho
    · simp [he] at h

/-- The round of a property of `/__fixups__` whose first fixup string is in
the accepted syntax and whose label the base does not define ends with
`NOTFOUND` and leaves the overlay as it is. -/
theorem overlay_fixup_phandle_undefined (fdt fdto : Fdt) (symbols_off : Except FdtErr Offset)
    (fixups_off : Offset) (property : Nat) (p : Property) (s rest : Bytes)
    (hprop : fdt_getprop_by_offset fdto fixups_off property = .ok p)
    (hval : p.val = s ++ 0 :: rest) (hwf : fixup_string_wf s)
    (hundef : symbols_off = .error .NOTFOUND ∨
      ∃ so, symbols_off = .ok so ∧ fdt_getprop fdt so p.name = .error .NOTFOUND) :
    overlay_fixup_phandle fdt fdto symbols_off property fixups_off
      = .error (.NOTFOUND, fdto) := by
  obtain ⟨P, N, D, hs, h0, hP, hN, hNe, hD⟩ := hwf
  subst hs
  have hone : ∀ po, overlay_fixup_one_phandle fdt fdto symbols_off P N po p.name
      = .error .NOTFOUND := by
    intro po
    rcases hundef with h | ⟨so, h, hg⟩
    · simp [overlay_fixup_one_phandle, h]
    · simp [overlay_fixup_one_phandle, h, hg]
  unfold overlay_fixup_phandle
  simp only [hprop]
  rw [overlay_fixup_strings_round fdt _ fixups_off property p.name p.val.length fdto 0
    p.val.length P N D rest (by rw [peek_prop_by_offset_of _ _ _ _ hprop]; simpa using hval)
    (by rw [hval]; simp) h0 hP hN hNe hD, hone]

/-- The loop of `overlay_fixup_phandles` does not look at the value of `ret`
while a property is left. -/
theorem overlay_fixup_props_ret (fdt : Fdt) (symbols_off : Except FdtErr Offset)
    (fixups_off : Offset) (m n property : Nat) (ret ret1 : Option FdtErr) (fdto : Fdt) :
    overlay_fixup_props fdt symbols_off fixups_off m (n + 1) property ret fdto
      = overlay_fixup_props fdt symbols_off fixups_off m (n + 1) property ret1 fdto := by
  simp only [overlay_fixup_props]

/-- With a label in hand, `fixup_snippet_update` never sets `*ignore` when the
base does not define the label. -/
theorem fixup_snippet_update_some (fdt fdto : Fdt) (snippet : Bytes) (snippet_len buflen : Nat)
    (r : Option Bytes)
    (h : fixup_snippet_update fdt fdto snippet snippet_len buflen false = .ok r) :
    ∃ v, r = some v := by
  have hfin : ∀ (ro : Nat) (hs : Bool) (fl : Nat) (r : Option Bytes),
      fixup_snippet_finish fdt fdto snippet snippet_len buflen ro hs fl = .ok r →
      ∃ v, r = some v := by
    intro ro hs fl r h
    unfold fixup_snippet_finish at h
    simp only at h
    split at h
    · cases h
    · split at h
      · cases h
      · split at h
        · cases h
        · cases h; exact ⟨_, rfl⟩
  unfold fixup_snippet_update at h
  repeat' first
    | exact hfin _ _ _ _ h
    | cases h
    | (simp only [Bool.false_eq_true, false_and, if_false] at h)
    | split at h

theorem memchr_none : ∀ (l : Bytes) (c n : Nat), memchr l c n = none →
    ∀ x ∈ l.take n, x ≠ c
  | [], c, n, _ => by simp
  | x :: xs, c, 0, _ => by simp
  | x :: xs, c, n + 1, h => by
    simp only [memchr] at h
    split at h
    · cases h
    · rename_i hx
      cases hm : memchr xs c n with
      | some k => simp [hm] at h
      | none =>
        intro y hy
        simp only [List.take_succ_cons, List.mem_cons] at hy
        rcases hy with hy | hy
        · subst hy; exact hx
        · exact memchr_none xs c n hm y hy

/-- On a base that has a `/__fixups__`, `add_to_fixups` changes the value of
the property `label` of that node and nothing of the shape of the tree: the
string and its NUL are put after what the property held. -/
theorem add_to_fixups_at (b b1 : Fdt) (off : Offset) (v label : Bytes)
    (hs : fdt_subnode_offset b [] (str "__fixups__") = .ok off)
    (h : add_to_fixups b v label = .ok b1) :
    b1.root.skel = b.root.skel ∧
    peek_prop b1 off label = peek_prop b off label ++ v ++ [0] := by
  unfold add_to_fixups at h
  simp only [hs] at h
  have hs1 := hs
  rw [fdt_subnode_offset_eq b [] _ b.root rfl] at hs1
  cases hi : subnode_index b.root.subnodes (str "__fixups__") with
  | none => simp [hi] at hs1
  | some i =>
    simp only [hi, List.nil_append, Except.ok.injEq] at hs1
    subst hs1
    obtain ⟨c, hc, _⟩ := subnode_index_some _ _ _ hi
    have hn : b.root.node_at [i] = some c := by simp [Node.node_at, hc]
    obtain ⟨hsk, hg⟩ := add_to_fixups_tail b b1 [i] c v label hn h
    refine ⟨hsk, ?_⟩
    unfold peek_prop
    rw [hg, fdt_getprop_eq b [i] label c hn]
    cases prop_find c.props label <;> rfl

/-- The round of `overlay_fixups_update` for a label that the base does not
define: every fixup string of the property, up to the last NUL among its
`prop_len` bytes, is rewritten by `fixup_snippet_update` and put with its NUL
after what the property `label` of the base's `/__fixups__` holds; nothing
else of the base changes shape. -/
theorem overlay_fixups_snippets_appends (fdto : Fdt) (label : Bytes) (off : Offset) :
    ∀ (rounds : Nat) (pv : Bytes) (pl : Nat) (b : Fdt) (r : FixupsStep),
      fdt_subnode_offset b [] (str "__fixups__") = .ok off →
      overlay_fixups_snippets fdto label false rounds pv pl b = .ok r →
      r.stop = false ∧ r.fdt.root.skel = b.root.skel ∧
      ∃ ents : List Bytes,
        peek_prop r.fdt off label = peek_prop b off label ++ (ents.map (· ++ [0])).flatten ∧
        ents.length = (pv.take pl).count 0 ∧
        ∀ e ∈ ents, ∃ b1 snippet len,
          b1.root.skel = b.root.skel ∧
          fixup_snippet_update b1 fdto snippet len MAX_BUF_SIZE false = .ok (some e)
  | 0, pv, pl, b, r, _, h => by simp [overlay_fixups_snippets] at h
  | rounds + 1, pv, pl, b, r, hs, h => by
    simp only [overlay_fixups_snippets] at h
    split at h
    · rename_i h0
      cases h
      exact ⟨rfl, rfl, [], by simp, by simp [h0], by simp⟩
    · cases hm : memchr pv 0 pl with
      | none =>
        simp only [hm] at h
        cases h
        refine ⟨rfl, rfl, [], by simp, ?_, by simp⟩
        have := memchr_none pv 0 pl hm
        simp only [List.length_nil]
        exact (List.count_eq_zero.mpr (fun hx => this 0 hx rfl)).symm
      | some k =>
        simp only [hm] at h
        obtain ⟨hk, rest, hpv, hlen, hno⟩ := memchr_some pv 0 pl k hm
        have hdrop : pv.drop (k + 1) = rest := by
          conv_lhs => rw [hpv]
          rw [show pv.take k ++ 0 :: rest = (pv.take k ++ [0]) ++ rest by simp,
            show k + 1 = (pv.take k ++ [0]).length by simp [hlen], List.drop_left]
        have hcount : (pv.take pl).count 0
            = 1 + ((pv.drop (k + 1)).take (pl - (k + 1))).count 0 := by
          rw [hdrop]
          conv_lhs => rw [hpv]
          rw [List.take_append_eq_append_take, hlen, List.take_of_length_le (by rw [hlen]; omega),
            show pl - k = (pl - (k + 1)) + 1 by omega, List.take_succ_cons, List.count_append,
            List.count_cons_self, List.count_eq_zero.mpr (fun hx => hno 0 hx rfl)]
          omega
        cases hu : fixup_snippet_update b fdto (pv.take (k + 1)) (k + 1) MAX_BUF_SIZE false with
        | error e => simp [hu] at h
        | ok ov =>
          obtain ⟨nv, hnv⟩ := fixup_snippet_update_some _ _ _ _ _ _ hu
          subst hnv
          simp only [hu, Bool.false_eq_true, if_false] at h
          cases ha : add_to_fixups b nv label with
          | error e => simp [ha] at h
          | ok b1 =>
            simp only [ha] at h
            obtain ⟨hsk, hp⟩ := add_to_fixups_at b b1 off nv label hs ha
            have hs1 : fdt_subnode_offset b1 [] (str "__fixups__") = .ok off := by
              rw [fdt_subnode_offset_skel b b1 hsk.symm, hs]
            obtain ⟨hstop, hsk2, ents, hval, hl, hall⟩ :=
              overlay_fixups_snippets_appends fdto label off rounds _ _ b1 r hs1 h
            refine ⟨hstop, hsk2.trans hsk, nv :: ents, ?_, ?_, ?_⟩
            · rw [hval, hp]
              simp
            · rw [hcount, List.length_cons, hl]
              omega
            · intro e he
              rcases List.mem_cons.1 he with he | he
              · subst he
                exact ⟨b, _, _, rfl, hu⟩
              · obtain ⟨b2, sn, ln, h1, h2⟩ := hall e he
                exact ⟨b2, sn, ln, h1.trans hsk, h2⟩

/-- The function `find_add_subnode` at the root leaves a base that has the
subnode, at the offset it returns. -/
theorem find_add_subnode_offset (fdt : Fdt) (name : Bytes) (a : Fdt × Offset)
    (h : find_add_subnode fdt [] name = .ok a) :
    fdt_subnode_offset a.1 [] name = .ok a.2 := by
  unfold find_add_subnode at h
  cases hs : fdt_subnode_offset fdt [] name with
  | ok off =>
    simp only [hs, Except.ok.injEq] at h
    subst h
    exact hs
  | error e =>
    simp only [hs] at h
    obtain ⟨f1, nn⟩ := a
    exact fdt_add_subnode_offset fdt f1 nn name h

/-- C26 (as amended): a property of the overlay's `/__fixups__` whose first
fixup string is in the accepted syntax and whose label the base does not
define (the base has no `/__symbols__`, or that node has no property of that
name).  Its round in `overlay_fixup_phandles` ends with `NOTFOUND` and leaves
the overlay as it is.  With a non-zero `merge_olay_max_phdl`, which is what
`fdt_overlay_merge` passes when the largest phandles of the two blobs add up to
less than `0xFFFFFFFF`, the loop goes on: the properties that follow get their
rounds as if this one were not listed, and when it is the last one the pass
returns `NOTFOUND`; `fdt_overlay_merge` goes on with `overlay_merge` after a
pass that returned 0 or `NOTFOUND`.  With `merge_olay_max_phdl` 0, the mode of
`fdt_overlay_apply`, the loop returns `NOTFOUND` at this property and
`fdt_overlay_apply` fails with it.  `overlay_fixups_update` makes sure the
base has a `/__fixups__` and goes through the properties of the overlay's; the
round of a property whose label the base's `/__symbols__` does not define at
that moment rewrites each of its fixup strings with `fixup_snippet_update` and
puts it, with its NUL, after what the property of that label in the base's
`/__fixups__` holds, and the loop goes on with the next property; when the
base defines the label by then, the round is that of `add_to_local_fixups`. -/
theorem overlay_fixup_props_tolerates (fdt fdto : Fdt) (fixups_off : Offset) (property : Nat)
    (p : Property) (s rest : Bytes)
    (hprop : fdt_getprop_by_offset fdto fixups_off property = .ok p)
    (hval : p.val = s ++ 0 :: rest) (hwf : fixup_string_wf s)
    (hundef : fdt_path_offset fdt (str "/__symbols__") = .error .NOTFOUND ∨
      ∃ so, fdt_path_offset fdt (str "/__symbols__") = .ok so ∧
        fdt_getprop fdt so p.name = .error .NOTFOUND) :
    overlay_fixup_phandle fdt fdto (fdt_path_offset fdt (str "/__symbols__")) property
        fixups_off = .error (.NOTFOUND, fdto) ∧
    (∀ m fixups, fdt_path_offset fdto (str "/__fixups__") = .ok fixups_off →
      fdto.root.node_at fixups_off = some fixups →
      overlay_fixup_phandles fdt fdto m
        = overlay_fixup_props fdt (fdt_path_offset fdt (str "/__symbols__")) fixups_off m
            fixups.props.length 0 none fdto) ∧
    (∀ m n ret, m ≠ 0 →
      overlay_fixup_props fdt (fdt_path_offset fdt (str "/__symbols__")) fixups_off m (n + 2)
          property ret fdto
        = overlay_fixup_props fdt (fdt_path_offset fdt (str "/__symbols__")) fixups_off m
            (n + 1) (property + 1) none fdto ∧
      overlay_fixup_props fdt (fdt_path_offset fdt (str "/__symbols__")) fixups_off m 1
          property ret fdto = .error (.NOTFOUND, fdto)) ∧
    (∀ n ret,
      overlay_fixup_props fdt (fdt_path_offset fdt (str "/__symbols__")) fixups_off 0 (n + 1)
          property ret fdto = .error (.NOTFOUND, fdto)) ∧
    (∀ rounds o, fdt_get_max_phandle fdt + fdt_get_max_phandle o < UINT32_MAX →
      (fdt_get_max_phandle fdt + fdt_get_max_phandle o + 1) % 2 ^ 32 ≠ 0 ∧
      fdt_overlay_merge rounds fdt o
        = fdt_overlay_merge_passes rounds fdt o (fdt_get_max_phandle fdt)
            ((fdt_get_max_phandle fdt + fdt_get_max_phandle o + 1) % 2 ^ 32)) ∧
    (∀ rounds delta m o o1 o2 f, overlay_adjust_local_phandles o delta = .ok o1 →
      overlay_update_local_references o1 delta = .ok o2 →
      (overlay_fixup_phandles fdt o2 m = .ok f ∨
        overlay_fixup_phandles fdt o2 m = .error (.NOTFOUND, f)) →
      fdt_overlay_merge_passes rounds fdt o delta m = fdt_overlay_merge_tail rounds fdt f m) ∧
    (∀ rounds o o1 o2 f, fdt_ro_probe fdt = .ok () → fdt_ro_probe o = .ok () →
      overlay_adjust_local_phandles o (fdt.root.max_phandle 0) = .ok o1 →
      overlay_update_local_references o1 (fdt.root.max_phandle 0) = .ok o2 →
      overlay_fixup_phandles fdt o2 0 = .error (.NOTFOUND, f) →
      fdt_overlay_apply rounds fdt o = some (apply_err .NOTFOUND fdt f)) ∧
    (∀ (base ovl : Fdt) (ov_fixup : Offset) (fixups : Node),
      fdt_subnode_offset ovl [] (str "__fixups__") = .ok ov_fixup →
      ovl.root.node_at ov_fixup = some fixups →
      (∀ e, find_add_subnode base [] (str "__fixups__") = .error e →
        overlay_fixups_update base ovl = .error (e, base)) ∧
      ∀ a, find_add_subnode base [] (str "__fixups__") = .ok a →
        overlay_fixups_update base ovl = overlay_fixups_props ovl fixups.props a.1 ∧
        fdt_subnode_offset a.1 [] (str "__fixups__") = .ok a.2) ∧
    (∀ (base ovl : Fdt) (off : Offset) (ps : List Property),
      fdt_subnode_offset base [] (str "__fixups__") = .ok off →
      prop_exists_in_node base (str "/__symbols__") p.name = false →
      (∀ e, overlay_fixups_snippets ovl p.name false (p.val.length + 1) p.val p.val.length base
          = .error e → overlay_fixups_props ovl (p :: ps) base = .error e) ∧
      ∀ r, overlay_fixups_snippets ovl p.name false (p.val.length + 1) p.val p.val.length base
          = .ok r →
        overlay_fixups_props ovl (p :: ps) base = overlay_fixups_props ovl ps r.fdt ∧
        fdt_subnode_offset r.fdt [] (str "__fixups__") = .ok off ∧
        ∃ ents : List Bytes,
          peek_prop r.fdt off p.name
            = peek_prop base off p.name ++ (ents.map (· ++ [0])).flatten ∧
          ents.length = p.val.count 0 ∧
          ∀ e ∈ ents, ∃ b1 snippet len, b1.root.skel = base.root.skel ∧
            fixup_snippet_update b1 ovl snippet len MAX_BUF_SIZE false = .ok (some e)) ∧
    (∀ (base ovl : Fdt) (ps : List Property),
      prop_exists_in_node base (str "/__symbols__") p.name = true →
      (∀ e, overlay_fixups_snippets ovl p.name true (p.val.length + 1) p.val p.val.length base
          = .error e → overlay_fixups_props ovl (p :: ps) base = .error e) ∧
      ∀ r, overlay_fixups_snippets ovl p.name true (p.val.length + 1) p.val p.val.length base
          = .ok r →
        overlay_fixups_props ovl (p :: ps) base
          = if r.stop then .ok r.fdt else overlay_fixups_props ovl ps r.fdt) := by
  have hround := overlay_fixup_phandle_undefined fdt fdto _ fixups_off property p s rest hprop
    hval hwf hundef
  refine ⟨hround, fun m fixups hfix hn => ?_, fun m n ret hm => ⟨?_, ?_⟩, fun n ret => ?_,
    fun rounds o hsum => ⟨?_, ?_⟩,
    fun rounds delta m o o1 o2 f h1 h2 h3 => ?_, fun rounds o o1 o2 f hp hq h1 h2 h3 => ?_,
    fun base ovl ov_fixup fixups hs hn =>
      ⟨fun e he => by simp [overlay_fixups_update, hs, he],
        fun a ha => ⟨by simp [overlay_fixups_update, hs, ha, hn],
          find_add_subnode_offset base _ a ha⟩⟩,
    fun base ovl off ps hs hex => ⟨fun e he => ?_, fun r hr => ?_⟩,
    fun base ovl ps hex => ?_⟩
  · unfold overlay_fixup_phandles
    simp only [hfix, hn]
    rcases hundef with h | ⟨so, h, _⟩ <;> simp [h]
  · rw [show n + 2 = (n + 1) + 1 from rfl]
    conv_lhs => rw [overlay_fixup_props]
    simp only [hround, hm, false_or, ne_eq, not_true_eq_false, if_false]
    exact overlay_fixup_props_ret _ _ _ _ _ _ _ _ _
  · simp [overlay_fixup_props, hround, hm]
  · simp [overlay_fixup_props, hround]
  · have h1 := fdt_get_max_phandle_lt fdt
    have h2 := fdt_get_max_phandle_lt o
    simp only [UINT32_MAX] at hsum
    omega
  · have hc : ¬ UINT32_MAX - fdt_get_max_phandle fdt < fdt_get_max_phandle o := by
      simp only [UINT32_MAX] at hsum ⊢
      omega
    simp only [fdt_overlay_merge, hc, if_false]
  · rcases h3 with h3 | h3 <;> simp [fdt_overlay_merge_passes, h1, h2, h3]
  · exact fdt_overlay_apply_of_fixups_error rounds fdt o o1 o2 f .NOTFOUND hp hq h1 h2 h3
  · simp [overlay_fixups_props, hex, he]
  · obtain ⟨hstop, hsk, ents, hv, hl, hall⟩ :=
      overlay_fixups_snippets_appends ovl p.name off _ _ _ base r hs hr
    refine ⟨by simp [overlay_fixups_props, hex, hr, hstop], ?_, ents, hv, ?_, hall⟩
    · rw [fdt_subnode_offset_skel base r.fdt hsk.symm, hs]
    · rw [hl, List.take_length]
  · exact ⟨fun e he => by simp [overlay_fixups_props, hex, he],
      fun r hr => by simp [overlay_fixups_props, hex, hr]⟩

/-- C26, witness: the base `base_m_n` defines the label `L2` and not the label
`L1`, which the `/__fixups__` of `overlay_fixups_l1_l2` lists first, with one
fixup string in the accepted syntax.  The merge succeeds: the property `p`
that `L2` fixes holds the phandle 3 of `/m` afterwards, and the base's
`/__fixups__` has the property `L1` with the entry rewritten for the copy
`fragment@1` of the fragment. -/
theorem overlay_fixup_props_tolerates_witness :
    fdt_getprop_by_offset overlay_fixups_l1_l2 [1] 0 = .ok fixups_prop_l1 ∧
    fixups_prop_l1.val = str "/fragment@0:target:0" ++ 0 :: [] ∧
    fixup_string_wf (str "/fragment@0:target:0") ∧
    (fdt_path_offset base_m_n (str "/__symbols__") = .error .NOTFOUND ∨
      ∃ so, fdt_path_offset base_m_n (str "/__symbols__") = .ok so ∧
        fdt_getprop base_m_n so fixups_prop_l1.name = .error .NOTFOUND) ∧
    (fdt_overlay_merge 2 base_m_n overlay_fixups_l1_l2).map
        (fun o => (o.ret, peek_prop o.fdto [0, 0] (str "p"),
          (fdt_get_name o.fdt [1]).toOption, peek_prop o.fdt [1] (str "L1")))
      = some (none, [0, 0, 0, 3], some (str "__fixups__"), zstr "/fragment@1:target:0") ∧
    (overlay_fixup_phandle base_m_n overlay_fixups_l1_l2
        (fdt_path_offset base_m_n (str "/__symbols__")) 0 [1]
      = .error (.NOTFOUND, overlay_fixups_l1_l2) ∧
    (∀ m fixups, fdt_path_offset overlay_fixups_l1_l2 (str "/__fixups__") = .ok [1] →
      overlay_fixups_l1_l2.root.node_at [1] = some fixups →
      overlay_fixup_phandles base_m_n overlay_fixups_l1_l2 m
        = overlay_fixup_props base_m_n (fdt_path_offset base_m_n (str "/__symbols__")) [1] m
            fixups.props.length 0 none overlay_fixups_l1_l2) ∧
    (∀ m n ret, m ≠ 0 →
      overlay_fixup_props base_m_n (fdt_path_offset base_m_n (str "/__symbols__")) [1] m (n + 2)
          0 ret overlay_fixups_l1_l2
        = overlay_fixup_props base_m_n (fdt_path_offset base_m_n (str "/__symbols__")) [1] m
            (n + 1) (0 + 1) none overlay_fixups_l1_l2 ∧
      overlay_fixup_props base_m_n (fdt_path_offset base_m_n (str "/__symbols__")) [1] m 1
          0 ret overlay_fixups_l1_l2 = .error (.NOTFOUND, overlay_fixups_l1_l2)) ∧
    (∀ n ret,
      overlay_fixup_props base_m_n (fdt_path_offset base_m_n (str "/__symbols__")) [1] 0 (n + 1)
          0 ret overlay_fixups_l1_l2 = .error (.NOTFOUND, overlay_fixups_l1_l2)) ∧
    (∀ rounds o, fdt_get_max_phandle base_m_n + fdt_get_max_phandle o < UINT32_MAX →
      (fdt_get_max_phandle base_m_n + fdt_get_max_phandle o + 1) % 2 ^ 32 ≠ 0 ∧
      fdt_overlay_merge rounds base_m_n o
        = fdt_overlay_merge_passes rounds base_m_n o (fdt_get_max_phandle base_m_n)
            ((fdt_get_max_phandle base_m_n + fdt_get_max_phandle o + 1) % 2 ^ 32)) ∧
    (∀ rounds delta m o o1 o2 f, overlay_adjust_local_phandles o delta = .ok o1 →
      overlay_update_local_references o1 delta = .ok o2 →
      (overlay_fixup_phandles base_m_n o2 m = .ok f ∨
        overlay_fixup_phandles base_m_n o2 m = .error (.NOTFOUND, f)) →
      fdt_overlay_merge_passes rounds base_m_n o delta m
        = fdt_overlay_merge_tail rounds base_m_n f m) ∧
    (∀ rounds o o1 o2 f, fdt_ro_probe base_m_n = .ok () → fdt_ro_probe o = .ok () →
      overlay_adjust_local_phandles o (base_m_n.root.max_phandle 0) = .ok o1 →
      overlay_update_local_references o1 (base_m_n.root.max_phandle 0) = .ok o2 →
      overlay_fixup_phandles base_m_n o2 0 = .error (.NOTFOUND, f) →
      fdt_overlay_apply rounds base_m_n o = some (apply_err .NOTFOUND base_m_n f)) ∧
    (∀ (base ovl : Fdt) (ov_fixup : Offset) (fixups : Node),
      fdt_subnode_offset ovl [] (str "__fixups__") = .ok ov_fixup →
      ovl.root.node_at ov_fixup = some fixups →
      (∀ e, find_add_subnode base [] (str "__fixups__") = .error e →
        overlay_fixups_update base ovl = .error (e, base)) ∧
      ∀ a, find_add_subnode base [] (str "__fixups__") = .ok a →
        overlay_fixups_update base ovl = overlay_fixups_props ovl fixups.props a.1 ∧
        fdt_subnode_offset a.1 [] (str "__fixups__") = .ok a.2) ∧
    (∀ (base ovl : Fdt) (off : Offset) (ps : List Property),
      fdt_subnode_offset base [] (str "__fixups__") = .ok off →
      prop_exists_in_node base (str "/__symbols__") fixups_prop_l1.name = false →
      (∀ e, overlay_fixups_snippets ovl fixups_prop_l1.name false
            (fixups_prop_l1.val.length + 1) fixups_prop_l1.val fixups_prop_l1.val.length base
          = .error e → overlay_fixups_props ovl (fixups_prop_l1 :: ps) base = .error e) ∧
      ∀ r, overlay_fixups_snippets ovl fixups_prop_l1.name false
            (fixups_prop_l1.val.length + 1) fixups_prop_l1.val fixups_prop_l1.val.length base
          = .ok r →
        overlay_fixups_props ovl (fixups_prop_l1 :: ps) base
          = overlay_fixups_props ovl ps r.fdt ∧
        fdt_subnode_offset r.fdt [] (str "__fixups__") = .ok off ∧
        ∃ ents : List Bytes,
          peek_prop r.fdt off fixups_prop_l1.name
            = peek_prop base off fixups_prop_l1.name ++ (ents.map (· ++ [0])).flatten ∧
          ents.length = fixups_prop_l1.val.count 0 ∧
          ∀ e ∈ ents, ∃ b1 snippet len, b1.root.skel = base.root.skel ∧
            fixup_snippet_update b1 ovl snippet len MAX_BUF_SIZE false = .ok (some e)) ∧
    (∀ (base ovl : Fdt) (ps : List Property),
      prop_exists_in_node base (str "/__symbols__") fixups_prop_l1.name = true →
      (∀ e, overlay_fixups_snippets ovl fixups_prop_l1.name true
            (fixups_prop_l1.val.length + 1) fixups_prop_l1.val fixups_prop_l1.val.length base
          = .error e → overlay_fixups_props ovl (fixups_prop_l1 :: ps) base = .error e) ∧
      ∀ r, overlay_fixups_snippets ovl fixups_prop_l1.name true
            (fixups_prop_l1.val.length + 1) fixups_prop_l1.val fixups_prop_l1.val.length base
          = .ok r →
        overlay_fixups_props ovl (fixups_prop_l1 :: ps) base
          = if r.stop then .ok r.fdt else overlay_fixups_props ovl ps r.fdt)) :=
  ⟨rfl, rfl,
    ⟨str "/fragment@0", str "target", str "0", rfl, by decide, by decide, by decide, by decide,
      [], [], str "0", rfl, by decide, Or.inl rfl, by decide, by decide⟩,
    Or.inr ⟨[2], rfl, rfl⟩, by decide!,
    overlay_fixup_props_tolerates base_m_n overlay_fixups_l1_l2 [1] 0 fixups_prop_l1
      (str "/fragment@0:target:0") [] rfl rfl
      ⟨str "/fragment@0", str "target", str "0", rfl, by decide, by decide, by decide,
        by decide, [], [], str "0", rfl, by decide, Or.inl rfl, by decide, by decide⟩
      (Or.inr ⟨[2], rfl, rfl⟩)⟩

/-- C26, counterexample: the overlay `overlay_fixups_own_l1` lists the label
`L1` in its `/__fixups__` and defines it in its own `/__symbols__`; the base
`base_m_n` does not define it.  The merge succeeds, and the `/__fixups__` of
the base has no property `L1` afterwards: `overlay_symbol_update` has put the
label into the base's `/__symbols__` before `overlay_fixups_update` looks it
up there, and the entry has gone to `/__local_fixups__`. -/
theorem overlay_fixup_props_tolerates_counter :
    prop_exists_in_node base_m_n (str "/__symbols__") (str "L1") = false ∧
    peek_prop overlay_fixups_own_l1 [1] (str "L1") = zstr "/fragment@0/__overlay__:p:0" ∧
    (fdt_overlay_merge 2 base_m_n overlay_fixups_own_l1).map
        (fun o => (o.ret, o.fdt.root.subnodes.map Node.name,
          prop_exists_in_node o.fdt (str "/__fixups__") (str "L1"),
          prop_exists_in_node o.fdt (str "/__symbols__") (str "L1"),
          peek_prop o.fdt [0, 0, 0] (str "p")))
      = some (none,
          [str "__local_fixups__", str "__fixups__", str "fragment@1", str "m", str "n",
            str "__symbols__"],
          false, true, [0, 0, 0, 0]) :=
  ⟨by decide, by decide, by decide!⟩

end FdtOverlay
